import Mathlib

/-!
# GraphLab: round-robin scheduler, asynchronous engine and shared variables

A shallow embedding of
* `graphlab/schedulers/round_robin_scheduler.hpp`,
* `graphlab/engine/asynchronous_engine.hpp`,
* `graphlab/shared_data/glshared.hpp`,
followed by theorems about the embedded code.

Conventions.  `size_t` is a 64-bit unsigned integer: every arithmetic operation
the source performs on a `size_t` is followed here by an explicit `% SIZE_MOD`.
`vertex_id_type` is a 32-bit unsigned integer.  Undefined behaviour of the C++
code (a read outside a vector, a division by zero) is `none`.
-/

namespace graphlab

/-! ## Machine integers -/

/-- Number of values of a `size_t`. -/
def SIZE_MOD : Nat := 2 ^ 64

/-- The value `(size_t)(-1)`. -/
def SIZE_NEG1 : Nat := 2 ^ 64 - 1

/-- Modelled from the spec: `vertex_id_type` is declared in `graph.hpp`, which is
not among the sources; it is a 32-bit unsigned integer, so `vertex_id_type(-1)`,
the sentinel id of a slot that holds no task, is `2^32 - 1`. -/
def VID_MOD : Nat := 2 ^ 32

/-- The value `vertex_id_type(-1)`. -/
def VID_NEG1 : Nat := 2 ^ 32 - 1

/-! ## Round-robin scheduler (`round_robin_scheduler.hpp`) -/

/-- Modelled from the spec: `update_task` (`tasks/update_task.hpp` is not among
the sources) is a pair of a vertex id and an update function pointer; the default
constructed task has the sentinel vertex id `-1` and a NULL function. Function
pointers are numbered, `none` is NULL. -/
structure update_task where
  vertex : Nat
  function : Option Nat
deriving DecidableEq, Repr

/-- The default constructed task: sentinel vertex, NULL function. -/
def update_task.empty : update_task := ⟨VID_NEG1, none⟩

/-- `struct thread_information`: the block a worker currently holds. -/
structure thread_information where
  block_begin : Nat
  numv_remaining_in_block : Nat
deriving DecidableEq, Repr

/-- Modelled from the spec: `controlled_termination` (not among the sources) is a
terminator that reports termination once `complete()` has been called. -/
structure controlled_termination where
  quit : Bool
deriving DecidableEq, Repr

/-- `controlled_termination::complete`. -/
def controlled_termination.complete (_t : controlled_termination) : controlled_termination :=
  ⟨true⟩

/-- `sched_status::status_enum` together with the task written to `ret_task`
when the status is `NEWTASK`. -/
inductive sched_status where
  | NEWTASK (ret_task : update_task)
  | EMPTY
deriving DecidableEq, Repr

/-- Modelled from the spec: the four integer options `set_options` reads from a
`scheduler_options` object (`scheduler_options.hpp` is not among the sources);
`none` means the option was not given, so `get_int_option` returns false and
leaves its target unchanged. -/
structure scheduler_options where
  max_iterations : Option Nat
  start_vertex : Option Nat
  step : Option Nat
  block_size : Option Nat
deriving DecidableEq, Repr

/-- The data members of `round_robin_scheduler`. -/
structure round_robin_scheduler where
  numvertices : Nat
  cur_task : Nat
  task_set : List update_task
  iterations : Nat
  maxiterations : Nat
  startvertex : Nat
  endtask : Nat
  terminator : controlled_termination
  step : Nat
  blocksize : Nat
  ncpus : Nat
  thread_info : List thread_information
deriving DecidableEq, Repr

namespace round_robin_scheduler

/-- The constructor `round_robin_scheduler(engine, g, ncpus)`; `num_vertices` is
`g.num_vertices()`. The vectors are value-initialised, so every `thread_info`
entry starts as `(0, 0)` and every `task_set` slot holds the default task.
(With `ncpus = 0` the source divides by zero; Lean's `/` gives 0 there.) -/
def create (num_vertices ncpus : Nat) : round_robin_scheduler :=
  let nblocks := (4 * ncpus) % SIZE_MOD
  let blocksize := num_vertices / nblocks
  { numvertices := num_vertices
    cur_task := 0
    task_set := List.replicate num_vertices update_task.empty
    iterations := 0
    maxiterations := 0
    startvertex := 0
    endtask := num_vertices
    terminator := ⟨false⟩
    step := 1
    blocksize := if blocksize < 1 then 1 else blocksize
    ncpus := ncpus
    thread_info := List.replicate ncpus ⟨0, 0⟩ }

/-- `set_options`. -/
def set_options (s : round_robin_scheduler) (opts : scheduler_options) :
    round_robin_scheduler :=
  let maxiterations := (opts.max_iterations.getD s.maxiterations) % SIZE_MOD
  let startvertex := (opts.start_vertex.getD s.startvertex) % SIZE_MOD
  let step := (opts.step.getD s.step) % SIZE_MOD
  let blocksize :=
    match opts.block_size with
    | some b => b % SIZE_MOD
    | none => s.numvertices / ((4 * s.ncpus) % SIZE_MOD)
  { s with
    maxiterations := maxiterations
    startvertex := startvertex
    step := step
    blocksize := if blocksize < 1 then 1 else blocksize }

/-- `set_max_iterations`. -/
def set_max_iterations (s : round_robin_scheduler) (maxi : Nat) : round_robin_scheduler :=
  { s with maxiterations := maxi % SIZE_MOD }

/-- `set_start_vertex`. -/
def set_start_vertex (s : round_robin_scheduler) (v : Nat) : round_robin_scheduler :=
  { s with startvertex := v % SIZE_MOD }

/-- `add_task`: the slot of the task's vertex is overwritten with a task on that
vertex. (A vertex outside the graph is an out-of-bounds write in the source;
`List.set` leaves the list unchanged.) -/
def add_task (s : round_robin_scheduler) (task : update_task) : round_robin_scheduler :=
  { s with task_set := s.task_set.set task.vertex ⟨task.vertex, task.function⟩ }

/-- `add_tasks`: one task with update function `func` on each listed vertex. -/
def add_tasks (s : round_robin_scheduler) (vertices : List Nat) (func : Option Nat) :
    round_robin_scheduler :=
  vertices.foldl (fun acc v => { acc with task_set := acc.task_set.set v ⟨v, func⟩ }) s

/-- `add_task_to_all`. -/
def add_task_to_all (s : round_robin_scheduler) (func : Option Nat) : round_robin_scheduler :=
  (List.range s.numvertices).foldl (fun acc v => add_task acc ⟨v, func⟩) s

/-- `start`. -/
def start (s : round_robin_scheduler) : round_robin_scheduler :=
  { s with
    cur_task := s.startvertex
    endtask := (s.startvertex + (s.maxiterations * s.numvertices) % SIZE_MOD) % SIZE_MOD
    thread_info := s.thread_info.map (fun ti => { ti with numv_remaining_in_block := 0 }) }

/-- `get_iterations`. -/
def get_iterations (s : round_robin_scheduler) : Nat := s.iterations

/-- The update of `block_begin` inside the inner loop of `get_next_task`:
`block_begin = block_begin + step;` followed by
`block_begin -= numvertices & ((size_t)(block_begin < numvertices) - 1);`. -/
def advance_block_begin (numvertices step block_begin : Nat) : Nat :=
  let bb := (block_begin + step) % SIZE_MOD
  let mask := ((if bb < numvertices then 1 else 0) + SIZE_MOD - 1) % SIZE_MOD
  (bb + SIZE_MOD - (numvertices &&& mask)) % SIZE_MOD

/-- The inner loop `while (numv_remaining_in_block != 0)` of `get_next_task`, by
recursion on `numv_remaining_in_block`. It yields the worker's new block state and
the task to return, or `none` as second component when the block ran out. A read
of `task_set` outside the vector is undefined behaviour (`none`). -/
def scan_block (numvertices step : Nat) (task_set : List update_task) :
    Nat → Nat → Option (thread_information × Option update_task)
  | 0, block_begin => some (⟨block_begin, 0⟩, none)
  | rem + 1, block_begin =>
    match task_set[block_begin]? with
    | none => none
    | some ret_task =>
      let bb := advance_block_begin numvertices step block_begin
      if ret_task.vertex = VID_NEG1 then scan_block numvertices step task_set rem bb
      else some (⟨bb, rem⟩, some ret_task)

/-- What one pass through the body of the outer `while(1)` loop of
`get_next_task` does: it returns to the caller, or it fetches the block
`[taskid, taskid + count)` and goes round again; `completed` tells whether this
pass called `terminator.complete()`. -/
inductive pass_result where
  | returned (status : sched_status)
  | fetched (taskid count : Nat) (completed : Bool)
deriving DecidableEq, Repr

/-- The part of the loop body after the inner loop: take the next block from
`cur_task` (an atomic fetch-and-add) and set up the worker's block. The `%
numvertices` is a division by zero when the graph is empty (`none`). -/
def fetch_block (s : round_robin_scheduler) (cpuid : Nat) :
    Option (round_robin_scheduler × pass_result) :=
  if s.numvertices = 0 then none else
  let taskid := s.cur_task
  let cur := (s.cur_task + s.blocksize) % SIZE_MOD
  let task_vertexid := ((taskid * s.step) % SIZE_MOD) % s.numvertices
  let t := taskid % s.numvertices
  let iterations :=
    if t < s.numvertices ∧ (t + s.blocksize) % SIZE_MOD ≥ s.numvertices
    then (s.iterations + 1) % SIZE_MOD else s.iterations
  if s.maxiterations ≠ 0 ∧ (taskid + s.blocksize) % SIZE_MOD ≥ s.endtask then
    let remaining := if s.endtask > taskid then s.endtask - taskid else 0
    if remaining = 0 then
      let thread_info := s.thread_info.set cpuid ⟨SIZE_NEG1, 0⟩
      let done := thread_info.all (fun ti => ti.block_begin = SIZE_NEG1)
      some ({ s with
              cur_task := cur
              iterations := iterations
              thread_info := thread_info
              terminator := if done then s.terminator.complete else s.terminator },
            .fetched taskid 0 done)
    else
      some ({ s with
              cur_task := cur
              iterations := iterations
              thread_info := s.thread_info.set cpuid ⟨task_vertexid, remaining⟩ },
            .fetched taskid remaining false)
  else
    some ({ s with
            cur_task := cur
            iterations := iterations
            thread_info := s.thread_info.set cpuid ⟨task_vertexid, s.blocksize⟩ },
          .fetched taskid s.blocksize false)

/-- One pass through the body of the outer `while(1)` loop of `get_next_task`
for worker `cpuid`. The inner loop touches only the worker's own block and the
read-only `task_set`; the fetch is the one access to shared state, so a pass is
an atomic step of the scheduler. `thread_info[cpuid]` outside the vector is
undefined behaviour. -/
def get_next_task_pass (s : round_robin_scheduler) (cpuid : Nat) :
    Option (round_robin_scheduler × pass_result) :=
  match s.thread_info[cpuid]? with
  | none => none
  | some mythr_info =>
    if mythr_info.block_begin = SIZE_NEG1 then some (s, .returned .EMPTY)
    else
      match scan_block s.numvertices s.step s.task_set
              mythr_info.numv_remaining_in_block mythr_info.block_begin with
      | none => none
      | some (ti, some ret_task) =>
        some ({ s with thread_info := s.thread_info.set cpuid ti },
              .returned (.NEWTASK ret_task))
      | some (ti, none) =>
        fetch_block { s with thread_info := s.thread_info.set cpuid ti } cpuid

/-- `get_next_task(cpuid, ret_task)`: passes through the loop body until one
returns. `fuel` bounds the number of passes; the result is `none` when the fuel
runs out or the code runs into undefined behaviour. -/
def get_next_task : Nat → round_robin_scheduler → Nat →
    Option (round_robin_scheduler × sched_status)
  | 0, _, _ => none
  | fuel + 1, s, cpuid =>
    match get_next_task_pass s cpuid with
    | none => none
    | some (s1, .returned status) => some (s1, status)
    | some (s1, .fetched _ _ _) => get_next_task fuel s1 cpuid

/-- A concurrent execution of the scheduler: the workers named in the schedule
make one pass each, in that order. The log records what each pass did. -/
def run_passes : List Nat → round_robin_scheduler →
    Option (round_robin_scheduler × List (Nat × pass_result))
  | [], s => some (s, [])
  | cpuid :: rest, s =>
    match get_next_task_pass s cpuid with
    | none => none
    | some (s1, ev) =>
      match run_passes rest s1 with
      | none => none
      | some (s2, log) => some (s2, (cpuid, ev) :: log)

/-- The vertex ids of the tasks a log hands out as `NEWTASK`, in order. -/
def handed_out : List (Nat × pass_result) → List Nat
  | [] => []
  | (_, .returned (.NEWTASK t)) :: log => t.vertex :: handed_out log
  | _ :: log => handed_out log

/-- The workers that received `EMPTY` somewhere in the log. -/
def got_empty (log : List (Nat × pass_result)) (cpuid : Nat) : Bool :=
  log.any (fun e => e.1 = cpuid ∧ e.2 = .returned .EMPTY)

/-- The scheduler as the engine starts it: constructed for a graph of
`num_vertices` vertices and `ncpus` workers, configured by `set_options`, given
one task with update function `func` on each vertex of `vertices`, and started. -/
def prepared (num_vertices ncpus : Nat) (opts : scheduler_options)
    (vertices : List Nat) (func : Option Nat) : round_robin_scheduler :=
  start (add_tasks (set_options (create num_vertices ncpus) opts) vertices func)

/-- The blocks `(taskid, count)` the fetches of a log obtained from `cur_task`,
in the order of the fetches. -/
def fetched_blocks : List (Nat × pass_result) → List (Nat × Nat)
  | [] => []
  | (_, .fetched taskid count _) :: log => (taskid, count) :: fetched_blocks log
  | _ :: log => fetched_blocks log

end round_robin_scheduler

open round_robin_scheduler

/-- Worker `cpuid` is marked done: its `block_begin` is `(size_t)(-1)`. -/
def is_done (st : round_robin_scheduler) (cpuid : Nat) : Prop :=
  (st.thread_info[cpuid]?).map (fun ti => ti.block_begin) = some SIZE_NEG1

instance (st : round_robin_scheduler) (cpuid : Nat) : Decidable (is_done st cpuid) := by
  unfold is_done; infer_instance

/-- The number of task ids `t` in `[a, a + n)` with `t % N = v`: how often a sweep
over `n` consecutive task ids starting at `a` visits vertex `v`. -/
def hits (N v : Nat) : Nat → Nat → Nat
  | _, 0 => 0
  | a, n + 1 => (if a % N = v then 1 else 0) + hits N v (a + 1) n

/-- The number of workers marked done. -/
def done_count (l : List thread_information) : Nat :=
  (l.map (fun ti => if ti.block_begin = SIZE_NEG1 then 1 else 0)).sum

/-- How often vertex `v` is still to be visited in the blocks the workers hold. -/
def pending (N v : Nat) (l : List thread_information) : Nat :=
  (l.map (fun ti => hits N v ti.block_begin ti.numv_remaining_in_block)).sum

/-- How often vertex `v` is still to be visited: in the blocks the workers hold
and in the task ids from `cur_task` up to `endtask` not fetched yet. -/
def potential (N v : Nat) (st : round_robin_scheduler) : Nat :=
  pending N v st.thread_info + hits N v st.cur_task (st.endtask - st.cur_task)

/-- The invariant of a run with `step = 1`, `max_iterations = k`, start vertex
`s`, block size `b`, on a graph of `N` vertices with tasks on the vertices `vs`,
as long as `cur_task` does not wrap around. -/
structure rr_inv (N ncpus k s b : Nat) (vs : List Nat) (func : Option Nat)
    (st : round_robin_scheduler) : Prop where
  numv : st.numvertices = N
  step : st.step = 1
  bsz : st.blocksize = b
  maxi : st.maxiterations = k
  endt : st.endtask = s + k * N
  tset : ∀ v, v < N →
    st.task_set[v]? = some (if v ∈ vs then ⟨v, func⟩ else update_task.empty)
  nthr : st.thread_info.length = ncpus
  thr : ∀ ti ∈ st.thread_info,
    (ti.block_begin = SIZE_NEG1 ∧ ti.numv_remaining_in_block = 0 ∧ s + k * N ≤ st.cur_task)
      ∨ ti.block_begin < N
  bound : st.cur_task < s + k * N + b * (1 + done_count st.thread_info)

/-- What a pass contributes to the number of times vertex `v` was handed out. -/
def pass_count (v : Nat) : pass_result → Nat
  | .returned (.NEWTASK t) => if t.vertex = v then 1 else 0
  | _ => 0

/-- The invariant behind completion: the terminator is completed only when all
workers are marked done, and a worker is marked done only by its own fetch of an
empty block at or beyond `endtask`. -/
structure completion_inv (N ncpus E : Nat) (st : round_robin_scheduler)
    (log : List (Nat × pass_result)) : Prop where
  numv : st.numvertices = N
  nthr : st.thread_info.length = ncpus
  endt : st.endtask = E
  quit : st.terminator.quit = true → ∀ c, c < ncpus → is_done st c
  fetched : ∀ c, is_done st c →
    ∃ t d, (c, pass_result.fetched t 0 d) ∈ log ∧ E ≤ t ∧ st.maxiterations ≠ 0

/-! ## Shared variables (`glshared.hpp`) -/

/-- A slot of `buffer_and_head`. -/
def sel {T : Type} (p : T × T) (i : Fin 2) : T := if i = 0 then p.1 else p.2

/-- Overwriting a slot of `buffer_and_head`. -/
def upd {T : Type} (p : T × T) (i : Fin 2) (x : T) : T × T :=
  if i = 0 then (x, p.2) else (p.1, x)

/-- The data members of `glshared<T>`. `buffer_and_head` are the two instances
of the data; `buffer` and `head` say which of the two `buffer_and_head_ptr` each
pointer points to; `use_count` counts, for each of the two shared pointers, the
copies handed out to readers (`use_count() - 1`, so `unique()` is `= 0`). -/
structure glshared (T : Type) where
  buffer_and_head : T × T
  use_count : Nat × Nat
  buffer : Fin 2
  head : Fin 2
deriving DecidableEq, Repr

namespace glshared

variable {T : Type}

/-- The constructor; both instances of the data are default constructed
(`d` is the default value of `T`). -/
def create (d : T) : glshared T :=
  { buffer_and_head := (d, d), use_count := (0, 0), buffer := 0, head := 1 }

/-- `get_val`. -/
def get_val (g : glshared T) : T := sel g.buffer_and_head g.head

/-- `get_any`. -/
def get_any (g : glshared T) : T := sel g.buffer_and_head g.head

/-- `is_unique`. -/
def is_unique (g : glshared T) : Bool :=
  sel g.use_count g.buffer = 0 ∧ sel g.use_count g.head = 0

/-- `get_ptr`: a copy of the head shared pointer; the result names the instance
it points to. -/
def get_ptr (g : glshared T) : Fin 2 × glshared T :=
  (g.head, { g with use_count := upd g.use_count g.head (sel g.use_count g.head + 1) })

/-- A reader drops a shared pointer obtained from `get_ptr`. Dropping a pointer
nobody holds cannot happen (`none`). -/
def release (g : glshared T) (p : Fin 2) : Option (glshared T) :=
  if sel g.use_count p = 0 then none
  else some { g with use_count := upd g.use_count p (sel g.use_count p - 1) }

/-- `exchange_buffer_and_head`. -/
def exchange_buffer_and_head (g : glshared T) : glshared T :=
  { g with buffer := g.head, head := g.buffer }

/-- `set`: under `set_lock`, wait until the buffer is unique, write it, swap.
The call does not proceed (`none`) while a reader holds the buffer. -/
def set (g : glshared T) (t : T) : Option (glshared T) :=
  if sel g.use_count g.buffer ≠ 0 then none
  else some (exchange_buffer_and_head
    { g with buffer_and_head := upd g.buffer_and_head g.buffer t })

/-- `set_any`. -/
def set_any (g : glshared T) (t : T) : Option (glshared T) := g.set t

/-- `exchange`: like `set`, and hands the previous value back in `t`. -/
def exchange (g : glshared T) (t : T) : Option (glshared T × T) :=
  if sel g.use_count g.buffer ≠ 0 then none
  else
    let retval := g.get_val
    some (exchange_buffer_and_head
      { g with buffer_and_head := upd g.buffer_and_head g.buffer t }, retval)

/-- `apply(fun, srcd)`: `temp` is a copy of the head value, `fun(temp, srcd)`
modifies it, the result is written to the buffer, swap. -/
def apply {P : Type} (g : glshared T) (f : T → P → T) (srcd : P) : Option (glshared T) :=
  if sel g.use_count g.buffer ≠ 0 then none
  else
    let temp := f (sel g.buffer_and_head g.head) srcd
    some (exchange_buffer_and_head
      { g with buffer_and_head := upd g.buffer_and_head g.buffer temp })

end glshared

/-- The operations of readers and writers on a shared variable. -/
inductive glshared_op (T : Type) where
  | get_ptr
  | release (p : Fin 2)
  | set (t : T)
  | exchange (t : T)
  | apply (f : T → T)

/-- The writing operations. -/
def glshared_op.is_write {T : Type} : glshared_op T → Bool
  | .set _ => true
  | .exchange _ => true
  | .apply _ => true
  | _ => false

/-- One operation; `none` when the operation cannot proceed in this state. -/
def glshared.exec {T : Type} (g : glshared T) : glshared_op T → Option (glshared T)
  | .get_ptr => some g.get_ptr.2
  | .release p => g.release p
  | .set t => g.set t
  | .exchange t => (g.exchange t).map (fun r => r.1)
  | .apply f => g.apply (fun x (_ : Unit) => f x) ()

/-- A sequence of operations, each of which proceeds. -/
def glshared.run {T : Type} : List (glshared_op T) → glshared T → Option (glshared T)
  | [], g => some g
  | op :: ops, g =>
    match g.exec op with
    | none => none
    | some g1 => glshared.run ops g1

/-- Some reader holds a reference to instance `p` in every state the sequence
of operations passes through, the first and the last included. -/
def glshared.held {T : Type} (p : Fin 2) : List (glshared_op T) → glshared T → Bool
  | [], g => decide (0 < sel g.use_count p)
  | op :: ops, g =>
    decide (0 < sel g.use_count p) &&
      (match g.exec op with
       | none => true
       | some g1 => glshared.held p ops g1)

/-! ## Asynchronous engine (`asynchronous_engine.hpp`) -/

/-- Modelled from the spec: `exec_status` (declared in `iengine.hpp`, which is
not among the sources), the fixed enumeration of termination reasons. -/
inductive exec_status where
  | EXEC_UNSET
  | EXEC_TASK_DEPLETION
  | EXEC_TERM_FUNCTION
  | EXEC_TIMEOUT
  | EXEC_TASK_BUDGET_EXCEEDED
  | EXEC_FORCED_ABORT
  | EXEC_EXCEPTION
deriving DecidableEq, Repr

/-- Conversion of a `size_t` to `vertex_id_type`. -/
def to_vid (x : Nat) : Nat := x % VID_MOD

/-- Conversion of a `size_t` to a 32-bit `int` (two's complement). -/
def to_int (x : Nat) : Int :=
  if x % 2 ^ 32 < 2 ^ 31 then ((x % 2 ^ 32 : Nat) : Int) else ((x % 2 ^ 32 : Nat) : Int) - 2 ^ 32

/-- Negation of a 32-bit `int` (the negation of the least `int` wraps to itself). -/
def int_neg (i : Int) : Int := if i = -(2 ^ 31) then i else -i

/-- Conversion of an `int` to `size_t`. -/
def int_to_size_t (i : Int) : Nat := (i % (2 ^ 64 : Int)).toNat

/-- A registered sync (`struct sync_task`). The accumulator and the values of the
shared variables are of type `A` (`any` in the source); `sync_fun i acc` is the
accumulator after `sync_fun(scope, acc)` was called with the scope of vertex `i`;
`merge_fun` is `none` for NULL; `apply_fun cur param` is the value `apply_fun`
leaves in `cur`; `sharedvariable` numbers the shared variable pointed to. -/
structure sync_task (A : Type) where
  sync_fun : Nat → A → A
  merge_fun : Option (A → A → A)
  apply_fun : A → A → A
  sync_interval : Nat
  next_time : Nat
  zero : A
  rangelow : Nat
  rangehigh : Nat
  sharedvariable : Nat

/-- Modelled from the spec: `mutable_queue<size_t, int>` (not among the
sources), a max-heap of items with an `int` priority. It is kept as the list of
its entries; `top` is the first entry of greatest priority. -/
abbrev mutable_queue := List (Nat × Int)

/-- `mutable_queue::top`. -/
def mutable_queue.top : mutable_queue → Option (Nat × Int)
  | [] => none
  | x :: q =>
    match mutable_queue.top q with
    | none => some x
    | some y => if x.2 ≥ y.2 then some x else some y

/-- `mutable_queue::pop`: the queue without its top entry. -/
def mutable_queue.pop (q : mutable_queue) : mutable_queue :=
  match mutable_queue.top q with
  | none => q
  | some x => q.erase x

/-- `mutable_queue::push`. -/
def mutable_queue.push (q : mutable_queue) (item : Nat) (priority : Int) : mutable_queue :=
  q ++ [(item, priority)]

/-- `mutable_queue::insert_max`: insert the item, or raise its priority to the
maximum of the old and the new one. -/
def mutable_queue.insert_max (q : mutable_queue) (item : Nat) (priority : Int) :
    mutable_queue :=
  if q.any (fun x => x.1 = item) then
    q.map (fun x => if x.1 = item then (x.1, max x.2 priority) else x)
  else q ++ [(item, priority)]

/-- The data members of `asynchronous_engine` used here. `num_vertices` is
`graph.num_vertices()`; `shared` holds the application's shared variables, which
the sync tasks point to. -/
structure asynchronous_engine (A : Type) where
  num_vertices : Nat
  ncpus : Nat
  proc_in_update : List Nat
  update_counts : List Nat
  apx_update_counts : Nat
  numsyncs : Nat
  start_time_millis : Nat
  timeout_millis : Nat
  last_check_millis : Nat
  task_budget : Nat
  term_functions : List (Unit → Bool)
  active : Bool
  sync_active : Bool
  termination_reason : exec_status
  sync_accumulators : List A
  sync_tasks : List (sync_task A)
  var2synctask : List (Nat × Nat)
  sync_task_queue : mutable_queue
  sync_task_queue_head : Nat × Int
  task_exec_queue : List Nat
  sync_task_queue_next_update : Nat
  sync_now_counts : Nat
  shared : List (glshared A)

namespace asynchronous_engine

variable {A : Type}

/-- `APX_INTERVAL`. -/
def APX_INTERVAL : Nat := 127

/-- The constructor `asynchronous_engine(graph, ncpus)`; `now` is the reading of
`lowres_time_millis()`, `zero` the default constructed `any`, and `shared` the
shared variables of the application. -/
def create (num_vertices ncpus now : Nat) (zero : A) (shared : List (glshared A)) :
    asynchronous_engine A :=
  { num_vertices := num_vertices
    ncpus := max ncpus 1
    proc_in_update := List.replicate (max ncpus 1) 0
    update_counts := List.replicate (max ncpus 1) 0
    apx_update_counts := 0
    numsyncs := 0
    start_time_millis := now
    timeout_millis := 0
    last_check_millis := 0
    task_budget := 0
    term_functions := []
    active := false
    sync_active := true
    termination_reason := .EXEC_UNSET
    sync_accumulators := List.replicate ncpus zero
    sync_tasks := []
    var2synctask := []
    sync_task_queue := []
    sync_task_queue_head := (0, 0)
    task_exec_queue := []
    sync_task_queue_next_update := 0
    sync_now_counts := 0
    shared := shared }

/-- `stop`. -/
def stop (e : asynchronous_engine A) : asynchronous_engine A :=
  { e with termination_reason := .EXEC_FORCED_ABORT, active := false }

/-- `last_exec_status`. -/
def last_exec_status (e : asynchronous_engine A) : exec_status := e.termination_reason

/-- `last_update_count`: the sum of the workers' update counts, in `size_t`
arithmetic. -/
def last_update_count (e : asynchronous_engine A) : Nat :=
  e.update_counts.foldl (fun sum c => (sum + c) % SIZE_MOD) 0

/-- `approximate_last_update_count`. -/
def approximate_last_update_count (e : asynchronous_engine A) : Nat := e.apx_update_counts

/-- `add_terminator`. -/
def add_terminator (e : asynchronous_engine A) (term : Unit → Bool) : asynchronous_engine A :=
  { e with term_functions := e.term_functions ++ [term] }

/-- `clear_terminators`. -/
def clear_terminators (e : asynchronous_engine A) : asynchronous_engine A :=
  { e with term_functions := [] }

/-- `set_timeout`. -/
def set_timeout (e : asynchronous_engine A) (timeout_seconds : Nat) : asynchronous_engine A :=
  { e with timeout_millis := (timeout_seconds * 1000) % SIZE_MOD }

/-- `set_task_budget`. -/
def set_task_budget (e : asynchronous_engine A) (max_tasks : Nat) : asynchronous_engine A :=
  { e with task_budget := max_tasks }

/-- `set_sync`: the sync is appended to `sync_tasks` and `var2synctask[&shared]`
becomes its index. -/
def set_sync (e : asynchronous_engine A) (shared : Nat) (sync : Nat → A → A)
    (apply : A → A → A) (zero : A) (sync_interval : Nat) (merge : Option (A → A → A))
    (rangelow rangehigh : Nat) : asynchronous_engine A :=
  { e with
    sync_tasks := e.sync_tasks ++
      [{ sync_fun := sync, merge_fun := merge, apply_fun := apply,
         sync_interval := sync_interval, next_time := 0, zero := zero,
         rangelow := rangelow, rangehigh := rangehigh, sharedvariable := shared }]
    var2synctask := (shared, e.sync_tasks.length) :: e.var2synctask.filter (fun x => x.1 ≠ shared) }

/-- The timeout condition of `satisfies_termination_condition`; `now` is the
reading of `lowres_time_millis()`. -/
def timeout_condition (e : asynchronous_engine A) (now : Nat) : Prop :=
  e.timeout_millis > 0 ∧ (e.start_time_millis + e.timeout_millis) % SIZE_MOD < now

instance (e : asynchronous_engine A) (now : Nat) : Decidable (timeout_condition e now) := by
  unfold timeout_condition; infer_instance

/-- The task budget condition of `satisfies_termination_condition`. -/
def budget_condition (e : asynchronous_engine A) : Prop :=
  e.task_budget > 0 ∧ e.last_update_count > e.task_budget

instance (e : asynchronous_engine A) : Decidable (budget_condition e) := by
  unfold budget_condition; infer_instance

/-- The loop over `term_functions` in `satisfies_termination_condition`: true as
soon as one of them returns true. -/
def check_term_functions : List (Unit → Bool) → Bool
  | [] => false
  | f :: fs => if f () then true else check_term_functions fs

/-- `satisfies_termination_condition`; `now` is the reading of
`lowres_time_millis()`. The result is the return value and the engine after the
call. -/
def satisfies_termination_condition (e : asynchronous_engine A) (now : Nat) :
    Bool × asynchronous_engine A :=
  if timeout_condition e now then
    (true, { e with termination_reason := .EXEC_TIMEOUT })
  else if budget_condition e then
    (true, { e with termination_reason := .EXEC_TASK_BUDGET_EXCEEDED })
  else if check_term_functions e.term_functions then
    (true, { e with termination_reason := .EXEC_TERM_FUNCTION })
  else (false, e)

end asynchronous_engine

/-! ### Syncs -/

namespace asynchronous_engine

variable {A : Type}

/-- `construct_sync_queue`. -/
def construct_sync_queue (e : asynchronous_engine A) : asynchronous_engine A :=
  let q : mutable_queue :=
    (List.range e.sync_tasks.length).foldl (fun q i => mutable_queue.push q i 0) []
  { e with
    sync_task_queue := q
    sync_task_queue_next_update := if q.length > 0 then 0 else SIZE_NEG1 }

/-- The assertion of `ensure_all_sync_vars_are_unique`: every sync task's shared
variable is unique. -/
def ensure_all_sync_vars_are_unique (e : asynchronous_engine A) : Bool :=
  e.sync_tasks.all (fun st =>
    match e.shared[st.sharedvariable]? with
    | none => false
    | some g => g.is_unique)

/-- The head tracker update of `evaluate_sync_queue`:
`if (active && !sync_task_queue.empty()) sync_task_queue_next_update =
-(sync_task_queue.top().second); else sync_task_queue_next_update = size_t(-1);`. -/
def update_head_tracker (e : asynchronous_engine A) : asynchronous_engine A :=
  match e.active, mutable_queue.top e.sync_task_queue with
  | true, some top => { e with sync_task_queue_next_update := int_to_size_t (int_neg top.2) }
  | _, _ => { e with sync_task_queue_next_update := SIZE_NEG1 }

/-- `evaluate_sync_queue(scope_manager, cpuid, curupdatecount)`. `fuel` bounds the
number of trips through its `while` loop; `none` when the fuel runs out or a
vector is read out of bounds. -/
def evaluate_sync_queue : Nat → asynchronous_engine A → Nat → Nat →
    Option (asynchronous_engine A)
  | 0, e, cpuid, curupdatecount =>
    if cpuid ≠ 0 then some e
    else if e.sync_task_queue_next_update ≤ curupdatecount then none else some e
  | fuel + 1, e, cpuid, curupdatecount =>
    if cpuid ≠ 0 then some e
    else if ¬ (e.sync_task_queue_next_update ≤ curupdatecount) then some e
    else
      match mutable_queue.top e.sync_task_queue with
      | none => some (update_head_tracker e)
      | some top =>
        if ¬ (int_to_size_t (int_neg top.2) ≤ curupdatecount) then
          some (update_head_tracker e)
        else
          match e.sync_tasks[top.1]? with
          | none => none
          | some sync =>
            evaluate_sync_queue fuel
              (update_head_tracker
                { e with
                  sync_task_queue_head := top
                  task_exec_queue := e.task_exec_queue ++ [top.1]
                  sync_task_queue :=
                    if sync.sync_interval > 0 then
                      mutable_queue.insert_max (mutable_queue.pop e.sync_task_queue) top.1
                        (int_neg (to_int ((e.approximate_last_update_count
                          + sync.sync_interval) % SIZE_MOD)))
                    else mutable_queue.pop e.sync_task_queue })
              cpuid curupdatecount

/-- The `for` loop `for (i = lo; i < hi; ++i) sync_fun(scope(i), accumulator)`. -/
def reduce_range (sync_fun : Nat → A → A) (lo hi : Nat) (accumulator : A) : A :=
  (List.range' lo (hi - lo)).foldl (fun acc i => sync_fun i acc) accumulator

/-- The sub-range `[v_mymin, v_mymax)` of syncer `cpuid` on the merge path of
`parallel_evaluate_sync` (`vmin`, `vmax`, `nverts` and the two bounds are of type
`vertex_id_type`, the products are computed in `size_t`). -/
def my_range (e : asynchronous_engine A) (sync : sync_task A) (cpuid : Nat) : Nat × Nat :=
  let vmin := sync.rangelow
  let vmax := min sync.rangehigh (to_vid e.num_vertices)
  let nverts := (vmax + VID_MOD - vmin) % VID_MOD
  let v_mymin := to_vid ((vmin + ((nverts * cpuid) % SIZE_MOD) / e.ncpus) % SIZE_MOD)
  let v_mymax := to_vid ((vmin + ((nverts * (cpuid + 1)) % SIZE_MOD) / e.ncpus) % SIZE_MOD)
  (v_mymin, v_mymax)

/-- The accumulator syncer `cpuid` leaves in `sync_accumulators[cpuid]` on the
merge path of `parallel_evaluate_sync`. -/
def my_accumulator (e : asynchronous_engine A) (sync : sync_task A) (cpuid : Nat) : A :=
  reduce_range sync.sync_fun (my_range e sync cpuid).1 (my_range e sync cpuid).2 sync.zero

/-- The value `parallel_evaluate_sync(syncid, ...)`, run by all syncers, hands
to `apply_fun` as its parameter. With a merge function: the accumulators of the
syncers, merged into `sync_accumulators[0]` in increasing order of `cpuid`.
Without: the accumulator of the lead syncer after its loop
`for (i = vmin; i <= vmax; ++i)`, whose body gets, commits and releases the
scope of vertex `i` and does not touch the accumulator; with
`vmax = vertex_id_type(-1)` that loop never ends (`none`). -/
def sync_apply_param (e : asynchronous_engine A) (syncid : Nat) : Option A :=
  match e.sync_tasks[syncid]? with
  | none => none
  | some sync =>
    match sync.merge_fun with
    | some merge_fun =>
      match (List.range e.sync_accumulators.length).map (my_accumulator e sync) with
      | [] => none
      | mergeresult :: others => some (others.foldl merge_fun mergeresult)
    | none =>
      let vmin := sync.rangelow
      let vmax := to_vid (min sync.rangehigh (to_vid (e.num_vertices + SIZE_MOD - 1)))
      let accumulator := sync.zero
      if vmax = VID_NEG1 then none
      else some ((List.range' vmin (vmax + 1 - vmin)).foldl (fun acc _ => acc) accumulator)

/-- `parallel_evaluate_sync(syncid, scope_manager, cpuid)` as run by all syncers
together: `numsyncs` is incremented and the lead syncer applies `apply_fun` with
the reduced value to the shared variable of the sync. `none` when a vector is
read out of bounds or `apply` waits for a reader for ever. -/
def parallel_evaluate_sync (e : asynchronous_engine A) (syncid : Nat) :
    Option (asynchronous_engine A) :=
  match e.sync_tasks[syncid]?, sync_apply_param e syncid with
  | some sync, some accumulator =>
    match e.shared[sync.sharedvariable]? with
    | none => none
    | some g =>
      match g.apply sync.apply_fun accumulator with
      | none => none
      | some g1 =>
        some { e with
               numsyncs := (e.numsyncs + 1) % SIZE_MOD
               sync_accumulators :=
                 match sync.merge_fun with
                 | some _ =>
                   accumulator ::
                     ((List.range e.sync_accumulators.length).map (my_accumulator e sync)).tail
                 | none => e.sync_accumulators
               shared := e.shared.set sync.sharedvariable g1 }
  | _, _ => none

/-- One trip of all syncers through the loop of `sync_loop`: each syncer pops
the same entry of `task_exec_queue` into `syncid_succ`, takes its range lock,
and calls `parallel_evaluate_sync(syncid, ...)` with its local variable `syncid`,
which is initialised to 0 and never assigned; when the engine is not active the
lead syncer then increments `sync_now_counts`. `none` when the queue is empty
(the syncers keep waiting). -/
def sync_loop (e : asynchronous_engine A) : Option (asynchronous_engine A) :=
  let syncid := 0
  match e.task_exec_queue with
  | [] => none
  | _ :: rest =>
    match parallel_evaluate_sync { e with task_exec_queue := rest } syncid with
    | none => none
    | some e1 =>
      if e1.active = false then some { e1 with sync_now_counts := (e1.sync_now_counts + 1) % SIZE_MOD }
      else some e1

/-- `sync_now(shared)`: asserts that the engine is not active and that the
variable is registered, enqueues the id of its sync task, and waits until the
syncers have counted a completed sync. -/
def sync_now (e : asynchronous_engine A) (shared : Nat) : Option (asynchronous_engine A) :=
  if e.active then none
  else
    match e.var2synctask.lookup shared with
    | none => none
    | some syncid => sync_loop { e with task_exec_queue := e.task_exec_queue ++ [syncid] }

end asynchronous_engine

/-- An engine with two syncers on a graph of five vertices, vertex `i` holding
the value `i + 1`, with one registered sync: the sum of the vertex values, with a
merge function, over the default range, applied by overwriting shared variable 0. -/
def small_merge_engine : asynchronous_engine Nat :=
  (asynchronous_engine.create 5 2 0 0 [glshared.create 0]).set_sync 0
    (fun i acc => acc + (i + 1)) (fun _ param => param) 0 0 (some (fun a b => a + b))
    0 VID_NEG1

/-- The same sync registered without a merge function, on a graph of three
vertices. -/
def small_nomerge_engine : asynchronous_engine Nat :=
  (asynchronous_engine.create 3 2 0 0 [glshared.create 0]).set_sync 0
    (fun i acc => acc + (i + 1)) (fun _ param => param) 0 0 none 0 VID_NEG1

/-- An engine with one syncer on a graph of three vertices and two registered
syncs: shared variable 0 receives the sum of the vertex values `i + 1`, shared
variable 1 the number of vertices. -/
def two_sync_engine : asynchronous_engine Nat :=
  ((asynchronous_engine.create 3 1 0 0 [glshared.create 0, glshared.create 0]).set_sync 0
    (fun i acc => acc + (i + 1)) (fun _ param => param) 0 0 (some (fun a b => a + b))
    0 VID_NEG1).set_sync 1
    (fun _ acc => acc + 1) (fun _ param => param) 0 0 (some (fun a b => a + b))
    0 VID_NEG1

/-! ### The worker loop -/

/-- The scheduler the engine is instantiated with (the template parameter
`Scheduler`), as the operations `run_to_terminate` calls on it, over a scheduler
state `σ`. `get_next_task` is `none` when the call does not return;
`end_critical_section` is `none` while the call is blocked; `update` is the
effect on the scheduler of running the update function of a task with its
callback. -/
structure scheduler_ops (σ : Type) where
  get_next_task : σ → Nat → Option (σ × sched_status)
  begin_critical_section : σ → Nat → σ
  cancel_critical_section : σ → Nat → σ
  end_critical_section : σ → Nat → Option (σ × Bool)
  update : σ → Nat → update_task → σ
  completed_task : σ → Nat → update_task → σ

/-- The local variables of `run_to_terminate` of one worker; `running` is false
once the worker has left the `while(active)` loop. -/
structure worker_locals where
  ctr : Nat
  updcount : Nat
  isempty : Bool
  running : Bool
deriving DecidableEq, Repr

/-- What happened during a trip through the loop body: a call of
`get_next_task` returned `status`, or the update function of `task` was run. -/
inductive engine_event where
  | got (cpuid : Nat) (status : sched_status)
  | ran (cpuid : Nat) (task : update_task)
deriving DecidableEq, Repr

/-- The engine together with its scheduler and the locals of its workers. -/
structure run_state (A σ : Type) where
  engine : asynchronous_engine A
  scheduler : σ
  workers : List worker_locals

namespace asynchronous_engine

variable {A σ : Type}

/-- The block `if (ctr == 0 || isempty) { ... }` at the head of the loop body of
`run_to_terminate`: worker 0 evaluates the sync queue, the termination
conditions are checked, and the next `ctr` is estimated. The result is the engine,
the new `ctr`, and whether the loop is left by `break`. -/
def check_block (e : asynchronous_engine A) (cpuid now fuel : Nat) (w : worker_locals) :
    Option (asynchronous_engine A × Nat × Bool) :=
  match (if cpuid = 0 then evaluate_sync_queue fuel e cpuid e.approximate_last_update_count
         else some e) with
  | none => none
  | some e1 =>
    let timemillis := now
    let curupdatecount := e1.approximate_last_update_count
    let ctr0 := (1 + (((curupdatecount + 16000) % SIZE_MOD / ((timemillis + 1000) % SIZE_MOD))
      * 100) % SIZE_MOD) % SIZE_MOD
    let ctr :=
      if e1.sync_task_queue_next_update > curupdatecount then
        min ctr0 ((1 + (e1.sync_task_queue_next_update - curupdatecount) / e1.ncpus) % SIZE_MOD)
      else ctr0
    if e1.last_check_millis < timemillis ∨ w.isempty = true then
      let e2 := { e1 with last_check_millis := timemillis }
      let r := e2.satisfies_termination_condition now
      if r.1 then some ({ r.2 with active := false }, w.ctr, true)
      else some (r.2, ctr, false)
    else some (e1, ctr, false)

/-- The part of the loop body of `run_to_terminate` that runs a task:
`isempty = false`, the asserts on the task, the update function, the
notification of the scheduler, and the counters. An assert that fails, or
`update_counts[cpuid]` outside the vector, is `none`. -/
def execute_task (ops : scheduler_ops σ) (e : asynchronous_engine A) (s : σ) (cpuid : Nat)
    (w : worker_locals) (task : update_task) :
    Option (asynchronous_engine A × σ × worker_locals × List engine_event) :=
  if ¬ (task.vertex < e.num_vertices) ∨ task.function = none then none
  else
    match e.update_counts[cpuid]? with
    | none => none
    | some c =>
      let s1 := ops.completed_task (ops.update s cpuid task) cpuid task
      let apx :=
        if w.updcount &&& APX_INTERVAL = APX_INTERVAL
        then (e.apx_update_counts + (APX_INTERVAL + 1)) % SIZE_MOD
        else e.apx_update_counts
      some ({ e with
              apx_update_counts := apx
              update_counts := e.update_counts.set cpuid ((c + 1) % SIZE_MOD) },
            s1, { w with isempty := false }, [.ran cpuid task])

/-- The part of the loop body of `run_to_terminate` from `--ctr` to
`proc_in_update[cpuid].val = 0`: ask the scheduler for a task, on `EMPTY` enter
the critical section of the terminator and ask again, then run the task if one
was obtained. -/
def fetch_and_run (ops : scheduler_ops σ) (e : asynchronous_engine A) (s : σ) (cpuid : Nat)
    (w : worker_locals) :
    Option (asynchronous_engine A × σ × worker_locals × List engine_event) :=
  let w := { w with ctr := (w.ctr + SIZE_MOD - 1) % SIZE_MOD }
  match ops.get_next_task s cpuid with
  | none => none
  | some (s1, .NEWTASK task) =>
    match execute_task ops e s1 cpuid w task with
    | none => none
    | some (e1, s2, w1, evs) => some (e1, s2, w1, .got cpuid (.NEWTASK task) :: evs)
  | some (s1, .EMPTY) =>
    let w := { w with isempty := true }
    match ops.get_next_task (ops.begin_critical_section s1 cpuid) cpuid with
    | none => none
    | some (s2, .NEWTASK task) =>
      match execute_task ops e (ops.cancel_critical_section s2 cpuid) cpuid w task with
      | none => none
      | some (e1, s3, w1, evs) =>
        some (e1, s3, w1, .got cpuid .EMPTY :: .got cpuid (.NEWTASK task) :: evs)
    | some (s2, .EMPTY) =>
      match ops.end_critical_section s2 cpuid with
      | none => none
      | some (s3, true) =>
        some ({ e with active := false }, s3, w, [.got cpuid .EMPTY, .got cpuid .EMPTY])
      | some (s3, false) => some (e, s3, w, [.got cpuid .EMPTY, .got cpuid .EMPTY])

/-- One trip of worker `cpuid` through the `while(active)` loop of
`run_to_terminate`: the test of `active`, then the loop body. `now` is the
reading of `lowres_time_millis()` and `fuel` bounds the loop of
`evaluate_sync_queue`. A worker that has left the loop does nothing. The writes
of `proc_in_update[cpuid]` to 1 and back to 0 happen within the trip. -/
def run_to_terminate_pass (ops : scheduler_ops σ) (rs : run_state A σ) (cpuid now fuel : Nat) :
    Option (run_state A σ × List engine_event) :=
  match rs.workers[cpuid]? with
  | none => none
  | some w =>
    if w.running = false then some (rs, [])
    else if rs.engine.active = false then
      some ({ rs with workers := rs.workers.set cpuid { w with running := false } }, [])
    else
      match (if w.ctr = 0 ∨ w.isempty = true then
               check_block rs.engine cpuid now fuel w
             else some (rs.engine, w.ctr, false)) with
      | none => none
      | some (e1, _, true) =>
        some ({ rs with
                engine := e1
                workers := rs.workers.set cpuid { w with running := false } }, [])
      | some (e1, ctr, false) =>
        match fetch_and_run ops e1 rs.scheduler cpuid { w with ctr := ctr } with
        | none => none
        | some (e2, s2, w2, evs) =>
          some ({ engine := e2, scheduler := s2, workers := rs.workers.set cpuid w2 }, evs)

/-- The part of `start()` before the workers are launched: the counters, the
timers, the `active` flag and the termination reason are reset, the sync queue
is built, and the synced variables are asserted to be unique (`none` when that
assertion fails). `now` is the reading of `lowres_time_millis()`. -/
def begin_run (e : asynchronous_engine A) (now : Nat) : Option (asynchronous_engine A) :=
  let e1 := construct_sync_queue
    { e with
      proc_in_update := e.proc_in_update.map (fun _ => 0)
      update_counts := e.update_counts.map (fun _ => 0)
      apx_update_counts := 0
      numsyncs := 0
      start_time_millis := now
      last_check_millis := 0
      active := true
      termination_reason := .EXEC_TASK_DEPLETION }
  if ensure_all_sync_vars_are_unique e1 then some e1 else none

/-- The state in which `run_threaded` launches the workers: every worker is at
the head of its loop with `ctr = 0`, `updcount = 0`, `isempty = false`. -/
def launch (e : asynchronous_engine A) (s : σ) : run_state A σ :=
  { engine := e, scheduler := s, workers := List.replicate e.ncpus ⟨0, 0, false, true⟩ }

/-- A concurrent run of the workers: each entry `(cpuid, now, fuel)` of the
schedule is one trip of worker `cpuid` through its loop. -/
def run_workers (ops : scheduler_ops σ) :
    List (Nat × Nat × Nat) → run_state A σ → Option (run_state A σ × List engine_event)
  | [], rs => some (rs, [])
  | (cpuid, now, fuel) :: rest, rs =>
    match run_to_terminate_pass ops rs cpuid now fuel with
    | none => none
    | some (rs1, evs) =>
      match run_workers ops rest rs1 with
      | none => none
      | some (rs2, evs2) => some (rs2, evs ++ evs2)

end asynchronous_engine

/-- The round-robin scheduler as the engine's scheduler: `get_next_task` with
`fuel` passes at most, the terminator a `controlled_termination`, whose
`end_critical_section` reports whether `complete()` was called; update
functions add no tasks. -/
def round_robin_ops (fuel : Nat) : scheduler_ops round_robin_scheduler where
  get_next_task := fun s cpuid => round_robin_scheduler.get_next_task fuel s cpuid
  begin_critical_section := fun s _ => s
  cancel_critical_section := fun s _ => s
  end_critical_section := fun s _ => some (s, s.terminator.quit)
  update := fun s _ _ => s
  completed_task := fun s _ _ => s

/-- A scheduler for four vertices and one worker in which only vertex 2 has a
task: slots 0, 1 and 3 of `task_set` hold the default task. -/
def sparse_start : round_robin_scheduler :=
  prepared 4 1 ⟨some 1, none, none, some 4⟩ [2] (some 7)

/-- A scheduler for eight vertices and one worker with `step = 11`, one sweep, a
task on every vertex and the default block size. -/
def stride_start : round_robin_scheduler :=
  prepared 8 1 ⟨some 1, none, some 11, none⟩ [0, 1, 2, 3, 4, 5, 6, 7] (some 7)

/-- A single-worker engine on a graph of one vertex, started on a round-robin
scheduler that sweeps the vertex 129 times. -/
def long_start : Option (run_state Nat round_robin_scheduler) :=
  (asynchronous_engine.begin_run (asynchronous_engine.create 1 1 0 0 []) 5).map
    (fun e => asynchronous_engine.launch e
      (prepared 1 1 ⟨some 129, none, none, none⟩ [0] (some 7)))

/-- An engine with two syncers on a graph of five vertices whose sync function
appends the id of the vertex it is called on to the accumulator, registered over
the range from vertex 1 to vertex 3, with a merge function (concatenation) or
without one. -/
def range_probe_engine (merge : Bool) : asynchronous_engine (List Nat) :=
  (asynchronous_engine.create 5 2 0 [] [glshared.create []]).set_sync 0
    (fun i acc => acc ++ [i]) (fun _ param => param) [] 0
    (if merge then some (fun a b => a ++ b) else none) 1 3

/-- How `start()` ends: the assertion of `ensure_all_sync_vars_are_unique` stops
it, with the scheduler in the given state, or the workers have run. -/
inductive start_outcome (A σ : Type) where
  | precondition_failed (scheduler : σ) (events : List engine_event)
  | completed (rs : run_state A σ) (events : List engine_event)

namespace asynchronous_engine

variable {A σ : Type}

/-- `start()` up to the return of `run_threaded`: the fields of the engine are
reset, the sync queue is built and the synced variables are asserted to be unique
(`begin_run`); after that `scheduler->start()` (`scheduler_start`) is called and
the workers are run along `schedule`. `none` when the run of the workers has no
defined result. -/
def start (ops : scheduler_ops σ) (scheduler_start : σ → σ) (e : asynchronous_engine A)
    (s : σ) (now : Nat) (schedule : List (Nat × Nat × Nat)) : Option (start_outcome A σ) :=
  match begin_run e now with
  | none => some (.precondition_failed s [])
  | some e1 =>
    match run_workers ops schedule (launch e1 (scheduler_start s)) with
    | none => none
    | some (rs, events) => some (.completed rs events)

end asynchronous_engine

/-- An engine with one sync registered on a shared variable to which a reader
still holds the pointer it got from `get_ptr`. -/
def held_sync_engine : asynchronous_engine Nat :=
  (asynchronous_engine.create 3 1 0 0 [(glshared.create 0).get_ptr.2]).set_sync 0
    (fun i acc => acc + (i + 1)) (fun _ param => param) 0 0 (some (fun a b => a + b))
    0 VID_NEG1

namespace asynchronous_engine

variable {A : Type}

/-- The part of the loop body of `evaluate_sync_queue` that follows the test of
`hastask`, for the entry `top` at the head of the sync queue and the sync task
`sync` it names: the entry is popped into `sync_task_queue_head`, its id is
enqueued on `task_exec_queue`, the task is put back when its interval is
positive, and the head tracker is updated. -/
def dispatch_due (e : asynchronous_engine A) (top : Nat × Int) (sync : sync_task A) :
    asynchronous_engine A :=
  update_head_tracker
    { e with
      sync_task_queue_head := top
      task_exec_queue := e.task_exec_queue ++ [top.1]
      sync_task_queue :=
        if sync.sync_interval > 0 then
          mutable_queue.insert_max (mutable_queue.pop e.sync_task_queue) top.1
            (int_neg (to_int ((e.approximate_last_update_count
              + sync.sync_interval) % SIZE_MOD)))
        else mutable_queue.pop e.sync_task_queue }

end asynchronous_engine

/-- An active engine with one sync of interval 100 that is scheduled for update
count 100, at a moment when the approximate update count has reached 128. -/
def late_sync_engine : asynchronous_engine Nat :=
  { asynchronous_engine.construct_sync_queue
      ((asynchronous_engine.create 3 1 0 0 [glshared.create 0]).set_sync 0
        (fun i acc => acc + (i + 1)) (fun _ param => param) 0 100 (some (fun a b => a + b))
        0 VID_NEG1) with
    active := true
    apx_update_counts := 128
    sync_task_queue := [(0, -100)]
    sync_task_queue_next_update := 100 }

/-! ### A single worker -/

namespace round_robin_scheduler

/-- The statuses returned by `n` successive calls of `get_next_task(cpuid, ...)`
by the same worker, each call making `fuel` passes at most. -/
def get_next_tasks (fuel : Nat) : Nat → round_robin_scheduler → Nat →
    Option (round_robin_scheduler × List sched_status)
  | 0, s, _ => some (s, [])
  | n + 1, s, cpuid =>
    match get_next_task fuel s cpuid with
    | none => none
    | some (s1, status) =>
      match get_next_tasks fuel n s1 cpuid with
      | none => none
      | some (s2, rest) => some (s2, status :: rest)

end round_robin_scheduler

/-- The state of a scheduler with a single worker, `step = 1` and a task on every
vertex after `j` tasks were returned to the worker: either the worker still
sweeps, the rest of its block starts at task id `s + j`, and `cur_task` is the
end of that block (or lies behind `endtask` once the last block was cut short), or
the worker is marked done after all `k * N` tasks. -/
structure single_inv (N k s b : Nat) (func : Option Nat) (st : round_robin_scheduler)
    (j : Nat) : Prop where
  numv : st.numvertices = N
  step : st.step = 1
  bsz : st.blocksize = b
  maxi : st.maxiterations = k
  endt : st.endtask = s + k * N
  tset : ∀ v, v < N → st.task_set[v]? = some ⟨v, func⟩
  thr : ∃ ti, st.thread_info = [ti] ∧
    ((ti.block_begin ≠ SIZE_NEG1 ∧ ti.numv_remaining_in_block ≤ b ∧
      (0 < ti.numv_remaining_in_block → ti.block_begin = (s + j) % N) ∧
      (k ≠ 0 → s + j + ti.numv_remaining_in_block ≤ s + k * N) ∧
      (st.cur_task = s + j + ti.numv_remaining_in_block ∨
        (k ≠ 0 ∧ s + j + ti.numv_remaining_in_block = s + k * N ∧
          s + k * N ≤ st.cur_task ∧ st.cur_task < s + k * N + b))) ∨
     (ti = ⟨SIZE_NEG1, 0⟩ ∧ k ≠ 0 ∧ j = k * N))

/-! ### The first evaluation of the sync queue -/

/-- The state of the engine during the first evaluation of the sync queue, at
update count 0, as far as item `i` is concerned: the engine is active, the
intervals fit an `int`, every queued item is a registered sync, item `i` is queued
with priority 0 if at all, the priorities are those of unevaluated syncs (0) or
of reinserted ones (negative), and the head tracker is 0 while an entry of
priority 0 is queued. -/
structure first_evaluation_inv {A : Type} (i : Nat) (e : asynchronous_engine A) : Prop where
  act : e.active = true
  apx : e.apx_update_counts = 0
  small : ∀ st, st ∈ e.sync_tasks → st.sync_interval < 2 ^ 31
  reg : ∀ x, x ∈ e.sync_task_queue → ∃ sync, e.sync_tasks[x.1]? = some sync
  item : ∀ x, x ∈ e.sync_task_queue → x.1 = i → x.2 = 0
  range : ∀ x, x ∈ e.sync_task_queue → -(2 ^ 31) < x.2 ∧ x.2 ≤ 0
  head : (∃ x, x ∈ e.sync_task_queue ∧ x.2 = 0) → e.sync_task_queue_next_update = 0

/-- The part of the engine the sync queue lives in: the registered syncs, the
sync queue with its head tracker, and the queue of dispatched syncs. -/
def sync_view {A : Type} (e : asynchronous_engine A) :
    List (sync_task A) × mutable_queue × List Nat × Nat :=
  (e.sync_tasks, e.sync_task_queue, e.task_exec_queue, e.sync_task_queue_next_update)

/-- The locals of a worker at the head of its loop before its first trip. -/
def fresh_worker : worker_locals := ⟨0, 0, false, true⟩

/-- An engine with two workers on a graph of three vertices with one registered
sync of interval 0; with `stop_at_once` a terminator function that returns true
is registered as well. -/
def zero_sync_engine (stop_at_once : Bool) : asynchronous_engine Nat :=
  let e := (asynchronous_engine.create 3 2 0 0 [glshared.create 0]).set_sync 0
    (fun i acc => acc + (i + 1)) (fun _ param => param) 0 0 (some (fun a b => a + b))
    0 VID_NEG1
  if stop_at_once then e.add_terminator (fun _ => true) else e

/-- The scheduler of the runs of `zero_sync_engine`: round-robin, one sweep over
three vertices with a task each, two workers. -/
def zero_sync_scheduler : round_robin_scheduler :=
  prepared 3 2 ⟨some 1, none, none, none⟩ [0, 1, 2] (some 7)

/-! ## Termination detection (`shared_termination.hpp`) -/

/-- Where a worker stands with respect to the functions of `shared_termination`:
outside of them, in `begin_critical_section` before `m.lock()` has returned, in
the critical section (it holds `m`), in `end_critical_section` inside
`cond.wait(m)`, there after the condition was signalled and before `m` is
reacquired, or there after `m.unlock()` and before the function returns. -/
inductive worker_position where
  | outside
  | locking
  | in_section
  | waiting
  | woken
  | leaving
deriving DecidableEq, Repr

/-- The data members of `shared_termination`; `m` is the holder of the mutex, and
`workers` says where each worker stands (the condition variable `cond` is the
set of workers at `waiting`). -/
structure shared_termination where
  numactive : Nat
  numcpus : Nat
  trying_to_sleep : Nat
  sleeping : List Bool
  done : Bool
  m : Option Nat
  workers : List worker_position
deriving DecidableEq, Repr

/-- The atomic steps of the workers and of the threads that post jobs. The
steps of `end_critical_section(cpuid)` are `end_critical_section` (from the entry
to `cond.wait(m)`, or to `m.unlock()` when it does not wait), `wake` (a wake-up
of `cond.wait` that no broadcast caused), `relock` (`cond.wait` reacquires `m`
and returns, `if (!done) numactive++`, `m.unlock()`) and `leave` (the rest of the
function, `return done`). -/
inductive termination_step where
  | begin_critical_section (cpuid : Nat)
  | lock (cpuid : Nat)
  | cancel_critical_section (cpuid : Nat)
  | end_critical_section (cpuid : Nat)
  | wake (cpuid : Nat)
  | relock (cpuid : Nat)
  | leave (cpuid : Nat)
  | new_job
  | new_job_hint (cpuhint : Nat)
deriving DecidableEq, Repr

/-- What a step lets the caller observe: `end_critical_section(cpuid)` returned
`result`. -/
structure termination_event where
  cpuid : Nat
  result : Bool
deriving DecidableEq, Repr

namespace shared_termination

/-- The constructor `shared_termination(ncpus)`; no worker is inside any of the
functions. -/
def create (ncpus : Nat) : shared_termination :=
  { numactive := ncpus
    numcpus := ncpus
    trying_to_sleep := 0
    sleeping := List.replicate ncpus false
    done := false
    m := none
    workers := List.replicate ncpus .outside }

/-- `cond.broadcast()`: every worker inside `cond.wait` is signalled. -/
def broadcast (workers : List worker_position) : List worker_position :=
  workers.map (fun p => if p = .waiting then .woken else p)

/-- The number of workers inside `cond.wait(m)` of `end_critical_section`,
signalled or not. -/
def num_waiting (s : shared_termination) : Nat :=
  (s.workers.map (fun p => if p = .waiting ∨ p = .woken then 1 else 0)).sum

/-- `num_active`. -/
def num_active (s : shared_termination) : Nat := s.numactive

/-- The effect of one step, with the event it produces; `none` when the step
cannot be taken in this state: the worker is not at the place where the step
starts, the mutex is held by somebody else, or a vector is indexed out of
bounds. -/
def step (s : shared_termination) :
    termination_step → Option (shared_termination × List termination_event)
  | .begin_critical_section cpuid =>
    if s.workers[cpuid]? = some .outside ∧ cpuid < s.sleeping.length then
      some ({ s with
              trying_to_sleep := (s.trying_to_sleep + 1) % SIZE_MOD
              sleeping := s.sleeping.set cpuid true
              workers := s.workers.set cpuid .locking }, [])
    else none
  | .lock cpuid =>
    if s.workers[cpuid]? = some .locking ∧ s.m = none then
      some ({ s with m := some cpuid, workers := s.workers.set cpuid .in_section }, [])
    else none
  | .cancel_critical_section cpuid =>
    if s.workers[cpuid]? = some .in_section ∧ s.m = some cpuid then
      some ({ s with
              m := none
              sleeping := s.sleeping.set cpuid false
              trying_to_sleep := (s.trying_to_sleep + SIZE_MOD - 1) % SIZE_MOD
              workers := s.workers.set cpuid .outside }, [])
    else none
  | .end_critical_section cpuid =>
    if s.workers[cpuid]? = some .in_section ∧ s.m = some cpuid then
      if s.done then
        some ({ s with
                m := none
                trying_to_sleep := (s.trying_to_sleep + SIZE_MOD - 1) % SIZE_MOD
                sleeping := s.sleeping.set cpuid false
                workers := s.workers.set cpuid .outside }, [⟨cpuid, true⟩])
      else
        let numactive := (s.numactive + SIZE_MOD - 1) % SIZE_MOD
        if numactive = 0 then
          some ({ s with
                  numactive := numactive
                  done := true
                  m := none
                  workers := (broadcast s.workers).set cpuid .leaving }, [])
        else
          some ({ s with
                  numactive := numactive
                  m := none
                  workers := s.workers.set cpuid .waiting }, [])
    else none
  | .wake cpuid =>
    if s.workers[cpuid]? = some .waiting then
      some ({ s with workers := s.workers.set cpuid .woken }, [])
    else none
  | .relock cpuid =>
    if s.workers[cpuid]? = some .woken ∧ s.m = none then
      some ({ s with
              numactive := if ¬ s.done then (s.numactive + 1) % SIZE_MOD else s.numactive
              workers := s.workers.set cpuid .leaving }, [])
    else none
  | .leave cpuid =>
    if s.workers[cpuid]? = some .leaving then
      some ({ s with
              trying_to_sleep := (s.trying_to_sleep + SIZE_MOD - 1) % SIZE_MOD
              sleeping := s.sleeping.set cpuid false
              workers := s.workers.set cpuid .outside }, [⟨cpuid, s.done⟩])
    else none
  | .new_job =>
    if s.trying_to_sleep > 0 then
      if s.m = none then
        some ({ s with
                workers := if s.numactive < s.numcpus then broadcast s.workers
                           else s.workers }, [])
      else none
    else some (s, [])
  | .new_job_hint cpuhint =>
    match s.sleeping[cpuhint]? with
    | none => none
    | some true =>
      if s.m = none then
        some ({ s with
                workers := if s.numactive < s.numcpus then broadcast s.workers
                           else s.workers }, [])
      else none
    | some false => some (s, [])

/-- A concurrent execution: the steps are taken in the order of the list. -/
def run : List termination_step → shared_termination →
    Option (shared_termination × List termination_event)
  | [], s => some (s, [])
  | a :: rest, s =>
    match step s a with
    | none => none
    | some (s1, evs) =>
      match run rest s1 with
      | none => none
      | some (s2, evs2) => some (s2, evs ++ evs2)

end shared_termination

/-- The invariant of `shared_termination` for `ncpus` workers: until `done` is
set, `numactive` and the workers inside `cond.wait` add up to `ncpus`; once it is
set, `numactive` is 0. -/
structure termination_inv (ncpus : Nat) (s : shared_termination) : Prop where
  ncpu : s.numcpus = ncpus
  len : s.workers.length = ncpus
  active : s.done = false → s.numactive + s.num_waiting = ncpus
  fin : s.done = true → s.numactive = 0

/-- Two workers: worker 0 finds no work and waits, worker 1 finds no work, sets
`done` and wakes worker 0, and both leave `end_critical_section`. -/
def termination_schedule : List termination_step :=
  [.begin_critical_section 0, .lock 0, .end_critical_section 0,
   .begin_critical_section 1, .lock 1, .end_critical_section 1, .leave 1,
   .relock 0, .leave 0]

/-! ### The exit loop of `run_to_terminate` -/

namespace asynchronous_engine

variable {A : Type}

/-- One round of the loop at the end of `run_to_terminate(cpuid, ...)`:
`numpinupdate = 0; for (i = 0; i < proc_in_update.size(); ++i) numpinupdate +=
proc_in_update[cpuid].val;`. The value is `numpinupdate` after the `for` loop;
`proc_in_update[cpuid]` outside the vector is `none`. -/
def exit_poll (e : asynchronous_engine A) (cpuid : Nat) : Option Nat :=
  (List.range e.proc_in_update.length).foldl
    (fun numpinupdate _ =>
      match numpinupdate, e.proc_in_update[cpuid]? with
      | some n, some val => some ((n + val) % SIZE_MOD)
      | _, _ => none)
    (some 0)

/-- Whether worker `cpuid` leaves the loop `while (numpinupdate > 0)` after the
round, and with it `run_to_terminate`. -/
def exit_loop_leaves (e : asynchronous_engine A) (cpuid : Nat) : Option Bool :=
  (exit_poll e cpuid).map (fun numpinupdate => ¬ (numpinupdate > 0))

end asynchronous_engine

/-- An engine with two workers after its run has ended for worker 0, which is
in the exit loop with its own flag cleared, while worker 1 is still inside an
update (`proc_in_update[1].val = 1`). -/
def exit_engine : asynchronous_engine Nat :=
  { (asynchronous_engine.create 3 2 0 0 []) with
    active := false
    proc_in_update := [0, 1] }

/-- A scheduler for four vertices and two workers with block size 2, one sweep,
a task on every vertex. -/
def counted_start : round_robin_scheduler :=
  prepared 4 2 ⟨some 1, none, none, some 2⟩ [0, 1, 2, 3] (some 7)

/-! ### The range locks of the syncers -/

namespace asynchronous_engine

variable {A : Type}

/-- The range `(v_start, v_end)` syncer `cpuid` passes to `acquire_range_lock`
in `sync_loop`: `v_per_cpu = 1 + (numv - 1) / ncpus`, `v_start = v_per_cpu *
cpuid`, `v_end = min(numv - 1, v_start + v_per_cpu - 1)`, all in `size_t`. -/
def sync_range_lock (e : asynchronous_engine A) (cpuid : Nat) : Option (Nat × Nat) :=
  if e.ncpus = 0 then none
  else
    let numv := e.num_vertices
    let v_per_cpu := (1 + ((numv + SIZE_MOD - 1) % SIZE_MOD) / e.ncpus) % SIZE_MOD
    let v_start := (v_per_cpu * cpuid) % SIZE_MOD
    let v_end := min ((numv + SIZE_MOD - 1) % SIZE_MOD)
      ((v_start + v_per_cpu + SIZE_MOD - 1) % SIZE_MOD)
    some (v_start, v_end)

end asynchronous_engine

/-! ## Termination of `get_next_task` -/

/-- A started scheduler with nothing to hand out and no cutoff: a graph of one
vertex, one worker, `max_iterations` 0, `step` 1, block size 1, no task. -/
def idle_start : round_robin_scheduler :=
  prepared 1 1 ⟨some 0, some 0, some 1, some 1⟩ [] none

/-- The invariant of a run with `step = 1` and `max_iterations = 0`, where no
worker is ever marked done. -/
structure free_inv (N ncpus b : Nat) (vs : List Nat) (func : Option Nat)
    (st : round_robin_scheduler) : Prop where
  numv : st.numvertices = N
  step : st.step = 1
  bsz : st.blocksize = b
  maxi : st.maxiterations = 0
  tset : ∀ v, v < N →
    st.task_set[v]? = some (if v ∈ vs then ⟨v, func⟩ else update_task.empty)
  nthr : st.thread_info.length = ncpus
  thr : ∀ ti ∈ st.thread_info, ti.block_begin < N
  curt : st.cur_task < SIZE_MOD

/-! ## The circular queue (`synchronized_circular_queue.hpp`) -/

/-- The data members of `synchronized_circular_queue<T>`. `queue` is the
allocated array; a cell is `none` until it is written, since `malloc` and
`realloc` hand out uninitialised memory. The spin lock is left out: every
operation holds `queuelock` from its first to its last access, so the
operations are atomic steps. -/
structure synchronized_circular_queue (T : Type) where
  queue : List (Option T)
  head : Nat
  tail : Nat
  length : Nat
  queuesize : Nat
deriving DecidableEq, Repr

namespace synchronized_circular_queue

variable {T : Type}

/-- The constructor `synchronized_circular_queue(sizehint)`. -/
def create (sizehint : Nat) : synchronized_circular_queue T :=
  { queue := List.replicate sizehint none
    head := 0
    tail := 0
    length := 0
    queuesize := sizehint }

/-- `realloc(queue, sizeof(T) * n)`: an array of `n` cells that keeps the
content of the old cells; the new cells are uninitialised. -/
def realloc (queue : List (Option T)) (n : Nat) : List (Option T) :=
  (queue ++ List.replicate (n - queue.length) none).take n

/-- `memcpy(queue + dst, queue, sizeof(T) * n)`: the first `n` cells are copied
to the cells from `dst` on. Copying between overlapping regions or beyond the
end of the array is undefined behaviour (`none`). -/
def memcpy (queue : List (Option T)) (dst n : Nat) : Option (List (Option T)) :=
  if n ≤ dst ∧ dst + n ≤ queue.length then
    some (queue.take dst ++ queue.take n ++ queue.drop (dst + n))
  else none

/-- `unsync_doublesize`. -/
def unsync_doublesize (q : synchronized_circular_queue T) :
    Option (synchronized_circular_queue T) :=
  let doubled := (q.queuesize * 2) % SIZE_MOD
  let queue := realloc q.queue doubled
  if q.head ≥ q.tail ∧ q.length > 0 then
    match memcpy queue q.queuesize q.tail with
    | none => none
    | some moved =>
      some { q with queue := moved
                    tail := (q.queuesize + q.tail) % SIZE_MOD
                    queuesize := doubled }
  else some { q with queue := queue, queuesize := doubled }

/-- `push(item)`. A write outside the array is undefined behaviour (`none`). -/
def push (q : synchronized_circular_queue T) (item : T) :
    Option (synchronized_circular_queue T) :=
  match (if q.length = q.queuesize then unsync_doublesize q else some q) with
  | none => none
  | some q1 =>
    if q1.tail < q1.queue.length then
      let tail := (q1.tail + 1) % SIZE_MOD
      some { q1 with queue := q1.queue.set q1.tail (some item)
                     tail := if tail < q1.queuesize then tail else 0
                     length := (q1.length + 1) % SIZE_MOD }
    else none

/-- `safepop(ret)`: the queue after the call and the value written to `*ret`,
or `none` in its place when the call returns false. Reading a cell outside the
array or one never written is undefined behaviour (outer `none`). -/
def safepop (q : synchronized_circular_queue T) :
    Option (synchronized_circular_queue T × Option T) :=
  if q.length = 0 then some (q, none)
  else
    match q.queue[q.head]? with
    | some (some ret) =>
      let head := (q.head + 1) % SIZE_MOD
      some ({ q with head := if head < q.queuesize then head else 0
                     length := (q.length + SIZE_MOD - 1) % SIZE_MOD }, some ret)
    | _ => none

/-- `pop()`: the queue after the call and the value returned. On an empty
queue `assert(length > 0)` aborts the program (`none`). -/
def pop (q : synchronized_circular_queue T) : Option (synchronized_circular_queue T × T) :=
  if q.length > 0 then
    match q.queue[q.head]? with
    | some (some t) =>
      let head := (q.head + 1) % SIZE_MOD
      some ({ q with head := if head < q.queuesize then head else 0
                     length := (q.length + SIZE_MOD - 1) % SIZE_MOD }, t)
    | _ => none
  else none

/-- `size()`. -/
def size (q : synchronized_circular_queue T) : Nat := q.length

end synchronized_circular_queue

/-- A call on a `synchronized_circular_queue<T>`. -/
inductive queue_op (T : Type) where
  | push (item : T)
  | pop
  | safepop
deriving DecidableEq, Repr

/-- A sequence of calls on a queue, in order. The log holds one entry for each
`pop` and `safepop`: the value obtained, or `none` for a `safepop` that
returned false. -/
def run_ops {T : Type} : List (queue_op T) → synchronized_circular_queue T →
    Option (synchronized_circular_queue T × List (Option T))
  | [], q => some (q, [])
  | .push item :: rest, q =>
    match q.push item with
    | none => none
    | some q1 => run_ops rest q1
  | .pop :: rest, q =>
    match q.pop with
    | none => none
    | some (q1, t) =>
      match run_ops rest q1 with
      | none => none
      | some (q2, log) => some (q2, some t :: log)
  | .safepop :: rest, q =>
    match q.safepop with
    | none => none
    | some (q1, ret) =>
      match run_ops rest q1 with
      | none => none
      | some (q2, log) => some (q2, ret :: log)

/-- The values a sequence of calls pushes, in order. -/
def pushed {T : Type} : List (queue_op T) → List T
  | [] => []
  | .push item :: rest => item :: pushed rest
  | _ :: rest => pushed rest

/-- The values a log shows as popped, in order. -/
def popped {T : Type} (log : List (Option T)) : List T := log.filterMap id

/-- No `pop` of the sequence is called while the queue is empty, when the queue
holds `n` values at the start of the sequence. -/
def pops_guarded {T : Type} : List (queue_op T) → Nat → Bool
  | [], _ => true
  | .push _ :: rest, n => pops_guarded rest (n + 1)
  | .pop :: rest, n => decide (0 < n) && pops_guarded rest (n - 1)
  | .safepop :: rest, n => pops_guarded rest (n - 1)

/-- The array index of the `i`-th cell after `head` in an array of `queuesize`
cells, for `head < queuesize` and `i ≤ queuesize`. -/
def ring_index (head queuesize i : Nat) : Nat :=
  if head + i < queuesize then head + i else head + i - queuesize

/-- The queue holds the values `vals`, oldest first: they lie in the cells from
`head` on, round the end of the array, and `tail` is the cell after them. -/
def holds {T : Type} (q : synchronized_circular_queue T) (vals : List T) : Prop :=
  q.queue.length = q.queuesize ∧ 1 ≤ q.queuesize ∧ q.queuesize < SIZE_MOD ∧
  q.head < q.queuesize ∧ q.length = vals.length ∧ vals.length ≤ q.queuesize ∧
  q.tail = ring_index q.head q.queuesize vals.length ∧
  ∀ i, i < vals.length →
    q.queue[ring_index q.head q.queuesize i]? = Option.map some vals[i]?

/-! ## Variable-length integers (`serialization/integer.hpp`) -/

/-- The loop behind `__builtin_clzll` for an argument that is not 0: the number
of zero bits above the highest set bit among the lowest `n` bits. -/
def count_leading_zeros (u : Nat) : Nat → Nat
  | 0 => 0
  | n + 1 => if u.testBit n then 0 else 1 + count_leading_zeros u n

/-- `__builtin_clzll(u)` for a 64-bit `u` that is not 0. -/
def builtin_clzll (u : Nat) : Nat := count_leading_zeros u 64

/-- The table `lookuptable[64]` of `compress_int`. -/
def lookuptable : List Nat :=
  [1, 1, 1, 1, 1, 1, 1, 1,
   2, 2, 2, 2, 2, 2, 2,
   3, 3, 3, 3, 3, 3, 3,
   4, 4, 4, 4, 4, 4, 4,
   5, 5, 5, 5, 5, 5, 5,
   6, 6, 6, 6, 6, 6, 6,
   7, 7, 7, 7, 7, 7, 7,
   8, 8, 8, 8, 8, 8, 8,
   9, 9, 9, 9, 9, 9, 9]

/-- The statements of the `switch (c)` of `compress_int`, from `case 9` down to
`case 1`: the case label, the index into `output` and the value stored there. -/
def switch_cases (u : Nat) : List (Nat × Nat × Nat) :=
  [(9, 1, (u &&& (0x7F <<< 56)) >>> 56),
   (8, 2, (u &&& (0x7F <<< 49)) >>> 49),
   (7, 3, (u &&& (0x7F <<< 42)) >>> 42),
   (6, 4, (u &&& (0x7F <<< 35)) >>> 35),
   (5, 5, (u &&& (0x7F <<< 28)) >>> 28),
   (4, 6, ((u % 2 ^ 32) &&& (0x7F <<< 21)) >>> 21),
   (3, 7, ((u % 2 ^ 32) &&& (0x7F <<< 14)) >>> 14),
   (2, 8, ((u % 2 ^ 16) &&& (0x7F <<< 7)) >>> 7),
   (1, 9, ((u % 2 ^ 8) &&& 0x7F) ||| 0x80)]

/-- The `switch (c)` of `compress_int`: control enters at `case c` and falls
through all the cases below it, so the statements with a label `≤ c` run; no
label matches a `c` outside 1..9. Each value is cast to `char` (one byte). The
cells of `output` not written stay uninitialised (`none`). -/
def switch_output (u c : Nat) : List (Option Nat) :=
  (switch_cases u).foldl
    (fun output (stmt : Nat × Nat × Nat) =>
      if 1 ≤ c ∧ c ≤ 9 ∧ stmt.1 ≤ c then output.set stmt.2.1 (some (stmt.2.2 % 256))
      else output)
    (List.replicate 10 none)

/-- `compress_int(u, output)` for a 64-bit `u`: the value returned and the
array `output`. Reading `lookuptable` outside its 64 entries is undefined
behaviour (`none`). -/
def compress_int (u : Nat) : Option (Nat × List (Option Nat)) :=
  let isneg := if u ≥ 2 ^ 63 then 2 ^ 64 - 1 else 0
  let u := ((u ^^^ isneg) + 2 ^ 64 - isneg) % 2 ^ 64
  let nbits := if u ≠ 0 then 64 - builtin_clzll u else 0
  match lookuptable[nbits]? with
  | none => none
  | some c =>
    let output := switch_output u c
    if isneg = 0 then some (c, output)
    else some ((c + 1) % 256, output.set (9 - c) (some 0))

/-- The loop of `decompress_int` over the bytes from `arr` on, with `ret` a
`uint64_t`. Reading beyond the bytes given is undefined behaviour (`none`). -/
def decompress_loop : List Nat → Nat → Option Nat
  | [], _ => none
  | b :: arr, ret =>
    let ret := ((ret <<< 7) % 2 ^ 64) ||| (b &&& 0x7F)
    if b &&& 0x80 ≠ 0 then some ret else decompress_loop arr ret

/-- `decompress_int(arr, ret)` with `IntType = uint64_t`: the value left in
`ret`. -/
def decompress_int : List Nat → Option Nat
  | [] => none
  | b :: arr =>
    if b = 0 then (decompress_loop arr 0).map (fun ret => (2 ^ 64 - ret) % 2 ^ 64)
    else decompress_loop (b :: arr) 0

/-- Reading the bytes of an array; reading a cell that was never written is
undefined behaviour (`none`). -/
def read_bytes : List (Option Nat) → Option (List Nat)
  | [] => some []
  | none :: _ => none
  | some b :: rest => (read_bytes rest).map (fun bytes => b :: bytes)

/-- `disk_atom::id_to_str(i)`: the string of the bytes `c[10 - len .. 9]` that
`compress_int(i, c)` produced. -/
def id_to_str (i : Nat) : Option (List Nat) :=
  match compress_int i with
  | none => none
  | some (len, c) => read_bytes (c.drop (10 - len))

/-- Whether the high bit of a byte is set. -/
def high_bit (b : Nat) : Bool := b &&& 0x80 != 0

/-! ## The head tracker of the sync queue -/

/-- The update count at which an entry of the sync queue is next due, as
`evaluate_sync_queue` reads it: `(size_t)(-(entry.second))`. -/
def next_due (x : Nat × Int) : Nat := int_to_size_t (int_neg x.2)

/-- What the head tracker is to hold: `sync_task_queue_next_update` is the
smallest next-due update count among the entries of the sync queue, or
`size_t(-1)` when the queue is empty. -/
def head_tracker_inv {A : Type} (e : asynchronous_engine A) : Prop :=
  (e.sync_task_queue = [] ∧ e.sync_task_queue_next_update = SIZE_NEG1) ∨
  ((∃ x ∈ e.sync_task_queue, e.sync_task_queue_next_update = next_due x) ∧
    ∀ y ∈ e.sync_task_queue, e.sync_task_queue_next_update ≤ next_due y)

/-- The entries of the sync queue name registered syncs, and their priorities
are negated update counts within the range of `int`. -/
def sync_queue_bounds {A : Type} (e : asynchronous_engine A) : Prop :=
  ∀ x ∈ e.sync_task_queue, x.1 < e.sync_tasks.length ∧ -(2 ^ 31) < x.2 ∧ x.2 ≤ 0

/-! ## The scope manager (spec §4.1) -/

/-- Modelled from the spec: the consistency levels of a scope, weakest first
(§4.1). The scope manager (`get_scope`, `release_scope`) is code of the
repository that is not among the sources. -/
inductive consistency_level where
  | NULL
  | VERTEX
  | EDGE
  | FULL
deriving DecidableEq, Repr

/-- Modelled from the spec: a scope, "a lease object bound to one vertex and a
consistency range", held by a worker. -/
structure scope where
  worker : Nat
  vertex : Nat
  consistency : consistency_level
deriving DecidableEq, Repr

/-- Modelled from the spec: the vertices a scope locks, each with whether write
access to it is required. NULL has no exclusivity, VERTEX "locks only the target
vertex", under EDGE the update function "may read and write the vertex and its
incident edges, and read neighboring vertices", FULL "locks target vertex and
entire closed neighborhood for read/write". `neighbors` is the adjacency of the
graph. -/
def locked (neighbors : Nat → List Nat) (s : scope) : List (Nat × Bool) :=
  match s.consistency with
  | .NULL => []
  | .VERTEX => [(s.vertex, true)]
  | .EDGE => (s.vertex, true) :: (neighbors s.vertex).map (fun u => (u, false))
  | .FULL => (s.vertex, true) :: (neighbors s.vertex).map (fun u => (u, true))

/-- Modelled from the spec: "Two scopes conflict iff their locked vertex sets
intersect and at least one requires write access to the intersection." -/
def conflict (neighbors : Nat → List Nat) (a b : scope) : Bool :=
  (locked neighbors a).any (fun x =>
    (locked neighbors b).any (fun y => x.1 = y.1 ∧ (x.2 = true ∨ y.2 = true)))

/-- Modelled from the spec: `get_scope(worker_id, vertex_id, consistency)` on a
manager with the active scopes `active`. It "blocks (or fails) until the
requested consistency range can be granted without violating any overlapping
active scope's constraints": `none` while the request conflicts with an active
scope, else the new list of active scopes and the scope granted. -/
def get_scope (neighbors : Nat → List Nat) (active : List scope)
    (worker_id vertex_id : Nat) (consistency : consistency_level) :
    Option (List scope × scope) :=
  let s : scope := ⟨worker_id, vertex_id, consistency⟩
  if active.any (fun b => conflict neighbors s b) then none
  else some (s :: active, s)

/-- Modelled from the spec: `release_scope(scope)` "commits buffered mutations
and releases the lock(s)": the scope is no longer active. -/
def release_scope (active : List scope) (s : scope) : List scope := active.erase s

/-- A call on the scope manager by some worker. -/
inductive scope_event where
  | get (worker_id vertex_id : Nat) (consistency : consistency_level)
  | release (s : scope)
deriving DecidableEq, Repr

/-- A concurrent execution of the scope manager: the calls take effect in the
order of the list; a `get_scope` that is blocked takes no effect (its worker
waits). -/
def run_scope_events (neighbors : Nat → List Nat) :
    List scope_event → List scope → List scope
  | [], active => active
  | .get w v c :: rest, active =>
    match get_scope neighbors active w v c with
    | none => run_scope_events neighbors rest active
    | some (active1, _) => run_scope_events neighbors rest active1
  | .release s :: rest, active => run_scope_events neighbors rest (release_scope active s)

/-- Modelled from the spec: the "instrumented counter incremented/decremented
around scope hold" of vertex `v`, counting the scopes held on `v` under VERTEX,
EDGE or FULL consistency. -/
def scope_counter (active : List scope) (v : Nat) : Nat :=
  active.countP (fun s => s.vertex = v ∧ s.consistency ≠ .NULL)

/-- The adjacency of the chain `0 - 1 - 2 - 3`. -/
def chain_neighbors (v : Nat) : List Nat :=
  if v = 0 then [1] else if v < 3 then [v - 1, v + 1] else if v = 3 then [2] else []

/-! # Theorems -/

/-! ## Theorems: round-robin scheduler -/

theorem hits_congr_mod (N v : Nat) : ∀ (n a a' : Nat), a % N = a' % N →
    hits N v a n = hits N v a' n := by
  intro n
  induction n with
  | zero => intro a a' _; rfl
  | succ n ih =>
    intro a a' h
    have h1 : (a + 1) % N = (a' + 1) % N := by
      rw [Nat.add_mod a 1 N, Nat.add_mod a' 1 N, h]
    simp only [hits, h, ih (a + 1) (a' + 1) h1]

theorem hits_add (N v : Nat) : ∀ (n m a : Nat),
    hits N v a (n + m) = hits N v a n + hits N v (a + n) m := by
  intro n
  induction n with
  | zero => intro m a; simp [hits]
  | succ n ih =>
    intro m a
    have e : n + 1 + m = (n + m) + 1 := by omega
    rw [e]
    simp only [hits]
    rw [ih m (a + 1)]
    have e2 : a + 1 + n = a + (n + 1) := by omega
    rw [e2]; omega

theorem below_succ (N v : Nat) (hv : v < N) (x : Nat) :
    (x + 1) / N + (if v < (x + 1) % N then 1 else 0)
      = x / N + (if v < x % N then 1 else 0) + (if x % N = v then 1 else 0) := by
  have hN : 0 < N := by omega
  have hr : x % N < N := Nat.mod_lt _ hN
  have hx : N * (x / N) + x % N = x := Nat.div_add_mod x N
  by_cases hc : x % N + 1 < N
  · have e : x + 1 = N * (x / N) + (x % N + 1) := by omega
    have h1 : (x + 1) / N = x / N := by
      conv_lhs => rw [e]
      rw [Nat.mul_add_div hN, Nat.div_eq_of_lt hc]; rfl
    have h2 : (x + 1) % N = x % N + 1 := by
      conv_lhs => rw [e]
      rw [Nat.mul_add_mod, Nat.mod_eq_of_lt hc]
    rw [h1, h2]
    split_ifs <;> omega
  · have e : x + 1 = N * (x / N + 1) := by
      rw [Nat.mul_add, Nat.mul_one]; omega
    have h1 : (x + 1) / N = x / N + 1 := by
      conv_lhs => rw [e]
      exact Nat.mul_div_cancel_left _ hN
    have h2 : (x + 1) % N = 0 := by
      conv_lhs => rw [e]
      exact Nat.mul_mod_right _ _
    rw [h1, h2]
    split_ifs <;> omega

theorem below_add_hits (N v : Nat) (hv : v < N) : ∀ (n a : Nat),
    (a + n) / N + (if v < (a + n) % N then 1 else 0)
      = a / N + (if v < a % N then 1 else 0) + hits N v a n := by
  intro n
  induction n with
  | zero => intro a; simp [hits]
  | succ n ih =>
    intro a
    have e : a + (n + 1) = (a + 1) + n := by omega
    rw [e, ih (a + 1), below_succ N v hv a]
    simp only [hits]; omega

theorem hits_full_passes (N v : Nat) (hv : v < N) (a k : Nat) :
    hits N v a (k * N) = k := by
  have hN : 0 < N := by omega
  have h := below_add_hits N v hv (k * N) a
  have h1 : (a + k * N) / N = a / N + k := by
    rw [Nat.add_mul_div_right _ _ hN]
  have h2 : (a + k * N) % N = a % N := Nat.add_mul_mod_self_right _ _ _
  rw [h1, h2] at h
  omega

theorem sum_map_set {α : Type} (f : α → Nat) : ∀ (l : List α) (i : Nat) (x a : α),
    l[i]? = some a → ((l.set i x).map f).sum + f a = (l.map f).sum + f x := by
  intro l
  induction l with
  | nil => intro i x a h; simp at h
  | cons y ys ih =>
    intro i x a h
    cases i with
    | zero =>
      simp at h
      subst h
      simp [List.set]; omega
    | succ j =>
      simp at h
      have := ih j x a h
      simp [List.set]
      simp at this
      omega

theorem sum_map_le_length {α : Type} (f : α → Nat) (hf : ∀ a, f a ≤ 1) :
    ∀ (l : List α), (l.map f).sum ≤ l.length := by
  intro l
  induction l with
  | nil => simp
  | cons y ys ih => have := hf y; simp; omega

theorem advance_block_begin_one (N bb : Nat) (hN : N < SIZE_MOD) (hbb : bb < N) :
    advance_block_begin N 1 bb = if bb + 1 < N then bb + 1 else 0 := by
  unfold advance_block_begin
  have h1 : (bb + 1) % SIZE_MOD = bb + 1 := Nat.mod_eq_of_lt (by omega)
  simp only [h1]
  by_cases h : bb + 1 < N
  · simp only [h, if_true]
    have : (1 + SIZE_MOD - 1) % SIZE_MOD = 0 := by simp
    rw [this, Nat.and_zero]
    simp [SIZE_MOD] at *
    omega
  · simp only [h, if_false]
    have hm : (0 + SIZE_MOD - 1) % SIZE_MOD = 2 ^ 64 - 1 := by simp [SIZE_MOD]
    rw [hm, Nat.and_pow_two_sub_one_eq_mod]
    have hNe : N = bb + 1 := by omega
    have : N % 2 ^ 64 = N := Nat.mod_eq_of_lt (by simpa [SIZE_MOD] using hN)
    rw [this, hNe]
    simp [SIZE_MOD]

theorem advance_lt (N bb : Nat) (hN : N < SIZE_MOD) (hbb : bb < N) :
    advance_block_begin N 1 bb < N := by
  rw [advance_block_begin_one N bb hN hbb]
  split_ifs <;> omega

theorem advance_mod (N bb : Nat) (hN : N < SIZE_MOD) (hbb : bb < N) :
    (bb + 1) % N = advance_block_begin N 1 bb % N := by
  rw [advance_block_begin_one N bb hN hbb]
  split_ifs with h
  · rfl
  · have : bb + 1 = N := by omega
    rw [this]; simp

theorem scan_block_spec (N : Nat) (ts : List update_task) (vs : List Nat) (func : Option Nat)
    (hN' : N ≤ VID_NEG1)
    (hts : ∀ v, v < N → ts[v]? = some (if v ∈ vs then ⟨v, func⟩ else update_task.empty)) :
    ∀ (rem bb : Nat), bb < N →
      ∃ ti r, scan_block N 1 ts rem bb = some (ti, r) ∧ ti.block_begin < N ∧
        (r = none → ti.numv_remaining_in_block = 0) ∧
        (∀ t, r = some t → t.vertex ∈ vs ∧ t.vertex < N ∧ t.vertex ≠ VID_NEG1) ∧
        ∀ v, v ∈ vs → hits N v bb rem =
          (match r with
            | some t => (if t.vertex = v then 1 else 0)
            | none => 0)
            + hits N v ti.block_begin ti.numv_remaining_in_block := by
  have hNs : N < SIZE_MOD := by
    have : VID_NEG1 < SIZE_MOD := by decide
    omega
  intro rem
  induction rem with
  | zero =>
    intro bb hbb
    exact ⟨⟨bb, 0⟩, none, rfl, hbb, fun _ => rfl, fun t h => (by cases h), fun v _ => (by simp [hits])⟩
  | succ rem ih =>
    intro bb hbb
    have hadv := advance_lt N bb hNs hbb
    have hmod := advance_mod N bb hNs hbb
    have hbm : bb % N = bb := Nat.mod_eq_of_lt hbb
    by_cases hm : bb ∈ vs
    · refine ⟨⟨advance_block_begin N 1 bb, rem⟩, some ⟨bb, func⟩, ?_, hadv, ?_, ?_, ?_⟩
      · have hne : bb ≠ VID_NEG1 := by omega
        simp [scan_block, hts bb hbb, hm, hne]
      · intro h; cases h
      · intro t ht
        cases ht
        exact ⟨hm, hbb, by simp; omega⟩
      · intro v _
        simp only [hits, hbm]
        rw [hits_congr_mod N v rem _ _ hmod]
    · obtain ⟨ti, r, h1, h2, h3, h4, h5⟩ := ih (advance_block_begin N 1 bb) hadv
      refine ⟨ti, r, ?_, h2, h3, h4, ?_⟩
      · simp [scan_block, hts bb hbb, hm, update_task.empty, h1]
      · intro v hv
        have hne : ¬ bb = v := fun h => hm (h ▸ hv)
        simp only [hits, hbm, hne, if_false, Nat.zero_add]
        rw [hits_congr_mod N v rem _ _ hmod]
        exact h5 v hv

theorem neg1_not_lt (N : Nat) (hN' : N ≤ VID_NEG1) (x : Nat) (h : x < N) : x ≠ SIZE_NEG1 := by
  have : VID_NEG1 < SIZE_NEG1 := by decide
  omega

theorem done_count_set (l : List thread_information) (i : Nat) (ti ti' : thread_information)
    (h : l[i]? = some ti) :
    done_count (l.set i ti') + (if ti.block_begin = SIZE_NEG1 then 1 else 0)
      = done_count l + (if ti'.block_begin = SIZE_NEG1 then 1 else 0) :=
  sum_map_set (fun (x : thread_information) => if x.block_begin = SIZE_NEG1 then 1 else 0) l i ti' ti h

theorem pending_set (N v : Nat) (l : List thread_information) (i : Nat)
    (ti ti' : thread_information) (h : l[i]? = some ti) :
    pending N v (l.set i ti') + hits N v ti.block_begin ti.numv_remaining_in_block
      = pending N v l + hits N v ti'.block_begin ti'.numv_remaining_in_block :=
  sum_map_set (fun (x : thread_information) => hits N v x.block_begin x.numv_remaining_in_block) l i ti' ti h

theorem done_count_le (l : List thread_information) : done_count l ≤ l.length :=
  sum_map_le_length _ (fun a => by split_ifs <;> omega) l

theorem done_count_lt (l : List thread_information) (i : Nat) (ti : thread_information)
    (h : l[i]? = some ti) (hnd : ti.block_begin ≠ SIZE_NEG1) : done_count l + 1 ≤ l.length := by
  have h1 := done_count_set l i ti ⟨SIZE_NEG1, 0⟩ h
  have h2 := done_count_le (l.set i ⟨SIZE_NEG1, 0⟩)
  simp [hnd] at h1
  simp at h2
  omega

theorem rr_inv_set_thread {N ncpus k s b : Nat} {vs : List Nat} {func : Option Nat}
    (hN' : N ≤ VID_NEG1) (st : round_robin_scheduler)
    (hinv : rr_inv N ncpus k s b vs func st) (cpuid : Nat) (ti ti' : thread_information)
    (hget : st.thread_info[cpuid]? = some ti) (hnd : ti.block_begin ≠ SIZE_NEG1)
    (hlt : ti'.block_begin < N) :
    rr_inv N ncpus k s b vs func { st with thread_info := st.thread_info.set cpuid ti' } := by
  have hd := done_count_set st.thread_info cpuid ti ti' hget
  have hnd' := neg1_not_lt N hN' _ hlt
  simp [hnd, hnd'] at hd
  refine ⟨hinv.numv, hinv.step, hinv.bsz, hinv.maxi, hinv.endt, hinv.tset, ?_, ?_, ?_⟩
  · simp [hinv.nthr]
  · intro x hx
    rcases List.mem_or_eq_of_mem_set hx with h | h
    · exact hinv.thr x h
    · right; rw [h]; exact hlt
  · show st.cur_task < s + k * N + b * (1 + done_count (st.thread_info.set cpuid ti'))
    rw [hd]; exact hinv.bound

theorem fetch_block_spec {N ncpus k s b : Nat} {vs : List Nat} {func : Option Nat}
    (hN : 0 < N) (hN' : N ≤ VID_NEG1) (hk : 1 ≤ k)
    (hov : s + k * N + (ncpus + 1) * b ≤ SIZE_MOD)
    (st : round_robin_scheduler) (hinv : rr_inv N ncpus k s b vs func st)
    (cpuid : Nat) (ti : thread_information)
    (hget : st.thread_info[cpuid]? = some ti) (hnd : ti.block_begin ≠ SIZE_NEG1)
    (hrem : ti.numv_remaining_in_block = 0) :
    ∃ st' t n d, fetch_block st cpuid = some (st', .fetched t n d) ∧
      rr_inv N ncpus k s b vs func st' ∧
      ∀ v, potential N v st' = potential N v st := by
  have hD := done_count_lt st.thread_info cpuid ti hget hnd
  rw [hinv.nthr] at hD
  rcases st with ⟨nv, c, ts, it, mi, sv, et, term, stp, bs, nc, thr⟩
  obtain ⟨e1, e2, e3, e4, e5, htset, hnthr, hthr, hbound⟩ := hinv
  simp only at e1 e2 e3 e4 e5 htset hnthr hthr hbound hget hD
  subst e1 e2 e3 e4 e5
  have hmul : bs * (1 + done_count thr) ≤ bs * ncpus := Nat.mul_le_mul_left bs (by omega)
  have hmul2 : (ncpus + 1) * bs = bs * ncpus + bs := by ring
  have hb1 : bs ≤ bs * (1 + done_count thr) := Nat.le_mul_of_pos_right bs (by omega)
  have hcb : c + bs < SIZE_MOD := by omega
  have hc1 : (c + bs) % SIZE_MOD = c + bs := Nat.mod_eq_of_lt hcb
  have hc2 : (c * 1) % SIZE_MOD = c := by
    rw [Nat.mul_one]; exact Nat.mod_eq_of_lt (by omega)
  have hN0 : nv ≠ 0 := by omega
  have hk0 : mi ≠ 0 := by omega
  have hmodlt : c % nv < nv := Nat.mod_lt _ hN
  have hdc := fun x => done_count_set thr cpuid ti x hget
  have hpd := fun v x => pending_set nv v thr cpuid ti x hget
  simp only [hrem, hits, Nat.add_zero] at hpd
  simp only [hnd, if_false, Nat.add_zero] at hdc
  unfold fetch_block
  simp only [hN0, if_false, hc1, hc2, hk0, ne_eq, not_false_eq_true, true_and]
  by_cases h1 : c + bs ≥ s + mi * nv
  · simp only [h1, if_true]
    by_cases h2 : s + mi * nv > c
    · have hr : ¬ (s + mi * nv - c = 0) := by omega
      simp only [h2, if_true, hr, if_false]
      refine ⟨_, _, _, _, rfl, ⟨rfl, rfl, rfl, rfl, rfl, htset, ?_, ?_, ?_⟩, ?_⟩
      · simp [hnthr]
      · intro x hx
        rcases List.mem_or_eq_of_mem_set hx with h | h
        · rcases hthr x h with ⟨a, b', c'⟩ | h'
          · left; exact ⟨a, b', by simp only; omega⟩
          · right; exact h'
        · right; rw [h]; exact hmodlt
      · have := hdc ⟨c % nv, s + mi * nv - c⟩
        simp only [neg1_not_lt nv hN' _ hmodlt, if_false, Nat.add_zero] at this
        simp only [this]; omega
      · intro v
        have := hpd v ⟨c % nv, s + mi * nv - c⟩
        simp only [potential, this]
        have e0 : s + mi * nv - (c + bs) = 0 := by omega
        rw [e0, hits_congr_mod nv v _ (c % nv) c (Nat.mod_mod _ _)]
        simp [hits]
    · simp only [h2, if_false, if_true]
      refine ⟨_, _, _, _, rfl, ⟨rfl, rfl, rfl, rfl, rfl, htset, ?_, ?_, ?_⟩, ?_⟩
      · simp [hnthr]
      · intro x hx
        rcases List.mem_or_eq_of_mem_set hx with h | h
        · rcases hthr x h with ⟨a, b', c'⟩ | h'
          · left; exact ⟨a, b', by simp only; omega⟩
          · right; exact h'
        · left; rw [h]; exact ⟨rfl, rfl, by simp only; omega⟩
      · have := hdc ⟨SIZE_NEG1, 0⟩
        simp only [if_true] at this
        simp only [this]
        have : bs * (1 + (done_count thr + 1)) = bs * (1 + done_count thr) + bs := by ring
        omega
      · intro v
        have := hpd v ⟨SIZE_NEG1, 0⟩
        simp only [potential, this]
        have e0 : s + mi * nv - (c + bs) = 0 := by omega
        have e1 : s + mi * nv - c = 0 := by omega
        rw [e0, e1]
        simp [hits]
  · simp only [h1, if_false]
    refine ⟨_, _, _, _, rfl, ⟨rfl, rfl, rfl, rfl, rfl, htset, ?_, ?_, ?_⟩, ?_⟩
    · simp [hnthr]
    · intro x hx
      rcases List.mem_or_eq_of_mem_set hx with h | h
      · rcases hthr x h with ⟨a, b', c'⟩ | h'
        · left; exact ⟨a, b', by simp only; omega⟩
        · right; exact h'
      · right; rw [h]; exact hmodlt
    · have := hdc ⟨c % nv, bs⟩
      simp only [neg1_not_lt nv hN' _ hmodlt, if_false, Nat.add_zero] at this
      simp only [this]; omega
    · intro v
      have := hpd v ⟨c % nv, bs⟩
      simp only [potential, this]
      have e0 : s + mi * nv - c = bs + (s + mi * nv - (c + bs)) := by omega
      rw [e0, hits_add, hits_congr_mod nv v _ (c % nv) c (Nat.mod_mod _ _)]
      omega

theorem pass_spec {N ncpus k s b : Nat} {vs : List Nat} {func : Option Nat}
    (hN : 0 < N) (hN' : N ≤ VID_NEG1) (hk : 1 ≤ k)
    (hov : s + k * N + (ncpus + 1) * b ≤ SIZE_MOD)
    (st : round_robin_scheduler) (hinv : rr_inv N ncpus k s b vs func st)
    (cpuid : Nat) (hc : cpuid < ncpus) :
    ∃ st' ev, get_next_task_pass st cpuid = some (st', ev) ∧
      rr_inv N ncpus k s b vs func st' ∧
      (∀ v ∈ vs, pass_count v ev + potential N v st' = potential N v st) ∧
      (∀ t, ev = .returned (.NEWTASK t) → t.vertex ∈ vs) := by
  have hlen : cpuid < st.thread_info.length := by rw [hinv.nthr]; exact hc
  have hget : st.thread_info[cpuid]? = some st.thread_info[cpuid] := List.getElem?_eq_getElem hlen
  generalize st.thread_info[cpuid] = ti at hget
  unfold get_next_task_pass
  simp only [hget]
  by_cases hd : ti.block_begin = SIZE_NEG1
  · simp only [hd, if_true]
    exact ⟨_, _, rfl, hinv, fun v _ => by simp [pass_count], fun t h => by cases h⟩
  · simp only [hd, if_false]
    have hmem : ti ∈ st.thread_info := List.getElem?_mem hget
    have hbb : ti.block_begin < N := by
      rcases hinv.thr ti hmem with h | h
      · exact absurd h.1 hd
      · exact h
    obtain ⟨ti', r, hscan, hlt, hnone, hsome, hhits⟩ :=
      scan_block_spec N st.task_set vs func hN' hinv.tset ti.numv_remaining_in_block
        ti.block_begin hbb
    have hscan' : scan_block st.numvertices st.step st.task_set ti.numv_remaining_in_block
        ti.block_begin = some (ti', r) := by rw [hinv.numv, hinv.step]; exact hscan
    rw [hscan']
    have hinv1 := rr_inv_set_thread hN' st hinv cpuid ti ti' hget hd hlt
    have hpend := fun v => pending_set N v st.thread_info cpuid ti ti' hget
    cases r with
    | none =>
      simp only
      have hget1 : ({ st with thread_info := st.thread_info.set cpuid ti' } :
          round_robin_scheduler).thread_info[cpuid]? = some ti' := by
        simp [List.getElem?_set_self hlen]
      obtain ⟨st2, t, n, d, hf, hinv2, hp2⟩ :=
        fetch_block_spec hN hN' hk hov _ hinv1 cpuid ti' hget1
          (neg1_not_lt N hN' _ hlt) (hnone rfl)
      refine ⟨st2, _, hf, hinv2, ?_, fun t h => by cases h⟩
      intro v hv
      have h1 := hpend v
      have h2 := hhits v hv
      have h3 := hp2 v
      simp only [Nat.zero_add] at h2
      simp only [pass_count, potential, Nat.zero_add] at h3 ⊢
      omega
    | some t =>
      simp only
      refine ⟨_, _, rfl, hinv1, ?_, ?_⟩
      · intro v hv
        have h1 := hpend v
        have h2 := hhits v hv
        simp only at h2
        simp only [pass_count, potential]
        omega
      · intro t' ht'
        cases ht'
        exact (hsome t rfl).1

theorem add_tasks_task_set (func : Option Nat) (N : Nat) : ∀ (vs : List Nat)
    (st : round_robin_scheduler) (base : List Nat),
    st.task_set.length = N →
    (∀ v, v < N → st.task_set[v]? =
      some (if v ∈ base then ⟨v, func⟩ else update_task.empty)) →
    ∀ v, v < N → (add_tasks st vs func).task_set[v]? =
      some (if v ∈ base ∨ v ∈ vs then ⟨v, func⟩ else update_task.empty) := by
  intro vs
  induction vs with
  | nil => intro st base _ h v hv; simpa [add_tasks] using h v hv
  | cons w ws ih =>
    intro st base hl h v hv
    have h' := ih { st with task_set := st.task_set.set w ⟨w, func⟩ } (w :: base)
      (by simp [hl]) (by
        intro u hu
        by_cases e : w = u
        · subst e
          simp [List.getElem?_set_self (by rw [hl]; exact hu)]
        · simp only [List.getElem?_set_ne e, h u hu, List.mem_cons]
          have : ¬ u = w := fun h => e h.symm
          simp [this]) v hv
    simp only [add_tasks, List.foldl_cons] at h' ⊢
    rw [h']
    simp only [List.mem_cons]
    congr 2
    by_cases e1 : v = w <;> simp [e1, or_comm]

theorem add_tasks_eq (vs : List Nat) (func : Option Nat) :
    ∀ (st : round_robin_scheduler),
      add_tasks st vs func = { st with task_set := (add_tasks st vs func).task_set } := by
  induction vs with
  | nil => intro st; rfl
  | cons v vs ih =>
    intro st
    have := ih { st with task_set := st.task_set.set v ⟨v, func⟩ }
    simp only [add_tasks, List.foldl_cons] at this ⊢
    rw [this]

theorem prepared_eq (N ncpus : Nat) (opts : scheduler_options) (vs : List Nat)
    (func : Option Nat) :
    prepared N ncpus opts vs func =
      { numvertices := N
        cur_task := (set_options (create N ncpus) opts).startvertex
        task_set := (add_tasks (set_options (create N ncpus) opts) vs func).task_set
        iterations := 0
        maxiterations := (set_options (create N ncpus) opts).maxiterations
        startvertex := (set_options (create N ncpus) opts).startvertex
        endtask := ((set_options (create N ncpus) opts).startvertex +
          ((set_options (create N ncpus) opts).maxiterations * N) % SIZE_MOD) % SIZE_MOD
        terminator := ⟨false⟩
        step := (set_options (create N ncpus) opts).step
        blocksize := (set_options (create N ncpus) opts).blocksize
        ncpus := ncpus
        thread_info := List.replicate ncpus ⟨0, 0⟩ } := by
  unfold prepared
  rw [add_tasks_eq]
  simp [start, set_options, create]

theorem prepared_inv {N ncpus k s b : Nat} {vs : List Nat} (func : Option Nat)
    (hN : 0 < N) (hk : 1 ≤ k) (hb : 1 ≤ b)
    (hov : s + k * N + (ncpus + 1) * b ≤ SIZE_MOD) :
    rr_inv N ncpus k s b vs func
      (prepared N ncpus ⟨some k, some s, some 1, some b⟩ vs func) := by
  have hkN : k ≤ k * N := Nat.le_mul_of_pos_right k hN
  have hbb : b ≤ (ncpus + 1) * b := Nat.le_mul_of_pos_left b (by omega)
  have hM : (1 : Nat) < SIZE_MOD := by decide
  have ek : k % SIZE_MOD = k := Nat.mod_eq_of_lt (by omega)
  have es : s % SIZE_MOD = s := Nat.mod_eq_of_lt (by omega)
  have eb : b % SIZE_MOD = b := Nat.mod_eq_of_lt (by omega)
  have e1 : 1 % SIZE_MOD = 1 := Nat.mod_eq_of_lt hM
  have ekN : (k * N) % SIZE_MOD = k * N := Nat.mod_eq_of_lt (by omega)
  have eE : (s + k * N) % SIZE_MOD = s + k * N := Nat.mod_eq_of_lt (by omega)
  have hb1 : ¬ b < 1 := by omega
  have hts := add_tasks_task_set func N vs
    (set_options (create N ncpus) ⟨some k, some s, some 1, some b⟩) []
    (by simp [set_options, create])
    (by intro v hv; simp [set_options, create, hv])
  rw [prepared_eq]
  refine ⟨rfl, ?_, ?_, ?_, ?_, ?_, ?_, ?_, ?_⟩
  · simp [set_options, create, e1]
  · simp [set_options, create, eb, hb1]
  · simp [set_options, create, ek]
  · simp [set_options, create, ek, es, ekN, eE]
  · intro v hv
    have := hts v hv
    simpa using this
  · simp
  · intro ti hti
    right
    simp only at hti
    rw [List.eq_of_mem_replicate hti]
    exact hN
  · simp only [set_options, create, Option.getD_some, es]
    have hpos : 1 ≤ b * (1 + done_count (List.replicate ncpus (⟨0, 0⟩ : thread_information))) :=
      Nat.mul_pos (by omega) (by omega)
    omega

theorem prepared_potential {N ncpus k s b : Nat} {vs : List Nat} (func : Option Nat)
    (hN : 0 < N) (hb : 1 ≤ b)
    (hov : s + k * N + (ncpus + 1) * b ≤ SIZE_MOD) (v : Nat) (hv : v < N) :
    potential N v (prepared N ncpus ⟨some k, some s, some 1, some b⟩ vs func) = k := by
  have hkN : k ≤ k * N := Nat.le_mul_of_pos_right k hN
  have hbb : b ≤ (ncpus + 1) * b := Nat.le_mul_of_pos_left b (by omega)
  have ek : k % SIZE_MOD = k := Nat.mod_eq_of_lt (by omega)
  have es : s % SIZE_MOD = s := Nat.mod_eq_of_lt (by omega)
  have ekN : (k * N) % SIZE_MOD = k * N := Nat.mod_eq_of_lt (by omega)
  have eE : (s + k * N) % SIZE_MOD = s + k * N := Nat.mod_eq_of_lt (by omega)
  rw [prepared_eq]
  have hp : pending N v (List.replicate ncpus (⟨0, 0⟩ : thread_information)) = 0 := by
    simp [pending, hits]
  simp only [potential, set_options, create, Option.getD_some, ek, es, ekN, eE, hp,
    Nat.zero_add, Nat.add_sub_cancel_left]
  exact hits_full_passes N v hv s k

theorem fetch_block_cases (st : round_robin_scheduler) (cpuid : Nat)
    (st' : round_robin_scheduler) (ev : pass_result)
    (h : fetch_block st cpuid = some (st', ev)) :
    st.numvertices ≠ 0 ∧ ∃ ti d,
      st'.thread_info = st.thread_info.set cpuid ti ∧
      st'.cur_task = (st.cur_task + st.blocksize) % SIZE_MOD ∧
      st'.blocksize = st.blocksize ∧ st'.endtask = st.endtask ∧
      st'.numvertices = st.numvertices ∧ st'.maxiterations = st.maxiterations ∧
      st'.task_set = st.task_set ∧ st'.step = st.step ∧ st'.ncpus = st.ncpus ∧
      ev = .fetched st.cur_task ti.numv_remaining_in_block d ∧
      ((ti = ⟨SIZE_NEG1, 0⟩ ∧ st.maxiterations ≠ 0 ∧ st.endtask ≤ st.cur_task ∧
          d = (st.thread_info.set cpuid ti).all (fun x => x.block_begin = SIZE_NEG1) ∧
          st'.terminator = (if d then st.terminator.complete else st.terminator))
        ∨ (ti.block_begin < st.numvertices ∧ d = false ∧ st'.terminator = st.terminator ∧
            ti.numv_remaining_in_block ≠ 0 ∧
            ((st.maxiterations ≠ 0 ∧ (st.cur_task + st.blocksize) % SIZE_MOD ≥ st.endtask ∧
                st.cur_task < st.endtask ∧
                ti.numv_remaining_in_block = st.endtask - st.cur_task)
              ∨ (ti.numv_remaining_in_block = st.blocksize ∧ st.blocksize ≠ 0)))
        ∨ (ti.block_begin < st.numvertices ∧ d = false ∧ st'.terminator = st.terminator ∧
            ti.numv_remaining_in_block = st.blocksize)) := by
  unfold fetch_block at h
  by_cases hN : st.numvertices = 0
  · simp [hN] at h
  · refine ⟨hN, ?_⟩
    have hlt : ((st.cur_task * st.step) % SIZE_MOD) % st.numvertices < st.numvertices :=
      Nat.mod_lt _ (Nat.pos_of_ne_zero hN)
    simp only [hN, if_false] at h
    by_cases h1 : st.maxiterations ≠ 0 ∧ (st.cur_task + st.blocksize) % SIZE_MOD ≥ st.endtask
    · rw [if_pos h1] at h
      by_cases h2 : (if st.endtask > st.cur_task then st.endtask - st.cur_task else 0) = 0
      · rw [if_pos h2] at h
        simp only [Option.some.injEq, Prod.mk.injEq] at h
        obtain ⟨rfl, rfl⟩ := h
        refine ⟨⟨SIZE_NEG1, 0⟩, _, rfl, rfl, rfl, rfl, rfl, rfl, rfl, rfl, rfl, rfl, ?_⟩
        left
        refine ⟨rfl, h1.1, ?_, rfl, ?_⟩
        · by_contra hc
          simp only [not_le] at hc
          simp only [gt_iff_lt, hc, if_true] at h2
          omega
        · simp
      · rw [if_neg h2] at h
        simp only [Option.some.injEq, Prod.mk.injEq] at h
        obtain ⟨rfl, rfl⟩ := h
        have hc : st.endtask > st.cur_task := by
          by_contra hc
          simp [hc] at h2
        refine ⟨⟨_, _⟩, false, rfl, rfl, rfl, rfl, rfl, rfl, rfl, rfl, rfl, rfl, ?_⟩
        right; left
        exact ⟨hlt, rfl, rfl, h2, Or.inl ⟨h1.1, h1.2, hc, if_pos hc⟩⟩
    · rw [if_neg h1] at h
      simp only [Option.some.injEq, Prod.mk.injEq] at h
      obtain ⟨rfl, rfl⟩ := h
      refine ⟨⟨_, _⟩, false, rfl, rfl, rfl, rfl, rfl, rfl, rfl, rfl, rfl, rfl, ?_⟩
      right; right
      exact ⟨hlt, rfl, rfl, rfl⟩

theorem pass_cases (st : round_robin_scheduler) (cpuid : Nat)
    (st' : round_robin_scheduler) (ev : pass_result)
    (h : get_next_task_pass st cpuid = some (st', ev)) :
    ∃ ti, st.thread_info[cpuid]? = some ti ∧
      ((ti.block_begin = SIZE_NEG1 ∧ st' = st ∧ ev = .returned .EMPTY) ∨
       (ti.block_begin ≠ SIZE_NEG1 ∧ ∃ ti' r,
          scan_block st.numvertices st.step st.task_set ti.numv_remaining_in_block
            ti.block_begin = some (ti', r) ∧
          ((∃ t, r = some t ∧ st' = { st with thread_info := st.thread_info.set cpuid ti' } ∧
              ev = .returned (.NEWTASK t)) ∨
           (r = none ∧
              fetch_block { st with thread_info := st.thread_info.set cpuid ti' } cpuid
                = some (st', ev))))) := by
  unfold get_next_task_pass at h
  cases hget : st.thread_info[cpuid]? with
  | none => simp [hget] at h
  | some ti =>
    refine ⟨ti, rfl, ?_⟩
    simp only [hget] at h
    by_cases hd : ti.block_begin = SIZE_NEG1
    · left
      simp only [hd, if_true, Option.some.injEq, Prod.mk.injEq] at h
      exact ⟨hd, h.1.symm, h.2.symm⟩
    · right
      refine ⟨hd, ?_⟩
      simp only [hd, if_false] at h
      cases hs : scan_block st.numvertices st.step st.task_set ti.numv_remaining_in_block
          ti.block_begin with
      | none => simp [hs] at h
      | some p =>
        obtain ⟨ti', r⟩ := p
        refine ⟨ti', r, rfl, ?_⟩
        simp only [hs] at h
        cases r with
        | none => right; exact ⟨rfl, h⟩
        | some t =>
          left
          simp only [Option.some.injEq, Prod.mk.injEq] at h
          exact ⟨t, rfl, h.1.symm, h.2.symm⟩

theorem pass_empty_iff (st : round_robin_scheduler) (cpuid : Nat)
    (st' : round_robin_scheduler) (ev : pass_result)
    (h : get_next_task_pass st cpuid = some (st', ev)) :
    (ev = .returned .EMPTY ↔ is_done st cpuid) ∧ (is_done st cpuid → st' = st) := by
  obtain ⟨ti, hget, hc⟩ := pass_cases st cpuid st' ev h
  have hdone : is_done st cpuid ↔ ti.block_begin = SIZE_NEG1 := by
    simp [is_done, hget]
  rw [hdone]
  rcases hc with ⟨hd, rfl, rfl⟩ | ⟨hd, ti', r, _, hr⟩
  · exact ⟨⟨fun _ => hd, fun _ => rfl⟩, fun _ => rfl⟩
  · refine ⟨⟨?_, fun h => absurd h hd⟩, fun h => absurd h hd⟩
    intro he
    rcases hr with ⟨t, _, _, rfl⟩ | ⟨_, hf⟩
    · cases he
    · obtain ⟨_, ti'', d, _, _, _, _, _, _, _, _, _, hev, _⟩ := fetch_block_cases _ _ _ _ hf
      rw [hev] at he
      cases he

theorem pass_thread_other (st : round_robin_scheduler) (cpuid : Nat)
    (st' : round_robin_scheduler) (ev : pass_result)
    (h : get_next_task_pass st cpuid = some (st', ev)) (i : Nat) (hi : i ≠ cpuid) :
    st'.thread_info[i]? = st.thread_info[i]? := by
  obtain ⟨ti, hget, hc⟩ := pass_cases st cpuid st' ev h
  rcases hc with ⟨hd, rfl, rfl⟩ | ⟨hd, ti', r, _, hr⟩
  · rfl
  · rcases hr with ⟨t, _, rfl, _⟩ | ⟨_, hf⟩
    · simp [List.getElem?_set_ne (Ne.symm hi)]
    · obtain ⟨_, ti'', d, hth, _⟩ := fetch_block_cases _ _ _ _ hf
      rw [hth]
      simp [List.getElem?_set_ne (Ne.symm hi)]

theorem pass_done_stable (st : round_robin_scheduler) (cpuid : Nat)
    (st' : round_robin_scheduler) (ev : pass_result)
    (h : get_next_task_pass st cpuid = some (st', ev)) (i : Nat) (hd : is_done st i) :
    is_done st' i := by
  by_cases hi : i = cpuid
  · subst hi
    rw [(pass_empty_iff st i st' ev h).2 hd]
    exact hd
  · unfold is_done at hd ⊢
    rw [pass_thread_other st cpuid st' ev h i hi]
    exact hd

theorem run_done_stable : ∀ (sched : List Nat) (st st' : round_robin_scheduler)
    (log : List (Nat × pass_result)),
    run_passes sched st = some (st', log) → ∀ i, is_done st i → is_done st' i := by
  intro sched
  induction sched with
  | nil =>
    intro st st' log h i hd
    simp only [run_passes, Option.some.injEq, Prod.mk.injEq] at h
    rw [← h.1]; exact hd
  | cons c rest ih =>
    intro st st' log h i hd
    simp only [run_passes] at h
    cases hp : get_next_task_pass st c with
    | none => simp [hp] at h
    | some p =>
      obtain ⟨s1, ev⟩ := p
      simp only [hp] at h
      cases hr : run_passes rest s1 with
      | none => simp [hr] at h
      | some q =>
        obtain ⟨s2, log'⟩ := q
        simp only [hr, Option.some.injEq, Prod.mk.injEq] at h
        rw [← h.1]
        exact ih s1 s2 log' hr i (pass_done_stable st c s1 ev hp i hd)

theorem handed_out_cons_count (c : Nat) (ev : pass_result) (log : List (Nat × pass_result))
    (v : Nat) :
    (handed_out ((c, ev) :: log)).count v = pass_count v ev + (handed_out log).count v := by
  cases ev with
  | returned status =>
    cases status with
    | NEWTASK t =>
      by_cases e : t.vertex = v
      · simp [handed_out, pass_count, e]; omega
      · have : ¬ (t.vertex == v) = true := by simpa using e
        simp [handed_out, pass_count, e, List.count_cons, this]
    | EMPTY => simp [handed_out, pass_count]
  | fetched t n d => simp [handed_out, pass_count]

theorem handed_out_cons_mem (c : Nat) (ev : pass_result) (log : List (Nat × pass_result))
    (v : Nat) (h : v ∈ handed_out ((c, ev) :: log)) :
    (∃ t, ev = .returned (.NEWTASK t) ∧ t.vertex = v) ∨ v ∈ handed_out log := by
  cases ev with
  | returned status =>
    cases status with
    | NEWTASK t =>
      simp only [handed_out, List.mem_cons] at h
      rcases h with h | h
      · left; exact ⟨t, rfl, h.symm⟩
      · right; exact h
    | EMPTY => right; simpa [handed_out] using h
  | fetched t n d => right; simpa [handed_out] using h

theorem run_passes_spec {N ncpus k s b : Nat} {vs : List Nat} {func : Option Nat}
    (hN : 0 < N) (hN' : N ≤ VID_NEG1) (hk : 1 ≤ k)
    (hov : s + k * N + (ncpus + 1) * b ≤ SIZE_MOD) :
    ∀ (sched : List Nat) (st : round_robin_scheduler),
      rr_inv N ncpus k s b vs func st → (∀ c ∈ sched, c < ncpus) →
      ∃ st' log, run_passes sched st = some (st', log) ∧
        rr_inv N ncpus k s b vs func st' ∧
        (∀ v ∈ vs, (handed_out log).count v + potential N v st' = potential N v st) ∧
        (∀ v ∈ handed_out log, v ∈ vs) ∧
        (∀ c, got_empty log c = true → is_done st' c) := by
  intro sched
  induction sched with
  | nil =>
    intro st hinv _
    exact ⟨st, [], rfl, hinv, fun v _ => by simp [handed_out], fun v h => by simp [handed_out] at h,
      fun c h => by simp [got_empty] at h⟩
  | cons c rest ih =>
    intro st hinv hs
    obtain ⟨s1, ev, hp, hinv1, hpot1, hnew1⟩ :=
      pass_spec hN hN' hk hov st hinv c (hs c (List.mem_cons_self _ _))
    obtain ⟨s2, log', hr, hinv2, hpot2, hmem2, hemp2⟩ :=
      ih s1 hinv1 (fun c' hc' => hs c' (List.mem_cons_of_mem _ hc'))
    refine ⟨s2, (c, ev) :: log', by simp [run_passes, hp, hr], hinv2, ?_, ?_, ?_⟩
    · intro v hv
      rw [handed_out_cons_count]
      have h1 := hpot1 v hv
      have h2 := hpot2 v hv
      omega
    · intro v hv
      rcases handed_out_cons_mem c ev log' v hv with ⟨t, ht, rfl⟩ | h
      · exact hnew1 t ht
      · exact hmem2 v h
    · intro c' hc'
      simp only [got_empty, List.any_cons, Bool.or_eq_true, decide_eq_true_eq] at hc'
      rcases hc' with ⟨rfl, he⟩ | h
      · have hd := (pass_empty_iff st c s1 ev hp).1.1 he
        have hs1 := (pass_empty_iff st c s1 ev hp).2 hd
        subst hs1
        exact run_done_stable rest s1 s2 log' hr c hd
      · exact hemp2 c' h

theorem length_eq_sum_count (l : List Nat) (S : Finset Nat) (h : ∀ v ∈ l, v ∈ S) :
    l.length = ∑ v in S, l.count v := by
  have h1 : ∑ v in l.toFinset, l.count v = l.length := by
    simp
  rw [← h1]
  apply Finset.sum_subset
  · intro v hv
    exact h v (List.mem_toFinset.mp hv)
  · intro v _ hv
    exact List.count_eq_zero_of_not_mem (fun hm => hv (List.mem_toFinset.mpr hm))

theorem all_done_potential_zero {N ncpus k s b : Nat} {vs : List Nat} {func : Option Nat}
    (hN' : N ≤ VID_NEG1) (hw : 0 < ncpus) (st : round_robin_scheduler)
    (hinv : rr_inv N ncpus k s b vs func st)
    (hd : ∀ c, c < ncpus → is_done st c) (v : Nat) : potential N v st = 0 := by
  have hall : ∀ ti ∈ st.thread_info,
      ti.numv_remaining_in_block = 0 ∧ s + k * N ≤ st.cur_task := by
    intro ti hti
    obtain ⟨i, hi⟩ := List.mem_iff_getElem?.mp hti
    have hlt : i < ncpus := by
      rw [← hinv.nthr]
      by_contra hge
      rw [List.getElem?_eq_none (by omega)] at hi
      cases hi
    have hdi := hd i hlt
    simp only [is_done, hi, Option.map_some', Option.some.injEq] at hdi
    rcases hinv.thr ti hti with h | h
    · exact ⟨h.2.1, h.2.2⟩
    · exact absurd hdi (neg1_not_lt N hN' _ h)
  have hne : ∃ ti, ti ∈ st.thread_info := by
    have : 0 < st.thread_info.length := by rw [hinv.nthr]; exact hw
    exact ⟨st.thread_info[0], List.getElem_mem _⟩
  obtain ⟨ti0, hti0⟩ := hne
  have hcur := (hall ti0 hti0).2
  have hp : pending N v st.thread_info = 0 := by
    unfold pending
    apply List.sum_eq_zero
    intro x hx
    obtain ⟨ti, hti, rfl⟩ := List.mem_map.mp hx
    rw [(hall ti hti).1]
    rfl
  have he : st.endtask - st.cur_task = 0 := by rw [hinv.endt]; omega
  simp [potential, hp, he, hits]

/-- Claim C1, as amended. Round-robin scheduler with `step = 1`,
`max_iterations = k >= 1`, start vertex `s`, block size `b >= 1` and `ncpus >= 1`
workers on a graph of `N >= 1` vertices (`N <= 2^32 - 1`, so that no vertex id is
the sentinel), with tasks added on exactly the vertices `vs`, provided the task
counter cannot wrap around: `s + k * N + (ncpus + 1) * b <= 2^64`. Every
interleaving of passes by the workers runs without fault, and once every worker
has received `EMPTY`, each vertex of `vs` was returned as `NEWTASK` exactly `k`
times, no other vertex was returned, and `k * |vs|` tasks were handed out. -/
theorem round_robin_hands_out_each_task_k_times (N ncpus k s b : Nat) (vs : List Nat)
    (func : Option Nat) (sched : List Nat)
    (hN : 0 < N) (hN' : N ≤ VID_NEG1) (hk : 1 ≤ k) (hb : 1 ≤ b) (hw : 0 < ncpus)
    (hov : s + k * N + (ncpus + 1) * b ≤ SIZE_MOD)
    (hvs : ∀ v ∈ vs, v < N) (hs : ∀ c ∈ sched, c < ncpus) :
    ∃ st log,
      run_passes sched (prepared N ncpus ⟨some k, some s, some 1, some b⟩ vs func)
        = some (st, log) ∧
      ((∀ c, c < ncpus → got_empty log c = true) →
        (∀ v, (handed_out log).count v = if v ∈ vs then k else 0) ∧
        (handed_out log).length = k * vs.toFinset.card) := by
  have hinv0 : rr_inv N ncpus k s b vs func
      (prepared N ncpus ⟨some k, some s, some 1, some b⟩ vs func) :=
    prepared_inv func hN hk hb hov
  obtain ⟨st, log, hrun, hinv, hpot, hmem, hemp⟩ :=
    run_passes_spec hN hN' hk hov sched _ hinv0 hs
  refine ⟨st, log, hrun, ?_⟩
  intro hall
  have hcount : ∀ v, (handed_out log).count v = if v ∈ vs then k else 0 := by
    intro v
    by_cases hv : v ∈ vs
    · have h1 := hpot v hv
      rw [prepared_potential func hN hb hov v (hvs v hv),
        all_done_potential_zero hN' hw st hinv (fun c hc => hemp c (hall c hc)) v] at h1
      simp only [hv, if_true]
      omega
    · simp only [hv, if_false]
      exact List.count_eq_zero_of_not_mem (fun hm => hv (hmem v hm))
  refine ⟨hcount, ?_⟩
  rw [length_eq_sum_count (handed_out log) vs.toFinset
    (fun v hv => List.mem_toFinset.mpr (hmem v hv))]
  rw [Finset.sum_congr rfl (fun v hv => by
    rw [hcount v, if_pos (List.mem_toFinset.mp hv)])]
  simp [Nat.mul_comm]


/-- Witness for claim C1: three vertices, two workers, two sweeps starting at
vertex 1 with blocks of two task ids, tasks on the vertices 0 and 2; after the
twelve passes listed both workers have received `EMPTY`. -/
theorem round_robin_hands_out_each_task_k_times_witness :
    ∃ st log,
      run_passes [0, 1, 0, 1, 0, 1, 0, 1, 0, 0, 0, 1]
        (prepared 3 2 ⟨some 2, some 1, some 1, some 2⟩ [0, 2] (some 7)) = some (st, log) ∧
      (∀ c, c < 2 → got_empty log c = true) ∧
      (∀ v, (handed_out log).count v = if v ∈ [0, 2] then 2 else 0) ∧
      (handed_out log).length = 2 * [0, 2].toFinset.card := by
  obtain ⟨st, log, hrun, h⟩ :=
    round_robin_hands_out_each_task_k_times 3 2 2 1 2 [0, 2] (some 7)
      [0, 1, 0, 1, 0, 1, 0, 1, 0, 0, 0, 1]
      (by decide) (by decide) (by decide) (by decide) (by decide) (by decide)
      (by decide) (by decide)
  have h2 : (run_passes [0, 1, 0, 1, 0, 1, 0, 1, 0, 0, 0, 1]
      (prepared 3 2 ⟨some 2, some 1, some 1, some 2⟩ [0, 2] (some 7))).map
        (fun r => (got_empty r.2 0, got_empty r.2 1)) = some (true, true) := by decide
  rw [hrun] at h2
  simp only [Option.map_some', Option.some.injEq, Prod.mk.injEq] at h2
  have hall : ∀ c, c < 2 → got_empty log c = true := by
    intro c hc
    have : c = 0 ∨ c = 1 := by omega
    rcases this with rfl | rfl
    · exact h2.1
    · exact h2.2
  exact ⟨st, log, hrun, hall, h hall⟩

/-- Claim C1 as stated fails when the task counter wraps around: one worker,
three vertices with a task each, `max_iterations = 1`, block size 1 and
`start_vertex = 2^64 - 1`. `endtask` wraps to 2, the worker receives `EMPTY` after
three tasks, vertex 0 was returned twice and vertex 2 never. -/
theorem round_robin_wraparound_counterexample :
    ∃ st log,
      run_passes [0, 0, 0, 0, 0, 0, 0, 0]
        (prepared 3 1 ⟨some 1, some (2 ^ 64 - 1), some 1, some 1⟩ [0, 1, 2] (some 7))
          = some (st, log) ∧
      got_empty log 0 = true ∧ handed_out log = [0, 0, 1] := by
  have h : (run_passes [0, 0, 0, 0, 0, 0, 0, 0]
      (prepared 3 1 ⟨some 1, some (2 ^ 64 - 1), some 1, some 1⟩ [0, 1, 2] (some 7))).map
        (fun r => (got_empty r.2 0, handed_out r.2)) = some (true, [0, 0, 1]) := by decide
  cases hrun : run_passes [0, 0, 0, 0, 0, 0, 0, 0]
      (prepared 3 1 ⟨some 1, some (2 ^ 64 - 1), some 1, some 1⟩ [0, 1, 2] (some 7)) with
  | none => rw [hrun] at h; cases h
  | some r =>
    rw [hrun] at h
    simp only [Option.map_some', Option.some.injEq, Prod.mk.injEq] at h
    exact ⟨r.1, r.2, rfl, h.1, h.2⟩

/-! ### Disjoint blocks -/

theorem run_passes_cons_some (c : Nat) (rest : List Nat) (st st' : round_robin_scheduler)
    (log : List (Nat × pass_result)) (h : run_passes (c :: rest) st = some (st', log)) :
    ∃ s1 ev log', get_next_task_pass st c = some (s1, ev) ∧
      run_passes rest s1 = some (st', log') ∧ log = (c, ev) :: log' := by
  simp only [run_passes] at h
  cases hp : get_next_task_pass st c with
  | none => simp [hp] at h
  | some p =>
    obtain ⟨s1, ev⟩ := p
    simp only [hp] at h
    cases hr : run_passes rest s1 with
    | none => simp [hr] at h
    | some q =>
      obtain ⟨s2, log'⟩ := q
      simp only [hr, Option.some.injEq, Prod.mk.injEq] at h
      exact ⟨s1, ev, log', rfl, by rw [← h.1, hr], h.2.symm⟩

theorem pass_fetch_facts (st : round_robin_scheduler) (cpuid : Nat)
    (st' : round_robin_scheduler) (ev : pass_result)
    (h : get_next_task_pass st cpuid = some (st', ev)) :
    st'.blocksize = st.blocksize ∧
      ((∃ status, ev = .returned status ∧ st'.cur_task = st.cur_task) ∨
       (∃ n d, ev = .fetched st.cur_task n d ∧
          st'.cur_task = (st.cur_task + st.blocksize) % SIZE_MOD ∧
          (st.cur_task + st.blocksize < SIZE_MOD → n ≤ st.blocksize))) := by
  obtain ⟨ti, _, hc⟩ := pass_cases st cpuid st' ev h
  rcases hc with ⟨_, rfl, rfl⟩ | ⟨_, ti', r, _, hr⟩
  · exact ⟨rfl, Or.inl ⟨_, rfl, rfl⟩⟩
  · rcases hr with ⟨t, _, rfl, rfl⟩ | ⟨_, hf⟩
    · exact ⟨rfl, Or.inl ⟨_, rfl, rfl⟩⟩
    · obtain ⟨_, ti'', d, _, hcur, hbs, _, _, _, _, _, _, hev, hcase⟩ :=
        fetch_block_cases _ _ _ _ hf
      simp only at hcur hbs hev hcase
      refine ⟨hbs, Or.inr ⟨ti''.numv_remaining_in_block, d, hev, hcur, ?_⟩⟩
      intro hlt
      rcases hcase with ⟨rfl, _⟩ | ⟨_, _, _, _, hx⟩ | ⟨_, _, _, hx⟩
      · exact Nat.zero_le _
      · rcases hx with ⟨_, h1, h2, h3⟩ | ⟨h3, _⟩
        · rw [Nat.mod_eq_of_lt hlt] at h1
          omega
        · omega
      · omega

theorem fetched_blocks_ordered : ∀ (sched : List Nat) (st0 st : round_robin_scheduler)
    (log : List (Nat × pass_result)),
    run_passes sched st0 = some (st, log) →
    st0.cur_task + (fetched_blocks log).length * st0.blocksize < SIZE_MOD →
    (fetched_blocks log).Pairwise (fun x y => x.1 + x.2 ≤ y.1) ∧
      ∀ y ∈ fetched_blocks log, st0.cur_task ≤ y.1 := by
  intro sched
  induction sched with
  | nil =>
    intro st0 st log h _
    simp only [run_passes, Option.some.injEq, Prod.mk.injEq] at h
    rw [← h.2]
    simp [fetched_blocks]
  | cons c rest ih =>
    intro st0 st log h hb
    obtain ⟨s1, ev, log', hp, hr, rfl⟩ := run_passes_cons_some c rest st0 st log h
    obtain ⟨hbs, hc⟩ := pass_fetch_facts st0 c s1 ev hp
    rcases hc with ⟨status, rfl, hcur⟩ | ⟨n, d, rfl, hcur, hn⟩
    · have := ih s1 st log' hr (by
        rw [hcur, hbs]
        simpa [fetched_blocks] using hb)
      rw [hcur] at this
      simpa [fetched_blocks] using this
    · have hlen : (fetched_blocks ((c, pass_result.fetched st0.cur_task n d) :: log')).length
            * st0.blocksize
          = (fetched_blocks log').length * st0.blocksize + st0.blocksize := by
        simp [fetched_blocks, Nat.add_mul]
      rw [hlen] at hb
      have hlt : st0.cur_task + st0.blocksize < SIZE_MOD := by omega
      rw [Nat.mod_eq_of_lt hlt] at hcur
      have hn' := hn hlt
      obtain ⟨h1, h2⟩ := ih s1 st log' hr (by rw [hcur, hbs]; omega)
      rw [hcur] at h2
      simp only [fetched_blocks, List.pairwise_cons, List.mem_cons]
      refine ⟨⟨?_, h1⟩, ?_⟩
      · intro y hy
        have := h2 y hy
        omega
      · intro y hy
        rcases hy with rfl | hy
        · exact le_refl _
        · have := h2 y hy
          omega

/-- Claim C7, as amended. From every scheduler state, for every number of workers
and every interleaving of passes, as long as the `cur_task` counter does not
wrap around (`cur_task + fetches * blocksize < 2^64`), the task-id blocks
`[taskid, taskid + count)` obtained by different fetches are pairwise disjoint:
no task id lies in two of them. -/
theorem fetched_blocks_pairwise_disjoint (st0 : round_robin_scheduler) (sched : List Nat)
    (st : round_robin_scheduler) (log : List (Nat × pass_result))
    (hrun : run_passes sched st0 = some (st, log))
    (hnowrap : st0.cur_task + (fetched_blocks log).length * st0.blocksize < SIZE_MOD) :
    (fetched_blocks log).Pairwise
      (fun x y => ∀ id, x.1 ≤ id ∧ id < x.1 + x.2 → ¬ (y.1 ≤ id ∧ id < y.1 + y.2)) := by
  have h := (fetched_blocks_ordered sched st0 st log hrun hnowrap).1
  refine h.imp ?_
  intro x y hxy id hx hy
  omega

/-- Witness for claim C7: five vertices, two workers, two sweeps from vertex 3
with blocks of two task ids; the passes listed fetch the blocks
`[3,5)`, `[5,7)`, `[7,9)`, `[9,11)`, `[11,13)` and the empty block at 13. -/
theorem fetched_blocks_pairwise_disjoint_witness :
    ∃ st log,
      run_passes [0, 1, 0, 1, 0, 0, 1, 1, 0, 0, 1, 1]
        (prepared 5 2 ⟨some 2, some 3, some 1, some 2⟩ [0, 1, 3] (some 7)) = some (st, log) ∧
      fetched_blocks log = [(3, 2), (5, 2), (7, 2), (9, 2), (11, 2), (13, 0)] ∧
      (fetched_blocks log).Pairwise
        (fun x y => ∀ id, x.1 ≤ id ∧ id < x.1 + x.2 → ¬ (y.1 ≤ id ∧ id < y.1 + y.2)) := by
  have h : (run_passes [0, 1, 0, 1, 0, 0, 1, 1, 0, 0, 1, 1]
      (prepared 5 2 ⟨some 2, some 3, some 1, some 2⟩ [0, 1, 3] (some 7))).map
        (fun r => fetched_blocks r.2) = some [(3, 2), (5, 2), (7, 2), (9, 2), (11, 2), (13, 0)] := by decide
  cases hrun : run_passes [0, 1, 0, 1, 0, 0, 1, 1, 0, 0, 1, 1]
      (prepared 5 2 ⟨some 2, some 3, some 1, some 2⟩ [0, 1, 3] (some 7)) with
  | none => rw [hrun] at h; cases h
  | some r =>
    rw [hrun] at h
    simp only [Option.map_some', Option.some.injEq] at h
    exact ⟨r.1, r.2, rfl, h,
      fetched_blocks_pairwise_disjoint _ _ r.1 r.2 hrun (by rw [h]; decide)⟩

/-- Claim C7 as stated fails once `cur_task` wraps around: with block size
`2^63` on a one-vertex graph and `max_iterations` not set, the fetches of three
workers obtain the blocks `[0, 2^63)`, `[2^63, 2^64)` and again `[0, 2^63)`, so
task id 0 is handed to worker 0 and to worker 2. -/
theorem fetched_blocks_wraparound_counterexample :
    ∃ st log,
      run_passes [0, 1, 2]
        (prepared 1 3 ⟨none, none, none, some (2 ^ 63)⟩ [0] (some 7)) = some (st, log) ∧
      log = [(0, .fetched 0 (2 ^ 63) false), (1, .fetched (2 ^ 63) (2 ^ 63) false),
        (2, .fetched 0 (2 ^ 63) false)] ∧
      ¬ (fetched_blocks log).Pairwise
        (fun x y => ∀ id, x.1 ≤ id ∧ id < x.1 + x.2 → ¬ (y.1 ≤ id ∧ id < y.1 + y.2)) := by
  have h : (run_passes [0, 1, 2]
      (prepared 1 3 ⟨none, none, none, some (2 ^ 63)⟩ [0] (some 7))).map (fun r => r.2)
        = some [(0, .fetched 0 (2 ^ 63) false), (1, .fetched (2 ^ 63) (2 ^ 63) false),
            (2, .fetched 0 (2 ^ 63) false)] := by decide
  cases hrun : run_passes [0, 1, 2]
      (prepared 1 3 ⟨none, none, none, some (2 ^ 63)⟩ [0] (some 7)) with
  | none => rw [hrun] at h; cases h
  | some r =>
    rw [hrun] at h
    simp only [Option.map_some', Option.some.injEq] at h
    refine ⟨r.1, r.2, rfl, h, ?_⟩
    rw [h]
    intro hp
    simp only [fetched_blocks, List.pairwise_cons, List.mem_cons] at hp
    have := hp.1 (0, 2 ^ 63) (Or.inr (Or.inl rfl)) 0 ⟨le_refl _, by decide⟩
    exact this ⟨le_refl _, by decide⟩

/-! ### Completion -/

theorem advance_ne_neg1 (N step bb : Nat) (hN : 0 < N) (hNs : N < SIZE_MOD) :
    advance_block_begin N step bb ≠ SIZE_NEG1 := by
  unfold advance_block_begin
  have hb : (bb + step) % SIZE_MOD < SIZE_MOD := Nat.mod_lt _ (by decide)
  generalize (bb + step) % SIZE_MOD = x at hb
  simp only
  by_cases h : x < N
  · simp only [h, if_true]
    have : (1 + SIZE_MOD - 1) % SIZE_MOD = 0 := by simp
    rw [this, Nat.and_zero]
    simp only [SIZE_MOD, SIZE_NEG1] at *
    omega
  · simp only [h, if_false]
    have hm : (0 + SIZE_MOD - 1) % SIZE_MOD = 2 ^ 64 - 1 := by simp [SIZE_MOD]
    rw [hm, Nat.and_pow_two_sub_one_eq_mod]
    have : N % 2 ^ 64 = N := Nat.mod_eq_of_lt (by simpa [SIZE_MOD] using hNs)
    rw [this]
    simp only [SIZE_MOD, SIZE_NEG1] at *
    omega

theorem scan_block_not_done (N step : Nat) (ts : List update_task)
    (hN : 0 < N) (hNs : N < SIZE_MOD) :
    ∀ (rem bb : Nat) (ti : thread_information) (r : Option update_task),
      scan_block N step ts rem bb = some (ti, r) → bb ≠ SIZE_NEG1 →
      ti.block_begin ≠ SIZE_NEG1 := by
  intro rem
  induction rem with
  | zero =>
    intro bb ti r h hbb
    simp only [scan_block, Option.some.injEq, Prod.mk.injEq] at h
    rw [← h.1]; exact hbb
  | succ rem ih =>
    intro bb ti r h _
    simp only [scan_block] at h
    cases hg : ts[bb]? with
    | none => simp [hg] at h
    | some t =>
      simp only [hg] at h
      by_cases hv : t.vertex = VID_NEG1
      · simp only [hv, if_true] at h
        exact ih _ ti r h (advance_ne_neg1 N step bb hN hNs)
      · simp only [hv, if_false, Option.some.injEq, Prod.mk.injEq] at h
        rw [← h.1]
        exact advance_ne_neg1 N step bb hN hNs

theorem run_passes_induction (J : round_robin_scheduler → List (Nat × pass_result) → Prop)
    (hstep : ∀ st log cpuid st' ev, J st log →
      get_next_task_pass st cpuid = some (st', ev) → J st' (log ++ [(cpuid, ev)])) :
    ∀ (sched : List Nat) (st0 st : round_robin_scheduler)
      (pre log : List (Nat × pass_result)),
      J st0 pre → run_passes sched st0 = some (st, log) → J st (pre ++ log) := by
  intro sched
  induction sched with
  | nil =>
    intro st0 st pre log h0 h
    simp only [run_passes, Option.some.injEq, Prod.mk.injEq] at h
    rw [← h.1, ← h.2, List.append_nil]
    exact h0
  | cons c rest ih =>
    intro st0 st pre log h0 h
    obtain ⟨s1, ev, log', hp, hr, rfl⟩ := run_passes_cons_some c rest st0 st log h
    have := ih s1 st (pre ++ [(c, ev)]) log' (hstep st0 pre c s1 ev h0 hp) hr
    simpa using this

theorem pass_of_done (st : round_robin_scheduler) (cpuid : Nat) (hd : is_done st cpuid) :
    get_next_task_pass st cpuid = some (st, .returned .EMPTY) := by
  unfold is_done at hd
  unfold get_next_task_pass
  cases hg : st.thread_info[cpuid]? with
  | none => simp [hg] at hd
  | some ti =>
    simp only [hg, Option.map_some', Option.some.injEq] at hd
    simp [hd]

theorem all_done_run : ∀ (sched : List Nat) (st st' : round_robin_scheduler)
    (log : List (Nat × pass_result)),
    (∀ c, c < st.thread_info.length → is_done st c) →
    run_passes sched st = some (st', log) → st' = st ∧ handed_out log = [] := by
  intro sched
  induction sched with
  | nil =>
    intro st st' log _ h
    simp only [run_passes, Option.some.injEq, Prod.mk.injEq] at h
    rw [← h.1, ← h.2]
    exact ⟨rfl, rfl⟩
  | cons c rest ih =>
    intro st st' log hall h
    obtain ⟨s1, ev, log', hp, hr, rfl⟩ := run_passes_cons_some c rest st st' log h
    obtain ⟨ti, hget, _⟩ := pass_cases st c s1 ev hp
    have hc : c < st.thread_info.length := by
      by_contra hge
      rw [List.getElem?_eq_none (by omega)] at hget
      cases hget
    rw [pass_of_done st c (hall c hc)] at hp
    simp only [Option.some.injEq, Prod.mk.injEq] at hp
    obtain ⟨rfl, rfl⟩ := hp
    obtain ⟨h1, h2⟩ := ih st st' log' hall hr
    exact ⟨h1, by simpa [handed_out] using h2⟩

theorem is_done_set (l : List thread_information) (st : round_robin_scheduler)
    (hl : st.thread_info = l) (c : Nat) :
    is_done st c ↔ (l[c]?).map (fun ti => ti.block_begin) = some SIZE_NEG1 := by
  unfold is_done; rw [hl]

theorem completion_step (N ncpus E : Nat) (hN : 0 < N) (hNs : N < SIZE_MOD)
    (st : round_robin_scheduler) (log : List (Nat × pass_result)) (cpuid : Nat)
    (st' : round_robin_scheduler) (ev : pass_result)
    (hJ : completion_inv N ncpus E st log)
    (hp : get_next_task_pass st cpuid = some (st', ev)) :
    completion_inv N ncpus E st' (log ++ [(cpuid, ev)]) := by
  obtain ⟨ti, hget, hc⟩ := pass_cases st cpuid st' ev hp
  have hlen : cpuid < st.thread_info.length := by
    by_contra hge
    rw [List.getElem?_eq_none (by omega)] at hget
    cases hget
  have hlen' : cpuid < ncpus := by rw [← hJ.nthr]; exact hlen
  have hmono : ∀ c, (∃ t d, (c, pass_result.fetched t 0 d) ∈ log ∧ E ≤ t ∧
      st.maxiterations ≠ 0) →
      ∃ t d, (c, pass_result.fetched t 0 d) ∈ log ++ [(cpuid, ev)] ∧ E ≤ t ∧
        st.maxiterations ≠ 0 := by
    rintro c ⟨t, d, h1, h2, h3⟩
    exact ⟨t, d, List.mem_append_left _ h1, h2, h3⟩
  rcases hc with ⟨_, rfl, rfl⟩ | ⟨hd, ti', r, hscan, hr⟩
  · exact ⟨hJ.numv, hJ.nthr, hJ.endt, hJ.quit, fun c hc => hmono c (hJ.fetched c hc)⟩
  · have hnd : ¬ is_done st cpuid := by
      simp [is_done, hget, hd]
    have hq : ¬ st.terminator.quit = true := fun hq => hnd (hJ.quit hq cpuid hlen')
    have hti' : ti'.block_begin ≠ SIZE_NEG1 := by
      rw [hJ.numv] at hscan
      exact scan_block_not_done N st.step st.task_set hN hNs _ _ ti' r hscan hd
    have hother : ∀ (x : thread_information) c, c ≠ cpuid →
        ((st.thread_info.set cpuid x)[c]?).map (fun ti => ti.block_begin) = some SIZE_NEG1 →
        is_done st c := by
      intro x c hne h
      rw [List.getElem?_set_ne (Ne.symm hne)] at h
      exact h
    rcases hr with ⟨t, _, rfl, rfl⟩ | ⟨_, hf⟩
    · refine ⟨hJ.numv, by simp [hJ.nthr], hJ.endt, fun h => absurd h hq, ?_⟩
      intro c hc
      by_cases hne : c = cpuid
      · subst hne
        simp [is_done, List.getElem?_set_self hlen, hti'] at hc
      · exact hmono c (hJ.fetched c (hother ti' c hne hc))
    · obtain ⟨_, ti'', d, hth, _, _, hend, hnv, hmi, _, _, _, hev, hcase⟩ :=
        fetch_block_cases _ _ _ _ hf
      simp only [List.set_set] at hth hend hnv hmi hev hcase
      have hlen2 : st'.thread_info.length = ncpus := by rw [hth]; simp [hJ.nthr]
      have hdone' := is_done_set _ st' hth
      rcases hcase with ⟨rfl, hm, hle, hdall, hterm⟩ | ⟨hlt, rfl, hterm, _⟩ | ⟨hlt, rfl, hterm, _⟩
      · refine ⟨by rw [hnv]; exact hJ.numv, hlen2, by rw [hend]; exact hJ.endt, ?_, ?_⟩
        · intro hq' c hc
          rw [hterm] at hq'
          by_cases hdd : d = true
          · rw [hdone' c]
            rw [hdall, List.all_eq_true] at hdd
            have hc2 : c < (st.thread_info.set cpuid ⟨SIZE_NEG1, 0⟩).length := by
              simp [hJ.nthr, hc]
            have := hdd _ (List.getElem_mem hc2)
            simp only [decide_eq_true_eq] at this
            rw [List.getElem?_eq_getElem hc2]
            simp [this]
          · simp only [hdd, Bool.false_eq_true, if_false] at hq'
            exact absurd hq' hq
        · intro c hc
          by_cases hne : c = cpuid
          · subst hne
            refine ⟨st.cur_task, d, ?_, by rw [← hJ.endt]; exact hle, by rw [hmi]; exact hm⟩
            rw [hev]
            simp
          · rw [hdone' c] at hc
            obtain ⟨t, d', h1, h2, h3⟩ := hmono c (hJ.fetched c (hother _ c hne hc))
            exact ⟨t, d', h1, h2, by rw [hmi]; exact h3⟩
      all_goals
        have hti'' : ti''.block_begin ≠ SIZE_NEG1 := by
          rw [hJ.numv] at hlt
          simp only [SIZE_MOD, SIZE_NEG1] at *
          omega
        refine ⟨by rw [hnv]; exact hJ.numv, hlen2, by rw [hend]; exact hJ.endt,
          fun h => absurd (hterm ▸ h) hq, ?_⟩
        intro c hc
        by_cases hne : c = cpuid
        · subst hne
          rw [hdone' c] at hc
          simp [List.getElem?_set_self hlen, hti''] at hc
        · rw [hdone' c] at hc
          obtain ⟨t, d', h1, h2, h3⟩ := hmono c (hJ.fetched c (hother _ c hne hc))
          exact ⟨t, d', h1, h2, by rw [hmi]; exact h3⟩

theorem prepared_completion_inv (N ncpus : Nat) (opts : scheduler_options) (vs : List Nat)
    (func : Option Nat) :
    completion_inv N ncpus
      (((opts.start_vertex.getD 0) % SIZE_MOD +
        (((opts.max_iterations.getD 0) % SIZE_MOD) * N) % SIZE_MOD) % SIZE_MOD)
      (prepared N ncpus opts vs func) [] := by
  rw [prepared_eq]
  refine ⟨rfl, by simp, by simp [set_options, create], ?_, ?_⟩
  · intro h; simp at h
  · intro c hc
    exfalso
    simp only [is_done] at hc
    by_cases hlt : c < ncpus
    · rw [List.getElem?_eq_getElem (by simpa using hlt)] at hc
      simp [SIZE_NEG1] at hc
    · rw [List.getElem?_eq_none (by simpa using hlt)] at hc
      simp at hc

/-- Claim C8. Round-robin scheduler on a graph of `N >= 1` vertices, started
with any options (in particular with `max_iterations` configured). In every state
`st` reached by any interleaving of passes: (1) `endtask` is the cutoff
`start_vertex + max_iterations * num_vertices` (in `size_t` arithmetic); (2) if
`terminator.complete()` has been signalled, every worker's `block_begin` is the
done marker; (3) every worker marked done has itself fetched an empty block at a
task id at or beyond `endtask`, with `max_iterations` non-zero; (4) a worker
marked done receives `EMPTY`, with the state unchanged, on every later call; (5)
after completion has been signalled no task is handed out. -/
theorem completion_only_after_every_worker_done (N ncpus : Nat) (opts : scheduler_options)
    (vs : List Nat) (func : Option Nat) (sched : List Nat) (st : round_robin_scheduler)
    (log : List (Nat × pass_result)) (hN : 0 < N) (hNs : N < SIZE_MOD)
    (hrun : run_passes sched (prepared N ncpus opts vs func) = some (st, log)) :
    st.endtask = ((opts.start_vertex.getD 0) % SIZE_MOD +
        (((opts.max_iterations.getD 0) % SIZE_MOD) * N) % SIZE_MOD) % SIZE_MOD ∧
    (st.terminator.quit = true → ∀ c, c < ncpus → is_done st c) ∧
    (∀ c, is_done st c →
      ∃ t d, (c, pass_result.fetched t 0 d) ∈ log ∧ st.endtask ≤ t ∧ st.maxiterations ≠ 0) ∧
    (∀ c, is_done st c → ∀ sched' st' log', run_passes sched' st = some (st', log') →
      ∀ fuel, get_next_task (fuel + 1) st' c = some (st', .EMPTY)) ∧
    (st.terminator.quit = true → ∀ sched' st' log',
      run_passes sched' st = some (st', log') → handed_out log' = []) := by
  have hJ := run_passes_induction
    (completion_inv N ncpus
      (((opts.start_vertex.getD 0) % SIZE_MOD +
        (((opts.max_iterations.getD 0) % SIZE_MOD) * N) % SIZE_MOD) % SIZE_MOD))
    (fun st log cpuid st' ev h1 h2 =>
      completion_step N ncpus _ hN hNs st log cpuid st' ev h1 h2)
    sched _ st [] log (prepared_completion_inv N ncpus opts vs func) hrun
  rw [List.nil_append] at hJ
  refine ⟨hJ.endt, hJ.quit, ?_, ?_, ?_⟩
  · intro c hc
    obtain ⟨t, d, h1, h2, h3⟩ := hJ.fetched c hc
    exact ⟨t, d, h1, by rw [hJ.endt]; exact h2, h3⟩
  · intro c hc sched' st' log' hrun' fuel
    have hd := run_done_stable sched' st st' log' hrun' c hc
    simp [get_next_task, pass_of_done st' c hd]
  · intro hq sched' st' log' hrun'
    exact (all_done_run sched' st st' log'
      (fun c hc => hJ.quit hq c (by rw [← hJ.nthr]; exact hc)) hrun').2

/-- Witness for claim C8: five vertices, two workers, one sweep from vertex 3
with blocks of two task ids; after the passes listed both workers are marked
done and completion has been signalled. -/
theorem completion_only_after_every_worker_done_witness :
    ∃ st log,
      run_passes [0, 1, 0, 1, 0, 0, 1, 1, 0, 0, 1, 1]
        (prepared 5 2 ⟨some 1, some 3, some 1, some 2⟩ [0, 1, 3] (some 7)) = some (st, log) ∧
      st.terminator.quit = true ∧ is_done st 0 ∧ is_done st 1 ∧ st.endtask = 8 ∧
      (∀ c, is_done st c →
        ∃ t d, (c, pass_result.fetched t 0 d) ∈ log ∧ st.endtask ≤ t ∧
          st.maxiterations ≠ 0) := by
  have h : (run_passes [0, 1, 0, 1, 0, 0, 1, 1, 0, 0, 1, 1]
      (prepared 5 2 ⟨some 1, some 3, some 1, some 2⟩ [0, 1, 3] (some 7))).map
        (fun r => (r.1.terminator.quit, decide (is_done r.1 0), decide (is_done r.1 1),
          r.1.endtask)) = some (true, true, true, 8) := by decide
  cases hrun : run_passes [0, 1, 0, 1, 0, 0, 1, 1, 0, 0, 1, 1]
      (prepared 5 2 ⟨some 1, some 3, some 1, some 2⟩ [0, 1, 3] (some 7)) with
  | none => rw [hrun] at h; cases h
  | some r =>
    rw [hrun] at h
    simp only [Option.map_some', Option.some.injEq, Prod.mk.injEq, decide_eq_true_eq] at h
    exact ⟨r.1, r.2, rfl, h.1, h.2.1, h.2.2.1, h.2.2.2,
      (completion_only_after_every_worker_done 5 2 ⟨some 1, some 3, some 1, some 2⟩
        [0, 1, 3] (some 7) _ r.1 r.2 (by decide) (by decide) hrun).2.2.1⟩

/-! ## Theorems: shared variables -/

theorem sel_upd_other {T : Type} (p : T × T) (i j : Fin 2) (x : T) (h : j ≠ i) :
    sel (upd p i x) j = sel p j := by
  unfold sel upd
  have : ∀ a b : Fin 2, a ≠ 0 → b ≠ 0 → a = b := by decide
  by_cases hi : i = 0 <;> by_cases hj : j = 0 <;> simp [hi, hj]
  · exact absurd (hj.trans hi.symm) h
  · exact absurd (this j i hj hi) h

theorem glshared_write_effect {T : Type} (g g' : glshared T) (w : glshared_op T)
    (hw : w.is_write = true) (h : g.exec w = some g') :
    sel g.use_count g.buffer = 0 ∧ g'.use_count = g.use_count ∧ g'.buffer = g.head ∧
      g'.head = g.buffer ∧
      ∀ q, q ≠ g.buffer → sel g'.buffer_and_head q = sel g.buffer_and_head q := by
  cases w with
  | get_ptr => cases hw
  | release p => cases hw
  | set t =>
    simp only [glshared.exec, glshared.set] at h
    by_cases hc : sel g.use_count g.buffer = 0
    · simp only [hc, ne_eq, not_true_eq_false, if_false, Option.some.injEq] at h
      subst h
      exact ⟨hc, rfl, rfl, rfl, fun q hq => sel_upd_other _ _ _ _ hq⟩
    · simp [hc] at h
  | exchange t =>
    simp only [glshared.exec, glshared.exchange] at h
    by_cases hc : sel g.use_count g.buffer = 0
    · simp only [hc, ne_eq, not_true_eq_false, if_false, Option.map_some',
        Option.some.injEq] at h
      subst h
      exact ⟨hc, rfl, rfl, rfl, fun q hq => sel_upd_other _ _ _ _ hq⟩
    · simp [hc] at h
  | apply f =>
    simp only [glshared.exec, glshared.apply] at h
    by_cases hc : sel g.use_count g.buffer = 0
    · simp only [hc, ne_eq, not_true_eq_false, if_false, Option.some.injEq] at h
      subst h
      exact ⟨hc, rfl, rfl, rfl, fun q hq => sel_upd_other _ _ _ _ hq⟩
    · simp [hc] at h

theorem glshared_read_effect {T : Type} (g g' : glshared T) (op : glshared_op T)
    (hw : op.is_write = false) (h : g.exec op = some g') :
    g'.buffer_and_head = g.buffer_and_head ∧ g'.buffer = g.buffer ∧ g'.head = g.head := by
  cases op with
  | get_ptr =>
    simp only [glshared.exec, glshared.get_ptr, Option.some.injEq] at h
    subst h
    exact ⟨rfl, rfl, rfl⟩
  | release p =>
    simp only [glshared.exec, glshared.release] at h
    by_cases hc : sel g.use_count p = 0
    · simp [hc] at h
    · simp only [hc, if_false, Option.some.injEq] at h
      subst h
      exact ⟨rfl, rfl, rfl⟩
  | set t => cases hw
  | exchange t => cases hw
  | apply f => cases hw

theorem glshared_write_blocked {T : Type} (g : glshared T) (w : glshared_op T)
    (hw : w.is_write = true) (h : 0 < sel g.use_count g.buffer) : g.exec w = none := by
  have hc : sel g.use_count g.buffer ≠ 0 := by omega
  cases w with
  | get_ptr => cases hw
  | release p => cases hw
  | set t => simp [glshared.exec, glshared.set, hc]
  | exchange t => simp [glshared.exec, glshared.exchange, hc]
  | apply f => simp [glshared.exec, glshared.apply, hc]

theorem glshared_step_slot {T : Type} (g g' : glshared T) (op : glshared_op T)
    (h : g.exec op = some g') (q : Fin 2) (hq : 0 < sel g.use_count q) :
    sel g'.buffer_and_head q = sel g.buffer_and_head q := by
  by_cases hw : op.is_write = true
  · obtain ⟨h0, _, _, _, h4⟩ := glshared_write_effect g g' op hw h
    exact h4 q (fun e => by rw [e] at hq; omega)
  · have hw' : op.is_write = false := by simpa using hw
    rw [(glshared_read_effect g g' op hw' h).1]

theorem glshared_held_slot {T : Type} (p : Fin 2) : ∀ (ops : List (glshared_op T))
    (g g' : glshared T), glshared.run ops g = some g' → glshared.held p ops g = true →
    sel g'.buffer_and_head p = sel g.buffer_and_head p := by
  intro ops
  induction ops with
  | nil =>
    intro g g' h _
    simp only [glshared.run, Option.some.injEq] at h
    rw [h]
  | cons op ops ih =>
    intro g g' h hh
    simp only [glshared.run] at h
    simp only [glshared.held, Bool.and_eq_true, decide_eq_true_eq] at hh
    cases he : g.exec op with
    | none => simp [he] at h
    | some g1 =>
      simp only [he] at h hh
      rw [ih g1 g' h hh.2]
      exact glshared_step_slot g g1 op he p hh.1

theorem glshared_no_write_while_held {T : Type} (p : Fin 2) :
    ∀ (ops : List (glshared_op T)) (g g' : glshared T), g.buffer = p →
    glshared.run ops g = some g' → glshared.held p ops g = true →
    ∀ op ∈ ops, op.is_write = false := by
  intro ops
  induction ops with
  | nil => intro g g' _ _ _ op hop; cases hop
  | cons o ops ih =>
    intro g g' hb h hh op hop
    simp only [glshared.run] at h
    simp only [glshared.held, Bool.and_eq_true, decide_eq_true_eq] at hh
    cases he : g.exec o with
    | none => simp [he] at h
    | some g1 =>
      simp only [he] at h hh
      have hnw : o.is_write = false := by
        by_contra hw
        have hw' : o.is_write = true := by simpa using hw
        rw [glshared_write_blocked g o hw' (by rw [hb]; exact hh.1)] at he
        cases he
      rcases List.mem_cons.mp hop with rfl | hmem
      · exact hnw
      · exact ih g1 g' (by rw [(glshared_read_effect g g1 o hnw he).2.1]; exact hb) h hh.2
          op hmem

theorem glshared_head_ne_buffer {T : Type} : ∀ (ops : List (glshared_op T))
    (g g' : glshared T), g.head ≠ g.buffer → glshared.run ops g = some g' →
    g'.head ≠ g'.buffer := by
  intro ops
  induction ops with
  | nil =>
    intro g g' hne h
    simp only [glshared.run, Option.some.injEq] at h
    rw [← h]; exact hne
  | cons op ops ih =>
    intro g g' hne h
    simp only [glshared.run] at h
    cases he : g.exec op with
    | none => simp [he] at h
    | some g1 =>
      simp only [he] at h
      refine ih g1 g' ?_ h
      by_cases hw : op.is_write = true
      · obtain ⟨_, _, h2, h3, _⟩ := glshared_write_effect g g1 op hw he
        rw [h2, h3]; exact fun e => hne e.symm
      · have hw' : op.is_write = false := by simpa using hw
        obtain ⟨_, h2, h3⟩ := glshared_read_effect g g1 op hw' he
        rw [h2, h3]; exact hne

/-- Claim C6, as amended. Let `g` be the state of a shared variable after any
sequence of `get_ptr` / release / `set` / `exchange` / `apply` operations on a
fresh variable. (1) A write that proceeds in `g` changes no instance of the data
to which a reader holds a reference. (2) The value seen through the pointer `p`
that `get_ptr` returns never changes while a reference to it is held. (3) If no
reference to the other instance (the buffer) is outstanding, the first write
after `get_ptr` proceeds without waiting, targets the other instance, and makes
`p` the buffer; from then on no write proceeds as long as the reference is held. -/
theorem glshared_reader_isolation {T : Type} (d : T) (ops0 : List (glshared_op T))
    (g : glshared T) (hreach : glshared.run ops0 (glshared.create d) = some g) :
    (∀ w g', w.is_write = true → g.exec w = some g' →
      ∀ q, 0 < sel g.use_count q → sel g'.buffer_and_head q = sel g.buffer_and_head q) ∧
    (∀ ops g', glshared.run ops g.get_ptr.2 = some g' →
      glshared.held g.get_ptr.1 ops g.get_ptr.2 = true →
      sel g'.buffer_and_head g.get_ptr.1 = g.get_val) ∧
    (sel g.use_count g.buffer = 0 → ∀ w, w.is_write = true →
      ∃ g2, g.get_ptr.2.exec w = some g2 ∧ g2.buffer = g.get_ptr.1 ∧
        sel g2.buffer_and_head g.get_ptr.1 = g.get_val ∧
        ∀ ops g', glshared.run ops g2 = some g' → glshared.held g.get_ptr.1 ops g2 = true →
          ∀ op ∈ ops, op.is_write = false) := by
  have hne : g.head ≠ g.buffer :=
    glshared_head_ne_buffer ops0 (glshared.create d) g
      (show (1 : Fin 2) ≠ 0 by decide) hreach
  refine ⟨?_, ?_, ?_⟩
  · intro w g' _ he q hq
    exact glshared_step_slot g g' w he q hq
  · intro ops g' hrun hheld
    rw [glshared_held_slot g.get_ptr.1 ops g.get_ptr.2 g' hrun hheld]
    rfl
  · intro hfree w hw
    have hcnt : sel g.get_ptr.2.use_count g.get_ptr.2.buffer = 0 := by
      show sel (upd g.use_count g.head (sel g.use_count g.head + 1)) g.buffer = 0
      rw [sel_upd_other _ _ _ _ (fun e => hne e.symm)]
      exact hfree
    have hex : ∃ g2, g.get_ptr.2.exec w = some g2 := by
      cases w with
      | get_ptr => cases hw
      | release p => cases hw
      | set t =>
        simp only [glshared.exec, glshared.set, hcnt, ne_eq, not_true_eq_false, if_false]
        exact ⟨_, rfl⟩
      | exchange t =>
        simp only [glshared.exec, glshared.exchange, hcnt, ne_eq, not_true_eq_false,
          if_false, Option.map_some']
        exact ⟨_, rfl⟩
      | apply f =>
        simp only [glshared.exec, glshared.apply, hcnt, ne_eq, not_true_eq_false, if_false]
        exact ⟨_, rfl⟩
    obtain ⟨g2, hg2⟩ := hex
    obtain ⟨_, _, h2, _, h4⟩ := glshared_write_effect g.get_ptr.2 g2 w hw hg2
    refine ⟨g2, hg2, h2, ?_, ?_⟩
    · rw [h4 g.get_ptr.1 hne]
      rfl
    · intro ops g' hrun hheld
      exact glshared_no_write_while_held g.get_ptr.1 ops g2 g' h2 hrun hheld

/-- Witness for claim C6: a variable that was written once (`set 7`), then read
through `get_ptr`; `set 8` proceeds and the reader still sees 7. -/
theorem glshared_reader_isolation_witness :
    glshared.run [glshared_op.set 7] (glshared.create (0 : Nat))
        = some ⟨(7, 0), (0, 0), 1, 0⟩ ∧
    (∃ g2, (glshared.get_ptr (⟨(7, 0), (0, 0), 1, 0⟩ : glshared Nat)).2.exec (.set 8) = some g2 ∧
        g2.buffer = 0 ∧ sel g2.buffer_and_head 0 = 7 ∧ g2.get_val = 8) := by
  have h := glshared_reader_isolation (0 : Nat) [glshared_op.set 7] ⟨(7, 0), (0, 0), 1, 0⟩
    (by decide)
  obtain ⟨g2, h1, h2, h3, _⟩ := h.2.2 (by decide) (.set 8) rfl
  refine ⟨by decide, g2, h1, h2, h3, ?_⟩
  have : (glshared.get_ptr (⟨(7, 0), (0, 0), 1, 0⟩ : glshared Nat)).2.exec (.set 8)
      = some ⟨(7, 8), (1, 0), 0, 1⟩ := by decide
  rw [this] at h1
  cases h1
  decide

/-- Claim C6 as stated fails for a second reader: after `get_ptr`, `set 1`,
`get_ptr`, the first write after the second `get_ptr` does not proceed, because
the first reader still holds the instance that is now the buffer. -/
theorem glshared_first_write_waits_counterexample :
    ∃ g : glshared Nat,
      glshared.run [.get_ptr, .set 1, .get_ptr] (glshared.create 0) = some g ∧
      g.exec (.set 2) = none ∧ g.exec (.exchange 2) = none ∧
      g.exec (.apply (fun x => x + 1)) = none :=
  ⟨⟨(1, 0), (1, 1), 1, 0⟩, by decide, by decide, by decide, by decide⟩

/-! ## Theorems: termination conditions of the engine -/

theorem check_term_functions_iff (fs : List (Unit → Bool)) :
    asynchronous_engine.check_term_functions fs = true ↔ ∃ f ∈ fs, f () = true := by
  induction fs with
  | nil => simp [asynchronous_engine.check_term_functions]
  | cons f fs ih =>
    simp only [asynchronous_engine.check_term_functions, List.mem_cons, exists_eq_or_imp]
    by_cases hf : f () = true
    · simp [hf]
    · simp [hf, ih]

/-- Claim C9. `satisfies_termination_condition` returns true if and only if
(`timeout_millis > 0` and `start_time_millis + timeout_millis < ` current time)
or (`task_budget > 0` and `last_update_count() > task_budget`) or some registered
terminator function returns true. In particular with a timeout of 0 and a task
budget of 0 (as `set_timeout(0)` and `set_task_budget(0)` leave them) neither the
timeout nor the budget condition holds, and the check returns true only if a
terminator function does. -/
theorem satisfies_termination_condition_iff {A : Type} (e : asynchronous_engine A)
    (now : Nat) :
    ((e.satisfies_termination_condition now).1 = true ↔
      (e.timeout_millis > 0 ∧ (e.start_time_millis + e.timeout_millis) % SIZE_MOD < now) ∨
      (e.task_budget > 0 ∧ e.last_update_count > e.task_budget) ∨
      (∃ f ∈ e.term_functions, f () = true)) ∧
    (e.timeout_millis = 0 → e.task_budget = 0 →
      ((e.satisfies_termination_condition now).1 = true ↔
        ∃ f ∈ e.term_functions, f () = true)) ∧
    (∀ n, ¬ asynchronous_engine.timeout_condition (e.set_timeout 0) n) ∧
    ¬ asynchronous_engine.budget_condition (e.set_task_budget 0) := by
  have main : (e.satisfies_termination_condition now).1 = true ↔
      (e.timeout_millis > 0 ∧ (e.start_time_millis + e.timeout_millis) % SIZE_MOD < now) ∨
      (e.task_budget > 0 ∧ e.last_update_count > e.task_budget) ∨
      (∃ f ∈ e.term_functions, f () = true) := by
    unfold asynchronous_engine.satisfies_termination_condition
    rw [← check_term_functions_iff]
    by_cases h1 : asynchronous_engine.timeout_condition e now
    · simp only [h1, if_true, true_iff]
      exact Or.inl h1
    · by_cases h2 : asynchronous_engine.budget_condition e
      · simp only [h1, h2, if_false, if_true, true_iff]
        exact Or.inr (Or.inl h2)
      · have h1' := h1
        have h2' := h2
        unfold asynchronous_engine.timeout_condition at h1'
        unfold asynchronous_engine.budget_condition at h2'
        by_cases h3 : asynchronous_engine.check_term_functions e.term_functions = true
        · simp [h1, h2, h3]
        · simp only [h1, h2, h3, if_false, Bool.false_eq_true, false_iff]
          tauto
  refine ⟨main, ?_, ?_, ?_⟩
  · intro ht hb
    rw [main]
    constructor
    · rintro (⟨h, _⟩ | ⟨h, _⟩ | h)
      · omega
      · omega
      · exact h
    · intro h
      exact Or.inr (Or.inr h)
  · intro n h
    have := h.1
    simp [asynchronous_engine.set_timeout] at this
  · intro h
    have := h.1
    simp [asynchronous_engine.set_task_budget] at this

theorem satisfies_termination_condition_frame {A : Type} (e : asynchronous_engine A)
    (now : Nat) :
    (e.satisfies_termination_condition now).2 =
      { e with termination_reason :=
          (e.satisfies_termination_condition now).2.termination_reason } := by
  unfold asynchronous_engine.satisfies_termination_condition
  split_ifs <;> rfl

/-- Claim C10. A termination check records exactly one reason: when
`satisfies_termination_condition` returns true, the recorded reason is
`EXEC_TIMEOUT` if the timeout condition holds, otherwise
`EXEC_TASK_BUDGET_EXCEEDED` if the budget condition holds, otherwise
`EXEC_TERM_FUNCTION`; when it returns false the engine, and with it the
previously recorded reason, is unchanged. In both cases nothing but
`termination_reason` is written. -/
theorem termination_reason_recorded {A : Type} (e : asynchronous_engine A) (now : Nat) :
    ((e.satisfies_termination_condition now).1 = true →
      (e.satisfies_termination_condition now).2.termination_reason =
        if asynchronous_engine.timeout_condition e now then exec_status.EXEC_TIMEOUT
        else if asynchronous_engine.budget_condition e then
          exec_status.EXEC_TASK_BUDGET_EXCEEDED
        else exec_status.EXEC_TERM_FUNCTION) ∧
    ((e.satisfies_termination_condition now).1 = false →
      (e.satisfies_termination_condition now).2 = e) ∧
    (e.satisfies_termination_condition now).2 =
      { e with termination_reason :=
          (e.satisfies_termination_condition now).2.termination_reason } := by
  unfold asynchronous_engine.satisfies_termination_condition
  by_cases h1 : asynchronous_engine.timeout_condition e now
  · simp [h1]
  · by_cases h2 : asynchronous_engine.budget_condition e
    · simp [h1, h2]
    · by_cases h3 : asynchronous_engine.check_term_functions e.term_functions = true
      · simp [h1, h2, h3]
      · simp [h1, h2, h3]

/-! ## Theorems: the worker loop -/

theorem foldl_add_eq {M : Type} [AddMonoid M] (v : Nat → M) (l : List Nat) :
    ∀ (a : M), l.foldl (fun acc i => acc + v i) a = a + (l.map v).sum := by
  induction l with
  | nil => intro a; simp
  | cons x l ih =>
    intro a
    simp only [List.foldl_cons, List.map_cons, List.sum_cons]
    rw [ih, add_assoc]

theorem foldl_merge_eq {M : Type} [AddMonoid M] (l : List M) :
    ∀ (a : M), l.foldl (fun x y => x + y) a = a + l.sum := by
  induction l with
  | nil => intro a; simp
  | cons x l ih =>
    intro a
    simp only [List.foldl_cons, List.sum_cons]
    rw [ih, add_assoc]

theorem range_sum_split {M : Type} [AddMonoid M] (v : Nat → M) (a b c : Nat)
    (hab : a ≤ b) (hbc : b ≤ c) :
    ((List.range' a (b - a)).map v).sum + ((List.range' b (c - b)).map v).sum
      = ((List.range' a (c - a)).map v).sum := by
  have h : List.range' a (c - a) = List.range' a (b - a) ++ List.range' b (c - b) := by
    have := List.range'_append_1 a (b - a) (c - b)
    rw [show a + (b - a) = b by omega, show c - b + (b - a) = c - a by omega] at this
    exact this.symm
  rw [h, List.map_append, List.sum_append]

theorem telescope_sum {M : Type} [AddMonoid M] (v : Nat → M) (p : Nat → Nat)
    (hp0 : p 0 = 0) (hmono : ∀ c, p c ≤ p (c + 1)) :
    ∀ m, ((List.range m).map
        (fun c => ((List.range' (p c) (p (c + 1) - p c)).map v).sum)).sum
      = ((List.range' 0 (p m)).map v).sum := by
  intro m
  induction m with
  | zero => simp [hp0]
  | succ m ih =>
    rw [List.range_succ, List.map_append, List.sum_append, ih]
    simp only [List.map_cons, List.map_nil, List.sum_cons, List.sum_nil, add_zero]
    have hle : 0 ≤ p m := Nat.zero_le _
    have := range_sum_split v 0 (p m) (p (m + 1)) hle (hmono m)
    simpa using this

theorem my_range_full {A : Type} (e : asynchronous_engine A) (sync : sync_task A)
    (cpuid : Nat) (hN : e.num_vertices < VID_MOD) (hcpu : 1 ≤ e.ncpus)
    (hcpu32 : e.ncpus ≤ VID_MOD) (hc : cpuid < e.ncpus)
    (hlow : sync.rangelow = 0) (hhigh : e.num_vertices ≤ sync.rangehigh) :
    asynchronous_engine.my_range e sync cpuid
      = (e.num_vertices * cpuid / e.ncpus, e.num_vertices * (cpuid + 1) / e.ncpus) := by
  have hV : VID_MOD = 4294967296 := by decide
  have hS : SIZE_MOD = 18446744073709551616 := by decide
  have hvid : to_vid e.num_vertices = e.num_vertices := Nat.mod_eq_of_lt hN
  have hmin : min sync.rangehigh e.num_vertices = e.num_vertices := Nat.min_eq_right hhigh
  have hnv : (e.num_vertices + VID_MOD - 0) % VID_MOD = e.num_vertices := by
    rw [Nat.sub_zero, Nat.add_mod_right]; exact Nat.mod_eq_of_lt hN
  have hprod : ∀ c, c ≤ e.ncpus → e.num_vertices * c < SIZE_MOD := by
    intro c hcle
    have h1 : e.num_vertices * c ≤ e.num_vertices * e.ncpus := Nat.mul_le_mul_left _ hcle
    have h2 : e.num_vertices * e.ncpus ≤ e.num_vertices * VID_MOD :=
      Nat.mul_le_mul_left _ hcpu32
    have h3 : e.num_vertices * VID_MOD < VID_MOD * VID_MOD :=
      Nat.mul_lt_mul_of_pos_right hN (by decide)
    have h4 : VID_MOD * VID_MOD = SIZE_MOD := by decide
    omega
  have hdiv : ∀ c, c ≤ e.ncpus → e.num_vertices * c / e.ncpus ≤ e.num_vertices := by
    intro c hcle
    calc e.num_vertices * c / e.ncpus
        ≤ e.num_vertices * e.ncpus / e.ncpus :=
          Nat.div_le_div_right (Nat.mul_le_mul_left _ hcle)
      _ = e.num_vertices := Nat.mul_div_cancel _ (by omega)
  have hone : ∀ c, c ≤ e.ncpus →
      to_vid ((0 + ((e.num_vertices * c) % SIZE_MOD) / e.ncpus) % SIZE_MOD)
        = e.num_vertices * c / e.ncpus := by
    intro c hcle
    have h1 := hprod c hcle
    have h2 := hdiv c hcle
    rw [Nat.zero_add, Nat.mod_eq_of_lt h1, Nat.mod_eq_of_lt (by omega)]
    exact Nat.mod_eq_of_lt (by omega)
  unfold asynchronous_engine.my_range
  simp only [hlow, hvid, hmin, hnv]
  rw [hone cpuid (by omega), hone (cpuid + 1) (by omega)]

/-- Claim C3. Sync with a merge function, on a graph of `N < 2^32` vertices with
`ncpus >= 1` syncers (at most `2^32`): for a sum-reduction sync over the whole
range `[0, N)` (`rangelow = 0`, `rangehigh >= N`, as with the default
`rangehigh = -1`; `reduce_fn` adds the vertex value to the accumulator,
`merge_fn` adds two accumulators, `zero = 0`), `parallel_evaluate_sync` passes to
`apply_fn` exactly the sum of `v i` over all `N` vertices, each counted once, and
the shared variable of the sync is what `apply` with that value makes of it. -/
theorem sync_with_merge_sums_all_vertices {M : Type} [AddMonoid M]
    (e : asynchronous_engine M) (syncid : Nat) (sync : sync_task M) (v : Nat → M)
    (hsync : e.sync_tasks[syncid]? = some sync)
    (hN : e.num_vertices < VID_MOD) (hcpu : 1 ≤ e.ncpus) (hcpu32 : e.ncpus ≤ VID_MOD)
    (hacc : e.sync_accumulators.length = e.ncpus)
    (hlow : sync.rangelow = 0) (hhigh : e.num_vertices ≤ sync.rangehigh)
    (hred : ∀ i acc, sync.sync_fun i acc = acc + v i)
    (hmerge : sync.merge_fun = some (fun a b => a + b))
    (hzero : sync.zero = 0) :
    e.sync_apply_param syncid = some ((List.range e.num_vertices).map v).sum ∧
    ∀ g, e.shared[sync.sharedvariable]? = some g →
      (e.parallel_evaluate_sync syncid).bind (fun e1 => e1.shared[sync.sharedvariable]?)
        = g.apply sync.apply_fun ((List.range e.num_vertices).map v).sum := by
  have hacc_eq : ∀ c ∈ List.range e.ncpus,
      asynchronous_engine.my_accumulator e sync c =
        ((List.range' (e.num_vertices * c / e.ncpus)
          (e.num_vertices * (c + 1) / e.ncpus - e.num_vertices * c / e.ncpus)).map v).sum := by
    intro c hc
    have hc' : c < e.ncpus := List.mem_range.mp hc
    unfold asynchronous_engine.my_accumulator asynchronous_engine.reduce_range
    rw [my_range_full e sync c hN hcpu hcpu32 hc' hlow hhigh]
    simp only [hred, hzero]
    rw [foldl_add_eq, zero_add]
  have htel := telescope_sum v (fun c => e.num_vertices * c / e.ncpus) (by simp)
    (fun c => Nat.div_le_div_right (Nat.mul_le_mul_left _ (Nat.le_succ c))) e.ncpus
  simp only at htel
  rw [Nat.mul_div_cancel _ (by omega : 0 < e.ncpus), ← List.range_eq_range'] at htel
  have hparam : e.sync_apply_param syncid = some ((List.range e.num_vertices).map v).sum := by
    unfold asynchronous_engine.sync_apply_param
    simp only [hsync, hmerge, hacc]
    rw [List.map_congr_left hacc_eq]
    cases hl : (List.range e.ncpus).map (fun c =>
        ((List.range' (e.num_vertices * c / e.ncpus)
          (e.num_vertices * (c + 1) / e.ncpus - e.num_vertices * c / e.ncpus)).map v).sum) with
    | nil =>
      have := congrArg List.length hl
      simp at this
      omega
    | cons a t =>
      rw [hl] at htel
      simp only [foldl_merge_eq]
      rw [← htel, List.sum_cons]
  refine ⟨hparam, ?_⟩
  intro g hg
  unfold asynchronous_engine.parallel_evaluate_sync
  simp only [hsync, hparam, hg]
  cases ha : g.apply sync.apply_fun ((List.range e.num_vertices).map v).sum with
  | none => rfl
  | some g1 =>
    have hlt : sync.sharedvariable < e.shared.length := by
      by_contra hge
      rw [List.getElem?_eq_none (by omega)] at hg
      cases hg
    simp [List.getElem?_set_self hlt]

/-- Witness for claim C3: five vertices with the values 1..5 and two syncers;
the value applied is 15. -/
theorem sync_with_merge_sums_all_vertices_witness :
    small_merge_engine.sync_apply_param 0 = some 15 ∧
    (small_merge_engine.parallel_evaluate_sync 0).bind (fun e1 => e1.shared[0]?)
      = (glshared.create 0).apply (fun _ param => param) 15 := by
  have h := sync_with_merge_sums_all_vertices small_merge_engine 0
    { sync_fun := fun i acc => acc + (i + 1), merge_fun := some (fun a b => a + b),
      apply_fun := fun _ param => param, sync_interval := 0, next_time := 0, zero := 0,
      rangelow := 0, rangehigh := VID_NEG1, sharedvariable := 0 }
    (fun i => i + 1) rfl (by decide) (by decide) (by decide) rfl rfl (by decide)
    (fun _ _ => rfl) rfl rfl
  have hs : ((List.range small_merge_engine.num_vertices).map (fun i => i + 1)).sum = 15 := by
    decide
  rw [hs] at h
  exact ⟨h.1, h.2 (glshared.create 0) rfl⟩

/-- Claim C4, the code at the failing input: a sum sync without merge function
over three vertices with the values 1, 2, 3. The left fold of `reduce_fn` over
the vertices 0..2 from `zero = 0` is 6, but the value handed to `apply_fn` is
`zero`, and the shared variable becomes 0: the loop of the no-merge path never
calls `sync_fun`. -/
theorem sync_without_merge_applies_zero :
    asynchronous_engine.reduce_range (fun i acc => acc + (i + 1)) 0 3 0 = 6 ∧
    small_nomerge_engine.sync_apply_param 0 = some 0 ∧
    (small_nomerge_engine.parallel_evaluate_sync 0).map
      (fun e1 => e1.shared.map glshared.get_val) = some [0] := by
  refine ⟨by decide, by decide, by decide⟩

/-- Claim C5, the code at the failing input: two shared variables are
registered, variable 0 with the sum of the vertex values (6 here) and variable 1
with the number of vertices (3 here). `sync_now` on variable 1 puts sync id 1 on
the hand-off queue, but the syncers evaluate sync 0: variable 0 is written and
variable 1 keeps its old value 0. -/
theorem sync_now_evaluates_first_sync :
    two_sync_engine.var2synctask.lookup 1 = some 1 ∧
    (two_sync_engine.sync_now 1).map (fun e1 => e1.shared.map glshared.get_val)
      = some [6, 0] ∧
    (two_sync_engine.parallel_evaluate_sync 1).map (fun e1 => e1.shared.map glshared.get_val)
      = some [0, 3] := by
  refine ⟨by decide, by decide, by decide⟩

/-! ### Empty slots, block size, stride -/

theorem scan_block_first_task (N step : Nat) (ts : List update_task) :
    ∀ (rem bb : Nat) (ti : thread_information) (t : update_task),
      scan_block N step ts rem bb = some (ti, some t) →
      t.vertex ≠ VID_NEG1 ∧
      ∃ m, m < rem ∧ ts[(advance_block_begin N step)^[m] bb]? = some t ∧
        (∀ i, i < m →
          ∃ u, ts[(advance_block_begin N step)^[i] bb]? = some u ∧ u.vertex = VID_NEG1) ∧
        ti = ⟨(advance_block_begin N step)^[m + 1] bb, rem - (m + 1)⟩ := by
  intro rem
  induction rem with
  | zero =>
    intro bb ti t h
    simp [scan_block] at h
  | succ rem ih =>
    intro bb ti t h
    simp only [scan_block] at h
    cases hg : ts[bb]? with
    | none => simp [hg] at h
    | some u =>
      simp only [hg] at h
      by_cases hv : u.vertex = VID_NEG1
      · simp only [hv, if_true] at h
        obtain ⟨hne, m, hm, hget, hskip, hti⟩ := ih _ ti t h
        refine ⟨hne, m + 1, by omega, ?_, ?_, ?_⟩
        · rw [Function.iterate_succ_apply]; exact hget
        · intro i hi
          cases i with
          | zero => exact ⟨u, by simpa using hg, hv⟩
          | succ j =>
            rw [Function.iterate_succ_apply]
            exact hskip j (by omega)
        · rw [hti, Function.iterate_succ_apply (advance_block_begin N step) (m + 1)]
          simp only [thread_information.mk.injEq, true_and]
          omega
      · simp only [hv, if_false, Option.some.injEq, Prod.mk.injEq] at h
        obtain ⟨h1, h2⟩ := h
        subst h2
        refine ⟨hv, 0, by omega, by simpa using hg, fun i hi => by omega, ?_⟩
        rw [← h1]
        simp

theorem fetch_block_frame (s s1 : round_robin_scheduler) (cpuid : Nat) (r : pass_result)
    (h : fetch_block s cpuid = some (s1, r)) :
    s1.task_set = s.task_set ∧ s1.numvertices = s.numvertices ∧ s1.step = s.step ∧
    ∃ taskid count completed, r = .fetched taskid count completed := by
  unfold fetch_block at h
  by_cases hN : s.numvertices = 0
  · simp [hN] at h
  · simp only [hN, if_false] at h
    split_ifs at h <;>
    · simp only [Option.some.injEq, Prod.mk.injEq] at h
      obtain ⟨h1, h2⟩ := h
      subst h1
      exact ⟨rfl, rfl, rfl, _, _, _, h2.symm⟩

theorem scan_block_all_empty (N step : Nat) (ts : List update_task) :
    ∀ (rem bb : Nat) (ti : thread_information),
      scan_block N step ts rem bb = some (ti, none) →
      (∀ i, i < rem →
        ∃ u, ts[(advance_block_begin N step)^[i] bb]? = some u ∧ u.vertex = VID_NEG1) ∧
      ti = ⟨(advance_block_begin N step)^[rem] bb, 0⟩ := by
  intro rem
  induction rem with
  | zero =>
    intro bb ti h
    simp only [scan_block, Option.some.injEq, Prod.mk.injEq, and_true] at h
    exact ⟨fun i hi => by omega, by rw [← h]; rfl⟩
  | succ rem ih =>
    intro bb ti h
    simp only [scan_block] at h
    cases hg : ts[bb]? with
    | none => simp [hg] at h
    | some u =>
      simp only [hg] at h
      by_cases hv : u.vertex = VID_NEG1
      · simp only [hv, if_true] at h
        obtain ⟨hskip, hti⟩ := ih _ ti h
        refine ⟨?_, ?_⟩
        · intro i hi
          cases i with
          | zero => exact ⟨u, by simpa using hg, hv⟩
          | succ j =>
            rw [Function.iterate_succ_apply]
            exact hskip j (by omega)
        · rw [hti, Function.iterate_succ_apply]
      · simp only [hv, if_false, Option.some.injEq, Prod.mk.injEq] at h
        cases h.2

theorem scan_block_returns_first_task (N step : Nat) (ts : List update_task) (t : update_task)
    (ht : t.vertex ≠ VID_NEG1) :
    ∀ (m rem bb : Nat), m < rem →
      (∀ i, i < m →
        ∃ u, ts[(advance_block_begin N step)^[i] bb]? = some u ∧ u.vertex = VID_NEG1) →
      ts[(advance_block_begin N step)^[m] bb]? = some t →
      scan_block N step ts rem bb
        = some (⟨(advance_block_begin N step)^[m + 1] bb, rem - (m + 1)⟩, some t) := by
  intro m
  induction m with
  | zero =>
    intro rem bb hm _ hget
    obtain ⟨r, rfl⟩ : ∃ r, rem = r + 1 := ⟨rem - 1, by omega⟩
    simp only [Function.iterate_zero, id_eq] at hget
    simp only [scan_block, hget, ht, if_false, Function.iterate_succ, Function.iterate_zero,
      Function.comp_apply, id_eq, Nat.zero_add, Nat.add_sub_cancel]
  | succ m ih =>
    intro rem bb hm hskip hget
    obtain ⟨r, rfl⟩ : ∃ r, rem = r + 1 := ⟨rem - 1, by omega⟩
    obtain ⟨u, hu, huv⟩ := hskip 0 (by omega)
    simp only [Function.iterate_zero, id_eq] at hu
    have h1 := ih r (advance_block_begin N step bb) (by omega)
      (fun i hi => by
        have := hskip (i + 1) (by omega)
        rwa [Function.iterate_succ_apply] at this)
      (by rwa [Function.iterate_succ_apply] at hget)
    simp only [scan_block, hu, huv, if_true]
    rw [h1, Function.iterate_succ_apply (advance_block_begin N step) (m + 1)]
    have : r - (m + 1) = r + 1 - (m + 1 + 1) := by omega
    rw [this]


theorem get_next_task_trace :
    ∀ (fuel : Nat) (st : round_robin_scheduler) (cpuid : Nat) (st1 : round_robin_scheduler)
      (t : update_task),
      get_next_task fuel st cpuid = some (st1, .NEWTASK t) →
      ∃ (k : Nat) (s0 : round_robin_scheduler) (log : List (Nat × pass_result)),
        k < fuel ∧ run_passes (List.replicate k cpuid) st = some (s0, log) ∧
        (∀ e ∈ log, ∃ tid n d, e = (cpuid, pass_result.fetched tid n d)) ∧
        s0.task_set = st.task_set ∧ s0.numvertices = st.numvertices ∧ s0.step = st.step ∧
        (∀ (j : Nat) (sj : round_robin_scheduler) (logj : List (Nat × pass_result))
            (tij : thread_information), j < k →
          run_passes (List.replicate j cpuid) st = some (sj, logj) →
          sj.thread_info[cpuid]? = some tij →
          ∀ i, i < tij.numv_remaining_in_block → ∃ u,
            st.task_set[(advance_block_begin st.numvertices st.step)^[i] tij.block_begin]?
              = some u ∧ u.vertex = VID_NEG1) ∧
        get_next_task_pass s0 cpuid = some (st1, .returned (.NEWTASK t)) := by
  intro fuel
  induction fuel with
  | zero => intro st cpuid st1 t h; simp [get_next_task] at h
  | succ fuel ih =>
    intro st cpuid st1 t h
    simp only [get_next_task] at h
    cases hp : get_next_task_pass st cpuid with
    | none => simp [hp] at h
    | some r =>
      obtain ⟨s1, ev⟩ := r
      simp only [hp] at h
      cases ev with
      | returned status =>
        simp only [Option.some.injEq, Prod.mk.injEq] at h
        obtain ⟨h1, h2⟩ := h
        subst h1 h2
        exact ⟨0, st, [], by omega, rfl, (fun e he => by cases he), rfl, rfl, rfl,
          fun j _ _ _ hj => by omega, hp⟩
      | fetched tid cnt cp =>
        simp only at h
        obtain ⟨ti, hti, hcase⟩ := pass_cases st cpuid s1 _ hp
        rcases hcase with ⟨_, _, hev⟩ | ⟨hnd, ti1, r, hscan, hr⟩
        · cases hev
        · rcases hr with ⟨t1, _, _, hev⟩ | ⟨hrn, hf⟩
          · cases hev
          · subst hrn
            obtain ⟨e1, e2, e3, _⟩ := fetch_block_frame _ _ _ _ hf
            simp only at e1 e2 e3
            obtain ⟨hempty, _⟩ := scan_block_all_empty _ _ _ _ _ _ hscan
            obtain ⟨k, s0, log, hk, hrun, hlog, f1, f2, f3, hskip, hlast⟩ :=
              ih s1 cpuid st1 t h
            refine ⟨k + 1, s0, (cpuid, .fetched tid cnt cp) :: log, by omega, ?_, ?_,
              f1.trans e1, f2.trans e2, f3.trans e3, ?_, hlast⟩
            · rw [List.replicate_succ]
              simp only [run_passes, hp, hrun]
            · intro e he
              rcases List.mem_cons.mp he with rfl | he
              · exact ⟨tid, cnt, cp, rfl⟩
              · exact hlog e he
            · intro j sj logj tij hj hrunj htij i hi
              cases j with
              | zero =>
                simp only [List.replicate_zero, run_passes, Option.some.injEq,
                  Prod.mk.injEq] at hrunj
                obtain ⟨rfl, _⟩ := hrunj
                rw [hti] at htij
                cases htij
                exact hempty i hi
              | succ j =>
                rw [List.replicate_succ] at hrunj
                obtain ⟨s1', ev', log', hp', hrun', _⟩ := run_passes_cons_some _ _ _ _ _ hrunj
                rw [hp] at hp'
                simp only [Option.some.injEq, Prod.mk.injEq] at hp'
                obtain ⟨rfl, _⟩ := hp'
                have := hskip j sj log' tij (by omega) hrun' htij i hi
                rw [e1, e2, e3] at this
                exact this


theorem pass_frame (st s1 : round_robin_scheduler) (cpuid : Nat) (ev : pass_result)
    (hp : get_next_task_pass st cpuid = some (s1, ev)) :
    s1.task_set = st.task_set ∧ s1.numvertices = st.numvertices ∧ s1.step = st.step := by
  obtain ⟨ti, _, hcase⟩ := pass_cases st cpuid s1 ev hp
  rcases hcase with ⟨_, rfl, _⟩ | ⟨_, ti1, r, _, hr⟩
  · exact ⟨rfl, rfl, rfl⟩
  · rcases hr with ⟨t1, _, rfl, _⟩ | ⟨_, hf⟩
    · exact ⟨rfl, rfl, rfl⟩
    · obtain ⟨e1, e2, e3, _⟩ := fetch_block_frame _ _ _ _ hf
      exact ⟨e1, e2, e3⟩

theorem get_next_task_after_fetches (cpuid : Nat) :
    ∀ (k : Nat) (st s0 : round_robin_scheduler) (log : List (Nat × pass_result)) (fuel : Nat),
      run_passes (List.replicate k cpuid) st = some (s0, log) →
      (∀ e ∈ log, ∃ tid n d, e = (cpuid, pass_result.fetched tid n d)) →
      get_next_task (k + fuel) st cpuid = get_next_task fuel s0 cpuid ∧
      s0.task_set = st.task_set ∧ s0.numvertices = st.numvertices ∧ s0.step = st.step := by
  intro k
  induction k with
  | zero =>
    intro st s0 log fuel hrun _
    simp only [List.replicate_zero, run_passes, Option.some.injEq, Prod.mk.injEq] at hrun
    obtain ⟨rfl, _⟩ := hrun
    rw [Nat.zero_add]
    exact ⟨rfl, rfl, rfl, rfl⟩
  | succ k ih =>
    intro st s0 log fuel hrun hlog
    rw [List.replicate_succ] at hrun
    obtain ⟨s1, ev, log1, hp, hrun1, hl⟩ := run_passes_cons_some _ _ _ _ _ hrun
    subst hl
    obtain ⟨tid, n, d, he⟩ := hlog _ (List.mem_cons_self _ _)
    simp only [Prod.mk.injEq, true_and] at he
    subst he
    obtain ⟨g1, g2, g3, g4⟩ := ih s1 s0 log1 fuel hrun1
      (fun e he => hlog e (List.mem_cons_of_mem _ he))
    obtain ⟨p1, p2, p3⟩ := pass_frame _ _ _ _ hp
    refine ⟨?_, g2.trans p1, g3.trans p2, g4.trans p3⟩
    have : k + 1 + fuel = (k + fuel) + 1 := by omega
    rw [this]
    simp only [get_next_task, hp]
    exact g1

/-- C19: `get_next_task` never returns `NEWTASK` with a task whose vertex id is
the sentinel `vertex_id_type(-1)`, empty slots are skipped, and the next slot
that is not empty is returned. First part: when a call from the state `st`
returns `NEWTASK t`, the call first made `k` passes that each ended in a block
fetch, and in each of them every slot left in the block the worker held at the
start of the pass is empty; in the pass after them, from the state `s0` reached
by those `k` passes, the `m` slots from the worker's position on are empty, the
slot after them holds `t`, which is not the sentinel, and the worker's position
has advanced past all `m + 1` slots. Second part, the converse: whenever `k`
passes of the worker end in a block fetch and then the `m` slots from the
worker's position on are empty and the next slot of its block holds a task `t`
that is not the sentinel, the call returns `NEWTASK t` and leaves the position
one past that slot. -/
theorem get_next_task_skips_empty_slots :
    (∀ (fuel : Nat) (st : round_robin_scheduler) (cpuid : Nat)
        (st1 : round_robin_scheduler) (t : update_task),
      get_next_task fuel st cpuid = some (st1, .NEWTASK t) →
      t.vertex ≠ VID_NEG1 ∧
      ∃ (k : Nat) (s0 : round_robin_scheduler) (log : List (Nat × pass_result))
          (ti : thread_information) (m : Nat),
        k < fuel ∧ run_passes (List.replicate k cpuid) st = some (s0, log) ∧
        (∀ e ∈ log, ∃ tid n d, e = (cpuid, pass_result.fetched tid n d)) ∧
        (∀ (j : Nat) (sj : round_robin_scheduler) (logj : List (Nat × pass_result))
            (tij : thread_information), j < k →
          run_passes (List.replicate j cpuid) st = some (sj, logj) →
          sj.thread_info[cpuid]? = some tij →
          ∀ i, i < tij.numv_remaining_in_block → ∃ u,
            st.task_set[(advance_block_begin st.numvertices st.step)^[i] tij.block_begin]?
              = some u ∧ u.vertex = VID_NEG1) ∧
        s0.thread_info[cpuid]? = some ti ∧ m < ti.numv_remaining_in_block ∧
        st.task_set[(advance_block_begin st.numvertices st.step)^[m] ti.block_begin]?
          = some t ∧
        (∀ i, i < m → ∃ u,
          st.task_set[(advance_block_begin st.numvertices st.step)^[i] ti.block_begin]?
            = some u ∧ u.vertex = VID_NEG1) ∧
        get_next_task_pass s0 cpuid = some (st1, .returned (.NEWTASK t)) ∧
        st1 = { s0 with
          thread_info := s0.thread_info.set cpuid
            ⟨(advance_block_begin st.numvertices st.step)^[m + 1] ti.block_begin,
              ti.numv_remaining_in_block - (m + 1)⟩ }) ∧
    (∀ (fuel : Nat) (st : round_robin_scheduler) (cpuid k : Nat)
        (s0 : round_robin_scheduler) (log : List (Nat × pass_result))
        (ti : thread_information) (m : Nat) (t : update_task),
      run_passes (List.replicate k cpuid) st = some (s0, log) →
      (∀ e ∈ log, ∃ tid n d, e = (cpuid, pass_result.fetched tid n d)) →
      s0.thread_info[cpuid]? = some ti → ti.block_begin ≠ SIZE_NEG1 →
      m < ti.numv_remaining_in_block →
      (∀ i, i < m → ∃ u,
        st.task_set[(advance_block_begin st.numvertices st.step)^[i] ti.block_begin]?
          = some u ∧ u.vertex = VID_NEG1) →
      st.task_set[(advance_block_begin st.numvertices st.step)^[m] ti.block_begin]?
        = some t →
      t.vertex ≠ VID_NEG1 →
      get_next_task (k + (fuel + 1)) st cpuid
        = some ({ s0 with
            thread_info := s0.thread_info.set cpuid
              ⟨(advance_block_begin st.numvertices st.step)^[m + 1] ti.block_begin,
                ti.numv_remaining_in_block - (m + 1)⟩ }, .NEWTASK t)) := by
  constructor
  · intro fuel st cpuid st1 t h
    obtain ⟨k, s0, log, hk, hrun, hlog, f1, f2, f3, hskip, hlast⟩ :=
      get_next_task_trace fuel st cpuid st1 t h
    obtain ⟨ti, hti, hcase⟩ := pass_cases s0 cpuid st1 _ hlast
    rcases hcase with ⟨_, _, hev⟩ | ⟨_, ti1, r, hscan, hr⟩
    · cases hev
    · rcases hr with ⟨t1, hr1, hst1, hev⟩ | ⟨_, hf⟩
      · simp only [pass_result.returned.injEq, sched_status.NEWTASK.injEq] at hev
        subst hev hr1
        rw [f1, f2, f3] at hscan
        obtain ⟨hne, m, hm, hget, hempty, hti1⟩ := scan_block_first_task _ _ _ _ _ _ _ hscan
        exact ⟨hne, k, s0, log, ti, m, hk, hrun, hlog, hskip, hti, hm, hget, hempty, hlast,
          by rw [hst1, hti1]⟩
      · obtain ⟨_, _, _, tid, cnt, cp, hev⟩ := fetch_block_frame _ _ _ _ hf
        cases hev
  · intro fuel st cpuid k s0 log ti m t hrun hlog hti hnd hm hempty hget hne
    obtain ⟨hcall, f1, f2, f3⟩ := get_next_task_after_fetches cpuid k st s0 log (fuel + 1)
      hrun hlog
    have hscan := scan_block_returns_first_task st.numvertices st.step st.task_set t hne m
      ti.numv_remaining_in_block ti.block_begin hm hempty hget
    have hscan1 : scan_block s0.numvertices s0.step s0.task_set ti.numv_remaining_in_block
        ti.block_begin
        = some (⟨(advance_block_begin st.numvertices st.step)^[m + 1] ti.block_begin,
            ti.numv_remaining_in_block - (m + 1)⟩, some t) := by
      rw [f1, f2, f3]; exact hscan
    have hp : get_next_task_pass s0 cpuid
        = some ({ s0 with
            thread_info := s0.thread_info.set cpuid
              ⟨(advance_block_begin st.numvertices st.step)^[m + 1] ti.block_begin,
                ti.numv_remaining_in_block - (m + 1)⟩ }, .returned (.NEWTASK t)) := by
      unfold get_next_task_pass
      simp only [hti, hnd, if_false, hscan1]
    rw [hcall]
    simp only [get_next_task, hp]

/-- Witness for claim C19: in a scheduler for four vertices where only vertex 2 has
a task, the first call of `get_next_task` fetches the block of all four slots in
its first pass, skips the empty slots 0 and 1 in its second and returns the task
of vertex 2; the worker's position is then 3 with one slot left. -/
theorem get_next_task_skips_empty_slots_witness :
    sparse_start.task_set.map (fun t => decide (t.vertex = VID_NEG1))
      = [true, true, false, true] ∧
    (∃ st1, get_next_task 2 sparse_start 0 = some (st1, .NEWTASK ⟨2, some 7⟩) ∧
      (2 : Nat) ≠ VID_NEG1 ∧ st1.thread_info[0]? = some ⟨3, 1⟩) ∧
    (∃ s1 log s2, run_passes [0] sparse_start = some (s1, log) ∧
      log = [(0, .fetched 0 4 false)] ∧ s1.thread_info[0]? = some ⟨0, 4⟩ ∧
      get_next_task 2 sparse_start 0 = some (s2, .NEWTASK ⟨2, some 7⟩) ∧
      s2.thread_info[0]? = some ⟨3, 1⟩) := by
  refine ⟨by decide, ?_, ?_⟩
  · have h : (get_next_task 2 sparse_start 0).map (fun r => (r.2, r.1.thread_info[0]?)) =
        some (.NEWTASK ⟨2, some 7⟩, some ⟨3, 1⟩) := by decide
    cases hrun : get_next_task 2 sparse_start 0 with
    | none => rw [hrun] at h; cases h
    | some r =>
      obtain ⟨st1, status⟩ := r
      rw [hrun] at h
      simp only [Option.map_some', Option.some.injEq, Prod.mk.injEq] at h
      obtain ⟨h1, h2⟩ := h
      subst h1
      exact ⟨st1, rfl, (get_next_task_skips_empty_slots.1 2 sparse_start 0 st1 _ hrun).1, h2⟩
  · have h : (run_passes [0] sparse_start).map (fun r => (r.1.thread_info, r.2)) =
        some ([⟨0, 4⟩], [(0, .fetched 0 4 false)]) := by decide
    cases hrun : run_passes [0] sparse_start with
    | none => rw [hrun] at h; cases h
    | some r =>
      obtain ⟨s1, log⟩ := r
      rw [hrun] at h
      simp only [Option.map_some', Option.some.injEq, Prod.mk.injEq] at h
      obtain ⟨h1, h2⟩ := h
      have hti : s1.thread_info[0]? = some ⟨0, 4⟩ := by rw [h1]; rfl
      have hcall := get_next_task_skips_empty_slots.2 0 sparse_start 0 1 s1 log ⟨0, 4⟩ 2 ⟨2, some 7⟩ hrun
        (fun e he => by
          rw [h2, List.mem_singleton] at he
          exact ⟨0, 4, false, he⟩)
        hti (by decide) (by decide)
        (by
          intro i hi
          interval_cases i
          · exact ⟨update_task.empty, by decide, by decide⟩
          · exact ⟨update_task.empty, by decide, by decide⟩)
        (by decide) (by decide)
      refine ⟨s1, log, _, rfl, h2, hti, hcall, ?_⟩
      rw [h1]
      dsimp only
      decide

/-- C20: with at least one worker and `4 * ncpus` within `size_t`, the constructor
sets `blocksize = max(1, num_vertices / (4 * ncpus))`, `set_options` without a
`block_size` option sets it to the same value computed from the scheduler's
`numvertices` and `ncpus`, and `set_options` with a `block_size` option `b` (a
`size_t` value) sets it to `max(1, b)`; the block size is never 0. -/
theorem blocksize_is_at_least_one (num_vertices ncpus : Nat) (s : round_robin_scheduler)
    (opts : scheduler_options) (hc : 0 < ncpus) (hw : 4 * ncpus < SIZE_MOD)
    (hsc : 0 < s.ncpus) (hsw : 4 * s.ncpus < SIZE_MOD) :
    (create num_vertices ncpus).blocksize = max 1 (num_vertices / (4 * ncpus)) ∧
    (opts.block_size = none →
      (set_options s opts).blocksize = max 1 (s.numvertices / (4 * s.ncpus))) ∧
    (∀ b, opts.block_size = some b → b < SIZE_MOD →
      (set_options s opts).blocksize = max 1 b) ∧
    (create num_vertices ncpus).blocksize ≠ 0 ∧ (set_options s opts).blocksize ≠ 0 := by
  have h4 : 0 < 4 * ncpus := by omega
  have h4s : 0 < 4 * s.ncpus := by omega
  have hmax : ∀ x : Nat, (if x < 1 then 1 else x) = max 1 x := by
    intro x
    by_cases hx : x < 1
    · rw [if_pos hx]; omega
    · rw [if_neg hx]; omega
  refine ⟨?_, ?_, ?_, ?_, ?_⟩
  · simp only [create, Nat.mod_eq_of_lt hw]
    exact hmax _
  · intro hb
    simp only [set_options, hb, Nat.mod_eq_of_lt hsw]
    exact hmax _
  · intro b hb hlt
    simp only [set_options, hb, Nat.mod_eq_of_lt hlt]
    exact hmax _
  · simp only [create]
    rw [hmax]; omega
  · simp only [set_options]
    rw [hmax]; omega

/-- Witness for claim C20: 100 vertices and 2 workers give block size 12, also
after `set_options` without a `block_size` option; the option `block_size = 0`
gives block size 1. -/
theorem blocksize_is_at_least_one_witness :
    (create 100 2).blocksize = 12 ∧
    (set_options (create 100 2) ⟨some 3, none, none, none⟩).blocksize = 12 ∧
    (set_options (create 100 2) ⟨none, none, none, some 0⟩).blocksize = 1 := by
  have h := blocksize_is_at_least_one 100 2 (create 100 2) ⟨some 3, none, none, none⟩
    (by decide) (by decide) (by decide) (by decide)
  have h2 := blocksize_is_at_least_one 100 2 (create 100 2) ⟨none, none, none, some 0⟩
    (by decide) (by decide) (by decide) (by decide)
  refine ⟨h.1, ?_, ?_⟩
  · exact h.2.1 rfl
  · exact h2.2.2.1 0 rfl (by decide)

/-- C17: with eight vertices, one worker, one sweep, a task on every vertex and
`step = 11`, which is coprime with 8, the worker is handed vertices 0, 3 and 6;
its position is then 9 with one slot of its block left, the next pass through
`get_next_task` reads `task_set[9]`, outside the vector of eight slots, and the
call has no defined result. -/
theorem stride_reads_out_of_bounds :
    Nat.Coprime 11 8 ∧
    ∃ st log, run_passes [0, 0, 0, 0, 0] stride_start = some (st, log) ∧
      handed_out log = [0, 3, 6] ∧ st.thread_info = [⟨9, 1⟩] ∧
      st.task_set.length = 8 ∧ st.task_set[9]? = none ∧
      get_next_task_pass st 0 = none ∧ ∀ fuel, get_next_task fuel st 0 = none := by
  refine ⟨by decide, ?_⟩
  have h : (run_passes [0, 0, 0, 0, 0] stride_start).map
      (fun r => (handed_out r.2, r.1.thread_info, r.1.task_set.length,
        (r.1.task_set[9]?).isNone, (get_next_task_pass r.1 0).isNone)) =
      some ([0, 3, 6], [⟨9, 1⟩], 8, true, true) := by decide
  cases hrun : run_passes [0, 0, 0, 0, 0] stride_start with
  | none => rw [hrun] at h; cases h
  | some r =>
    rw [hrun] at h
    simp only [Option.map_some', Option.some.injEq, Prod.mk.injEq,
      Option.isNone_iff_eq_none] at h
    refine ⟨r.1, r.2, rfl, h.1, h.2.1, h.2.2.1, h.2.2.2.1, h.2.2.2.2, ?_⟩
    intro fuel
    cases fuel with
    | zero => rfl
    | succ n => simp only [get_next_task, h.2.2.2.2]

/-! ### The order of the tasks of a single worker -/

/-- One pass of a single worker whose block is not used up. -/
theorem single_pass_task (st : round_robin_scheduler) (func : Option Nat) (bb r : Nat)
    (hN' : st.numvertices ≤ VID_NEG1) (hstep : st.step = 1) (hbb : bb < st.numvertices)
    (htset : ∀ v, v < st.numvertices → st.task_set[v]? = some ⟨v, func⟩)
    (hthr : st.thread_info = [⟨bb, r + 1⟩]) :
    get_next_task_pass st 0 =
      some ({ st with thread_info := [⟨advance_block_begin st.numvertices 1 bb, r⟩] },
        .returned (.NEWTASK ⟨bb, func⟩)) := by
  have hne : bb ≠ SIZE_NEG1 := neg1_not_lt _ hN' bb hbb
  have hv : bb ≠ VID_NEG1 := by omega
  unfold get_next_task_pass
  simp only [hthr, List.getElem?_cons_zero, hne, if_false, scan_block, hstep, htset bb hbb, hv,
    List.set_cons_zero]

/-- One pass of a single worker whose block is used up. -/
theorem single_pass_fetch (st : round_robin_scheduler) (bb : Nat) (hne : bb ≠ SIZE_NEG1)
    (hthr : st.thread_info = [⟨bb, 0⟩]) :
    get_next_task_pass st 0 = fetch_block st 0 := by
  unfold get_next_task_pass
  simp only [hthr, List.getElem?_cons_zero, hne, if_false, scan_block, List.set_cons_zero]
  rw [← hthr]

theorem single_pass_done (st : round_robin_scheduler)
    (hthr : st.thread_info = [⟨SIZE_NEG1, 0⟩]) :
    get_next_task_pass st 0 = some (st, .returned .EMPTY) := by
  unfold get_next_task_pass
  simp only [hthr, List.getElem?_cons_zero, if_true]

/-- A pass that returns a task keeps the invariant, with one more task returned. -/
theorem single_task_step {N k s b : Nat} {func : Option Nat} (hN : 0 < N) (hN' : N ≤ VID_NEG1)
    (st : round_robin_scheduler) (j bb r : Nat) (hinv : single_inv N k s b func st j)
    (hthr : st.thread_info = [⟨bb, r + 1⟩]) :
    ∃ st1, get_next_task_pass st 0 =
        some (st1, .returned (.NEWTASK ⟨(s + j) % N, func⟩)) ∧
      single_inv N k s b func st1 (j + 1) ∧ (k ≠ 0 → j < k * N) := by
  have hNs : N < SIZE_MOD := by
    have : VID_NEG1 < SIZE_MOD := by decide
    omega
  rcases st with ⟨nv, c, ts, it, mi, sv, et, term, stp, bs, nc, thr⟩
  obtain ⟨e1, e2, e3, e4, e5, htset, ti, hti, hcase⟩ := hinv
  simp only at e1 e2 e3 e4 e5 htset hti hcase hthr
  subst e1 e2 e3 e4 e5 hthr
  simp only [List.cons.injEq, and_true] at hti
  subst hti
  simp only at hcase
  rcases hcase with ⟨h1, h2, h3, h4, h5⟩ | ⟨h1, _, _⟩
  · have hbb : bb = (s + j) % nv := h3 (by omega)
    have hlt : bb < nv := by rw [hbb]; exact Nat.mod_lt _ hN
    have hpass := single_pass_task ⟨nv, c, ts, it, mi, sv, s + mi * nv, term, 1, bs, nc,
      [⟨bb, r + 1⟩]⟩ func bb r hN' rfl hlt htset rfl
    refine ⟨_, by rw [hpass, ← hbb],
      ⟨rfl, rfl, rfl, rfl, rfl, htset, ⟨_, rfl, Or.inl ⟨?_, ?_, ?_, ?_, ?_⟩⟩⟩, ?_⟩
    · exact neg1_not_lt nv hN' _ (advance_lt nv bb hNs hlt)
    · simp only; omega
    · intro _
      simp only
      have hm := advance_mod nv bb hNs hlt
      have ha := advance_lt nv bb hNs hlt
      rw [Nat.mod_eq_of_lt ha] at hm
      rw [← hm, hbb, Nat.mod_add_mod, Nat.add_assoc]
    · intro hk
      have := h4 hk
      simp only; omega
    · simp only
      rcases h5 with h5 | ⟨a, b1, c, d⟩
      · left; omega
      · right; exact ⟨a, by omega, c, d⟩
    · intro hk
      have := h4 hk
      omega
  · simp at h1

/-- A fetch keeps the invariant: afterwards the worker has a block that starts
at task id `s + j`, or, when all `k * N` tasks were returned, is marked done. -/
theorem single_fetch_step {N k s b : Nat} {func : Option Nat} (hN : 0 < N) (hb : 1 ≤ b)
    (st : round_robin_scheduler) (j bb : Nat) (hinv : single_inv N k s b func st j)
    (hw0 : k = 0 → s + j + 2 * b < SIZE_MOD) (hw : k ≠ 0 → s + k * N + 2 * b < SIZE_MOD)
    (hne : bb ≠ SIZE_NEG1) (hthr : st.thread_info = [⟨bb, 0⟩]) :
    ∃ st1 t n d, fetch_block st 0 = some (st1, .fetched t n d) ∧
      single_inv N k s b func st1 j ∧
      ((k = 0 ∨ j < k * N) → ∃ bb1 r, st1.thread_info = [⟨bb1, r + 1⟩]) ∧
      (¬ (k = 0 ∨ j < k * N) → st1.thread_info = [⟨SIZE_NEG1, 0⟩]) := by
  rcases st with ⟨nv, c, ts, it, mi, sv, et, term, stp, bs, nc, thr⟩
  obtain ⟨e1, e2, e3, e4, e5, htset, ti, hti, hcase⟩ := hinv
  simp only at e1 e2 e3 e4 e5 htset hti hcase hthr
  subst e1 e2 e3 e4 e5 hthr
  simp only [List.cons.injEq, and_true] at hti
  subst hti
  simp only at hcase
  rcases hcase with ⟨_, _, _, h4, h5⟩ | ⟨h1, _, _⟩
  swap
  · simp only [thread_information.mk.injEq, and_true] at h1
    exact absurd h1 hne
  have hN0 : nv ≠ 0 := by omega
  have hcb : c + bs < SIZE_MOD := by
    by_cases hk : mi = 0
    · have := hw0 hk
      rcases h5 with h5 | ⟨a, _, _, _⟩
      · omega
      · exact absurd hk a
    · have := hw hk
      have := h4 hk
      rcases h5 with h5 | ⟨_, _, _, d⟩ <;> omega
  have hc1 : (c + bs) % SIZE_MOD = c + bs := Nat.mod_eq_of_lt hcb
  have hc2 : (c * 1) % SIZE_MOD = c := by
    rw [Nat.mul_one]; exact Nat.mod_eq_of_lt (by omega)
  have hcm : c % nv ≠ SIZE_NEG1 := by
    have h1 := Nat.mod_le c nv
    have h2 : SIZE_NEG1 + 1 = SIZE_MOD := by decide
    omega
  unfold fetch_block
  simp only [hN0, if_false, hc1, hc2, ne_eq]
  by_cases hk : mi = 0
  · -- endless sweep
    have hcj : c = s + j := by
      rcases h5 with h5 | ⟨a, _, _, _⟩
      · omega
      · exact absurd hk a
    subst hk
    simp only [not_true_eq_false, false_and, if_false]
    refine ⟨_, _, _, _, rfl, ⟨rfl, rfl, rfl, rfl, rfl, htset, ⟨_, rfl, Or.inl ⟨?_, ?_, ?_, ?_, ?_⟩⟩⟩,
      fun _ => ⟨c % nv, bs - 1, ?_⟩, fun h => (h (Or.inl trivial)).elim⟩
    · exact hcm
    · exact Nat.le_refl _
    · intro _; simp only; rw [hcj]
    · intro h; exact absurd rfl h
    · left; simp only; omega
    · simp only [List.set_cons_zero]
      have : bs - 1 + 1 = bs := by omega
      rw [this]
  · have h4' := h4 hk
    simp only [hk, not_false_eq_true, true_and]
    by_cases hge : c + bs ≥ s + mi * nv
    · simp only [hge, if_true]
      by_cases hgt : s + mi * nv > c
      · -- the last block, cut short
        have hcj : c = s + j := by
          rcases h5 with h5 | ⟨_, _, c1, _⟩ <;> omega
        have hr : ¬ (s + mi * nv - c = 0) := by omega
        simp only [hgt, if_true, hr, if_false]
        refine ⟨_, _, _, _, rfl, ⟨rfl, rfl, rfl, rfl, rfl, htset,
          ⟨_, rfl, Or.inl ⟨?_, ?_, ?_, ?_, ?_⟩⟩⟩,
          fun _ => ⟨c % nv, s + mi * nv - c - 1, ?_⟩, fun h => absurd (Or.inr (by omega)) h⟩
        · exact hcm
        · simp only; omega
        · intro _; simp only; rw [hcj]
        · intro _; simp only; omega
        · right; simp only; exact ⟨hk, by omega, by omega, by omega⟩
        · simp only [List.set_cons_zero]
          have : s + mi * nv - c - 1 + 1 = s + mi * nv - c := by omega
          rw [this]
      · -- past the end: the worker is done
        have hr : ¬ (s + mi * nv > c) := hgt
        have hjk : j = mi * nv := by
          rcases h5 with h5 | ⟨_, b1, _, _⟩ <;> omega
        simp only [hr, if_false, if_true, List.set_cons_zero]
        refine ⟨_, _, _, _, rfl, ⟨rfl, rfl, rfl, rfl, rfl, htset,
          ⟨_, rfl, Or.inr ⟨rfl, hk, hjk⟩⟩⟩, fun h => ?_, fun _ => rfl⟩
        rcases h with h | h
        · exact h.elim
        · omega
    · -- a full block
      have hcj : c = s + j := by
        rcases h5 with h5 | ⟨_, _, c1, _⟩ <;> omega
      simp only [hge, if_false]
      refine ⟨_, _, _, _, rfl, ⟨rfl, rfl, rfl, rfl, rfl, htset,
        ⟨_, rfl, Or.inl ⟨?_, ?_, ?_, ?_, ?_⟩⟩⟩,
        fun _ => ⟨c % nv, bs - 1, ?_⟩, fun h => absurd (Or.inr (by omega)) h⟩
      · exact hcm
      · exact Nat.le_refl _
      · intro _; simp only; rw [hcj]
      · intro _; simp only; omega
      · left; simp only; omega
      · simp only [List.set_cons_zero]
        have : bs - 1 + 1 = bs := by omega
        rw [this]

/-- A call of `get_next_task` by the single worker returns within two passes:
the next task of the sweep, or `EMPTY` after all `k * N` tasks. -/
theorem single_call {N k s b : Nat} {func : Option Nat} (hN : 0 < N) (hN' : N ≤ VID_NEG1)
    (hb : 1 ≤ b) (st : round_robin_scheduler) (j : Nat)
    (hinv : single_inv N k s b func st j)
    (hw0 : k = 0 → s + j + 2 * b < SIZE_MOD) (hw : k ≠ 0 → s + k * N + 2 * b < SIZE_MOD) :
    ((k = 0 ∨ j < k * N) →
      ∃ st1, get_next_task 2 st 0 = some (st1, .NEWTASK ⟨(s + j) % N, func⟩) ∧
        single_inv N k s b func st1 (j + 1)) ∧
    (¬ (k = 0 ∨ j < k * N) →
      ∃ st1, get_next_task 2 st 0 = some (st1, .EMPTY) ∧ single_inv N k s b func st1 j) := by
  obtain ⟨ti, hti, hcase⟩ := hinv.thr
  obtain ⟨bb, rem⟩ := ti
  rcases hcase with ⟨h1, _, _, h4, _⟩ | ⟨h1, hk, hj⟩
  · simp only at h1 h4
    cases rem with
    | succ r =>
      obtain ⟨st1, hp, hinv1, hlt⟩ := single_task_step hN hN' st j bb r hinv hti
      refine ⟨fun _ => ⟨st1, by simp only [get_next_task, hp], hinv1⟩, fun hc => ?_⟩
      exfalso
      apply hc
      by_cases hk : k = 0
      · exact Or.inl hk
      · exact Or.inr (hlt hk)
    | zero =>
      obtain ⟨st1, t, cnt, d, hf, hinv1, hyes, hno⟩ :=
        single_fetch_step hN hb st j bb hinv hw0 hw h1 hti
      have hp : get_next_task_pass st 0 = some (st1, .fetched t cnt d) := by
        rw [single_pass_fetch st bb h1 hti, hf]
      refine ⟨fun hc => ?_, fun hc => ?_⟩
      · obtain ⟨bb1, r, hthr1⟩ := hyes hc
        obtain ⟨st2, hp2, hinv2, _⟩ := single_task_step hN hN' st1 j bb1 r hinv1 hthr1
        exact ⟨st2, by simp only [get_next_task, hp, hp2], hinv2⟩
      · have hp2 := single_pass_done st1 (hno hc)
        exact ⟨st1, by simp only [get_next_task, hp, hp2], hinv1⟩
  · simp only [thread_information.mk.injEq] at h1
    obtain ⟨hb1, hr1⟩ := h1
    subst hb1 hr1
    have hp := single_pass_done st hti
    refine ⟨fun hc => ?_, fun _ => ⟨st, by simp only [get_next_task, hp], hinv⟩⟩
    rcases hc with hc | hc
    · exact absurd hc hk
    · omega

theorem single_calls {N k s b : Nat} {func : Option Nat} (hN : 0 < N) (hN' : N ≤ VID_NEG1)
    (hb : 1 ≤ b) (hw : k ≠ 0 → s + k * N + 2 * b < SIZE_MOD) :
    ∀ (n : Nat) (st : round_robin_scheduler) (j : Nat), single_inv N k s b func st j →
      (k = 0 → s + j + n + 2 * b ≤ SIZE_MOD) →
      ∃ st1 l, get_next_tasks 2 n st 0 = some (st1, l) ∧ l.length = n ∧
        ∀ i, i < n → l[i]? = some (if k = 0 ∨ j + i < k * N
          then .NEWTASK ⟨(s + j + i) % N, func⟩ else .EMPTY) := by
  intro n
  induction n with
  | zero =>
    intro st j _ _
    exact ⟨st, [], rfl, rfl, fun i hi => by omega⟩
  | succ n ih =>
    intro st j hinv hw0
    obtain ⟨hyes, hno⟩ := single_call hN hN' hb st j hinv (fun hk => by have := hw0 hk; omega) hw
    by_cases hc : k = 0 ∨ j < k * N
    · obtain ⟨st1, hcall, hinv1⟩ := hyes hc
      obtain ⟨st2, l, hrest, hlen, hl⟩ := ih st1 (j + 1) hinv1
        (fun hk => by have := hw0 hk; omega)
      refine ⟨st2, .NEWTASK ⟨(s + j) % N, func⟩ :: l,
        by simp only [get_next_tasks, hcall, hrest], by simp [hlen], ?_⟩
      intro i hi
      cases i with
      | zero => simp only [List.getElem?_cons_zero, Nat.add_zero, hc, if_true]
      | succ i =>
        have := hl i (by omega)
        simp only [List.getElem?_cons_succ, this]
        have e1 : j + 1 + i = j + (i + 1) := by omega
        have e2 : s + (j + 1) + i = s + j + (i + 1) := by omega
        rw [e1, e2]
    · obtain ⟨st1, hcall, hinv1⟩ := hno hc
      obtain ⟨st2, l, hrest, hlen, hl⟩ := ih st1 j hinv1
        (fun hk => by have := hw0 hk; omega)
      refine ⟨st2, .EMPTY :: l, by simp only [get_next_tasks, hcall, hrest], by simp [hlen], ?_⟩
      have hk : k ≠ 0 := fun h => hc (Or.inl h)
      have hj : ¬ j < k * N := fun h => hc (Or.inr h)
      intro i hi
      cases i with
      | zero => simp only [List.getElem?_cons_zero, Nat.add_zero, hc, if_false]
      | succ i =>
        have := hl i (by omega)
        simp only [List.getElem?_cons_succ, this]
        have c1 : ¬ (k = 0 ∨ j + i < k * N) := by
          rintro (h | h)
          · exact hk h
          · omega
        have c2 : ¬ (k = 0 ∨ j + (i + 1) < k * N) := by
          rintro (h | h)
          · exact hk h
          · omega
        simp only [c1, c2, if_false]

theorem prepared_single_inv {N k s b : Nat} (func : Option Nat)
    (hN : 0 < N) (hb : 1 ≤ b) (hcap : s + k * N + b < SIZE_MOD) :
    single_inv N k s b func
      (prepared N 1 ⟨some k, some s, some 1, some b⟩ (List.range N) func) 0 := by
  have hkN : k ≤ k * N := Nat.le_mul_of_pos_right k hN
  have hM : (1 : Nat) < SIZE_MOD := by decide
  have ek : k % SIZE_MOD = k := Nat.mod_eq_of_lt (by omega)
  have es : s % SIZE_MOD = s := Nat.mod_eq_of_lt (by omega)
  have eb : b % SIZE_MOD = b := Nat.mod_eq_of_lt (by omega)
  have e1 : 1 % SIZE_MOD = 1 := Nat.mod_eq_of_lt hM
  have ekN : (k * N) % SIZE_MOD = k * N := Nat.mod_eq_of_lt (by omega)
  have eE : (s + k * N) % SIZE_MOD = s + k * N := Nat.mod_eq_of_lt (by omega)
  have hb1 : ¬ b < 1 := by omega
  have hts := add_tasks_task_set func N (List.range N)
    (set_options (create N 1) ⟨some k, some s, some 1, some b⟩) []
    (by simp [set_options, create])
    (by intro v hv; simp [set_options, create, hv])
  rw [prepared_eq]
  refine ⟨rfl, ?_, ?_, ?_, ?_, ?_, ⟨⟨0, 0⟩, rfl, Or.inl ⟨by decide, by simp, ?_, ?_, ?_⟩⟩⟩
  · simp [set_options, create, e1]
  · simp [set_options, create, eb, hb1]
  · simp [set_options, create, ek]
  · simp [set_options, create, ek, es, ekN, eE]
  · intro v hv
    have := hts v hv
    simpa [hv] using this
  · intro h; simp at h
  · intro _; simp
  · left
    simp [set_options, create, es]

/-- C18: a single worker on a scheduler with `start_vertex = s < N`, `step = 1`,
`max_iterations = k` (0 for an endless sweep), block size `b` and a task on every
vertex, as long as the task counter stays within `size_t`: each of `n` successive
calls of `get_next_task` returns within two passes; call number `j` (from 0)
returns the task of vertex `(s + j) mod N`, for every `j` when `k = 0` and for
`j < k * N` otherwise, and `EMPTY` after that; so the first `N - s` calls return
the vertices `s, s + 1, ..., N - 1` and none below `s`. -/
theorem get_next_task_order_from_start_vertex (N k s b n : Nat) (func : Option Nat)
    (hN : 0 < N) (hN' : N ≤ VID_NEG1) (hs : s < N) (hb : 1 ≤ b)
    (hw : s + (if k = 0 then n else k * N) + 2 * b < SIZE_MOD) :
    ∃ st l,
      get_next_tasks 2 n
        (prepared N 1 ⟨some k, some s, some 1, some b⟩ (List.range N) func) 0 = some (st, l) ∧
      l.length = n ∧
      (∀ j, j < n → (k = 0 ∨ j < k * N) → l[j]? = some (.NEWTASK ⟨(s + j) % N, func⟩)) ∧
      (∀ j, j < n → j < N - s → (k = 0 ∨ j < k * N) →
        l[j]? = some (.NEWTASK ⟨s + j, func⟩) ∧ s ≤ s + j ∧ s + j < N) ∧
      (∀ j, j < n → ¬ (k = 0 ∨ j < k * N) → l[j]? = some .EMPTY) := by
  have hcap : s + k * N + b < SIZE_MOD := by
    by_cases hk : k = 0
    · subst hk; simp only [if_true] at hw; omega
    · simp only [hk, if_false] at hw; omega
  have hwk : k ≠ 0 → s + k * N + 2 * b < SIZE_MOD := by
    intro hk; simp only [hk, if_false] at hw; exact hw
  have hw0 : k = 0 → s + 0 + n + 2 * b ≤ SIZE_MOD := by
    intro hk; simp only [hk, if_true] at hw; omega
  obtain ⟨st, l, hrun, hlen, hl⟩ := single_calls hN hN' hb hwk n _ 0
    (prepared_single_inv func hN hb hcap) hw0
  have hyes : ∀ j, j < n → (k = 0 ∨ j < k * N) →
      l[j]? = some (.NEWTASK ⟨(s + j) % N, func⟩) := by
    intro j hj hc
    have h := hl j hj
    have hc0 : k = 0 ∨ 0 + j < k * N := by rw [Nat.zero_add]; exact hc
    rw [if_pos hc0] at h
    rw [h, Nat.add_zero]
  refine ⟨st, l, hrun, hlen, hyes, ?_, ?_⟩
  · intro j hj hjs hc
    have h := hyes j hj hc
    rw [Nat.mod_eq_of_lt (by omega)] at h
    exact ⟨h, by omega, by omega⟩
  · intro j hj hc
    have h := hl j hj
    have hc0 : ¬ (k = 0 ∨ 0 + j < k * N) := by rw [Nat.zero_add]; exact hc
    rw [if_neg hc0] at h
    exact h

/-- Witness for claim C18: five vertices, two sweeps from `start_vertex = 3` with
blocks of two task ids; twelve calls return the vertices 3, 4, 0, 1, 2, 3, 4, 0,
1, 2 and then `EMPTY` twice. -/
theorem get_next_task_order_from_start_vertex_witness :
    (get_next_tasks 2 12 (prepared 5 1 ⟨some 2, some 3, some 1, some 2⟩ (List.range 5) (some 7))
      0).map (fun r => r.2) =
      some [.NEWTASK ⟨3, some 7⟩, .NEWTASK ⟨4, some 7⟩, .NEWTASK ⟨0, some 7⟩, .NEWTASK ⟨1, some 7⟩,
        .NEWTASK ⟨2, some 7⟩, .NEWTASK ⟨3, some 7⟩, .NEWTASK ⟨4, some 7⟩, .NEWTASK ⟨0, some 7⟩,
        .NEWTASK ⟨1, some 7⟩, .NEWTASK ⟨2, some 7⟩, .EMPTY, .EMPTY] ∧
    ∃ st l, get_next_tasks 2 12
        (prepared 5 1 ⟨some 2, some 3, some 1, some 2⟩ (List.range 5) (some 7)) 0 = some (st, l) ∧
      l[0]? = some (.NEWTASK ⟨3, some 7⟩) ∧ l[1]? = some (.NEWTASK ⟨4, some 7⟩) ∧
      l[2]? = some (.NEWTASK ⟨0, some 7⟩) ∧ l[10]? = some .EMPTY := by
  refine ⟨by decide, ?_⟩
  obtain ⟨st, l, hrun, _, hyes, hfirst, hno⟩ :=
    get_next_task_order_from_start_vertex 5 2 3 2 12 (some 7) (by decide) (by decide)
      (by decide) (by decide) (by decide)
  exact ⟨st, l, hrun, (hfirst 0 (by decide) (by decide) (by decide)).1,
    (hfirst 1 (by decide) (by decide) (by decide)).1, hyes 2 (by decide) (by decide),
    hno 10 (by decide) (by decide)⟩

/-! ### The approximate counter and the sync range -/

set_option maxRecDepth 100000

/-- C11: a single worker driven by `run_to_terminate` over a round-robin schedule
of 129 tasks executes all of them: `last_update_count()` is 129 while
`approximate_last_update_count()` is still 0, so the two differ by more than
`(APX_INTERVAL + 1) * ncpus = 128`. -/
theorem approximate_update_count_never_advances :
    ∃ rs evs,
      long_start.bind (asynchronous_engine.run_workers (round_robin_ops 3)
        (List.replicate 131 (0, 5, 3))) = some (rs, evs) ∧
      rs.engine.ncpus = 1 ∧
      rs.engine.last_update_count = 129 ∧
      rs.engine.approximate_last_update_count = 0 ∧
      ¬ (rs.engine.last_update_count - rs.engine.approximate_last_update_count ≤
          (asynchronous_engine.APX_INTERVAL + 1) * rs.engine.ncpus) := by
  have h : (long_start.bind (asynchronous_engine.run_workers (round_robin_ops 3)
      (List.replicate 131 (0, 5, 3)))).map
      (fun r => (r.1.engine.ncpus, r.1.engine.last_update_count,
        r.1.engine.approximate_last_update_count)) = some (1, 129, 0) := by decide
  cases hrun : long_start.bind (asynchronous_engine.run_workers (round_robin_ops 3)
      (List.replicate 131 (0, 5, 3))) with
  | none => rw [hrun] at h; cases h
  | some r =>
    rw [hrun] at h
    simp only [Option.map_some', Option.some.injEq, Prod.mk.injEq] at h
    refine ⟨r.1, r.2, rfl, h.1, h.2.1, h.2.2, ?_⟩
    rw [h.1, h.2.1, h.2.2]
    decide

/-- C14: a sync registered over the range from vertex 1 to vertex 3 of a graph
of five vertices. With a merge function the reduction calls the sync function on
vertices 1 and 2 only, vertex `rangehigh = 3` is left out; without a merge
function the sync function is called on no vertex at all. -/
theorem sync_range_excludes_rangehigh :
    asynchronous_engine.sync_apply_param (range_probe_engine true) 0 = some [1, 2] ∧
    asynchronous_engine.sync_apply_param (range_probe_engine false) 0 = some [] := by
  decide

/-! ### The precondition of `start()` -/

theorem begin_run_none_iff {A : Type} (e : asynchronous_engine A) (now : Nat) :
    asynchronous_engine.begin_run e now = none ↔
      ∃ st, st ∈ e.sync_tasks ∧ ∀ g, e.shared[st.sharedvariable]? = some g → g.is_unique = false := by
  unfold asynchronous_engine.begin_run
  have hst : ∀ e0 : asynchronous_engine A, (asynchronous_engine.construct_sync_queue e0).sync_tasks = e0.sync_tasks :=
    fun _ => rfl
  have hsh : ∀ e0 : asynchronous_engine A, (asynchronous_engine.construct_sync_queue e0).shared = e0.shared :=
    fun _ => rfl
  simp only []
  split_ifs with h
  · simp only [false_iff, not_exists, not_and, not_forall]
    intro st hmem
    simp only [asynchronous_engine.ensure_all_sync_vars_are_unique, hst, hsh, List.all_eq_true] at h
    have h1 := h st hmem
    cases hg : e.shared[st.sharedvariable]? with
    | none => simp [hg] at h1
    | some g =>
      simp only [hg] at h1
      exact ⟨g, rfl, by simp [h1]⟩
  · simp only [true_iff]
    simp only [asynchronous_engine.ensure_all_sync_vars_are_unique, hst, hsh, List.all_eq_true, not_forall] at h
    obtain ⟨st, hmem, hne⟩ := h
    refine ⟨st, hmem, ?_⟩
    intro g hg
    simp only [hg] at hne
    simpa using hne

/-- C13: when every sync task points to an existing shared variable, `start()`
stops at its precondition check if and only if the shared variable of some
registered sync task is not unique, that is a reader still holds a reference to
its head or to its buffer; when it stops there the scheduler is in the state in
which `start()` found it (`scheduler->start()` was not called) and no worker has
made a trip, so no update function has run. -/
theorem start_fails_iff_sync_var_not_unique {A σ : Type} (ops : scheduler_ops σ)
    (scheduler_start : σ → σ) (e : asynchronous_engine A) (s : σ) (now : Nat)
    (schedule : List (Nat × Nat × Nat))
    (hvars : ∀ st, st ∈ e.sync_tasks → st.sharedvariable < e.shared.length) :
    ((∃ s1 evs, asynchronous_engine.start ops scheduler_start e s now schedule = some (.precondition_failed s1 evs)) ↔
      ∃ st g, st ∈ e.sync_tasks ∧ e.shared[st.sharedvariable]? = some g ∧
        (sel g.use_count g.head ≠ 0 ∨ sel g.use_count g.buffer ≠ 0)) ∧
    (∀ s1 evs, asynchronous_engine.start ops scheduler_start e s now schedule = some (.precondition_failed s1 evs) →
      s1 = s ∧ evs = []) := by
  have hfail : (∃ s1 evs, asynchronous_engine.start ops scheduler_start e s now schedule =
      some (.precondition_failed s1 evs)) ↔ asynchronous_engine.begin_run e now = none := by
    unfold asynchronous_engine.start
    cases hb : asynchronous_engine.begin_run e now with
    | none => simp
    | some e1 =>
      simp only
      cases hr : asynchronous_engine.run_workers ops schedule (asynchronous_engine.launch e1 (scheduler_start s)) with
      | none => simp
      | some r => simp
  refine ⟨?_, ?_⟩
  · rw [hfail, begin_run_none_iff]
    constructor
    · rintro ⟨st, hmem, hg⟩
      have hlt := hvars st hmem
      refine ⟨st, e.shared[st.sharedvariable], hmem, List.getElem?_eq_getElem hlt, ?_⟩
      have h1 := hg _ (List.getElem?_eq_getElem hlt)
      simp only [glshared.is_unique, decide_eq_false_iff_not, not_and_or] at h1
      tauto
    · rintro ⟨st, g, hmem, hg, hu⟩
      refine ⟨st, hmem, ?_⟩
      intro g1 hg1
      rw [hg] at hg1
      cases hg1
      simp only [glshared.is_unique, decide_eq_false_iff_not, not_and_or]
      tauto
  · intro s1 evs h
    unfold asynchronous_engine.start at h
    cases hb : asynchronous_engine.begin_run e now with
    | none =>
      simp only [hb, Option.some.injEq, start_outcome.precondition_failed.injEq] at h
      exact ⟨h.1.symm, h.2.symm⟩
    | some e1 =>
      simp only [hb] at h
      cases hr : asynchronous_engine.run_workers ops schedule (asynchronous_engine.launch e1 (scheduler_start s)) with
      | none => simp [hr] at h
      | some r => simp [hr] at h

/-- Witness for claim C13: with a sync registered on a shared variable whose head
a reader still holds, `start()` stops at the precondition check and the scheduler
is as it was, not started. -/
theorem start_fails_iff_sync_var_not_unique_witness :
    asynchronous_engine.start (round_robin_ops 3) round_robin_scheduler.start held_sync_engine
      (add_task_to_all (round_robin_scheduler.create 3 1) (some 7)) 5 [(0, 5, 3)] =
      some (.precondition_failed (add_task_to_all (round_robin_scheduler.create 3 1) (some 7)) []) := by
  have h := start_fails_iff_sync_var_not_unique (round_robin_ops 3) round_robin_scheduler.start
    held_sync_engine (add_task_to_all (round_robin_scheduler.create 3 1) (some 7)) 5 [(0, 5, 3)]
    (by decide)
  obtain ⟨s1, evs, hs⟩ := h.1.2 ⟨held_sync_engine.sync_tasks.get ⟨0, by decide⟩,
    (glshared.create 0).get_ptr.2, List.get_mem _ _ _, by decide, by decide⟩
  obtain ⟨h1, h2⟩ := h.2 s1 evs hs
  rw [hs, h1, h2]

/-! ### Reinsertion of a dispatched sync -/

theorem evaluate_sync_queue_dispatch {A : Type} (e : asynchronous_engine A) (fuel cur : Nat)
    (top : Nat × Int) (sync : sync_task A)
    (hnext : e.sync_task_queue_next_update ≤ cur)
    (htop : mutable_queue.top e.sync_task_queue = some top)
    (hdue : int_to_size_t (int_neg top.2) ≤ cur)
    (hsync : e.sync_tasks[top.1]? = some sync) :
    asynchronous_engine.evaluate_sync_queue (fuel + 1) e 0 cur =
      asynchronous_engine.evaluate_sync_queue fuel (asynchronous_engine.dispatch_due e top sync) 0 cur := by
  simp only [asynchronous_engine.evaluate_sync_queue, ne_eq, not_true_eq_false, if_false, hnext, htop, hdue, hsync,
    asynchronous_engine.dispatch_due]

/-- C15 (amended): when `evaluate_sync_queue` finds the entry `top` of a sync task
with interval `I > 0` due, it enqueues the task's id for the syncers and puts the
task back in the sync queue with next time `approximate_last_update_count() + I`
(as an `int`, here within range), not with the scheduled time of `top` plus `I`;
the loop then goes on from that state. -/
theorem evaluate_sync_queue_reinserts_at_current_count {A : Type}
    (e : asynchronous_engine A) (fuel cur : Nat) (top : Nat × Int) (sync : sync_task A)
    (hnext : e.sync_task_queue_next_update ≤ cur)
    (htop : mutable_queue.top e.sync_task_queue = some top)
    (hdue : int_to_size_t (int_neg top.2) ≤ cur)
    (hsync : e.sync_tasks[top.1]? = some sync)
    (hI : 0 < sync.sync_interval)
    (hsmall : e.approximate_last_update_count + sync.sync_interval < 2 ^ 31)
    (honce : ∀ x, x ∈ mutable_queue.pop e.sync_task_queue → x.1 ≠ top.1) :
    asynchronous_engine.evaluate_sync_queue (fuel + 1) e 0 cur =
      asynchronous_engine.evaluate_sync_queue fuel (asynchronous_engine.dispatch_due e top sync) 0 cur ∧
    (asynchronous_engine.dispatch_due e top sync).task_exec_queue = e.task_exec_queue ++ [top.1] ∧
    (asynchronous_engine.dispatch_due e top sync).sync_task_queue =
      mutable_queue.pop e.sync_task_queue ++
        [(top.1, -((e.approximate_last_update_count + sync.sync_interval : Nat) : Int))] := by
  refine ⟨evaluate_sync_queue_dispatch e fuel cur top sync hnext htop hdue hsync, ?_, ?_⟩
  · simp only [asynchronous_engine.dispatch_due, asynchronous_engine.update_head_tracker]
    split <;> rfl
  · have hq : (asynchronous_engine.dispatch_due e top sync).sync_task_queue =
        mutable_queue.insert_max (mutable_queue.pop e.sync_task_queue) top.1
          (int_neg (to_int ((e.approximate_last_update_count
            + sync.sync_interval) % SIZE_MOD))) := by
      simp only [asynchronous_engine.dispatch_due, asynchronous_engine.update_head_tracker, gt_iff_lt, hI, if_true]
      split <;> rfl
    have hmod : (e.approximate_last_update_count + sync.sync_interval) % SIZE_MOD =
        e.approximate_last_update_count + sync.sync_interval := by
      apply Nat.mod_eq_of_lt
      simp only [SIZE_MOD]; omega
    have hint : int_neg (to_int (e.approximate_last_update_count + sync.sync_interval)) =
        -((e.approximate_last_update_count + sync.sync_interval : Nat) : Int) := by
      have h32 : (e.approximate_last_update_count + sync.sync_interval) % 2 ^ 32 =
          e.approximate_last_update_count + sync.sync_interval := by
        apply Nat.mod_eq_of_lt; omega
      unfold to_int int_neg
      rw [h32, if_pos hsmall, if_neg]
      omega
    have hany : (mutable_queue.pop e.sync_task_queue).any (fun x => x.1 = top.1) = false := by
      rw [List.any_eq_false]
      intro x hx
      simpa using honce x hx
    rw [hq, hmod, hint]
    unfold mutable_queue.insert_max
    rw [hany]
    simp

/-- Witness for claim C15: the sync of interval 100 scheduled for update count 100
and dispatched at approximate update count 128 is put back with priority -228. -/
theorem evaluate_sync_queue_reinserts_at_current_count_witness :
    (asynchronous_engine.dispatch_due late_sync_engine (0, -100)
      (late_sync_engine.sync_tasks.get ⟨0, by decide⟩)).sync_task_queue = [(0, -228)] := by
  have h := evaluate_sync_queue_reinserts_at_current_count late_sync_engine 1 128 (0, -100)
    (late_sync_engine.sync_tasks.get ⟨0, by decide⟩) (by decide) (by decide) (by decide)
    (by rfl) (by decide) (by decide) (by decide)
  exact h.2.2

/-- C15, as stated, fails: a sync with interval 100 scheduled for update count
100 is found due when the approximate update count is 128, and is put back with
next time 228, not 200. -/
theorem sync_reinserted_late_counterexample :
    mutable_queue.top late_sync_engine.sync_task_queue = some (0, -100) ∧
    (late_sync_engine.sync_tasks.map (fun st => st.sync_interval)) = [100] ∧
    ((asynchronous_engine.evaluate_sync_queue 2 late_sync_engine 0 128).map (fun e => e.sync_task_queue)) =
      some [(0, -228)] ∧
    ((asynchronous_engine.evaluate_sync_queue 2 late_sync_engine 0 128).map (fun e => e.sync_task_queue)) ≠
      some [(0, -(100 + 100))] := by
  decide

/-! ### Termination detection -/

theorem sum_eq_length_all {α : Type} (f : α → Nat) (hf : ∀ a, f a ≤ 1) :
    ∀ l : List α, (l.map f).sum = l.length → ∀ a, a ∈ l → f a = 1 := by
  intro l
  induction l with
  | nil => intro _ a ha; cases ha
  | cons x xs ih =>
    intro h a ha
    simp only [List.map_cons, List.sum_cons, List.length_cons] at h
    have hx := hf x
    have hxs := sum_map_le_length f hf xs
    rcases List.mem_cons.mp ha with rfl | hm
    · omega
    · exact ih (by omega) a hm

theorem num_waiting_set (s : shared_termination) (i : Nat) (p q : worker_position)
    (w : List worker_position) (hw : w = s.workers.set i q) (h : s.workers[i]? = some p) :
    (w.map (fun p => if p = .waiting ∨ p = .woken then 1 else 0)).sum
        + (if p = .waiting ∨ p = .woken then 1 else 0)
      = s.num_waiting + (if q = .waiting ∨ q = .woken then 1 else 0) := by
  subst hw
  exact sum_map_set (fun (p : worker_position) => if p = .waiting ∨ p = .woken then 1 else 0)
    s.workers i q p h

theorem broadcast_waiting (w : List worker_position) :
    ((shared_termination.broadcast w).map
        (fun p => if p = .waiting ∨ p = .woken then 1 else 0)).sum
      = (w.map (fun p => if p = .waiting ∨ p = .woken then 1 else 0)).sum := by
  unfold shared_termination.broadcast
  rw [List.map_map]
  congr 1
  apply List.map_congr_left
  intro p _
  cases p <;> simp

theorem broadcast_getElem (w : List worker_position) (i : Nat) (p : worker_position)
    (h : w[i]? = some p) :
    (shared_termination.broadcast w)[i]? = some (if p = .waiting then .woken else p) := by
  unfold shared_termination.broadcast
  rw [List.getElem?_map, h]
  rfl

theorem num_waiting_lt (s : shared_termination) (i : Nat) (p : worker_position)
    (h : s.workers[i]? = some p) (hp : ¬ (p = .waiting ∨ p = .woken)) :
    s.num_waiting + 1 ≤ s.workers.length := by
  have h1 := num_waiting_set s i p .waiting _ rfl h
  have h2 := sum_map_le_length (fun (p : worker_position) => if p = .waiting ∨ p = .woken then 1 else 0)
    (fun a => by simp only; split_ifs <;> omega) (s.workers.set i .waiting)
  simp only [hp, if_false, Nat.add_zero, true_or, if_true, List.length_set] at h1 h2
  omega

/-- When all workers but one are inside `cond.wait`, each of the others is. -/
theorem all_others_waiting (s : shared_termination) (i : Nat) (p : worker_position)
    (h : s.workers[i]? = some p) (hp : ¬ (p = .waiting ∨ p = .woken))
    (hall : s.num_waiting + 1 = s.workers.length) :
    ∀ c, c < s.workers.length → c ≠ i →
      s.workers[c]? = some .waiting ∨ s.workers[c]? = some .woken := by
  intro c hc hci
  have h1 := num_waiting_set s i p .waiting _ rfl h
  simp only [hp, if_false, Nat.add_zero, true_or, if_true] at h1
  have h2 := sum_eq_length_all
    (fun (p : worker_position) => if p = .waiting ∨ p = .woken then 1 else 0)
    (fun a => by simp only; split_ifs <;> omega) (s.workers.set i .waiting)
    (by rw [h1, List.length_set]; exact hall)
  have hmem : (s.workers.set i .waiting)[c]? = some s.workers[c] := by
    rw [List.getElem?_set_ne (Ne.symm hci)]
    exact List.getElem?_eq_getElem hc
  have h3 := h2 s.workers[c] (List.getElem?_mem hmem)
  have h4 : s.workers[c]? = some s.workers[c] := List.getElem?_eq_getElem hc
  by_cases hw : s.workers[c] = .waiting ∨ s.workers[c] = .woken
  · rcases hw with hw | hw
    · left; rw [h4, hw]
    · right; rw [h4, hw]
  · simp [hw] at h3

/-- A step that moves one worker and adjusts `numactive` accordingly keeps the
invariant. -/
theorem termination_inv_move {ncpus : Nat} (s s1 : shared_termination) (i : Nat)
    (p q : worker_position) (hinv : termination_inv ncpus s)
    (h : s.workers[i]? = some p) (hw : s1.workers = s.workers.set i q)
    (hnc : s1.numcpus = s.numcpus) (hd : s1.done = s.done)
    (hact : s.done = false →
      s1.numactive + (if q = .waiting ∨ q = .woken then 1 else 0)
        = s.numactive + (if p = .waiting ∨ p = .woken then 1 else 0))
    (hfin : s.done = true → s1.numactive = s.numactive) :
    termination_inv ncpus s1 := by
  obtain ⟨e1, e2, e3, e4⟩ := hinv
  refine ⟨by rw [hnc, e1], by rw [hw, List.length_set, e2], ?_, ?_⟩
  · intro hd1
    rw [hd] at hd1
    have h1 := num_waiting_set s i p q s1.workers hw h
    have h2 := hact hd1
    have h3 := e3 hd1
    unfold shared_termination.num_waiting
    omega
  · intro hd1
    rw [hd] at hd1
    rw [hfin hd1]
    exact e4 hd1

theorem termination_inv_broadcast {ncpus : Nat} (s s1 : shared_termination)
    (hinv : termination_inv ncpus s)
    (hw : s1.workers = s.workers ∨ s1.workers = shared_termination.broadcast s.workers)
    (hnc : s1.numcpus = s.numcpus) (hd : s1.done = s.done)
    (hna : s1.numactive = s.numactive) :
    termination_inv ncpus s1 := by
  obtain ⟨e1, e2, e3, e4⟩ := hinv
  have hW : s1.num_waiting = s.num_waiting := by
    unfold shared_termination.num_waiting
    rcases hw with hw | hw
    · rw [hw]
    · rw [hw, broadcast_waiting]
  have hL : s1.workers.length = s.workers.length := by
    rcases hw with hw | hw
    · rw [hw]
    · rw [hw]; simp [shared_termination.broadcast]
  exact ⟨by rw [hnc, e1], by rw [hL, e2], fun h => by rw [hna, hW]; exact e3 (by rw [← hd]; exact h),
    fun h => by rw [hna]; exact e4 (by rw [← hd]; exact h)⟩

theorem termination_step_spec {ncpus : Nat} (hn : ncpus < SIZE_MOD) (s : shared_termination)
    (hinv : termination_inv ncpus s) (a : termination_step) (s1 : shared_termination)
    (evs : List termination_event) (h : s.step a = some (s1, evs)) :
    termination_inv ncpus s1 ∧ (s.done = true → s1.done = true) ∧
    (∀ ev, ev ∈ evs → ev.result = true → s1.done = true) ∧
    (s.done = false → s1.done = true →
      ∃ c, a = .end_critical_section c ∧ s.numactive = 1 ∧ s1.numactive = 0 ∧
        ∀ c1, c1 < ncpus → c1 ≠ c →
          s.workers[c1]? = some .waiting ∨ s.workers[c1]? = some .woken) ∧
    (∀ c, a = .cancel_critical_section c → s1.numactive = s.numactive ∧ s1.done = s.done) := by
  cases a with
  | begin_critical_section c =>
    simp only [shared_termination.step] at h
    split_ifs at h with hc
    simp only [Option.some.injEq, Prod.mk.injEq] at h
    obtain ⟨h1, h2⟩ := h
    subst h1 h2
    refine ⟨termination_inv_move s _ c .outside .locking hinv hc.1 rfl rfl rfl (by simp) (by simp),
      fun hd => hd, fun ev hev => (by cases hev), fun hd hd1 => ?_, fun c1 hc1 => (by cases hc1)⟩
    simp only at hd1; rw [hd] at hd1; cases hd1
  | lock c =>
    simp only [shared_termination.step] at h
    split_ifs at h with hc
    simp only [Option.some.injEq, Prod.mk.injEq] at h
    obtain ⟨h1, h2⟩ := h
    subst h1 h2
    refine ⟨termination_inv_move s _ c .locking .in_section hinv hc.1 rfl rfl rfl (by simp) (by simp),
      fun hd => hd, fun ev hev => (by cases hev), fun hd hd1 => ?_, fun c1 hc1 => (by cases hc1)⟩
    simp only at hd1; rw [hd] at hd1; cases hd1
  | cancel_critical_section c =>
    simp only [shared_termination.step] at h
    split_ifs at h with hc
    simp only [Option.some.injEq, Prod.mk.injEq] at h
    obtain ⟨h1, h2⟩ := h
    subst h1 h2
    refine ⟨termination_inv_move s _ c .in_section .outside hinv hc.1 rfl rfl rfl (by simp) (by simp),
      fun hd => hd, fun ev hev => (by cases hev), fun hd hd1 => ?_, fun c1 _ => ⟨rfl, rfl⟩⟩
    simp only at hd1; rw [hd] at hd1; cases hd1
  | wake c =>
    simp only [shared_termination.step] at h
    split_ifs at h with hc
    simp only [Option.some.injEq, Prod.mk.injEq] at h
    obtain ⟨h1, h2⟩ := h
    subst h1 h2
    refine ⟨termination_inv_move s _ c .waiting .woken hinv hc rfl rfl rfl (by simp) (by simp),
      fun hd => hd, fun ev hev => (by cases hev), fun hd hd1 => ?_, fun c1 hc1 => (by cases hc1)⟩
    simp only at hd1; rw [hd] at hd1; cases hd1
  | leave c =>
    simp only [shared_termination.step] at h
    split_ifs at h with hc
    simp only [Option.some.injEq, Prod.mk.injEq] at h
    obtain ⟨h1, h2⟩ := h
    subst h1 h2
    refine ⟨termination_inv_move s _ c .leaving .outside hinv hc rfl rfl rfl (by simp) (by simp),
      fun hd => hd, fun ev hev hr => ?_, fun hd hd1 => ?_, fun c1 hc1 => (by cases hc1)⟩
    · simp only [List.mem_singleton] at hev
      subst hev
      exact hr
    · simp only at hd1; rw [hd] at hd1; cases hd1
  | relock c =>
    simp only [shared_termination.step] at h
    by_cases hc : s.workers[c]? = some .woken ∧ s.m = none
    swap
    · rw [if_neg hc] at h; cases h
    rw [if_pos hc] at h
    simp only [Option.some.injEq, Prod.mk.injEq] at h
    obtain ⟨h1, h2⟩ := h
    subst h1 h2
    by_cases hdn : s.done = true
    · refine ⟨termination_inv_move s _ c .woken .leaving hinv hc.1 rfl rfl rfl ?_ ?_,
        fun h => h, fun ev hev => (by cases hev), fun hd1 hd2 => ?_, fun c1 hc1 => (by cases hc1)⟩
      · intro h; rw [hdn] at h; cases h
      · intro _; simp only [hdn, not_true_eq_false, if_false]
      · rw [hdn] at hd1; cases hd1
    · -- `done` is not set: the worker counts as active again
      have hd : s.done = false := by simpa using hdn
      have h3 := hinv.active hd
      have h4 : 1 ≤ s.num_waiting := by
        have := num_waiting_set s c .woken .leaving _ rfl hc.1
        simp only [or_true, if_true, reduceCtorEq, or_self, if_false] at this
        omega
      have hinc : (s.numactive + 1) % SIZE_MOD = s.numactive + 1 :=
        Nat.mod_eq_of_lt (by omega)
      refine ⟨termination_inv_move s _ c .woken .leaving hinv hc.1 rfl rfl rfl ?_ ?_,
        fun h => h, fun ev hev => (by cases hev), fun hd1 hd2 => ?_, fun c1 hc1 => (by cases hc1)⟩
      · intro _
        simp only [hdn, not_false_eq_true, if_true, hinc]
        simp
      · intro h; rw [hd] at h; cases h
      · simp only at hd2; rw [hd1] at hd2; cases hd2
  | new_job =>
    simp only [shared_termination.step] at h
    by_cases hc : s.trying_to_sleep > 0
    · rw [if_pos hc] at h
      by_cases hm : s.m = none
      swap
      · rw [if_neg hm] at h; cases h
      rw [if_pos hm] at h
      simp only [Option.some.injEq, Prod.mk.injEq] at h
      obtain ⟨h1, h2⟩ := h
      subst h1 h2
      refine ⟨termination_inv_broadcast s _ hinv ?_ rfl rfl rfl,
        fun hd => hd, fun ev hev => (by cases hev), fun hd hd1 => ?_, fun c1 hc1 => (by cases hc1)⟩
      · simp only
        by_cases hlt : s.numactive < s.numcpus
        · right; rw [if_pos hlt]
        · left; rw [if_neg hlt]
      · simp only at hd1; rw [hd] at hd1; cases hd1
    · rw [if_neg hc] at h
      simp only [Option.some.injEq, Prod.mk.injEq] at h
      obtain ⟨h1, h2⟩ := h
      subst h1 h2
      refine ⟨hinv, fun hd => hd, fun ev hev => (by cases hev), fun hd hd1 => ?_,
        fun c1 hc1 => (by cases hc1)⟩
      rw [hd] at hd1; cases hd1
  | new_job_hint c =>
    simp only [shared_termination.step] at h
    cases hs : s.sleeping[c]? with
    | none => simp [hs] at h
    | some b =>
      cases b with
      | false =>
        simp only [hs, Option.some.injEq, Prod.mk.injEq] at h
        obtain ⟨h1, h2⟩ := h
        subst h1 h2
        refine ⟨hinv, fun hd => hd, fun ev hev => (by cases hev), fun hd hd1 => ?_,
          fun c1 hc1 => (by cases hc1)⟩
        rw [hd] at hd1; cases hd1
      | true =>
        simp only [hs] at h
        by_cases hm : s.m = none
        swap
        · rw [if_neg hm] at h; cases h
        rw [if_pos hm] at h
        simp only [Option.some.injEq, Prod.mk.injEq] at h
        obtain ⟨h1, h2⟩ := h
        subst h1 h2
        refine ⟨termination_inv_broadcast s _ hinv ?_ rfl rfl rfl,
          fun hd => hd, fun ev hev => (by cases hev), fun hd hd1 => ?_, fun c1 hc1 => (by cases hc1)⟩
        · simp only
          by_cases hlt : s.numactive < s.numcpus
          · right; rw [if_pos hlt]
          · left; rw [if_neg hlt]
        · simp only at hd1; rw [hd] at hd1; cases hd1
  | end_critical_section c =>
    simp only [shared_termination.step] at h
    split_ifs at h with hc hd0 hz
    · -- `done` was set already
      simp only [Option.some.injEq, Prod.mk.injEq] at h
      obtain ⟨h1, h2⟩ := h
      subst h1 h2
      refine ⟨termination_inv_move s _ c .in_section .outside hinv hc.1 rfl rfl rfl (by simp)
        (by simp), fun hd => hd, fun ev _ _ => hd0, fun hd hd1 => ?_, fun c1 hc1 => (by cases hc1)⟩
      rw [hd] at hd0; cases hd0
    · -- the last active worker
      simp only [Option.some.injEq, Prod.mk.injEq] at h
      obtain ⟨h1, h2⟩ := h
      subst h1 h2
      have hd : s.done = false := by simpa using hd0
      have h3 := hinv.active hd
      have h4 := num_waiting_lt s c .in_section hc.1 (by simp)
      rw [hinv.len] at h4
      have hna : s.numactive = 1 := by
        have : (s.numactive + SIZE_MOD - 1) % SIZE_MOD = s.numactive - 1 := by
          have e : s.numactive + SIZE_MOD - 1 = (s.numactive - 1) + SIZE_MOD := by omega
          rw [e, Nat.add_mod_right]
          exact Nat.mod_eq_of_lt (by omega)
        rw [this] at hz
        omega
      refine ⟨⟨hinv.ncpu, ?_, fun h => (by cases h), fun _ => hz⟩, fun _ => rfl,
        fun ev hev => (by cases hev), fun _ _ => ⟨c, rfl, hna, hz, ?_⟩, fun c1 hc1 => (by cases hc1)⟩
      · simp only [List.length_set, shared_termination.broadcast, List.length_map]
        exact hinv.len
      · intro c1 hc1 hne
        exact all_others_waiting s c .in_section hc.1 (by simp) (by rw [hinv.len]; omega) c1
          (by rw [hinv.len]; exact hc1) hne
    · -- the worker waits
      simp only [Option.some.injEq, Prod.mk.injEq] at h
      obtain ⟨h1, h2⟩ := h
      subst h1 h2
      have hd : s.done = false := by simpa using hd0
      have h3 := hinv.active hd
      have h4 := num_waiting_lt s c .in_section hc.1 (by simp)
      rw [hinv.len] at h4
      have hdec : (s.numactive + SIZE_MOD - 1) % SIZE_MOD = s.numactive - 1 := by
        have e : s.numactive + SIZE_MOD - 1 = (s.numactive - 1) + SIZE_MOD := by omega
        rw [e, Nat.add_mod_right]
        exact Nat.mod_eq_of_lt (by omega)
      refine ⟨termination_inv_move s _ c .in_section .waiting hinv hc.1 rfl rfl rfl ?_ ?_,
        fun h => h, fun ev hev => (by cases hev), fun hd1 hd2 => ?_, fun c1 hc1 => (by cases hc1)⟩
      · intro _
        simp only [hdec]
        simp
        omega
      · intro h; rw [hd] at h; cases h
      · simp only at hd2; rw [hd1] at hd2; cases hd2

theorem termination_create_inv (ncpus : Nat) :
    termination_inv ncpus (shared_termination.create ncpus) := by
  refine ⟨rfl, by simp [shared_termination.create], ?_, fun h => (by cases h)⟩
  intro _
  have h0 : ∀ n : Nat, ((List.replicate n worker_position.outside).map
      (fun p => if p = .waiting ∨ p = .woken then 1 else 0)).sum = 0 := by
    intro n
    induction n with
    | zero => rfl
    | succ n ih => simp [List.replicate_succ]
  simp only [shared_termination.create, shared_termination.num_waiting, h0, Nat.add_zero]

theorem termination_run_spec {ncpus : Nat} (hn : ncpus < SIZE_MOD) :
    ∀ (acts : List termination_step) (s s1 : shared_termination)
      (evs : List termination_event),
      termination_inv ncpus s → shared_termination.run acts s = some (s1, evs) →
      termination_inv ncpus s1 ∧ (s.done = true → s1.done = true) ∧
      ∀ ev, ev ∈ evs → ev.result = true → s1.done = true := by
  intro acts
  induction acts with
  | nil =>
    intro s s1 evs hinv h
    simp only [shared_termination.run, Option.some.injEq, Prod.mk.injEq] at h
    obtain ⟨h1, h2⟩ := h
    subst h1 h2
    exact ⟨hinv, fun h => h, fun ev hev => (by cases hev)⟩
  | cons a rest ih =>
    intro s s1 evs hinv h
    simp only [shared_termination.run] at h
    cases hs : s.step a with
    | none => simp [hs] at h
    | some r =>
      obtain ⟨s2, evs2⟩ := r
      simp only [hs] at h
      cases hr : shared_termination.run rest s2 with
      | none => simp [hr] at h
      | some r3 =>
        obtain ⟨s3, evs3⟩ := r3
        simp only [hr, Option.some.injEq, Prod.mk.injEq] at h
        obtain ⟨h1, h2⟩ := h
        subst h1 h2
        obtain ⟨i1, i2, i3, _, _⟩ := termination_step_spec hn s hinv a s2 evs2 hs
        obtain ⟨j1, j2, j3⟩ := ih s2 s3 evs3 i1 hr
        refine ⟨j1, fun h => j2 (i2 h), ?_⟩
        intro ev hev hres
        rcases List.mem_append.mp hev with hm | hm
        · exact j2 (i3 ev hm hres)
        · exact j3 ev hm hres

/-- C12 (amended): in every concurrent execution of `shared_termination` by
`ncpus` workers, `end_critical_section` has returned true only if `done` is set;
as long as `done` is not set, `numactive` equals `ncpus` minus the number of
workers inside `cond.wait` of `end_critical_section`, and once `done` is set
`numactive` is 0; a step sets `done` only as the `end_critical_section` of a
worker that brings `numactive` from 1 to 0 while every other worker is inside
`cond.wait` of `end_critical_section`; and `cancel_critical_section` changes
neither `numactive` nor `done`. -/
theorem shared_termination_counts_active_workers (ncpus : Nat)
    (acts : List termination_step) (s : shared_termination) (evs : List termination_event)
    (hn : ncpus < SIZE_MOD)
    (hrun : shared_termination.run acts (shared_termination.create ncpus) = some (s, evs)) :
    (∀ ev, ev ∈ evs → ev.result = true → s.done = true) ∧
    (s.done = false → s.num_waiting ≤ ncpus ∧ s.numactive = ncpus - s.num_waiting) ∧
    (s.done = true → s.numactive = 0) ∧
    ∀ a s1 evs1, s.step a = some (s1, evs1) →
      (∀ ev, ev ∈ evs1 → ev.result = true → s1.done = true) ∧
      (s.done = false → s1.done = true →
        ∃ c, a = .end_critical_section c ∧ s.numactive = 1 ∧ s1.numactive = 0 ∧
          ∀ c1, c1 < ncpus → c1 ≠ c →
            s.workers[c1]? = some .waiting ∨ s.workers[c1]? = some .woken) ∧
      (∀ c, a = .cancel_critical_section c →
        s1.numactive = s.numactive ∧ s1.done = s.done) := by
  obtain ⟨hinv, _, hev⟩ := termination_run_spec hn acts _ s evs (termination_create_inv ncpus) hrun
  refine ⟨hev, ?_, hinv.fin, ?_⟩
  · intro hd
    have := hinv.active hd
    omega
  · intro a s1 evs1 hstep
    obtain ⟨_, _, i3, i4, i5⟩ := termination_step_spec hn s hinv a s1 evs1 hstep
    exact ⟨i3, i4, i5⟩

/-- Witness for claim C12: two workers that find no work; the second one sets
`done`, both calls of `end_critical_section` return true, and `numactive` is 0. -/
theorem shared_termination_counts_active_workers_witness :
    ∃ s, shared_termination.run termination_schedule (shared_termination.create 2)
        = some (s, [⟨1, true⟩, ⟨0, true⟩]) ∧
      s.done = true ∧ s.numactive = 0 := by
  have h : (shared_termination.run termination_schedule (shared_termination.create 2)).map
      (fun r => r.2) = some [⟨1, true⟩, ⟨0, true⟩] := by decide
  cases hrun : shared_termination.run termination_schedule (shared_termination.create 2) with
  | none => rw [hrun] at h; cases h
  | some r =>
    obtain ⟨s, evs⟩ := r
    rw [hrun] at h
    simp only [Option.map_some', Option.some.injEq] at h
    subst h
    have h2 := shared_termination_counts_active_workers 2 termination_schedule s _ (by decide) hrun
    have hd := h2.1 ⟨1, true⟩ (by simp) rfl
    exact ⟨s, rfl, hd, h2.2.2.1 hd⟩

/-- C12, as stated, fails once `done` is set: after the two workers have left
`end_critical_section` with the result true, no worker is waiting inside it, yet
`numactive` is 0 and not `ncpus = 2`. -/
theorem numactive_after_done_counterexample :
    ∃ s evs, shared_termination.run termination_schedule (shared_termination.create 2)
        = some (s, evs) ∧
      s.workers = [.outside, .outside] ∧ s.num_waiting = 0 ∧ s.numcpus = 2 ∧
      s.numactive = 0 ∧ s.numactive ≠ s.numcpus - s.num_waiting := by
  have h : (shared_termination.run termination_schedule (shared_termination.create 2)).map
      (fun r => (r.1.workers, r.1.num_waiting, r.1.numcpus, r.1.numactive)) =
      some ([.outside, .outside], 0, 2, 0) := by decide
  cases hrun : shared_termination.run termination_schedule (shared_termination.create 2) with
  | none => rw [hrun] at h; cases h
  | some r =>
    rw [hrun] at h
    simp only [Option.map_some', Option.some.injEq, Prod.mk.injEq] at h
    refine ⟨r.1, r.2, rfl, h.1, h.2.1, h.2.2.1, h.2.2.2, ?_⟩
    rw [h.2.1, h.2.2.1, h.2.2.2]
    decide

/-! ### Syncs with interval 0 -/

theorem top_eq_none (q : mutable_queue) : mutable_queue.top q = none → q = [] := by
  cases q with
  | nil => intro _; rfl
  | cons x q =>
    intro h
    simp only [mutable_queue.top] at h
    cases ht : mutable_queue.top q with
    | none => simp [ht] at h
    | some y =>
      simp only [ht] at h
      split_ifs at h

theorem top_mem_max : ∀ (q : mutable_queue) (x : Nat × Int), mutable_queue.top q = some x →
    x ∈ q ∧ ∀ y, y ∈ q → y.2 ≤ x.2 := by
  intro q
  induction q with
  | nil => intro x h; simp [mutable_queue.top] at h
  | cons a q ih =>
    intro x h
    simp only [mutable_queue.top] at h
    cases ht : mutable_queue.top q with
    | none =>
      simp only [ht, Option.some.injEq] at h
      subst h
      have := top_eq_none q ht
      subst this
      exact ⟨List.mem_singleton.mpr rfl, fun y hy => by
        rw [List.mem_singleton.mp hy]⟩
    | some b =>
      simp only [ht] at h
      obtain ⟨hb1, hb2⟩ := ih b ht
      by_cases hge : a.2 ≥ b.2
      · rw [if_pos hge, Option.some.injEq] at h
        subst h
        refine ⟨List.mem_cons_self _ _, fun y hy => ?_⟩
        rcases List.mem_cons.mp hy with rfl | hm
        · exact le_refl _
        · exact le_trans (hb2 y hm) hge
      · rw [if_neg hge, Option.some.injEq] at h
        subst h
        refine ⟨List.mem_cons_of_mem _ hb1, fun y hy => ?_⟩
        rcases List.mem_cons.mp hy with rfl | hm
        · omega
        · exact hb2 y hm

theorem count_ids_erase : ∀ (q : mutable_queue) (x : Nat × Int) (i : Nat), x ∈ q →
    (q.map Prod.fst).count i =
      ((q.erase x).map Prod.fst).count i + (if x.1 = i then 1 else 0) := by
  intro q
  induction q with
  | nil => intro x i hx; cases hx
  | cons a q ih =>
    intro x i hx
    rw [List.erase_cons]
    by_cases hax : a = x
    · subst hax
      simp only [beq_self_eq_true, if_true, List.map_cons, List.count_cons, beq_iff_eq]
    · have hb : (a == x) = false := by simpa using hax
      have hm : x ∈ q := by
        rcases List.mem_cons.mp hx with h | h
        · exact absurd h.symm hax
        · exact h
      simp only [hb, Bool.false_eq_true, if_false, List.map_cons, List.count_cons, beq_iff_eq]
      rw [ih x i hm]
      omega

theorem count_ids_insert_max (q : mutable_queue) (item : Nat) (priority : Int) (i : Nat)
    (hne : item ≠ i) :
    ((mutable_queue.insert_max q item priority).map Prod.fst).count i =
      (q.map Prod.fst).count i := by
  unfold mutable_queue.insert_max
  split_ifs
  · rw [List.map_map]
    congr 1
    apply List.map_congr_left
    intro x _
    simp only [Function.comp]
    split_ifs <;> rfl
  · rw [List.map_append, List.count_append]
    have h0 : List.count i [item] = 0 :=
      List.count_eq_zero_of_not_mem (fun h => hne (List.mem_singleton.mp h).symm)
    simp only [List.map_cons, List.map_nil, h0, Nat.add_zero]

theorem mem_insert_max (q : mutable_queue) (item : Nat) (priority : Int) (y : Nat × Int)
    (hy : y ∈ mutable_queue.insert_max q item priority) :
    y ∈ q ∨ (y.1 = item ∧ (y.2 = priority ∨ ∃ x, x ∈ q ∧ x.1 = item ∧ y.2 = x.2)) := by
  unfold mutable_queue.insert_max at hy
  split_ifs at hy
  · obtain ⟨x, hx, hxy⟩ := List.mem_map.mp hy
    by_cases hi : x.1 = item
    · rw [if_pos hi] at hxy
      right
      subst hxy
      refine ⟨hi, ?_⟩
      simp only
      rcases le_total x.2 priority with h | h
      · left; exact max_eq_right h
      · right; exact ⟨x, hx, hi, max_eq_left h⟩
    · rw [if_neg hi] at hxy
      subst hxy
      exact Or.inl hx
  · rcases List.mem_append.mp hy with h | h
    · exact Or.inl h
    · rw [List.mem_singleton.mp h]
      exact Or.inr ⟨rfl, Or.inl rfl⟩

theorem update_head_tracker_fields {A : Type} (e : asynchronous_engine A) :
    (asynchronous_engine.update_head_tracker e).sync_tasks = e.sync_tasks ∧
    (asynchronous_engine.update_head_tracker e).apx_update_counts = e.apx_update_counts ∧
    (asynchronous_engine.update_head_tracker e).active = e.active ∧
    (asynchronous_engine.update_head_tracker e).task_exec_queue = e.task_exec_queue ∧
    (asynchronous_engine.update_head_tracker e).sync_task_queue = e.sync_task_queue ∧
    (∀ t, e.active = true → mutable_queue.top e.sync_task_queue = some t →
      (asynchronous_engine.update_head_tracker e).sync_task_queue_next_update =
        int_to_size_t (int_neg t.2)) := by
  unfold asynchronous_engine.update_head_tracker
  split
  · rename_i ha ht
    refine ⟨rfl, rfl, rfl, rfl, rfl, ?_⟩
    intro t _ h
    rw [ht] at h
    cases h
    rfl
  · rename_i hne
    refine ⟨rfl, rfl, rfl, rfl, rfl, ?_⟩
    intro t ha ht
    exact absurd ht (by intro h; exact hne t ha h)

theorem dispatch_due_fields {A : Type} (e : asynchronous_engine A) (top : Nat × Int)
    (sync : sync_task A) :
    (asynchronous_engine.dispatch_due e top sync).sync_tasks = e.sync_tasks ∧
    (asynchronous_engine.dispatch_due e top sync).apx_update_counts = e.apx_update_counts ∧
    (asynchronous_engine.dispatch_due e top sync).active = e.active ∧
    (asynchronous_engine.dispatch_due e top sync).task_exec_queue =
      e.task_exec_queue ++ [top.1] ∧
    (asynchronous_engine.dispatch_due e top sync).sync_task_queue =
      (if sync.sync_interval > 0 then
        mutable_queue.insert_max (mutable_queue.pop e.sync_task_queue) top.1
          (int_neg (to_int ((e.approximate_last_update_count + sync.sync_interval) % SIZE_MOD)))
       else mutable_queue.pop e.sync_task_queue) ∧
    (∀ t, e.active = true →
      mutable_queue.top (asynchronous_engine.dispatch_due e top sync).sync_task_queue = some t →
      (asynchronous_engine.dispatch_due e top sync).sync_task_queue_next_update =
        int_to_size_t (int_neg t.2)) := by
  unfold asynchronous_engine.dispatch_due
  obtain ⟨h1, h2, h3, h4, h5, h6⟩ := update_head_tracker_fields
    { e with
      sync_task_queue_head := top
      task_exec_queue := e.task_exec_queue ++ [top.1]
      sync_task_queue :=
        if sync.sync_interval > 0 then
          mutable_queue.insert_max (mutable_queue.pop e.sync_task_queue) top.1
            (int_neg (to_int ((e.approximate_last_update_count
              + sync.sync_interval) % SIZE_MOD)))
        else mutable_queue.pop e.sync_task_queue }
  refine ⟨h1, h2, h3, h4, h5, ?_⟩
  intro t ha ht
  rw [h5] at ht
  exact h6 t ha ht

/-- Dispatching the top entry keeps the number of times item `i`, a sync with
interval 0, was dispatched or is queued, and does not put it back. -/
theorem dispatch_due_account {A : Type} (e : asynchronous_engine A) (top : Nat × Int)
    (sync synci : sync_task A) (i : Nat)
    (hi : e.sync_tasks[i]? = some synci) (h0 : synci.sync_interval = 0)
    (htop : mutable_queue.top e.sync_task_queue = some top)
    (hsync : e.sync_tasks[top.1]? = some sync) :
    (asynchronous_engine.dispatch_due e top sync).task_exec_queue.count i +
        ((asynchronous_engine.dispatch_due e top sync).sync_task_queue.map Prod.fst).count i
      = e.task_exec_queue.count i + (e.sync_task_queue.map Prod.fst).count i ∧
    ((asynchronous_engine.dispatch_due e top sync).sync_task_queue.map Prod.fst).count i
      ≤ (e.sync_task_queue.map Prod.fst).count i := by
  obtain ⟨_, _, _, h4, h5, _⟩ := dispatch_due_fields e top sync
  have hmem := (top_mem_max _ _ htop).1
  have hpop : mutable_queue.pop e.sync_task_queue = e.sync_task_queue.erase top := by
    simp only [mutable_queue.pop, htop]
  have her := count_ids_erase e.sync_task_queue top i hmem
  rw [h4, h5, hpop, List.count_append]
  by_cases hti : top.1 = i
  · have hs : sync = synci := by
      rw [hti, hi] at hsync
      exact (Option.some.inj hsync).symm
    have hI : ¬ sync.sync_interval > 0 := by rw [hs, h0]; omega
    rw [if_neg hI]
    have hc : List.count i [top.1] = 1 := by rw [hti]; simp
    rw [if_pos hti] at her
    omega
  · have hc : List.count i [top.1] = 0 :=
      List.count_eq_zero_of_not_mem (fun h => hti (List.mem_singleton.mp h).symm)
    rw [if_neg hti] at her
    have hq : ((if sync.sync_interval > 0 then
        mutable_queue.insert_max (e.sync_task_queue.erase top) top.1
          (int_neg (to_int ((e.approximate_last_update_count + sync.sync_interval) % SIZE_MOD)))
        else e.sync_task_queue.erase top).map Prod.fst).count i =
        ((e.sync_task_queue.erase top).map Prod.fst).count i := by
      split_ifs
      · exact count_ids_insert_max _ _ _ i hti
      · rfl
    rw [hq]
    omega

/-- A call of `evaluate_sync_queue` never puts a sync with interval 0 back in
the queue: what it dispatches of item `i` it takes out of the queue. -/
theorem evaluate_sync_queue_account {A : Type} (i : Nat) (synci : sync_task A)
    (h0 : synci.sync_interval = 0) :
    ∀ (fuel : Nat) (e e1 : asynchronous_engine A) (cpuid cur : Nat),
      e.sync_tasks[i]? = some synci →
      asynchronous_engine.evaluate_sync_queue fuel e cpuid cur = some e1 →
      e1.sync_tasks = e.sync_tasks ∧ e1.apx_update_counts = e.apx_update_counts ∧
      e1.active = e.active ∧
      e1.task_exec_queue.count i + (e1.sync_task_queue.map Prod.fst).count i
        = e.task_exec_queue.count i + (e.sync_task_queue.map Prod.fst).count i ∧
      (e1.sync_task_queue.map Prod.fst).count i ≤ (e.sync_task_queue.map Prod.fst).count i := by
  intro fuel
  induction fuel with
  | zero =>
    intro e e1 cpuid cur _ h
    unfold asynchronous_engine.evaluate_sync_queue at h
    split_ifs at h
    all_goals
      simp only [Option.some.injEq] at h
      subst h
      exact ⟨rfl, rfl, rfl, rfl, le_refl _⟩
  | succ fuel ih =>
    intro e e1 cpuid cur hi h
    unfold asynchronous_engine.evaluate_sync_queue at h
    obtain ⟨u1, u2, u3, u4, u5, _⟩ := update_head_tracker_fields e
    by_cases hc : cpuid ≠ 0
    · rw [if_pos hc] at h
      simp only [Option.some.injEq] at h
      subst h
      exact ⟨rfl, rfl, rfl, rfl, le_refl _⟩
    · rw [if_neg hc] at h
      by_cases hn : ¬ (e.sync_task_queue_next_update ≤ cur)
      · rw [if_pos hn] at h
        simp only [Option.some.injEq] at h
        subst h
        exact ⟨rfl, rfl, rfl, rfl, le_refl _⟩
      · rw [if_neg hn] at h
        cases ht : mutable_queue.top e.sync_task_queue with
        | none =>
          simp only [ht, Option.some.injEq] at h
          subst h
          rw [u1, u2, u3, u4, u5]
          exact ⟨rfl, rfl, rfl, rfl, le_refl _⟩
        | some top =>
          simp only [ht] at h
          by_cases hd : ¬ (int_to_size_t (int_neg top.2) ≤ cur)
          · rw [if_pos hd] at h
            simp only [Option.some.injEq] at h
            subst h
            rw [u1, u2, u3, u4, u5]
            exact ⟨rfl, rfl, rfl, rfl, le_refl _⟩
          · rw [if_neg hd] at h
            cases hs : e.sync_tasks[top.1]? with
            | none => simp [hs] at h
            | some sync =>
              simp only [hs] at h
              obtain ⟨d1, d2, d3, _, _, _⟩ := dispatch_due_fields e top sync
              obtain ⟨a1, a2⟩ := dispatch_due_account e top sync synci i hi h0 ht hs
              have h' : asynchronous_engine.evaluate_sync_queue fuel
                  (asynchronous_engine.dispatch_due e top sync) cpuid cur = some e1 := h
              obtain ⟨r1, r2, r3, r4, r5⟩ := ih _ e1 cpuid cur (by rw [d1]; exact hi) h'
              exact ⟨r1.trans d1, r2.trans d2, r3.trans d3, r4.trans a1, le_trans r5 a2⟩

theorem int_due_iff (x : Int) (h1 : -(2 ^ 31) < x) (h2 : x ≤ 0) :
    int_to_size_t (int_neg x) ≤ 0 ↔ x = 0 := by
  have hne : x ≠ -(2 ^ 31) := by omega
  unfold int_neg int_to_size_t
  rw [if_neg hne]
  have hm : (-x) % (2 ^ 64 : Int) = -x := Int.emod_eq_of_lt (by omega) (by omega)
  rw [hm]
  omega

theorem reinsert_priority (I : Nat) (h2 : I < 2 ^ 31) :
    int_neg (to_int ((0 + I) % SIZE_MOD)) = -(I : Int) := by
  have hm : (0 + I) % SIZE_MOD = I := by
    rw [Nat.zero_add]
    apply Nat.mod_eq_of_lt
    simp only [SIZE_MOD]; omega
  have h32 : I % 2 ^ 32 = I := Nat.mod_eq_of_lt (by omega)
  rw [hm]
  unfold to_int int_neg
  rw [h32, if_pos h2, if_neg]
  omega

theorem count_zero_erase : ∀ (q : mutable_queue) (x : Nat × Int), x ∈ q → x.2 = 0 →
    q.countP (fun y => y.2 = 0) = (q.erase x).countP (fun y => y.2 = 0) + 1 := by
  intro q
  induction q with
  | nil => intro x hx; cases hx
  | cons a q ih =>
    intro x hx hx0
    rw [List.erase_cons]
    by_cases hax : a = x
    · subst hax
      simp only [beq_self_eq_true, if_true, List.countP_cons, hx0, decide_True]
    · have hb : (a == x) = false := by simpa using hax
      have hm : x ∈ q := by
        rcases List.mem_cons.mp hx with h | h
        · exact absurd h.symm hax
        · exact h
      simp only [hb, Bool.false_eq_true, if_false, List.countP_cons]
      rw [ih x hm hx0]
      omega

theorem count_zero_insert_max (q : mutable_queue) (item : Nat) (priority : Int)
    (hp : priority < 0) :
    (mutable_queue.insert_max q item priority).countP (fun y => y.2 = 0) =
      q.countP (fun y => y.2 = 0) := by
  unfold mutable_queue.insert_max
  split_ifs
  · rw [List.countP_map]
    apply List.countP_congr
    intro x _
    simp only [Function.comp, decide_eq_true_eq]
    split_ifs
    · simp only
      constructor
      · intro h
        rcases le_total x.2 priority with h1 | h1
        · rw [max_eq_right h1] at h; omega
        · rw [max_eq_left h1] at h; exact h
      · intro h
        rw [h]
        exact max_eq_left (by omega)
    · rfl
  · rw [List.countP_append]
    have : ¬ (priority = 0) := by omega
    simp [this]

theorem first_dispatch_inv {A : Type} (i : Nat) (synci : sync_task A)
    (e : asynchronous_engine A) (top : Nat × Int) (sync : sync_task A)
    (hinv : first_evaluation_inv i e)
    (hi : e.sync_tasks[i]? = some synci) (h0 : synci.sync_interval = 0)
    (htop : mutable_queue.top e.sync_task_queue = some top)
    (hdue : int_to_size_t (int_neg top.2) ≤ 0)
    (hsync : e.sync_tasks[top.1]? = some sync) :
    first_evaluation_inv i (asynchronous_engine.dispatch_due e top sync) ∧
    e.sync_task_queue.countP (fun y => y.2 = 0) =
      (asynchronous_engine.dispatch_due e top sync).sync_task_queue.countP (fun y => y.2 = 0)
        + 1 := by
  obtain ⟨d1, d2, d3, _, d5, d6⟩ := dispatch_due_fields e top sync
  obtain ⟨hmem, hmax⟩ := top_mem_max _ _ htop
  have hr := hinv.range top hmem
  have ht0 : top.2 = 0 := (int_due_iff top.2 hr.1 hr.2).mp hdue
  have hpop : mutable_queue.pop e.sync_task_queue = e.sync_task_queue.erase top := by
    simp only [mutable_queue.pop, htop]
  have hsm : sync.sync_interval < 2 ^ 31 := hinv.small sync (List.getElem?_mem hsync)
  have hprio : int_neg (to_int ((e.approximate_last_update_count + sync.sync_interval)
      % SIZE_MOD)) = -(sync.sync_interval : Int) := by
    have : e.approximate_last_update_count = 0 := hinv.apx
    rw [this]
    exact reinsert_priority _ hsm
  rw [hprio, hpop] at d5
  have hsub : ∀ y, y ∈ e.sync_task_queue.erase top → y ∈ e.sync_task_queue :=
    fun y hy => List.mem_of_mem_erase hy
  -- what the new queue holds
  have hnew : ∀ y, y ∈ (asynchronous_engine.dispatch_due e top sync).sync_task_queue →
      y ∈ e.sync_task_queue ∨
        (0 < sync.sync_interval ∧ y.1 = top.1 ∧ -(2 ^ 31) < y.2 ∧ y.2 ≤ 0) := by
    intro y hy
    rw [d5] at hy
    by_cases hI : sync.sync_interval > 0
    · rw [if_pos hI] at hy
      rcases mem_insert_max _ _ _ y hy with h | ⟨h1, h2 | ⟨x, hx, _, hxy⟩⟩
      · exact Or.inl (hsub y h)
      · right
        refine ⟨hI, h1, ?_, ?_⟩ <;> omega
      · right
        have := hinv.range x (hsub x hx)
        refine ⟨hI, h1, ?_, ?_⟩ <;> omega
    · rw [if_neg hI] at hy
      exact Or.inl (hsub y hy)
  refine ⟨⟨by rw [d3]; exact hinv.act, by rw [d2]; exact hinv.apx,
    by rw [d1]; exact hinv.small, ?_, ?_, ?_, ?_⟩, ?_⟩
  · intro y hy
    rw [d1]
    rcases hnew y hy with h | ⟨_, h, _⟩
    · exact hinv.reg y h
    · rw [h]; exact ⟨sync, hsync⟩
  · intro y hy hyi
    rcases hnew y hy with h | ⟨hI, h, _⟩
    · exact hinv.item y h hyi
    · exfalso
      rw [h] at hyi
      rw [hyi, hi] at hsync
      have : sync = synci := (Option.some.inj hsync).symm
      rw [this, h0] at hI
      omega
  · intro y hy
    rcases hnew y hy with h | ⟨_, _, h⟩
    · exact hinv.range y h
    · exact h
  · rintro ⟨y, hy, hy0⟩
    cases ht : mutable_queue.top
        (asynchronous_engine.dispatch_due e top sync).sync_task_queue with
    | none =>
      rw [top_eq_none _ ht] at hy
      cases hy
    | some t =>
      obtain ⟨tm, tmax⟩ := top_mem_max _ _ ht
      have h1 := tmax y hy
      have h2 : t.2 ≤ 0 := by
        rcases hnew t tm with h | ⟨_, _, h⟩
        · exact (hinv.range t h).2
        · exact h.2
      have h3 : t.2 = 0 := by omega
      rw [d6 t hinv.act ht, h3]
      rfl
  · rw [count_zero_erase e.sync_task_queue top hmem ht0, d5]
    by_cases hI : sync.sync_interval > 0
    · rw [if_pos hI, count_zero_insert_max _ _ _ (by omega)]
    · rw [if_neg hI]

/-- The first evaluation of the sync queue takes item `i`, a sync with
interval 0, out of the queue, and it returns when the fuel exceeds the number of
queued entries of priority 0. -/
theorem first_evaluation_spec {A : Type} (i : Nat) (synci : sync_task A)
    (h0 : synci.sync_interval = 0) :
    ∀ (fuel : Nat) (e : asynchronous_engine A), first_evaluation_inv i e →
      e.sync_tasks[i]? = some synci →
      (asynchronous_engine.evaluate_sync_queue fuel e 0 0 = none →
        fuel ≤ e.sync_task_queue.countP (fun y => y.2 = 0)) ∧
      (∀ e1, asynchronous_engine.evaluate_sync_queue fuel e 0 0 = some e1 →
        (e1.sync_task_queue.map Prod.fst).count i = 0) := by
  have hnone : ∀ e : asynchronous_engine A, first_evaluation_inv i e →
      (¬ ∃ x, x ∈ e.sync_task_queue ∧ x.2 = 0) →
      (e.sync_task_queue.map Prod.fst).count i = 0 := by
    intro e hinv hno
    apply List.count_eq_zero_of_not_mem
    intro hm
    obtain ⟨x, hx, hxi⟩ := List.mem_map.mp hm
    exact hno ⟨x, hx, hinv.item x hx hxi⟩
  intro fuel
  induction fuel with
  | zero =>
    intro e hinv _
    refine ⟨fun _ => Nat.zero_le _, ?_⟩
    intro e1 h
    unfold asynchronous_engine.evaluate_sync_queue at h
    simp only [ne_eq, not_true_eq_false, if_false] at h
    split_ifs at h with hn
    simp only [Option.some.injEq] at h
    subst h
    apply hnone e hinv
    intro hex
    rw [hinv.head hex] at hn
    omega
  | succ fuel ih =>
    intro e hinv hi
    obtain ⟨_, _, _, _, u5, _⟩ := update_head_tracker_fields e
    unfold asynchronous_engine.evaluate_sync_queue
    simp only [ne_eq, not_true_eq_false, if_false]
    by_cases hn : ¬ (e.sync_task_queue_next_update ≤ 0)
    · rw [if_pos hn]
      refine ⟨fun h => (by cases h), ?_⟩
      intro e1 h
      simp only [Option.some.injEq] at h
      subst h
      apply hnone e hinv
      intro hex
      rw [hinv.head hex] at hn
      omega
    · rw [if_neg hn]
      cases ht : mutable_queue.top e.sync_task_queue with
      | none =>
        simp only
        refine ⟨fun h => (by cases h), ?_⟩
        intro e1 h
        simp only [Option.some.injEq] at h
        subst h
        rw [u5, top_eq_none _ ht]
        rfl
      | some top =>
        simp only
        obtain ⟨hmem, hmax⟩ := top_mem_max _ _ ht
        by_cases hd : ¬ (int_to_size_t (int_neg top.2) ≤ 0)
        · rw [if_pos hd]
          refine ⟨fun h => (by cases h), ?_⟩
          intro e1 h
          simp only [Option.some.injEq] at h
          subst h
          rw [u5]
          apply hnone e hinv
          rintro ⟨x, hx, hx0⟩
          have hr := hinv.range top hmem
          have h1 := hmax x hx
          have : top.2 = 0 := by omega
          exact hd ((int_due_iff top.2 hr.1 hr.2).mpr this)
        · rw [if_neg hd]
          have hd' : int_to_size_t (int_neg top.2) ≤ 0 := by
            by_contra hc; exact hd hc
          obtain ⟨sync, hs⟩ := hinv.reg top hmem
          simp only [hs]
          obtain ⟨hinv1, hcount⟩ := first_dispatch_inv i synci e top sync hinv hi h0 ht hd' hs
          obtain ⟨d1, _⟩ := dispatch_due_fields e top sync
          obtain ⟨r1, r2⟩ := ih (asynchronous_engine.dispatch_due e top sync) hinv1
            (by rw [d1]; exact hi)
          refine ⟨fun h => ?_, fun e1 h => r2 e1 h⟩
          have := r1 h
          omega

theorem execute_task_sync {A σ : Type} (ops : scheduler_ops σ) (e e1 : asynchronous_engine A)
    (s s1 : σ) (cpuid : Nat) (w w1 : worker_locals) (task : update_task)
    (evs : List engine_event)
    (h : asynchronous_engine.execute_task ops e s cpuid w task = some (e1, s1, w1, evs)) :
    sync_view e1 = sync_view e ∧ w1.updcount = w.updcount ∧
      (w.updcount = 0 → e1.apx_update_counts = e.apx_update_counts) := by
  unfold asynchronous_engine.execute_task at h
  by_cases hcond : ¬ (task.vertex < e.num_vertices) ∨ task.function = none
  · rw [if_pos hcond] at h
    cases h
  · rw [if_neg hcond] at h
    cases hc : e.update_counts[cpuid]? with
    | none => simp [hc] at h
    | some c =>
      simp only [hc, Option.some.injEq, Prod.mk.injEq] at h
      obtain ⟨h1, _, h3, _⟩ := h
      subst h1 h3
      refine ⟨rfl, rfl, ?_⟩
      intro hu
      simp only [hu]
      rfl

theorem fetch_and_run_sync {A σ : Type} (ops : scheduler_ops σ) (e e1 : asynchronous_engine A)
    (s s1 : σ) (cpuid : Nat) (w w1 : worker_locals) (evs : List engine_event)
    (h : asynchronous_engine.fetch_and_run ops e s cpuid w = some (e1, s1, w1, evs)) :
    sync_view e1 = sync_view e ∧ w1.updcount = w.updcount ∧
      (w.updcount = 0 → e1.apx_update_counts = e.apx_update_counts) := by
  unfold asynchronous_engine.fetch_and_run at h
  simp only at h
  cases hg : ops.get_next_task s cpuid with
  | none => simp [hg] at h
  | some p =>
    obtain ⟨sa, st⟩ := p
    simp only [hg] at h
    cases st with
    | NEWTASK task =>
      simp only at h
      cases hx : asynchronous_engine.execute_task ops e sa cpuid
          { w with ctr := (w.ctr + SIZE_MOD - 1) % SIZE_MOD } task with
      | none => simp [hx] at h
      | some q =>
        obtain ⟨ea, sb, wa, ev⟩ := q
        simp only [hx, Option.some.injEq, Prod.mk.injEq] at h
        obtain ⟨h1, _, h3, _⟩ := h
        rw [← h1, ← h3]
        obtain ⟨x1, x2, x3⟩ := execute_task_sync ops e ea sa sb cpuid _ wa task ev hx
        exact ⟨x1, x2, x3⟩
    | EMPTY =>
      simp only at h
      cases hg2 : ops.get_next_task (ops.begin_critical_section sa cpuid) cpuid with
      | none => simp [hg2] at h
      | some p2 =>
        obtain ⟨sb, st2⟩ := p2
        simp only [hg2] at h
        cases st2 with
        | NEWTASK task =>
          simp only at h
          cases hx : asynchronous_engine.execute_task ops e
              (ops.cancel_critical_section sb cpuid) cpuid
              { ctr := (w.ctr + SIZE_MOD - 1) % SIZE_MOD, updcount := w.updcount,
                isempty := true, running := w.running } task with
          | none => simp [hx] at h
          | some q =>
            obtain ⟨ea, sc, wa, ev⟩ := q
            simp only [hx, Option.some.injEq, Prod.mk.injEq] at h
            obtain ⟨h1, _, h3, _⟩ := h
            rw [← h1, ← h3]
            obtain ⟨x1, x2, x3⟩ := execute_task_sync ops e ea _ sc cpuid _ wa task ev hx
            exact ⟨x1, x2, x3⟩
        | EMPTY =>
          simp only at h
          cases he : ops.end_critical_section sb cpuid with
          | none => simp [he] at h
          | some r =>
            obtain ⟨sc, b⟩ := r
            cases b <;>
            · simp only [he, Option.some.injEq, Prod.mk.injEq] at h
              obtain ⟨h1, _, h3, _⟩ := h
              rw [← h1, ← h3]
              exact ⟨rfl, rfl, fun _ => rfl⟩

theorem check_block_sync {A : Type} (e e1 : asynchronous_engine A) (cpuid now fuel : Nat)
    (w : worker_locals) (ctr : Nat) (b : Bool)
    (h : asynchronous_engine.check_block e cpuid now fuel w = some (e1, ctr, b)) :
    ∃ e0, (if cpuid = 0 then
        asynchronous_engine.evaluate_sync_queue fuel e cpuid e.approximate_last_update_count
        else some e) = some e0 ∧
      sync_view e1 = sync_view e0 ∧ e1.apx_update_counts = e0.apx_update_counts := by
  unfold asynchronous_engine.check_block at h
  cases hq : (if cpuid = 0 then
      asynchronous_engine.evaluate_sync_queue fuel e cpuid e.approximate_last_update_count
      else some e) with
  | none => simp [hq] at h
  | some e0 =>
    refine ⟨e0, rfl, ?_⟩
    simp only [hq] at h
    have hr := satisfies_termination_condition_frame
      { e0 with last_check_millis := now } now
    split_ifs at h
    all_goals
      simp only [Option.some.injEq, Prod.mk.injEq] at h
      obtain ⟨h1, _, _⟩ := h
      rw [← h1]
      first
        | exact ⟨rfl, rfl⟩
        | (rw [hr]; exact ⟨rfl, rfl⟩)

/-- What a trip of a worker does to the sync queue: nothing, or, for worker 0,
what one call of `evaluate_sync_queue` does; a first trip of worker 0 while the
engine is active makes that call. -/
theorem run_to_terminate_pass_sync {A σ : Type} (ops : scheduler_ops σ)
    (rs rs1 : run_state A σ) (cpuid now fuel : Nat) (evs : List engine_event)
    (h : asynchronous_engine.run_to_terminate_pass ops rs cpuid now fuel = some (rs1, evs)) :
    ∃ e0, sync_view rs1.engine = sync_view e0 ∧
      ((∀ w, rs.workers[cpuid]? = some w → w.updcount = 0) →
        rs1.engine.apx_update_counts = e0.apx_update_counts) ∧
      (e0 = rs.engine ∨ (cpuid = 0 ∧ asynchronous_engine.evaluate_sync_queue fuel rs.engine 0
          rs.engine.approximate_last_update_count = some e0)) ∧
      (cpuid = 0 → rs.workers[0]? = some fresh_worker → rs.engine.active = true →
        asynchronous_engine.evaluate_sync_queue fuel rs.engine 0
          rs.engine.approximate_last_update_count = some e0) ∧
      (rs1.workers = rs.workers ∨
        ∃ w w1, rs.workers[cpuid]? = some w ∧ rs1.workers = rs.workers.set cpuid w1 ∧
          w1.updcount = w.updcount) := by
  unfold asynchronous_engine.run_to_terminate_pass at h
  cases hw : rs.workers[cpuid]? with
  | none => simp [hw] at h
  | some w =>
    simp only [hw] at h
    by_cases hr : w.running = false
    · rw [if_pos hr] at h
      simp only [Option.some.injEq, Prod.mk.injEq] at h
      obtain ⟨rfl, rfl⟩ := h
      refine ⟨rs.engine, rfl, fun _ => rfl, Or.inl rfl, ?_, Or.inl rfl⟩
      intro hc hf _
      subst hc
      rw [hw] at hf
      cases hf
      cases hr
    · rw [if_neg hr] at h
      by_cases ha : rs.engine.active = false
      · rw [if_pos ha] at h
        simp only [Option.some.injEq, Prod.mk.injEq] at h
        obtain ⟨rfl, rfl⟩ := h
        refine ⟨rs.engine, rfl, fun _ => rfl, Or.inl rfl, ?_, Or.inr ⟨w, _, rfl, rfl, rfl⟩⟩
        intro _ _ hact
        rw [ha] at hact
        cases hact
      · rw [if_neg ha] at h
        cases hb : (if w.ctr = 0 ∨ w.isempty = true then
            asynchronous_engine.check_block rs.engine cpuid now fuel w
            else some (rs.engine, w.ctr, false)) with
        | none => simp [hb] at h
        | some r =>
          obtain ⟨e1, ctr, b⟩ := r
          have he1 : ∃ e0, sync_view e1 = sync_view e0 ∧
              e1.apx_update_counts = e0.apx_update_counts ∧
              (e0 = rs.engine ∨ (cpuid = 0 ∧ asynchronous_engine.evaluate_sync_queue fuel
                rs.engine 0 rs.engine.approximate_last_update_count = some e0)) ∧
              (cpuid = 0 → rs.workers[0]? = some fresh_worker → rs.engine.active = true →
                asynchronous_engine.evaluate_sync_queue fuel rs.engine 0
                  rs.engine.approximate_last_update_count = some e0) := by
            by_cases hc : w.ctr = 0 ∨ w.isempty = true
            · rw [if_pos hc] at hb
              obtain ⟨e0, hq, hv, hx⟩ := check_block_sync _ _ _ _ _ _ _ _ hb
              by_cases h0 : cpuid = 0
              · subst h0
                rw [if_pos rfl] at hq
                exact ⟨e0, hv, hx, Or.inr ⟨rfl, hq⟩, fun _ _ _ => hq⟩
              · rw [if_neg h0, Option.some.injEq] at hq
                subst hq
                exact ⟨rs.engine, hv, hx, Or.inl rfl, fun h => absurd h h0⟩
            · rw [if_neg hc] at hb
              simp only [Option.some.injEq, Prod.mk.injEq] at hb
              obtain ⟨hb1, _, _⟩ := hb
              subst hb1
              refine ⟨rs.engine, rfl, rfl, Or.inl rfl, ?_⟩
              intro h0 hf _
              subst h0
              rw [hw] at hf
              cases hf
              exact absurd (Or.inl rfl) hc
          obtain ⟨e0, hv, hx, hor, hfirst⟩ := he1
          simp only [hb] at h
          cases b with
          | true =>
            simp only [Option.some.injEq, Prod.mk.injEq] at h
            obtain ⟨rfl, rfl⟩ := h
            exact ⟨e0, hv, fun _ => hx, hor, hfirst, Or.inr ⟨w, _, rfl, rfl, rfl⟩⟩
          | false =>
            simp only at h
            cases hf : asynchronous_engine.fetch_and_run ops e1 rs.scheduler cpuid
                { w with ctr := ctr } with
            | none => simp [hf] at h
            | some q =>
              obtain ⟨e2, s2, w2, ev⟩ := q
              simp only [hf, Option.some.injEq, Prod.mk.injEq] at h
              obtain ⟨rfl, rfl⟩ := h
              obtain ⟨f1, f2, f3⟩ := fetch_and_run_sync ops e1 e2 rs.scheduler s2 cpuid _ w2 ev hf
              refine ⟨e0, f1.trans hv, ?_, hor, hfirst, Or.inr ⟨w, w2, rfl, rfl, f2⟩⟩
              intro hu
              rw [f3 (hu w rfl), hx]

theorem sync_view_eq {A : Type} (e1 e0 : asynchronous_engine A) (h : sync_view e1 = sync_view e0) :
    e1.sync_tasks = e0.sync_tasks ∧ e1.sync_task_queue = e0.sync_task_queue ∧
    e1.task_exec_queue = e0.task_exec_queue ∧
    e1.sync_task_queue_next_update = e0.sync_task_queue_next_update := by
  simp only [sync_view, Prod.mk.injEq] at h
  exact h

theorem run_workers_append {A σ : Type} (ops : scheduler_ops σ) :
    ∀ (a b : List (Nat × Nat × Nat)) (rs rs2 : run_state A σ) (evs : List engine_event),
      asynchronous_engine.run_workers ops (a ++ b) rs = some (rs2, evs) →
      ∃ rs1 evs1 evs2, asynchronous_engine.run_workers ops a rs = some (rs1, evs1) ∧
        asynchronous_engine.run_workers ops b rs1 = some (rs2, evs2) := by
  intro a
  induction a with
  | nil =>
    intro b rs rs2 evs h
    exact ⟨rs, [], evs, rfl, h⟩
  | cons x a ih =>
    intro b rs rs2 evs h
    obtain ⟨cpuid, now, fuel⟩ := x
    rw [List.cons_append] at h
    simp only [asynchronous_engine.run_workers] at h
    cases hp : asynchronous_engine.run_to_terminate_pass ops rs cpuid now fuel with
    | none => simp [hp] at h
    | some r =>
      obtain ⟨rsa, eva⟩ := r
      simp only [hp] at h
      cases hr : asynchronous_engine.run_workers ops (a ++ b) rsa with
      | none => simp [hr] at h
      | some r2 =>
        obtain ⟨rsb, evb⟩ := r2
        simp only [hr, Option.some.injEq, Prod.mk.injEq] at h
        obtain ⟨h1, _⟩ := h
        subst h1
        obtain ⟨rs1, evs1, evs2, k1, k2⟩ := ih b rsa rsb evb hr
        exact ⟨rs1, eva ++ evs1, evs2, by simp only [asynchronous_engine.run_workers, hp, k1], k2⟩

/-- Along a run, what was dispatched of a sync with interval 0 was taken out of
the sync queue, and nothing is put back. -/
theorem run_workers_account {A σ : Type} (ops : scheduler_ops σ) (i : Nat)
    (synci : sync_task A) (h0 : synci.sync_interval = 0) :
    ∀ (sched : List (Nat × Nat × Nat)) (rs rs1 : run_state A σ) (evs : List engine_event),
      asynchronous_engine.run_workers ops sched rs = some (rs1, evs) →
      rs.engine.sync_tasks[i]? = some synci →
      rs1.engine.sync_tasks[i]? = some synci ∧
      rs1.engine.task_exec_queue.count i + (rs1.engine.sync_task_queue.map Prod.fst).count i
        = rs.engine.task_exec_queue.count i + (rs.engine.sync_task_queue.map Prod.fst).count i ∧
      (rs1.engine.sync_task_queue.map Prod.fst).count i
        ≤ (rs.engine.sync_task_queue.map Prod.fst).count i := by
  intro sched
  induction sched with
  | nil =>
    intro rs rs1 evs h hi
    simp only [asynchronous_engine.run_workers, Option.some.injEq, Prod.mk.injEq] at h
    obtain ⟨h1, _⟩ := h
    subst h1
    exact ⟨hi, rfl, le_refl _⟩
  | cons x sched ih =>
    intro rs rs1 evs h hi
    obtain ⟨cpuid, now, fuel⟩ := x
    simp only [asynchronous_engine.run_workers] at h
    cases hp : asynchronous_engine.run_to_terminate_pass ops rs cpuid now fuel with
    | none => simp [hp] at h
    | some r =>
      obtain ⟨rsa, eva⟩ := r
      simp only [hp] at h
      cases hr : asynchronous_engine.run_workers ops sched rsa with
      | none => simp [hr] at h
      | some r2 =>
        obtain ⟨rsb, evb⟩ := r2
        simp only [hr, Option.some.injEq, Prod.mk.injEq] at h
        obtain ⟨h1, _⟩ := h
        subst h1
        obtain ⟨e0, hv, _, hor, _, _⟩ := run_to_terminate_pass_sync ops rs rsa cpuid now fuel eva hp
        obtain ⟨v1, v2, v3, _⟩ := sync_view_eq _ _ hv
        have hstep : e0.sync_tasks[i]? = some synci ∧
            e0.task_exec_queue.count i + (e0.sync_task_queue.map Prod.fst).count i
              = rs.engine.task_exec_queue.count i
                + (rs.engine.sync_task_queue.map Prod.fst).count i ∧
            (e0.sync_task_queue.map Prod.fst).count i
              ≤ (rs.engine.sync_task_queue.map Prod.fst).count i := by
          rcases hor with h | ⟨_, h⟩
          · subst h
            exact ⟨hi, rfl, le_refl _⟩
          · obtain ⟨a1, _, _, a4, a5⟩ :=
              evaluate_sync_queue_account i synci h0 fuel rs.engine e0 0 _ hi h
            exact ⟨by rw [a1]; exact hi, a4, a5⟩
        obtain ⟨r1, r2, r3⟩ := ih rsa rsb evb hr (by rw [v1]; exact hstep.1)
        rw [v2, v3] at r2
        rw [v2] at r3
        exact ⟨r1, r2.trans hstep.2.1, le_trans r3 hstep.2.2⟩

/-- Trips of workers other than worker 0 leave the sync queue, the approximate
update count and the locals of worker 0 as they are. -/
theorem run_workers_others {A σ : Type} (ops : scheduler_ops σ) :
    ∀ (sched : List (Nat × Nat × Nat)) (rs rs1 : run_state A σ) (evs : List engine_event),
      (∀ x, x ∈ sched → x.1 ≠ 0) →
      asynchronous_engine.run_workers ops sched rs = some (rs1, evs) →
      (∀ w, w ∈ rs.workers → w.updcount = 0) →
      sync_view rs1.engine = sync_view rs.engine ∧
      rs1.engine.apx_update_counts = rs.engine.apx_update_counts ∧
      rs1.workers[0]? = rs.workers[0]? ∧ (∀ w, w ∈ rs1.workers → w.updcount = 0) := by
  intro sched
  induction sched with
  | nil =>
    intro rs rs1 evs _ h hu
    simp only [asynchronous_engine.run_workers, Option.some.injEq, Prod.mk.injEq] at h
    obtain ⟨h1, _⟩ := h
    subst h1
    exact ⟨rfl, rfl, rfl, hu⟩
  | cons x sched ih =>
    intro rs rs1 evs hne h hu
    obtain ⟨cpuid, now, fuel⟩ := x
    have hc : cpuid ≠ 0 := hne (cpuid, now, fuel) (List.mem_cons_self _ _)
    simp only [asynchronous_engine.run_workers] at h
    cases hp : asynchronous_engine.run_to_terminate_pass ops rs cpuid now fuel with
    | none => simp [hp] at h
    | some r =>
      obtain ⟨rsa, eva⟩ := r
      simp only [hp] at h
      cases hr : asynchronous_engine.run_workers ops sched rsa with
      | none => simp [hr] at h
      | some r2 =>
        obtain ⟨rsb, evb⟩ := r2
        simp only [hr, Option.some.injEq, Prod.mk.injEq] at h
        obtain ⟨h1, _⟩ := h
        subst h1
        obtain ⟨e0, hv, hx, hor, _, hwk⟩ :=
          run_to_terminate_pass_sync ops rs rsa cpuid now fuel eva hp
        have he0 : e0 = rs.engine := by
          rcases hor with h | ⟨h, _⟩
          · exact h
          · exact absurd h hc
        subst he0
        have hx' := hx (fun w hw => hu w (List.getElem?_mem hw))
        have hwa : rsa.workers[0]? = rs.workers[0]? ∧ ∀ w, w ∈ rsa.workers → w.updcount = 0 := by
          rcases hwk with h | ⟨w, w1, hw, hset, hupd⟩
          · rw [h]; exact ⟨rfl, hu⟩
          · rw [hset]
            refine ⟨List.getElem?_set_ne hc, ?_⟩
            intro y hy
            rcases List.mem_or_eq_of_mem_set hy with h | h
            · exact hu y h
            · rw [h, hupd]; exact hu w (List.getElem?_mem hw)
        obtain ⟨r1, r2, r3, r4⟩ := ih rsa rsb evb
          (fun y hy => hne y (List.mem_cons_of_mem _ hy)) hr hwa.2
        exact ⟨r1.trans hv, r2.trans hx', r3.trans hwa.1, r4⟩

theorem foldl_push (l : List Nat) : ∀ (acc : mutable_queue),
    l.foldl (fun q i => mutable_queue.push q i 0) acc = acc ++ l.map (fun i => (i, (0 : Int))) := by
  induction l with
  | nil => intro acc; simp
  | cons x l ih =>
    intro acc
    rw [List.foldl_cons, ih, List.map_cons]
    simp only [mutable_queue.push, List.append_assoc, List.singleton_append]

theorem begin_run_fresh {A : Type} (e e1 : asynchronous_engine A) (now : Nat)
    (h : asynchronous_engine.begin_run e now = some e1) :
    e1.sync_tasks = e.sync_tasks ∧ e1.task_exec_queue = e.task_exec_queue ∧
    e1.active = true ∧ e1.apx_update_counts = 0 ∧ e1.ncpus = e.ncpus ∧
    e1.sync_task_queue = (List.range e.sync_tasks.length).map (fun i => (i, (0 : Int))) ∧
    (0 < e.sync_tasks.length → e1.sync_task_queue_next_update = 0) := by
  unfold asynchronous_engine.begin_run at h
  simp only at h
  split_ifs at h
  simp only [Option.some.injEq] at h
  subst h
  refine ⟨rfl, rfl, rfl, rfl, rfl, ?_, ?_⟩
  · simp only [asynchronous_engine.construct_sync_queue, foldl_push, List.nil_append]
  · intro hn
    simp only [asynchronous_engine.construct_sync_queue, foldl_push, List.nil_append,
      List.length_map, List.length_range, gt_iff_lt, hn, if_true]

theorem begin_run_first_evaluation_inv {A : Type} (e e1 : asynchronous_engine A)
    (now i : Nat) (h : asynchronous_engine.begin_run e now = some e1)
    (hsmall : ∀ st, st ∈ e.sync_tasks → st.sync_interval < 2 ^ 31) :
    first_evaluation_inv i e1 := by
  obtain ⟨b1, _, b3, b4, _, b6, b7⟩ := begin_run_fresh e e1 now h
  have hq : ∀ x, x ∈ e1.sync_task_queue → x.1 < e.sync_tasks.length ∧ x.2 = 0 := by
    intro x hx
    rw [b6] at hx
    obtain ⟨j, hj, hjx⟩ := List.mem_map.mp hx
    subst hjx
    exact ⟨List.mem_range.mp hj, rfl⟩
  refine ⟨b3, b4, by rw [b1]; exact hsmall, ?_, fun x hx _ => (hq x hx).2, ?_, ?_⟩
  · intro x hx
    rw [b1]
    have hlt := (hq x hx).1
    exact ⟨e.sync_tasks[x.1], List.getElem?_eq_getElem hlt⟩
  · intro x hx
    rw [(hq x hx).2]
    omega
  · rintro ⟨x, hx, _⟩
    exact b7 (by have := (hq x hx).1; omega)

theorem first_evaluation_inv_of_view {A : Type} (i : Nat) (e e1 : asynchronous_engine A)
    (hinv : first_evaluation_inv i e1) (hv : sync_view e = sync_view e1)
    (hx : e.apx_update_counts = e1.apx_update_counts) (ha : e.active = true) :
    first_evaluation_inv i e := by
  obtain ⟨v1, v2, _, v4⟩ := sync_view_eq _ _ hv
  obtain ⟨_, i2, i3, i4, i5, i6, i7⟩ := hinv
  refine ⟨ha, by rw [hx]; exact i2, by rw [v1]; exact i3, ?_, ?_, ?_, ?_⟩
  · rw [v1, v2]; exact i4
  · rw [v2]; exact i5
  · rw [v2]; exact i6
  · rw [v2, v4]; exact i7

/-- C16 (amended): a sync task `i` registered with interval 0 is dispatched by
`evaluate_sync_queue` at most once in a run, and after its dispatch it is not in
the sync queue again: at every point of a run the number of its dispatches and
the number of its entries in the sync queue add up to 1, and the latter never
grows. When all intervals fit an `int`, the first evaluation of the sync queue
(update count 0) returns, given fuel above the number of syncs, and dispatches
it; so in every run in which worker 0 makes its first trip while the engine is
still active the task is dispatched exactly once. -/
theorem interval_zero_sync_dispatched_at_most_once {A σ : Type} (ops : scheduler_ops σ)
    (e e1 : asynchronous_engine A) (s : σ) (now i : Nat) (synci : sync_task A)
    (hb : asynchronous_engine.begin_run e now = some e1)
    (hi : e.sync_tasks[i]? = some synci) (h0 : synci.sync_interval = 0) :
    (∀ sched rs evs,
      asynchronous_engine.run_workers ops sched (asynchronous_engine.launch e1 s)
        = some (rs, evs) →
      rs.engine.task_exec_queue.count i + (rs.engine.sync_task_queue.map Prod.fst).count i
        = e.task_exec_queue.count i + 1 ∧
      ∀ sched2 rs2 evs2, asynchronous_engine.run_workers ops sched2 rs = some (rs2, evs2) →
        (rs2.engine.sync_task_queue.map Prod.fst).count i
          ≤ (rs.engine.sync_task_queue.map Prod.fst).count i) ∧
    ((∀ st, st ∈ e.sync_tasks → st.sync_interval < 2 ^ 31) →
      (∀ fuel, e.sync_tasks.length < fuel →
        ∃ e2, asynchronous_engine.evaluate_sync_queue fuel e1 0 0 = some e2 ∧
          e2.task_exec_queue.count i = e.task_exec_queue.count i + 1 ∧
          (e2.sync_task_queue.map Prod.fst).count i = 0) ∧
      (∀ pre now0 fuel rest rs0 evs0 rs evs, (∀ x, x ∈ pre → x.1 ≠ 0) →
        asynchronous_engine.run_workers ops pre (asynchronous_engine.launch e1 s)
          = some (rs0, evs0) →
        rs0.engine.active = true →
        asynchronous_engine.run_workers ops (pre ++ (0, now0, fuel) :: rest)
          (asynchronous_engine.launch e1 s) = some (rs, evs) →
        rs.engine.task_exec_queue.count i = e.task_exec_queue.count i + 1 ∧
        (rs.engine.sync_task_queue.map Prod.fst).count i = 0)) := by
  obtain ⟨b1, b2, b3, b4, _, b6, _⟩ := begin_run_fresh e e1 now hb
  have hlt : i < e.sync_tasks.length := by
    rcases Nat.lt_or_ge i e.sync_tasks.length with h | h
    · exact h
    · rw [List.getElem?_eq_none h] at hi; cases hi
  have hi1 : e1.sync_tasks[i]? = some synci := by rw [b1]; exact hi
  have hids : (e1.sync_task_queue.map Prod.fst).count i = 1 := by
    have : e1.sync_task_queue.map Prod.fst = List.range e.sync_tasks.length := by
      rw [b6, List.map_map]
      exact List.map_id' _
    rw [this]
    exact List.count_eq_one_of_mem (List.nodup_range _) (List.mem_range.mpr hlt)
  have hall : ∀ sched rs evs,
      asynchronous_engine.run_workers ops sched (asynchronous_engine.launch e1 s)
        = some (rs, evs) →
      rs.engine.sync_tasks[i]? = some synci ∧
      rs.engine.task_exec_queue.count i + (rs.engine.sync_task_queue.map Prod.fst).count i
        = e.task_exec_queue.count i + 1 := by
    intro sched rs evs hrun
    obtain ⟨r1, r2, _⟩ := run_workers_account ops i synci h0 sched _ rs evs hrun hi1
    refine ⟨r1, ?_⟩
    rw [r2]
    show e1.task_exec_queue.count i + (e1.sync_task_queue.map Prod.fst).count i = _
    rw [b2, hids]
  refine ⟨?_, ?_⟩
  · intro sched rs evs hrun
    obtain ⟨r1, r2⟩ := hall sched rs evs hrun
    refine ⟨r2, ?_⟩
    intro sched2 rs2 evs2 hrun2
    exact (run_workers_account ops i synci h0 sched2 rs rs2 evs2 hrun2 r1).2.2
  · intro hsmall
    have hinv := begin_run_first_evaluation_inv e e1 now i hb hsmall
    refine ⟨?_, ?_⟩
    · intro fuel hfuel
      obtain ⟨f1, f2⟩ := first_evaluation_spec i synci h0 fuel e1 hinv hi1
      cases hev : asynchronous_engine.evaluate_sync_queue fuel e1 0 0 with
      | none =>
        have h1 := f1 hev
        have h2 : e1.sync_task_queue.countP (fun y => y.2 = 0) ≤ e1.sync_task_queue.length :=
          List.countP_le_length _
        rw [b6, List.length_map, List.length_range] at h2
        rw [b6] at h1
        omega
      | some e2 =>
        have h3 := f2 e2 hev
        obtain ⟨_, _, _, a4, _⟩ := evaluate_sync_queue_account i synci h0 fuel e1 e2 0 0 hi1 hev
        rw [h3, hids, b2] at a4
        exact ⟨e2, rfl, a4, h3⟩
    · intro pre now0 fuel rest rs0 evs0 rs evs hpre hrun0 hact hrun
      obtain ⟨rs1, evs1, evs2, k1, k2⟩ := run_workers_append ops pre _ _ rs evs hrun
      rw [hrun0] at k1
      simp only [Option.some.injEq, Prod.mk.injEq] at k1
      obtain ⟨k1a, _⟩ := k1
      subst k1a
      have hfresh : ∀ w, w ∈ (asynchronous_engine.launch e1 s).workers → w.updcount = 0 := by
        intro w hw
        simp only [asynchronous_engine.launch] at hw
        rw [List.eq_of_mem_replicate hw]
      obtain ⟨o1, o2, o3, o4⟩ := run_workers_others ops pre _ rs0 evs0 hpre hrun0 hfresh
      have hinv0 : first_evaluation_inv i rs0.engine :=
        first_evaluation_inv_of_view i rs0.engine e1 hinv o1 o2 hact
      simp only [asynchronous_engine.run_workers] at k2
      cases hp : asynchronous_engine.run_to_terminate_pass ops rs0 0 now0 fuel with
      | none => simp [hp] at k2
      | some r =>
        obtain ⟨rsa, eva⟩ := r
        simp only [hp] at k2
        cases hr : asynchronous_engine.run_workers ops rest rsa with
        | none => simp [hr] at k2
        | some r2 =>
          obtain ⟨rsb, evb⟩ := r2
          simp only [hr, Option.some.injEq, Prod.mk.injEq] at k2
          obtain ⟨k2a, _⟩ := k2
          subst k2a
          have hw0 : rs0.workers[0]? = some fresh_worker := by
            rw [o3]
            simp only [asynchronous_engine.launch]
            cases hn : e1.ncpus with
            | zero =>
              exfalso
              have hnone : rs0.workers[0]? = none := by
                rw [o3]; simp [asynchronous_engine.launch, hn]
              unfold asynchronous_engine.run_to_terminate_pass at hp
              rw [hnone] at hp
              cases hp
            | succ n => simp [List.replicate_succ, fresh_worker]
          obtain ⟨e0, hv, _, _, hfirst, _⟩ :=
            run_to_terminate_pass_sync ops rs0 rsa 0 now0 fuel eva hp
          have hev := hfirst rfl hw0 hact
          have hapx : rs0.engine.approximate_last_update_count = 0 := hinv0.apx
          rw [hapx] at hev
          have hi0 : rs0.engine.sync_tasks[i]? = some synci := by
            rw [(sync_view_eq _ _ o1).1]; exact hi1
          have hz := (first_evaluation_spec i synci h0 fuel rs0.engine hinv0 hi0).2 e0 hev
          have hza : (rsa.engine.sync_task_queue.map Prod.fst).count i = 0 := by
            rw [(sync_view_eq _ _ hv).2.1]; exact hz
          have hia : rsa.engine.sync_tasks[i]? = some synci := by
            rw [(sync_view_eq _ _ hv).1]
            obtain ⟨a1, _⟩ :=
              evaluate_sync_queue_account i synci h0 fuel rs0.engine e0 0 0 hi0 hev
            rw [a1]; exact hi0
          have hzb := (run_workers_account ops i synci h0 rest rsa rsb evb hr hia).2.2
          have hsum := (hall _ rsb evs hrun).2
          omega

/-- Witness for claim C16: two workers, one sync of interval 0; worker 1 makes
the first trip, worker 0 the second one, and the sync is dispatched exactly once
and is not in the sync queue afterwards. -/
theorem interval_zero_sync_dispatched_at_most_once_witness :
    ∃ e1 rs evs, asynchronous_engine.begin_run (zero_sync_engine false) 5 = some e1 ∧
      asynchronous_engine.run_workers (round_robin_ops 3)
        ([(1, 5, 3)] ++ (0, 5, 3) :: [(1, 6, 3)])
        (asynchronous_engine.launch e1 zero_sync_scheduler) = some (rs, evs) ∧
      rs.engine.task_exec_queue.count 0 = (zero_sync_engine false).task_exec_queue.count 0 + 1 ∧
      (rs.engine.sync_task_queue.map Prod.fst).count 0 = 0 := by
  have hpre : ((asynchronous_engine.begin_run (zero_sync_engine false) 5).bind (fun e1 =>
      asynchronous_engine.run_workers (round_robin_ops 3) [(1, 5, 3)]
        (asynchronous_engine.launch e1 zero_sync_scheduler))).map
      (fun r => r.1.engine.active) = some true := by decide
  have hall : ((asynchronous_engine.begin_run (zero_sync_engine false) 5).bind (fun e1 =>
      asynchronous_engine.run_workers (round_robin_ops 3)
        ([(1, 5, 3)] ++ (0, 5, 3) :: [(1, 6, 3)])
        (asynchronous_engine.launch e1 zero_sync_scheduler))).isSome = true := by decide
  cases hb : asynchronous_engine.begin_run (zero_sync_engine false) 5 with
  | none => rw [hb] at hall; cases hall
  | some e1 =>
    rw [hb] at hpre hall
    simp only [Option.some_bind] at hpre hall
    cases hrun0 : asynchronous_engine.run_workers (round_robin_ops 3) [(1, 5, 3)]
        (asynchronous_engine.launch e1 zero_sync_scheduler) with
    | none => rw [hrun0] at hpre; cases hpre
    | some r0 =>
      rw [hrun0] at hpre
      simp only [Option.map_some', Option.some.injEq] at hpre
      cases hrun : asynchronous_engine.run_workers (round_robin_ops 3)
          ([(1, 5, 3)] ++ (0, 5, 3) :: [(1, 6, 3)])
          (asynchronous_engine.launch e1 zero_sync_scheduler) with
      | none => rw [hrun] at hall; cases hall
      | some r =>
        have h := (interval_zero_sync_dispatched_at_most_once (round_robin_ops 3)
          (zero_sync_engine false) e1 zero_sync_scheduler 5 0
          ((zero_sync_engine false).sync_tasks.get ⟨0, by decide⟩) hb (by rfl) (by rfl)).2
          (by decide)
        obtain ⟨h1, h2⟩ := h.2 [(1, 5, 3)] 5 3 [(1, 6, 3)] r0.1 r0.2 r.1 r.2 (by decide)
          hrun0 hpre hrun
        exact ⟨e1, r.1, r.2, rfl, hrun, h1, h2⟩

/-- C16, as stated, fails when the run ends before worker 0 enters its loop: with
a terminator function that returns true, worker 1 makes the first trip, finds the
termination condition satisfied and clears `active`; worker 0 then leaves without
a call of `evaluate_sync_queue`. The run is over, the sync of interval 0 was
never dispatched and is still in the sync queue. -/
theorem zero_interval_sync_not_dispatched_counterexample :
    (zero_sync_engine true).sync_tasks.map (fun st => st.sync_interval) = [0] ∧
    ((asynchronous_engine.begin_run (zero_sync_engine true) 5).bind (fun e1 =>
      asynchronous_engine.run_workers (round_robin_ops 3) [(1, 5, 3), (0, 5, 3)]
        (asynchronous_engine.launch e1 zero_sync_scheduler))).map
      (fun r => (r.1.workers.map (fun w => w.running), r.1.engine.active,
        r.1.engine.task_exec_queue, r.1.engine.sync_task_queue)) =
      some ([false, false], false, [], [(0, 0)]) := by
  decide

/-! ### Round trips of a shared variable -/

theorem sel_upd_self {T : Type} (p : T × T) (i : Fin 2) (x : T) : sel (upd p i x) i = x := by
  unfold sel upd
  by_cases h : i = 0
  · simp [h]
  · simp [h]

/-- C22: when `set(t)` returns (it does as soon as no reader holds the buffer),
`get_val()` returns `t` and `get_any()` holds `t`; the same for `set_any`. -/
theorem glshared_set_then_get {T : Type} (g g1 : glshared T) (t : T) :
    (g.set t = some g1 → g1.get_val = t ∧ g1.get_any = t) ∧
    (g.set_any t = some g1 → g1.get_val = t ∧ g1.get_any = t) ∧
    (sel g.use_count g.buffer = 0 → (g.set t).isSome = true ∧ (g.set_any t).isSome = true) := by
  have hset : g.set t = some g1 → g1.get_val = t ∧ g1.get_any = t := by
    intro h
    simp only [glshared.set] at h
    by_cases hc : sel g.use_count g.buffer = 0
    · simp only [hc, ne_eq, not_true_eq_false, if_false, Option.some.injEq] at h
      subst h
      simp only [glshared.get_val, glshared.get_any, glshared.exchange_buffer_and_head,
        sel_upd_self, and_self]
    · simp [hc] at h
  refine ⟨hset, hset, ?_⟩
  intro hc
  simp [glshared.set_any, glshared.set, hc]

theorem glshared_set_then_get_witness :
    ((glshared.create 0).set 5).map (fun g => (g.get_val, g.get_any)) = some (5, 5) := by
  cases h : (glshared.create 0).set 5 with
  | none =>
    have := (glshared_set_then_get (glshared.create 0) (glshared.create 0) 5).2.2 (by decide)
    rw [h] at this
    cases this.1
  | some g1 =>
    have := (glshared_set_then_get (glshared.create 0) g1 5).1 h
    simp only [Option.map_some', this.1, this.2]

/-- C23: when `apply(fun, p)` returns and `get_val()` was `v` before the call,
`get_val()` is afterwards the value `fun(v, p)` leaves in its first argument. -/
theorem glshared_apply_replaces_value {T P : Type} (g g1 : glshared T) (f : T → P → T)
    (p : P) (v : T) (hv : g.get_val = v) (h : g.apply f p = some g1) :
    g1.get_val = f v p := by
  simp only [glshared.apply] at h
  by_cases hc : sel g.use_count g.buffer = 0
  · simp only [hc, ne_eq, not_true_eq_false, if_false, Option.some.injEq] at h
    subst h
    rw [← hv]
    simp only [glshared.get_val, glshared.exchange_buffer_and_head, sel_upd_self]
  · simp [hc] at h

theorem glshared_apply_replaces_value_witness :
    ((glshared.create 3).apply (fun cur (param : Nat) => cur + param) 4).map
      (fun g => g.get_val) = some 7 := by
  cases h : (glshared.create 3).apply (fun cur (param : Nat) => cur + param) 4 with
  | none => exact absurd h (by decide)
  | some g1 =>
    have := glshared_apply_replaces_value (glshared.create 3) g1
      (fun cur (param : Nat) => cur + param) 4 3 (by decide) h
    simp only [Option.map_some', this]

/-! ### The iteration counter and the exit loop -/

/-- C25: four vertices, two workers, block size 2, `max_iterations = 1`, a task
on every vertex. After the run is drained (both workers have received `EMPTY`
and every vertex was handed out once) `get_iterations()` returns 2, not 1: the
fetch of the empty block at task id 6, beyond `endtask = 4`, is counted too. -/
theorem iterations_counts_blocks_beyond_endtask :
    ∃ st log, run_passes [0, 1, 0, 1, 0, 1, 0, 1, 0, 1, 0, 1] counted_start = some (st, log) ∧
      got_empty log 0 = true ∧ got_empty log 1 = true ∧ handed_out log = [0, 2, 1, 3] ∧
      fetched_blocks log = [(0, 2), (2, 2), (4, 0), (6, 0)] ∧
      st.maxiterations = 1 ∧ st.get_iterations = 2 := by
  have h : (run_passes [0, 1, 0, 1, 0, 1, 0, 1, 0, 1, 0, 1] counted_start).map
      (fun r => (got_empty r.2 0, got_empty r.2 1, handed_out r.2)) =
      some (true, true, [0, 2, 1, 3]) := by decide
  have h2 : (run_passes [0, 1, 0, 1, 0, 1, 0, 1, 0, 1, 0, 1] counted_start).map
      (fun r => (fetched_blocks r.2, r.1.maxiterations, r.1.get_iterations)) =
      some ([(0, 2), (2, 2), (4, 0), (6, 0)], 1, 2) := by decide
  cases hrun : run_passes [0, 1, 0, 1, 0, 1, 0, 1, 0, 1, 0, 1] counted_start with
  | none => rw [hrun] at h; cases h
  | some r =>
    rw [hrun] at h h2
    simp only [Option.map_some', Option.some.injEq, Prod.mk.injEq] at h h2
    exact ⟨r.1, r.2, rfl, h.1, h.2.1, h.2.2, h2.1, h2.2.1, h2.2.2⟩

/-- C26: worker 0 is in the exit loop of `run_to_terminate` while worker 1 is
inside an update. The sum of the flags `proc_in_update[i]` over all workers is 1,
but the loop adds up `proc_in_update[0]` twice, polls 0, and worker 0 returns. -/
theorem exit_loop_polls_own_flag :
    exit_engine.proc_in_update = [0, 1] ∧ exit_engine.proc_in_update.sum = 1 ∧
    asynchronous_engine.exit_poll exit_engine 0 = some 0 ∧
    asynchronous_engine.exit_loop_leaves exit_engine 0 = some true := by
  decide

/-! ### The range locks of the syncers -/

/-- The range of a syncer, without the reductions modulo `2^64`. -/
theorem sync_range_lock_eq {A : Type} (e : asynchronous_engine A) (N n c : Nat)
    (hN : 1 ≤ N) (hN2 : N < 2 ^ 32) (hn : 1 ≤ n) (hn2 : n < 2 ^ 32)
    (heN : e.num_vertices = N) (hen : e.ncpus = n) (hc : c < n) :
    asynchronous_engine.sync_range_lock e c =
      some ((1 + (N - 1) / n) * c, min (N - 1) ((1 + (N - 1) / n) * c + (N - 1) / n)) := by
  have hdiv : (N - 1) / n ≤ N - 1 := Nat.div_le_self _ _
  have hp : 1 + (N - 1) / n < 2 ^ 32 := by omega
  have hprod : (1 + (N - 1) / n) * c ≤ 4294967295 * 4294967294 :=
    Nat.mul_le_mul (by omega) (by omega)
  have hne : ¬ (n = 0) := by omega
  have h1 : (N + SIZE_MOD - 1) % SIZE_MOD = N - 1 := by
    have e1 : N + SIZE_MOD - 1 = (N - 1) + SIZE_MOD := by omega
    rw [e1, Nat.add_mod_right]
    exact Nat.mod_eq_of_lt (by simp only [SIZE_MOD]; omega)
  simp only [asynchronous_engine.sync_range_lock, heN, hen, hne, if_false, h1]
  generalize (N - 1) / n = q at hdiv hp hprod ⊢
  have h2 : (1 + q) % SIZE_MOD = 1 + q := Nat.mod_eq_of_lt (by simp only [SIZE_MOD]; omega)
  rw [h2]
  generalize (1 + q) * c = P at hprod ⊢
  have h3 : P % SIZE_MOD = P := Nat.mod_eq_of_lt (by simp only [SIZE_MOD]; omega)
  have h4 : (P + (1 + q) + SIZE_MOD - 1) % SIZE_MOD = P + q := by
    have e1 : P + (1 + q) + SIZE_MOD - 1 = (P + q) + SIZE_MOD := by omega
    rw [e1, Nat.add_mod_right]
    exact Nat.mod_eq_of_lt (by simp only [SIZE_MOD]; omega)
  rw [h3, h4]

/-- C21 (amended): for `1 <= N < 2^32` vertices and `1 <= ncpus < 2^32` syncers,
every range `[v_start, v_end]` computed in `sync_loop` ends at a vertex
(`v_end <= N - 1`) and is either a well-formed interval (`v_start <= v_end`) or
starts behind the last vertex (`v_start >= N`, with `v_end = N - 1`: no vertex
lies in it); the range of a syncer ends before the range of every later syncer
starts; and every vertex id `0..N-1` lies in the range of some syncer. -/
theorem sync_range_locks_partition {A : Type} (e : asynchronous_engine A) (N n : Nat)
    (hN : 1 ≤ N) (hN2 : N < 2 ^ 32) (hn : 1 ≤ n) (hn2 : n < 2 ^ 32)
    (heN : e.num_vertices = N) (hen : e.ncpus = n) :
    (∀ c, c < n → ∃ a b, asynchronous_engine.sync_range_lock e c = some (a, b) ∧
      b ≤ N - 1 ∧ (a ≤ b ∨ (N ≤ a ∧ b = N - 1))) ∧
    (∀ c1 c2 a1 b1 a2 b2, c1 < c2 → c2 < n →
      asynchronous_engine.sync_range_lock e c1 = some (a1, b1) →
      asynchronous_engine.sync_range_lock e c2 = some (a2, b2) → b1 < a2) ∧
    (∀ v, v < N → ∃ c a b, c < n ∧ asynchronous_engine.sync_range_lock e c = some (a, b) ∧
      a ≤ v ∧ v ≤ b) := by
  have heq := fun c hc => sync_range_lock_eq e N n c hN hN2 hn hn2 heN hen hc
  refine ⟨?_, ?_, ?_⟩
  · intro c hc
    refine ⟨_, _, heq c hc, Nat.min_le_left _ _, ?_⟩
    generalize (1 + (N - 1) / n) * c = P
    generalize (N - 1) / n = q
    by_cases h : P ≤ N - 1
    · left
      rw [Nat.le_min]
      exact ⟨h, by omega⟩
    · right
      rw [Nat.min_eq_left (by omega)]
      exact ⟨by omega, rfl⟩
  · intro c1 c2 a1 b1 a2 b2 h12 h2 e1 e2
    rw [heq c1 (by omega)] at e1
    rw [heq c2 h2] at e2
    simp only [Option.some.injEq, Prod.mk.injEq] at e1 e2
    have hm : (1 + (N - 1) / n) * (c1 + 1) ≤ (1 + (N - 1) / n) * c2 :=
      Nat.mul_le_mul_left _ (by omega)
    rw [Nat.mul_succ] at hm
    have hb : b1 ≤ (1 + (N - 1) / n) * c1 + (N - 1) / n := by
      rw [← e1.2]; exact Nat.min_le_right _ _
    rw [← e2.1]
    generalize (1 + (N - 1) / n) * c1 = P1 at hm hb
    generalize (1 + (N - 1) / n) * c2 = P2 at hm
    omega
  · intro v hv
    have hp : 0 < 1 + (N - 1) / n := Nat.add_pos_left Nat.one_pos _
    have hcn : v / (1 + (N - 1) / n) < n := by
      rw [Nat.div_lt_iff_lt_mul hp]
      have := Nat.lt_mul_div_succ (N - 1) (show 0 < n from hn)
      rw [Nat.add_comm ((N - 1) / n) 1] at this
      omega
    refine ⟨v / (1 + (N - 1) / n), _, _, hcn, heq _ hcn, Nat.mul_div_le v _, ?_⟩
    have h1 := Nat.lt_mul_div_succ v hp
    rw [Nat.mul_succ] at h1
    rw [Nat.le_min]
    generalize (1 + (N - 1) / n) * (v / (1 + (N - 1) / n)) = P at h1
    omega

theorem sync_range_locks_partition_witness :
    asynchronous_engine.sync_range_lock (asynchronous_engine.create 5 2 0 0 []) 0
      = some (0, 2) ∧
    asynchronous_engine.sync_range_lock (asynchronous_engine.create 5 2 0 0 []) 1
      = some (3, 4) ∧
    ∀ v, v < 5 → ∃ c a b, c < 2 ∧
      asynchronous_engine.sync_range_lock (asynchronous_engine.create 5 2 0 0 []) c
        = some (a, b) ∧ a ≤ v ∧ v ≤ b :=
  ⟨by decide, by decide,
    (sync_range_locks_partition (asynchronous_engine.create 5 2 0 0 []) 5 2 (by decide)
      (by decide) (by decide) (by decide) rfl rfl).2.2⟩

/-- C21, as stated, fails: with four vertices and three syncers the ranges are
`[0, 1]`, `[2, 3]` and, for syncer 2, `[4, 3]`, which is not an interval
(`v_start > v_end`), and whose start is not a vertex id. -/
theorem sync_range_lock_inverted_counterexample :
    asynchronous_engine.sync_range_lock (asynchronous_engine.create 4 3 0 0 []) 0
      = some (0, 1) ∧
    asynchronous_engine.sync_range_lock (asynchronous_engine.create 4 3 0 0 []) 1
      = some (2, 3) ∧
    asynchronous_engine.sync_range_lock (asynchronous_engine.create 4 3 0 0 []) 2
      = some (4, 3) ∧ ¬ (4 ≤ 3) := by
  decide

/-! ### Termination of `get_next_task` -/

theorem free_pass_spec {N ncpus b : Nat} {vs : List Nat} {func : Option Nat}
    (hN : 0 < N) (hN' : N ≤ VID_NEG1)
    (st : round_robin_scheduler) (hinv : free_inv N ncpus b vs func st)
    (cpuid : Nat) (hc : cpuid < ncpus) :
    ∃ st' ev, get_next_task_pass st cpuid = some (st', ev) ∧
      free_inv N ncpus b vs func st' ∧
      ((∃ t, ev = .returned (.NEWTASK t) ∧ t.vertex ∈ vs) ∨
       (∃ ti, st.thread_info[cpuid]? = some ti ∧
          (∀ v ∈ vs, hits N v ti.block_begin ti.numv_remaining_in_block = 0) ∧
          ev = .fetched st.cur_task b false ∧
          st'.cur_task = (st.cur_task + b) % SIZE_MOD ∧
          st'.thread_info[cpuid]? = some ⟨st.cur_task % N, b⟩)) := by
  have hlen : cpuid < st.thread_info.length := by rw [hinv.nthr]; exact hc
  have hget : st.thread_info[cpuid]? = some st.thread_info[cpuid] := List.getElem?_eq_getElem hlen
  generalize st.thread_info[cpuid] = ti at hget
  have hmem : ti ∈ st.thread_info := List.getElem?_mem hget
  have hbb : ti.block_begin < N := hinv.thr ti hmem
  have hd : ti.block_begin ≠ SIZE_NEG1 := neg1_not_lt N hN' _ hbb
  obtain ⟨ti', r, hscan, hlt, hnone, hsome, hhits⟩ :=
    scan_block_spec N st.task_set vs func hN' hinv.tset ti.numv_remaining_in_block
      ti.block_begin hbb
  have hscan' : scan_block st.numvertices st.step st.task_set ti.numv_remaining_in_block
      ti.block_begin = some (ti', r) := by rw [hinv.numv, hinv.step]; exact hscan
  have hset : ∀ x : thread_information, x.block_begin < N →
      free_inv N ncpus b vs func { st with thread_info := st.thread_info.set cpuid x } := by
    intro x hx
    refine ⟨hinv.numv, hinv.step, hinv.bsz, hinv.maxi, hinv.tset, ?_, ?_, hinv.curt⟩
    · simp [hinv.nthr]
    · intro y hy
      rcases List.mem_or_eq_of_mem_set hy with h | h
      · exact hinv.thr y h
      · rw [h]; exact hx
  cases r with
  | some t =>
    have hp : get_next_task_pass st cpuid
        = some ({ st with thread_info := st.thread_info.set cpuid ti' },
            .returned (.NEWTASK t)) := by
      unfold get_next_task_pass
      simp only [hget, hd, if_false, hscan']
    exact ⟨_, _, hp, hset ti' hlt, Or.inl ⟨t, rfl, (hsome t rfl).1⟩⟩
  | none =>
    have hN0 : st.numvertices ≠ 0 := by rw [hinv.numv]; omega
    have hN1 : N ≠ 0 := by omega
    have hmod : st.cur_task % N < N := Nat.mod_lt _ hN
    have hc1 : (st.cur_task * 1) % SIZE_MOD % N = st.cur_task % N := by
      rw [Nat.mul_one, Nat.mod_eq_of_lt hinv.curt]
    have hf : ∃ itn, fetch_block { st with thread_info := st.thread_info.set cpuid ti' } cpuid
        = some ({ st with
                  cur_task := (st.cur_task + b) % SIZE_MOD
                  iterations := itn
                  thread_info := (st.thread_info.set cpuid ti').set cpuid ⟨st.cur_task % N, b⟩ },
                .fetched st.cur_task b false) := by
      unfold fetch_block
      simp only [hN0, hN1, if_false, hinv.maxi, ne_eq, not_true_eq_false, false_and,
        hinv.step, hinv.numv, hinv.bsz, hc1]
      exact ⟨_, rfl⟩
    obtain ⟨itn, hf⟩ := hf
    have hp : get_next_task_pass st cpuid
        = some ({ st with
                  cur_task := (st.cur_task + b) % SIZE_MOD
                  iterations := itn
                  thread_info := (st.thread_info.set cpuid ti').set cpuid ⟨st.cur_task % N, b⟩ },
                .fetched st.cur_task b false) := by
      unfold get_next_task_pass
      simp only [hget, hd, if_false, hscan']
      exact hf
    refine ⟨_, _, hp, ?_, Or.inr ⟨ti, hget, ?_, rfl, rfl, ?_⟩⟩
    · have := hset ⟨st.cur_task % N, b⟩ hmod
      refine ⟨this.numv, this.step, this.bsz, this.maxi, this.tset, ?_, ?_,
        Nat.mod_lt _ (by decide)⟩
      · simp [hinv.nthr]
      · intro y hy
        simp only [List.set_set] at hy
        exact this.thr y hy
    · intro v hv
      have := hhits v hv
      simp only [hnone rfl] at this
      simpa [hits] using this
    · simp [hlen]


theorem free_never_returns {N ncpus b : Nat} {func : Option Nat}
    (hN : 0 < N) (hN' : N ≤ VID_NEG1) (cpuid : Nat) (hc : cpuid < ncpus) :
    ∀ (fuel : Nat) (st : round_robin_scheduler), free_inv N ncpus b [] func st →
      get_next_task fuel st cpuid = none := by
  intro fuel
  induction fuel with
  | zero => intro st _; rfl
  | succ n ih =>
    intro st hinv
    obtain ⟨st1, ev, hp, hinv1, hev⟩ := free_pass_spec hN hN' st hinv cpuid hc
    rcases hev with ⟨t, _, ht⟩ | ⟨ti, _, _, hev, _, _⟩
    · simp at ht
    · simp only [get_next_task, hp, hev]
      exact ih st1 hinv1

theorem hits_pos_of_le (N v : Nat) (hv : v < N) (a j : Nat) (hj : N ≤ j) :
    1 ≤ hits N v a j := by
  obtain ⟨d, rfl⟩ := Nat.exists_eq_add_of_le hj
  rw [hits_add]
  have := hits_full_passes N v hv a 1
  rw [Nat.one_mul] at this
  omega

theorem free_loop {N ncpus b : Nat} {vs : List Nat} {func : Option Nat}
    (hN : 0 < N) (hN' : N ≤ VID_NEG1) (hb : 1 ≤ b) (cpuid : Nat) (hc : cpuid < ncpus)
    (w : Nat) (hw : w ∈ vs) (hwN : w < N) (c0 : Nat) (hc0 : c0 + N + b ≤ SIZE_MOD) :
    ∀ (m : Nat) (st : round_robin_scheduler) (j : Nat),
      free_inv N ncpus b vs func st → st.cur_task = c0 + j + b →
      st.thread_info[cpuid]? = some ⟨(c0 + j) % N, b⟩ →
      hits N w c0 j = 0 → N - j ≤ m →
      ∃ fuel r, fuel ≤ m + 1 ∧ get_next_task fuel st cpuid = some r := by
  intro m
  induction m with
  | zero =>
    intro st j _ _ _ hh hm
    have := hits_pos_of_le N w hwN c0 j (by omega)
    omega
  | succ m ih =>
    intro st j hinv hcur hthr hh hm
    obtain ⟨st1, ev, hp, hinv1, hev⟩ := free_pass_spec hN hN' st hinv cpuid hc
    rcases hev with ⟨t, ht, _⟩ | ⟨ti, hti, hz, hev, hcur1, hthr1⟩
    · exact ⟨1, (st1, .NEWTASK t), by omega, by simp [get_next_task, hp, ht]⟩
    · rw [hthr] at hti
      cases hti
      have h1 := hz w hw
      simp only at h1
      rw [hits_congr_mod N w b _ (c0 + j) (Nat.mod_mod _ _)] at h1
      have h2 : hits N w c0 (j + b) = 0 := by rw [hits_add, hh, h1]
      have h3 : j + b < N := by
        by_contra hcon
        have := hits_pos_of_le N w hwN c0 (j + b) (by omega)
        omega
      have h4 : st1.cur_task = c0 + (j + b) + b := by
        rw [hcur1, hcur, Nat.mod_eq_of_lt (by omega)]
        omega
      have h5 : st1.thread_info[cpuid]? = some ⟨(c0 + (j + b)) % N, b⟩ := by
        rw [hthr1, hcur, Nat.add_assoc]
      obtain ⟨fuel, r, hfuel, hr⟩ := ih st1 (j + b) hinv1 h4 h5 h2 (by omega)
      exact ⟨fuel + 1, r, by omega, by simp only [get_next_task, hp, hev]; exact hr⟩

theorem free_call {N ncpus b : Nat} {vs : List Nat} {func : Option Nat}
    (hN : 0 < N) (hN' : N ≤ VID_NEG1) (hb : 1 ≤ b) (cpuid : Nat) (hc : cpuid < ncpus)
    (w : Nat) (hw : w ∈ vs) (hwN : w < N) (st : round_robin_scheduler)
    (hinv : free_inv N ncpus b vs func st) (hov : st.cur_task + N + 2 * b ≤ SIZE_MOD) :
    ∃ fuel r, fuel ≤ N + 2 ∧ get_next_task fuel st cpuid = some r := by
  obtain ⟨st1, ev, hp, hinv1, hev⟩ := free_pass_spec hN hN' st hinv cpuid hc
  rcases hev with ⟨t, ht, _⟩ | ⟨ti, hti, hz, hev, hcur1, hthr1⟩
  · exact ⟨1, (st1, .NEWTASK t), by omega, by simp [get_next_task, hp, ht]⟩
  · have h4 : st1.cur_task = st.cur_task + 0 + b := by
      rw [hcur1, Nat.mod_eq_of_lt (by omega)]; rfl
    obtain ⟨fuel, r, hfuel, hr⟩ := free_loop hN hN' hb cpuid hc w hw hwN st.cur_task
      (by omega) N st1 0 hinv1 h4 hthr1 rfl (by omega)
    exact ⟨fuel + 1, r, by omega, by simp only [get_next_task, hp, hev]; exact hr⟩


theorem cutoff_call {N ncpus k s b : Nat} {vs : List Nat} {func : Option Nat}
    (hN : 0 < N) (hN' : N ≤ VID_NEG1) (hk : 1 ≤ k) (hb : 1 ≤ b)
    (hov : s + k * N + (ncpus + 1) * b ≤ SIZE_MOD) (cpuid : Nat) (hc : cpuid < ncpus) :
    ∀ (m : Nat) (st : round_robin_scheduler), rr_inv N ncpus k s b vs func st →
      s + k * N + (ncpus + 1) * b - st.cur_task ≤ m →
      ∃ fuel r, fuel ≤ m + 1 ∧ get_next_task fuel st cpuid = some r := by
  have hmul2 : (ncpus + 1) * b = b * ncpus + b := by ring
  intro m
  induction m with
  | zero =>
    intro st hinv hm
    have h1 := hinv.bound
    have h2 := done_count_le st.thread_info
    rw [hinv.nthr] at h2
    have h3 : b * (1 + done_count st.thread_info) ≤ b * (1 + ncpus) :=
      Nat.mul_le_mul_left b (by omega)
    have h4 : b * (1 + ncpus) = b * ncpus + b := by ring
    omega
  | succ m ih =>
    intro st hinv hm
    obtain ⟨st1, ev, hp, hinv1, _, _⟩ := pass_spec hN hN' hk hov st hinv cpuid hc
    cases ev with
    | returned status =>
      exact ⟨1, (st1, status), by omega, by simp [get_next_task, hp]⟩
    | fetched t n d =>
      obtain ⟨ti, hget, hcase⟩ := pass_cases st cpuid st1 _ hp
      rcases hcase with ⟨_, _, hev⟩ | ⟨hnd, ti1, r, _, hr⟩
      · cases hev
      · rcases hr with ⟨t1, _, _, hev⟩ | ⟨_, hf⟩
        · cases hev
        · obtain ⟨_, ti2, d2, _, hcur, _⟩ := fetch_block_cases _ cpuid st1 _ hf
          simp only at hcur
          have hD := done_count_lt st.thread_info cpuid ti hget hnd
          rw [hinv.nthr] at hD
          have h1 := hinv.bound
          have h3 : b * (1 + done_count st.thread_info) ≤ b * ncpus :=
            Nat.mul_le_mul_left b (by omega)
          rw [hinv.bsz, Nat.mod_eq_of_lt (by omega)] at hcur
          obtain ⟨fuel, r1, hfuel, hr1⟩ := ih st1 hinv1 (by omega)
          exact ⟨fuel + 1, r1, by omega, by simp only [get_next_task, hp]; exact hr1⟩

/-- C28 (amended): with `step = 1`, a call of `get_next_task` returns after
finitely many passes through its loop (each pass but the last fetches one block)
when `max_iterations` is set to `k ≥ 1`, whether or not any vertex holds a task,
and also when `max_iterations` is 0 and some vertex holds a task. -/
theorem get_next_task_returns (N ncpus k s b : Nat) (vs : List Nat) (func : Option Nat)
    (st : round_robin_scheduler) (cpuid : Nat)
    (hN : 0 < N) (hN' : N ≤ VID_NEG1) (hb : 1 ≤ b) (hc : cpuid < ncpus)
    (hst : (1 ≤ k ∧ s + k * N + (ncpus + 1) * b ≤ SIZE_MOD ∧ rr_inv N ncpus k s b vs func st)
      ∨ ((∃ w ∈ vs, w < N) ∧ st.cur_task + N + 2 * b ≤ SIZE_MOD ∧
          free_inv N ncpus b vs func st)) :
    ∃ fuel r, get_next_task fuel st cpuid = some r ∧
      fuel ≤ (if st.maxiterations = 0 then N + 2
              else s + k * N + (ncpus + 1) * b + 1 - st.cur_task) := by
  rcases hst with ⟨hk, hov, hinv⟩ | ⟨⟨w, hw, hwN⟩, hov, hinv⟩
  · obtain ⟨fuel, r, hfuel, hr⟩ := cutoff_call hN hN' hk hb hov cpuid hc _ st hinv (le_refl _)
    refine ⟨fuel, r, hr, ?_⟩
    have hm : st.maxiterations ≠ 0 := by rw [hinv.maxi]; omega
    rw [if_neg hm]
    have h1 := hinv.bound
    have h2 := done_count_le st.thread_info
    rw [hinv.nthr] at h2
    have h3 : b * (1 + done_count st.thread_info) ≤ b * (1 + ncpus) :=
      Nat.mul_le_mul_left b (by omega)
    have h4 : b * (1 + ncpus) = (ncpus + 1) * b := by ring
    omega
  · obtain ⟨fuel, r, hfuel, hr⟩ := free_call hN hN' hb cpuid hc w hw hwN st hinv hov
    exact ⟨fuel, r, hr, by rw [if_pos hinv.maxi]; exact hfuel⟩

theorem prepared_free_inv {N ncpus s b : Nat} {vs : List Nat} (func : Option Nat)
    (hN : 0 < N) (hb : 1 ≤ b) (hs : s < SIZE_MOD) (hbM : b < SIZE_MOD)
    (opts : scheduler_options) (ho : opts.max_iterations = none ∨ opts.max_iterations = some 0)
    (hos : opts.start_vertex = some s) (hot : opts.step = none ∨ opts.step = some 1)
    (hob : opts.block_size = some b) :
    free_inv N ncpus b vs func (prepared N ncpus opts vs func) := by
  have hM : (1 : Nat) < SIZE_MOD := by decide
  have es : s % SIZE_MOD = s := Nat.mod_eq_of_lt hs
  have eb : b % SIZE_MOD = b := Nat.mod_eq_of_lt hbM
  have e1 : 1 % SIZE_MOD = 1 := Nat.mod_eq_of_lt hM
  have hb1 : ¬ b < 1 := by omega
  have hts := add_tasks_task_set func N vs
    (set_options (create N ncpus) opts) []
    (by simp [set_options, create])
    (by intro v hv; simp [set_options, create, hv])
  rw [prepared_eq]
  refine ⟨rfl, ?_, ?_, ?_, ?_, ?_, ?_, ?_⟩
  · rcases hot with h | h <;> simp [set_options, create, e1, h]
  · simp [set_options, create, eb, hb1, hob]
  · rcases ho with h | h <;> simp [set_options, create, h]
  · intro v hv
    have := hts v hv
    simpa using this
  · simp
  · intro ti hti
    simp only at hti
    rw [List.eq_of_mem_replicate hti]
    exact hN
  · simp only [set_options, create, hos, Option.getD_some, es]
    exact hs

/-- C28 (as stated) fails: with `max_iterations` 0 and no task on any vertex the
loop of `get_next_task` fetches block after block and never returns, whatever
the number of passes allowed. -/
theorem get_next_task_spins_counterexample :
    ¬ ∃ fuel, (get_next_task fuel idle_start 0).isSome = true := by
  rintro ⟨fuel, h⟩
  have hN : (1 : Nat) ≤ VID_NEG1 := by decide
  have hinv : free_inv 1 1 1 [] none idle_start :=
    prepared_free_inv none (by decide) (by decide) (by decide) (by decide) _
      (Or.inr rfl) rfl (Or.inr rfl) rfl
  rw [free_never_returns (by decide) hN 0 (by decide) fuel idle_start hinv] at h
  cases h

/-- Instances of `get_next_task_returns`: worker 1 on a graph of 3 vertices
without tasks and `max_iterations = 1`, and worker 1 on the same graph with a
task on vertex 1 and `max_iterations = 0`. -/
theorem get_next_task_returns_witness :
    (∃ fuel r, get_next_task fuel
        (prepared 3 2 ⟨some 1, some 0, some 1, some 2⟩ [] none) 1 = some r ∧ fuel ≤ 10) ∧
    (∃ fuel r, get_next_task fuel
        (prepared 3 2 ⟨some 0, some 0, some 1, some 2⟩ [1] (some 7)) 1 = some r ∧
        fuel ≤ 5) := by
  have hN : (3 : Nat) ≤ VID_NEG1 := by decide
  have hov : 0 + 1 * 3 + (2 + 1) * 2 ≤ SIZE_MOD := by decide
  have hov2 : 0 + 3 + 2 * 2 ≤ SIZE_MOD := by decide
  exact ⟨get_next_task_returns 3 2 1 0 2 [] none _ 1 (by decide) hN (by decide) (by decide)
      (Or.inl ⟨by decide, hov, prepared_inv none (by decide) (by decide) (by decide) hov⟩),
    get_next_task_returns 3 2 0 0 2 [1] (some 7) _ 1 (by decide) hN (by decide) (by decide)
      (Or.inr ⟨⟨1, by decide, by decide⟩, hov2,
        prepared_free_inv (some 7) (by decide) (by decide) (by decide) (by decide) _
          (Or.inr rfl) rfl (Or.inr rfl) rfl⟩)⟩

/-! ### The circular queue is a FIFO -/

namespace synchronized_circular_queue

theorem realloc_double {T : Type} (queue : List (Option T)) :
    realloc queue (queue.length * 2) = queue ++ List.replicate queue.length none := by
  unfold realloc
  have : queue.length * 2 - queue.length = queue.length := by omega
  rw [this]
  apply List.take_of_length_le
  simp
  omega

theorem holds_create {T : Type} (sizehint : Nat) (h1 : 1 ≤ sizehint)
    (h2 : sizehint < SIZE_MOD) : holds (create sizehint : synchronized_circular_queue T) [] := by
  refine ⟨by simp [create], h1, h2, h1, rfl, Nat.zero_le _, ?_, ?_⟩
  · simp only [create, ring_index, List.length_nil, Nat.add_zero]
    simp
  · intro i hi
    simp at hi

theorem holds_write {T : Type} (q : synchronized_circular_queue T) (vals : List T) (item : T)
    (h : holds q vals) (hlt : vals.length < q.queuesize) :
    holds { q with queue := q.queue.set q.tail (some item)
                   tail := if (q.tail + 1) % SIZE_MOD < q.queuesize
                     then (q.tail + 1) % SIZE_MOD else 0
                   length := (q.length + 1) % SIZE_MOD } (vals ++ [item]) := by
  obtain ⟨hlen, hQ1, hQ, hh, hL, hLQ, ht, hcells⟩ := h
  have ht1 : q.tail < q.queuesize := by
    rw [ht]; unfold ring_index; split_ifs <;> omega
  have hm : (q.tail + 1) % SIZE_MOD = q.tail + 1 := Nat.mod_eq_of_lt (by omega)
  have hm2 : (q.length + 1) % SIZE_MOD = q.length + 1 := Nat.mod_eq_of_lt (by omega)
  refine ⟨by simp [hlen], hQ1, hQ, hh, ?_, ?_, ?_, ?_⟩
  · show (q.length + 1) % SIZE_MOD = (vals ++ [item]).length
    rw [hm2, hL]; simp
  · simp; omega
  · simp only [hm, List.length_append, List.length_singleton]
    rw [ht]; unfold ring_index; split_ifs <;> omega
  · intro i hi
    simp only [List.length_append, List.length_singleton] at hi
    simp only
    by_cases hil : i < vals.length
    · have hne : q.tail ≠ ring_index q.head q.queuesize i := by
        rw [ht]; unfold ring_index; split_ifs <;> omega
      rw [List.getElem?_set_ne hne, hcells i hil, List.getElem?_append_left hil]
    · have hie : i = vals.length := by omega
      subst hie
      rw [← ht, List.getElem?_set_eq_of_lt _ (by omega)]
      simp

theorem holds_doublesize {T : Type} (q : synchronized_circular_queue T) (vals : List T)
    (h : holds q vals) (hfull : vals.length = q.queuesize)
    (hov : q.queuesize * 2 < SIZE_MOD) :
    ∃ q1, unsync_doublesize q = some q1 ∧ holds q1 vals ∧ q1.queuesize = q.queuesize * 2 := by
  obtain ⟨hlen, hQ1, hQ, hh, hL, hLQ, ht, hcells⟩ := h
  have ht1 : q.tail = q.head := by
    rw [ht]; unfold ring_index; split_ifs <;> omega
  have hd : (q.queuesize * 2) % SIZE_MOD = q.queue.length * 2 := by
    rw [Nat.mod_eq_of_lt hov, hlen]
  have hcond : q.head ≥ q.tail ∧ q.length > 0 := ⟨by omega, by omega⟩
  have hmc : memcpy (q.queue ++ List.replicate q.queue.length none) q.queuesize q.tail
      = some (q.queue ++ q.queue.take q.head ++
          List.replicate (q.queuesize - q.head) none) := by
    unfold memcpy
    rw [if_pos ⟨by omega, by simp; omega⟩]
    congr 2
    · congr 1
      · rw [← hlen]; simp
      · rw [ht1, List.take_append_of_le_length (by omega)]
    · rw [← hlen, List.drop_append_eq_append_drop]
      simp [ht1]
  have hdbl : unsync_doublesize q = some { q with
      queue := q.queue ++ q.queue.take q.head ++ List.replicate (q.queuesize - q.head) none
      tail := (q.queuesize + q.tail) % SIZE_MOD
      queuesize := q.queue.length * 2 } := by
    unfold unsync_doublesize
    simp only [hd, realloc_double, if_pos hcond, hmc]
  refine ⟨_, hdbl, ?_, ?_⟩
  · refine ⟨?_, ?_, ?_, ?_, ?_, ?_, ?_, ?_⟩
    · simp; omega
    · show 1 ≤ q.queue.length * 2
      omega
    · show q.queue.length * 2 < SIZE_MOD
      omega
    · show q.head < q.queue.length * 2
      omega
    · exact hL
    · show vals.length ≤ q.queue.length * 2
      omega
    · show (q.queuesize + q.tail) % SIZE_MOD = ring_index q.head (q.queue.length * 2) vals.length
      rw [Nat.mod_eq_of_lt (by omega)]
      unfold ring_index; split_ifs <;> omega
    · intro i hi
      show (q.queue ++ q.queue.take q.head ++ List.replicate (q.queuesize - q.head) none)[
        ring_index q.head (q.queue.length * 2) i]? = _
      rw [← hcells i hi]
      have e1 : ring_index q.head (q.queue.length * 2) i = q.head + i := by
        unfold ring_index; rw [if_pos (by omega)]
      rw [e1]
      by_cases hc : q.head + i < q.queuesize
      · have e2 : ring_index q.head q.queuesize i = q.head + i := by
          unfold ring_index; rw [if_pos hc]
        rw [e2, List.append_assoc, List.getElem?_append_left (by omega)]
      · have e2 : ring_index q.head q.queuesize i = q.head + i - q.queuesize := by
          unfold ring_index; rw [if_neg hc]
        rw [e2, List.getElem?_append_left (by simp; omega),
          List.getElem?_append_right (by omega), List.getElem?_take_of_lt (by omega), hlen]
  · show q.queue.length * 2 = q.queuesize * 2
    rw [hlen]

theorem push_spec {T : Type} (q : synchronized_circular_queue T) (vals : List T) (item : T)
    (h : holds q vals) (hov : 2 * (vals.length + 1) < SIZE_MOD) :
    ∃ q1, q.push item = some q1 ∧ holds q1 (vals ++ [item]) := by
  by_cases hfull : q.length = q.queuesize
  · have hfull1 : vals.length = q.queuesize := by rw [← h.2.2.2.2.1]; exact hfull
    obtain ⟨q1, hd, hq1, hsz⟩ := holds_doublesize q vals h hfull1 (by omega)
    have hlt : vals.length < q1.queuesize := by have := h.2.1; omega
    have ht1 : q1.tail < q1.queue.length := by
      rw [hq1.1, hq1.2.2.2.2.2.2.1]; unfold ring_index
      have := hq1.2.2.2.1
      split_ifs <;> omega
    refine ⟨_, ?_, holds_write q1 vals item hq1 hlt⟩
    unfold push
    simp only [if_pos hfull, hd, if_pos ht1]
  · have hlt : vals.length < q.queuesize := by
      have := h.2.2.2.2.1
      have := h.2.2.2.2.2.1
      omega
    have ht1 : q.tail < q.queue.length := by
      rw [h.1, h.2.2.2.2.2.2.1]; unfold ring_index
      have := h.2.2.2.1
      split_ifs <;> omega
    refine ⟨_, ?_, holds_write q vals item h hlt⟩
    unfold push
    simp only [if_neg hfull, if_pos ht1]

theorem holds_read {T : Type} (q : synchronized_circular_queue T) (v : T) (vals : List T)
    (h : holds q (v :: vals)) :
    q.length ≠ 0 ∧ q.length > 0 ∧ q.queue[q.head]? = some (some v) ∧
    holds { q with head := if (q.head + 1) % SIZE_MOD < q.queuesize
                     then (q.head + 1) % SIZE_MOD else 0
                   length := (q.length + SIZE_MOD - 1) % SIZE_MOD } vals := by
  obtain ⟨hlen, hQ1, hQ, hh, hL, hLQ, ht, hcells⟩ := h
  simp only [List.length_cons] at hL hLQ ht hcells
  have hm : (q.head + 1) % SIZE_MOD = q.head + 1 := Nat.mod_eq_of_lt (by omega)
  have hm2 : (q.length + SIZE_MOD - 1) % SIZE_MOD = vals.length := by
    have : q.length + SIZE_MOD - 1 = vals.length + SIZE_MOD := by omega
    rw [this, Nat.add_mod_right, Nat.mod_eq_of_lt (by omega)]
  refine ⟨by omega, by omega, ?_, ?_⟩
  · have := hcells 0 (by omega)
    have e : ring_index q.head q.queuesize 0 = q.head := by
      unfold ring_index; rw [if_pos (by omega)]; rfl
    rw [e] at this
    rw [this]; simp
  · refine ⟨hlen, hQ1, hQ, ?_, hm2, ?_, ?_, ?_⟩
    · show (if (q.head + 1) % SIZE_MOD < q.queuesize then (q.head + 1) % SIZE_MOD else 0)
        < q.queuesize
      rw [hm]; split_ifs <;> omega
    · show vals.length ≤ q.queuesize
      omega
    · show q.tail = ring_index (if (q.head + 1) % SIZE_MOD < q.queuesize
        then (q.head + 1) % SIZE_MOD else 0) q.queuesize vals.length
      rw [hm, ht]; unfold ring_index; split_ifs <;> omega
    · intro i hi
      show q.queue[ring_index (if (q.head + 1) % SIZE_MOD < q.queuesize
        then (q.head + 1) % SIZE_MOD else 0) q.queuesize i]? = _
      have e : ring_index (if (q.head + 1) % SIZE_MOD < q.queuesize
          then (q.head + 1) % SIZE_MOD else 0) q.queuesize i
          = ring_index q.head q.queuesize (i + 1) := by
        rw [hm]; unfold ring_index; split_ifs <;> omega
      rw [e, hcells (i + 1) (by omega)]
      simp

theorem pop_spec {T : Type} (q : synchronized_circular_queue T) (v : T) (vals : List T)
    (h : holds q (v :: vals)) :
    ∃ q1, q.pop = some (q1, v) ∧ q.safepop = some (q1, some v) ∧ holds q1 vals := by
  obtain ⟨h0, h1, h2, h3⟩ := holds_read q v vals h
  refine ⟨_, ?_, ?_, h3⟩
  · unfold pop
    simp only [if_pos h1, h2]
  · unfold safepop
    simp only [if_neg h0, h2]

theorem safepop_empty {T : Type} (q : synchronized_circular_queue T) (h : q.size = 0) :
    q.safepop = some (q, none) := by
  have h0 : q.length = 0 := h
  unfold safepop
  rw [if_pos h0]

end synchronized_circular_queue

theorem run_ops_spec {T : Type} : ∀ (ops : List (queue_op T))
    (q : synchronized_circular_queue T) (vals : List T),
    holds q vals → 2 * (vals.length + (pushed ops).length) < SIZE_MOD →
    pops_guarded ops vals.length = true →
    ∃ q1 log vals1, run_ops ops q = some (q1, log) ∧ holds q1 vals1 ∧
      vals ++ pushed ops = popped log ++ vals1 := by
  intro ops
  induction ops with
  | nil =>
    intro q vals h _ _
    exact ⟨q, [], vals, rfl, h, by simp [pushed, popped]⟩
  | cons op rest ih =>
    intro q vals h hov hg
    cases op with
    | push item =>
      simp only [pushed, List.length_cons] at hov
      obtain ⟨q1, hp, hq1⟩ := synchronized_circular_queue.push_spec q vals item h (by omega)
      obtain ⟨q2, log, vals2, hr, hq2, he⟩ := ih q1 (vals ++ [item]) hq1
        (by simp; omega) (by simpa [pops_guarded] using hg)
      refine ⟨q2, log, vals2, ?_, hq2, ?_⟩
      · simp only [run_ops, hp]; exact hr
      · rw [← he]; simp [pushed]
    | pop =>
      simp only [pops_guarded, Bool.and_eq_true, decide_eq_true_eq] at hg
      cases vals with
      | nil => simp at hg
      | cons v vals =>
        obtain ⟨q1, hp, _, hq1⟩ := synchronized_circular_queue.pop_spec q v vals h
        obtain ⟨q2, log, vals2, hr, hq2, he⟩ := ih q1 vals hq1
          (by simp only [pushed, List.length_cons] at hov; omega) (by simpa using hg.2)
        refine ⟨q2, some v :: log, vals2, ?_, hq2, ?_⟩
        · simp only [run_ops, hp, hr]
        · simp only [pushed, popped, List.filterMap_cons, id] at he ⊢
          simp [he]
    | safepop =>
      simp only [pops_guarded] at hg
      cases vals with
      | nil =>
        have hs := synchronized_circular_queue.safepop_empty q h.2.2.2.2.1
        obtain ⟨q2, log, vals2, hr, hq2, he⟩ := ih q [] h
          (by simp only [pushed] at hov; exact hov) (by simpa using hg)
        refine ⟨q2, none :: log, vals2, ?_, hq2, ?_⟩
        · simp only [run_ops, hs, hr]
        · simp only [pushed, popped, List.filterMap_cons, id] at he ⊢
          exact he
      | cons v vals =>
        obtain ⟨q1, _, hp, hq1⟩ := synchronized_circular_queue.pop_spec q v vals h
        obtain ⟨q2, log, vals2, hr, hq2, he⟩ := ih q1 vals hq1
          (by simp only [pushed, List.length_cons] at hov; omega) (by simpa using hg)
        refine ⟨q2, some v :: log, vals2, ?_, hq2, ?_⟩
        · simp only [run_ops, hp, hr]
        · simp only [pushed, popped, List.filterMap_cons, id] at he ⊢
          simp [he]

/-- C30: `synchronized_circular_queue` is a FIFO. For every size hint `≥ 1` and
every sequence of `push`, `pop` and `safepop` calls on the new queue in which no
`pop` meets an empty queue, the sequence runs through, the values popped are the
first of the values pushed, in push order, the queue holds the rest, `size()` is
the number of pushes minus the number of values popped, and `safepop` on an empty
queue returns false and leaves the queue as it is. -/
theorem circular_queue_is_fifo (T : Type) (sizehint : Nat) (ops : List (queue_op T))
    (h1 : 1 ≤ sizehint) (h2 : sizehint < SIZE_MOD)
    (h3 : 2 * (pushed ops).length < SIZE_MOD) (h4 : pops_guarded ops 0 = true) :
    (∃ q log, run_ops ops (synchronized_circular_queue.create sizehint) = some (q, log) ∧
      popped log = (pushed ops).take (popped log).length ∧
      holds q ((pushed ops).drop (popped log).length) ∧
      q.size + (popped log).length = (pushed ops).length) ∧
    (∀ q : synchronized_circular_queue T, q.size = 0 → q.safepop = some (q, none)) := by
  refine ⟨?_, synchronized_circular_queue.safepop_empty⟩
  obtain ⟨q, log, vals, hr, hq, he⟩ := run_ops_spec ops _ []
    (synchronized_circular_queue.holds_create sizehint h1 h2) (by simpa using h3) h4
  simp only [List.nil_append] at he
  refine ⟨q, log, hr, ?_, ?_, ?_⟩
  · rw [he]; simp
  · rw [he]; simpa using hq
  · rw [he]
    have := hq.2.2.2.2.1
    simp [synchronized_circular_queue.size, this]
    omega

/-- An instance of `circular_queue_is_fifo`: a queue of two cells takes six
values, doubling twice (the second time with the values wrapped round the end of
the array), with pops in between and a `safepop` at the end that finds it empty. -/
theorem circular_queue_is_fifo_witness :
    (∃ q log, run_ops
        [.push 1, .push 2, .push 3, .pop, .push 4, .push 5, .push 6, .safepop,
          .pop, .pop, .pop, .pop, .safepop]
        (synchronized_circular_queue.create 2 : synchronized_circular_queue Nat)
          = some (q, log) ∧
      log = [some 1, some 2, some 3, some 4, some 5, some 6, none] ∧
      popped log = List.take (popped log).length [1, 2, 3, 4, 5, 6] ∧ q.size = 0) := by
  obtain ⟨⟨q, log, hr, hp, _, _⟩, _⟩ := circular_queue_is_fifo Nat 2
    [.push 1, .push 2, .push 3, .pop, .push 4, .push 5, .push 6, .safepop,
      .pop, .pop, .pop, .pop, .safepop] (by decide) (by decide) (by decide) (by decide)
  have hrun : run_ops
      [.push 1, .push 2, .push 3, .pop, .push 4, .push 5, .push 6, .safepop,
        .pop, .pop, .pop, .pop, .safepop]
      (synchronized_circular_queue.create 2 : synchronized_circular_queue Nat)
      = some (⟨[some 5, some 2, some 3, some 4, some 5, some 6, none, none], 6, 6, 0, 8⟩,
          [some 1, some 2, some 3, some 4, some 5, some 6, none]) := by decide
  have e := hr.symm.trans hrun
  simp only [Option.some.injEq, Prod.mk.injEq] at e
  exact ⟨q, log, hr, e.2, hp, by rw [e.1]; rfl⟩

/-! ### The variable-length integer codec -/

theorem mask_group (x k : Nat) : (x &&& (0x7F <<< k)) >>> k = (x / 2 ^ k) % 128 := by
  apply Nat.eq_of_testBit_eq
  intro j
  have e1 : (0x7F : Nat) = 2 ^ 7 - 1 := rfl
  have e2 : (128 : Nat) = 2 ^ 7 := rfl
  rw [e1, e2, ← Nat.shiftRight_eq_div_pow]
  simp only [Nat.testBit_shiftRight, Nat.testBit_and, Nat.testBit_shiftLeft,
    Nat.testBit_two_pow_sub_one, Nat.testBit_mod_two_pow]
  have : k + j - k = j := by omega
  rw [this]
  have : decide (k + j ≥ k) = true := by simp
  rw [this]
  cases decide (j < 7) <;> simp

theorem and_7F (x : Nat) : x &&& 0x7F = x % 128 := Nat.and_pow_two_sub_one_eq_mod x 7

theorem or_80 (g : Nat) (hg : g < 128) : g ||| 0x80 = g + 128 := by
  have := Nat.mul_add_lt_is_or (show g < 2 ^ 7 from hg) 1
  rw [Nat.or_comm]
  simpa [Nat.add_comm] using this.symm

theorem and_80 (b : Nat) : b &&& 0x80 = (b / 128 % 2) * 128 := by
  apply Nat.eq_of_testBit_eq
  intro j
  have e1 : (0x80 : Nat) = 2 ^ 7 := rfl
  have e3 : b / 2 ^ 7 % 2 = b / 2 ^ 7 % 2 ^ 1 := rfl
  rw [e1, e3, Nat.mul_comm, Nat.testBit_mul_pow_two, Nat.testBit_and, Nat.testBit_two_pow,
    Nat.testBit_mod_two_pow, ← Nat.shiftRight_eq_div_pow, Nat.testBit_shiftRight]
  by_cases hj : 7 = j
  · subst hj; simp
  · have : ¬ (j - 7 < 1 ∧ j ≥ 7) := by omega
    by_cases h7 : j ≥ 7
    · simp [hj, h7]; omega
    · simp [hj, h7]

theorem shl7_or (ret b : Nat) :
    ((ret <<< 7) % 2 ^ 64) ||| (b &&& 0x7F) = (ret % 2 ^ 57) * 128 + b % 128 := by
  rw [and_7F, Nat.shiftLeft_eq]
  have e : ret * 2 ^ 7 % 2 ^ 64 = 2 ^ 7 * (ret % 2 ^ 57) := by omega
  rw [e, ← Nat.mul_add_lt_is_or (show b % 128 < 2 ^ 7 from Nat.mod_lt _ (by decide))]
  omega

theorem xor_all_ones (u : Nat) (hu : u < 2 ^ 64) : u ^^^ (2 ^ 64 - 1) = 2 ^ 64 - 1 - u := by
  apply Nat.eq_of_testBit_eq
  intro i
  have e : 2 ^ 64 - 1 - u = 2 ^ 64 - (u + 1) := by omega
  rw [e, Nat.testBit_two_pow_sub_succ hu, Nat.testBit_xor, Nat.testBit_two_pow_sub_one]
  by_cases hi : i < 64
  · simp [hi]
  · have : u < 2 ^ i := Nat.lt_of_lt_of_le hu (Nat.pow_le_pow_right (by decide) (by omega))
    simp [hi, Nat.testBit_lt_two_pow this]


theorem count_leading_zeros_spec (a : Nat) : ∀ n, a < 2 ^ n → a ≠ 0 →
    ∃ m, m < n ∧ 2 ^ m ≤ a ∧ a < 2 ^ (m + 1) ∧ count_leading_zeros a n = n - 1 - m := by
  intro n
  induction n with
  | zero => intro h h0; simp at h; exact absurd h h0
  | succ n ih =>
    intro h h0
    by_cases hb : a.testBit n = true
    · exact ⟨n, by omega, Nat.testBit_implies_ge hb, h, by simp [count_leading_zeros, hb]⟩
    · have hlt : a < 2 ^ n := by
        rw [Nat.testBit_to_div_mod] at hb
        simp only [decide_eq_true_eq] at hb
        have h2 : a / 2 ^ n < 2 := Nat.div_lt_of_lt_mul (by rw [← Nat.pow_succ]; exact h)
        have h3 : a / 2 ^ n = 0 := by
          generalize a / 2 ^ n = x at hb h2
          omega
        rcases (Nat.div_eq_zero_iff (Nat.two_pow_pos n)).mp h3 with h4
        exact h4
      obtain ⟨m, hm, h1, h2, h3⟩ := ih hlt h0
      refine ⟨m, by omega, h1, h2, ?_⟩
      simp only [count_leading_zeros, hb]
      rw [h3]; simp; omega

theorem lookuptable_spec : ∀ n < 64,
    lookuptable[n]? = some (if n ≤ 7 then 1 else (n + 6) / 7) := by decide

theorem or_80_mod (x : Nat) : (x % 128) ||| 0x80 = x % 128 + 128 :=
  or_80 _ (Nat.mod_lt _ (by decide))

theorem switch_output_eq (a c : Nat) (hc1 : 1 ≤ c) (hc9 : c ≤ 9) :
    switch_output a c = List.replicate (10 - c) none ++
      (((switch_cases a).map (fun s => s.2.2 % 256)).drop (9 - c)).map some ∧
    (switch_output a c).set (9 - c) (some 0) = List.replicate (9 - c) none ++
      (0 :: ((switch_cases a).map (fun s => s.2.2 % 256)).drop (9 - c)).map some := by
  interval_cases c <;> exact ⟨rfl, rfl⟩


theorem read_bytes_map_some (l : List Nat) : read_bytes (l.map some) = some l := by
  induction l with
  | nil => rfl
  | cons b l ih => simp [read_bytes, ih]

theorem read_bytes_drop (n : Nat) (l : List Nat) :
    read_bytes ((List.replicate n none ++ l.map some).drop n) = some l := by
  have e : n = (List.replicate n (none : Option Nat)).length := by simp
  conv => lhs; arg 1; arg 1; rw [e]
  rw [List.drop_left, read_bytes_map_some]

theorem switch_cases_values (a : Nat) :
    (switch_cases a).map (fun s => s.2.2 % 256) =
      [a / 2 ^ 56 % 128, a / 2 ^ 49 % 128, a / 2 ^ 42 % 128, a / 2 ^ 35 % 128,
       a / 2 ^ 28 % 128, a / 2 ^ 21 % 128, a / 2 ^ 14 % 128, a / 2 ^ 7 % 128,
       a % 128 + 128] := by
  simp only [switch_cases, mask_group, and_7F, or_80_mod, List.map_cons, List.map_nil]
  have e1 : a / 2 ^ 56 % 128 % 256 = a / 2 ^ 56 % 128 := by omega
  have e2 : a / 2 ^ 49 % 128 % 256 = a / 2 ^ 49 % 128 := by omega
  have e3 : a / 2 ^ 42 % 128 % 256 = a / 2 ^ 42 % 128 := by omega
  have e4 : a / 2 ^ 35 % 128 % 256 = a / 2 ^ 35 % 128 := by omega
  have e5 : a / 2 ^ 28 % 128 % 256 = a / 2 ^ 28 % 128 := by omega
  have e6 : a % 2 ^ 32 / 2 ^ 21 % 128 % 256 = a / 2 ^ 21 % 128 := by omega
  have e7 : a % 2 ^ 32 / 2 ^ 14 % 128 % 256 = a / 2 ^ 14 % 128 := by omega
  have e8 : a % 2 ^ 16 / 2 ^ 7 % 128 % 256 = a / 2 ^ 7 % 128 := by omega
  have e9 : (a % 2 ^ 8 % 128 + 128) % 256 = a % 128 + 128 := by omega
  rw [e1, e2, e3, e4, e5, e6, e7, e8, e9]

theorem decompress_step (x : Nat) (rest : List Nat) (hx : x < 2 ^ 64) :
    decompress_loop ((x % 128) :: rest) (x / 128) = decompress_loop rest x := by
  have h1 : (x % 128) &&& 0x80 = 0 := by rw [and_80]; omega
  have h2 : ((x / 128) <<< 7) % 2 ^ 64 ||| (x % 128 &&& 0x7F) = x := by rw [shl7_or]; omega
  simp only [decompress_loop, h1, h2, ne_eq, not_true_eq_false, if_false]

theorem decompress_last (x : Nat) (rest : List Nat) (hx : x < 2 ^ 64) :
    decompress_loop ((x % 128 + 128) :: rest) (x / 128) = some x := by
  have h1 : (x % 128 + 128) &&& 0x80 ≠ 0 := by rw [and_80]; omega
  have h2 : ((x / 128) <<< 7) % 2 ^ 64 ||| ((x % 128 + 128) &&& 0x7F) = x := by
    rw [shl7_or]; omega
  simp only [decompress_loop, h1, h2, ne_eq, not_false_eq_true, if_true]


theorem high_bit_group (x : Nat) : high_bit (x % 128) = false := by
  simp only [high_bit, and_80]
  have : x % 128 / 128 % 2 * 128 = 0 := by omega
  simp [this]

theorem high_bit_last (x : Nat) : high_bit (x % 128 + 128) = true := by
  simp only [high_bit, and_80]
  have : (x % 128 + 128) / 128 % 2 * 128 = 128 := by omega
  simp [this]

theorem groups_decode (a c : Nat) (hc1 : 1 ≤ c) (hc9 : c ≤ 9) (hup : a < 2 ^ (7 * c)) :
    decompress_loop
      (([a / 2 ^ 56 % 128, a / 2 ^ 49 % 128, a / 2 ^ 42 % 128, a / 2 ^ 35 % 128,
         a / 2 ^ 28 % 128, a / 2 ^ 21 % 128, a / 2 ^ 14 % 128, a / 2 ^ 7 % 128,
         a % 128 + 128] : List Nat).drop (9 - c)) 0 = some a := by
  have h64 : a < 2 ^ 64 :=
    Nat.lt_of_lt_of_le hup (Nat.pow_le_pow_right (by decide) (by omega))
  have hdiv : ∀ k, a / 2 ^ k < 2 ^ 64 := fun k =>
    Nat.lt_of_le_of_lt (Nat.div_le_self _ _) h64
  have S8 : ∀ rest, decompress_loop ((a / 2 ^ 56 % 128) :: rest) (a / 2 ^ 63)
      = decompress_loop rest (a / 2 ^ 56) := by
    intro rest
    have := decompress_step (a / 2 ^ 56) rest (hdiv _)
    rwa [show a / 2 ^ 56 / 128 = a / 2 ^ 63 by omega] at this
  have S7 : ∀ rest, decompress_loop ((a / 2 ^ 49 % 128) :: rest) (a / 2 ^ 56)
      = decompress_loop rest (a / 2 ^ 49) := by
    intro rest
    have := decompress_step (a / 2 ^ 49) rest (hdiv _)
    rwa [show a / 2 ^ 49 / 128 = a / 2 ^ 56 by omega] at this
  have S6 : ∀ rest, decompress_loop ((a / 2 ^ 42 % 128) :: rest) (a / 2 ^ 49)
      = decompress_loop rest (a / 2 ^ 42) := by
    intro rest
    have := decompress_step (a / 2 ^ 42) rest (hdiv _)
    rwa [show a / 2 ^ 42 / 128 = a / 2 ^ 49 by omega] at this
  have S5 : ∀ rest, decompress_loop ((a / 2 ^ 35 % 128) :: rest) (a / 2 ^ 42)
      = decompress_loop rest (a / 2 ^ 35) := by
    intro rest
    have := decompress_step (a / 2 ^ 35) rest (hdiv _)
    rwa [show a / 2 ^ 35 / 128 = a / 2 ^ 42 by omega] at this
  have S4 : ∀ rest, decompress_loop ((a / 2 ^ 28 % 128) :: rest) (a / 2 ^ 35)
      = decompress_loop rest (a / 2 ^ 28) := by
    intro rest
    have := decompress_step (a / 2 ^ 28) rest (hdiv _)
    rwa [show a / 2 ^ 28 / 128 = a / 2 ^ 35 by omega] at this
  have S3 : ∀ rest, decompress_loop ((a / 2 ^ 21 % 128) :: rest) (a / 2 ^ 28)
      = decompress_loop rest (a / 2 ^ 21) := by
    intro rest
    have := decompress_step (a / 2 ^ 21) rest (hdiv _)
    rwa [show a / 2 ^ 21 / 128 = a / 2 ^ 28 by omega] at this
  have S2 : ∀ rest, decompress_loop ((a / 2 ^ 14 % 128) :: rest) (a / 2 ^ 21)
      = decompress_loop rest (a / 2 ^ 14) := by
    intro rest
    have := decompress_step (a / 2 ^ 14) rest (hdiv _)
    rwa [show a / 2 ^ 14 / 128 = a / 2 ^ 21 by omega] at this
  have S1 : ∀ rest, decompress_loop ((a / 2 ^ 7 % 128) :: rest) (a / 2 ^ 14)
      = decompress_loop rest (a / 2 ^ 7) := by
    intro rest
    have := decompress_step (a / 2 ^ 7) rest (hdiv _)
    rwa [show a / 2 ^ 7 / 128 = a / 2 ^ 14 by omega] at this
  have S0 : decompress_loop [a % 128 + 128] (a / 2 ^ 7) = some a := by
    have := decompress_last a [] h64
    rwa [show a / 128 = a / 2 ^ 7 by omega] at this
  have hz : (0 : Nat) = a / 2 ^ (7 * c) := by rw [Nat.div_eq_of_lt hup]
  interval_cases c
  · simp only [Nat.reduceSub, Nat.reduceMul, List.drop_succ_cons, List.drop_zero] at hz ⊢
    rw [hz, S0]
  · simp only [Nat.reduceSub, Nat.reduceMul, List.drop_succ_cons, List.drop_zero] at hz ⊢
    rw [hz, S1, S0]
  · simp only [Nat.reduceSub, Nat.reduceMul, List.drop_succ_cons, List.drop_zero] at hz ⊢
    rw [hz, S2, S1, S0]
  · simp only [Nat.reduceSub, Nat.reduceMul, List.drop_succ_cons, List.drop_zero] at hz ⊢
    rw [hz, S3, S2, S1, S0]
  · simp only [Nat.reduceSub, Nat.reduceMul, List.drop_succ_cons, List.drop_zero] at hz ⊢
    rw [hz, S4, S3, S2, S1, S0]
  · simp only [Nat.reduceSub, Nat.reduceMul, List.drop_succ_cons, List.drop_zero] at hz ⊢
    rw [hz, S5, S4, S3, S2, S1, S0]
  · simp only [Nat.reduceSub, Nat.reduceMul, List.drop_succ_cons, List.drop_zero] at hz ⊢
    rw [hz, S6, S5, S4, S3, S2, S1, S0]
  · simp only [Nat.reduceSub, Nat.reduceMul, List.drop_succ_cons, List.drop_zero] at hz ⊢
    rw [hz, S7, S6, S5, S4, S3, S2, S1, S0]
  · simp only [Nat.reduceSub, Nat.reduceMul, List.drop_succ_cons, List.drop_zero] at hz ⊢
    rw [hz, S8, S7, S6, S5, S4, S3, S2, S1, S0]


theorem groups_shape (a c : Nat) (hc1 : 1 ≤ c) (hc9 : c ≤ 9)
    (hlo : c = 1 ∨ 2 ^ (7 * (c - 1)) ≤ a) (hup : a < 2 ^ (7 * c)) :
    ∃ b rest,
      (([a / 2 ^ 56 % 128, a / 2 ^ 49 % 128, a / 2 ^ 42 % 128, a / 2 ^ 35 % 128,
         a / 2 ^ 28 % 128, a / 2 ^ 21 % 128, a / 2 ^ 14 % 128, a / 2 ^ 7 % 128,
         a % 128 + 128] : List Nat).drop (9 - c)) = b :: rest ∧ b ≠ 0 ∧
      (b :: rest).length = c ∧
      (b :: rest).map high_bit = List.replicate (c - 1) false ++ [true] := by
  interval_cases c
  all_goals (
    simp only [Nat.reduceSub, Nat.reduceMul, List.drop_succ_cons, List.drop_zero]
    norm_num at hlo hup
    refine ⟨_, _, rfl, by omega, rfl, ?_⟩
    simp [high_bit_group, high_bit_last, List.replicate])

theorem nbits_spec (a : Nat) (h : a < 2 ^ 63) :
    ∃ c, lookuptable[if a ≠ 0 then 64 - builtin_clzll a else 0]? = some c ∧
      1 ≤ c ∧ c ≤ 9 ∧ a < 2 ^ (7 * c) ∧ (c = 1 ∨ 2 ^ (7 * (c - 1)) ≤ a) := by
  by_cases h0 : a = 0
  · subst h0
    exact ⟨1, by decide, by decide, by decide, by decide, Or.inl rfl⟩
  · have h64 : a < 2 ^ 64 := Nat.lt_of_lt_of_le h (by decide)
    obtain ⟨m, hm, h1, h2, h3⟩ := count_leading_zeros_spec a 64 h64 h0
    have hm63 : m < 63 := by
      by_contra hc
      have : 2 ^ 63 ≤ 2 ^ m := Nat.pow_le_pow_right (by decide) (by omega)
      omega
    have hn : (if a ≠ 0 then 64 - builtin_clzll a else 0) = m + 1 := by
      rw [if_pos h0]; unfold builtin_clzll; rw [h3]; omega
    rw [hn, lookuptable_spec (m + 1) (by omega)]
    refine ⟨_, rfl, ?_, ?_, ?_, ?_⟩
    · split_ifs <;> omega
    · split_ifs <;> omega
    · refine Nat.lt_of_lt_of_le h2 (Nat.pow_le_pow_right (by decide) ?_)
      split_ifs <;> omega
    · by_cases h7 : m + 1 ≤ 7
      · left; rw [if_pos h7]
      · right
        rw [if_neg h7]
        refine Nat.le_trans (Nat.pow_le_pow_right (by decide) ?_) h1
        omega

/-- C29: `compress_int` reads `lookuptable[64]`, one entry beyond the table, for
`u = 2^63` (undefined behaviour). For every other 64-bit `u` it returns a length
`len` with `1 ≤ len ≤ 10`, of the bytes `output[10 - len .. 9]` only the last has
its high bit set, and `decompress_int` on those bytes yields `u` again. -/
theorem compress_int_overruns_lookuptable :
    compress_int (2 ^ 63) = none ∧
    ∀ u, u < 2 ^ 64 → u ≠ 2 ^ 63 →
      ∃ len output bytes, compress_int u = some (len, output) ∧
        1 ≤ len ∧ len ≤ 10 ∧
        read_bytes (output.drop (10 - len)) = some bytes ∧
        id_to_str u = some bytes ∧
        bytes.map high_bit = List.replicate (len - 1) false ++ [true] ∧
        decompress_int bytes = some u := by
  refine ⟨by decide, ?_⟩
  intro u hu hne
  by_cases hneg : u ≥ 2 ^ 63
  · have hx := xor_all_ones u hu
    have ha : ((u ^^^ (2 ^ 64 - 1)) + 2 ^ 64 - (2 ^ 64 - 1)) % 2 ^ 64 = 2 ^ 64 - u := by
      rw [hx]; omega
    obtain ⟨c, hc, hc1, hc9, hup, hlo⟩ := nbits_spec (2 ^ 64 - u) (by omega)
    obtain ⟨b, rest, hdrop, hb0, hlen, hhigh⟩ := groups_shape _ c hc1 hc9 hlo hup
    have hdec := groups_decode _ c hc1 hc9 hup
    rw [hdrop] at hdec
    have hcomp : compress_int u = some ((c + 1) % 256,
        (switch_output (2 ^ 64 - u) c).set (9 - c) (some 0)) := by
      unfold compress_int
      simp only [if_pos hneg, ha, hc]
      rfl
    have hc256 : (c + 1) % 256 = c + 1 := by omega
    have hread : read_bytes (((switch_output (2 ^ 64 - u) c).set (9 - c) (some 0)).drop
        (10 - (c + 1))) = some (0 :: b :: rest) := by
      rw [(switch_output_eq _ c hc1 hc9).2, switch_cases_values, hdrop,
        show 10 - (c + 1) = 9 - c by omega]
      exact read_bytes_drop _ _
    refine ⟨_, _, 0 :: b :: rest, hcomp, by omega, by omega, by rw [hc256]; exact hread, ?_, ?_, ?_⟩
    · unfold id_to_str
      rw [hcomp]
      simp only [hc256]
      exact hread
    · have h0 : high_bit 0 = false := by decide
      have e : (c + 1) % 256 - 1 = (c - 1) + 1 := by omega
      rw [e, List.map_cons, hhigh, h0, List.replicate_succ, List.cons_append]
    · have h1 : decompress_int (0 :: b :: rest)
          = (decompress_loop (b :: rest) 0).map (fun ret => (2 ^ 64 - ret) % 2 ^ 64) := by
        unfold decompress_int
        exact if_pos rfl
      simp only [h1, hdec, Option.map_some', Option.some.injEq]
      omega
  · have hlt : u < 2 ^ 63 := by omega
    have ha : ((u ^^^ 0) + 2 ^ 64 - 0) % 2 ^ 64 = u := by
      rw [Nat.xor_zero, Nat.sub_zero, Nat.add_mod_right, Nat.mod_eq_of_lt hu]
    obtain ⟨c, hc, hc1, hc9, hup, hlo⟩ := nbits_spec u hlt
    obtain ⟨b, rest, hdrop, hb0, hlen, hhigh⟩ := groups_shape _ c hc1 hc9 hlo hup
    have hdec := groups_decode _ c hc1 hc9 hup
    rw [hdrop] at hdec
    have hcomp : compress_int u = some (c, switch_output u c) := by
      unfold compress_int
      simp only [if_neg hneg, ha, hc]
      rfl
    have hread : read_bytes ((switch_output u c).drop (10 - c)) = some (b :: rest) := by
      rw [(switch_output_eq _ c hc1 hc9).1, switch_cases_values, hdrop]
      exact read_bytes_drop _ _
    refine ⟨_, _, b :: rest, hcomp, hc1, by omega, hread, ?_, hhigh, ?_⟩
    · unfold id_to_str
      rw [hcomp]
      exact hread
    · simp only [decompress_int, if_neg hb0]
      exact hdec

/-! ### The head tracker of the sync queue -/

theorem next_due_spec (x : Nat × Int) (h1 : -(2 ^ 31) < x.2) (h2 : x.2 ≤ 0) :
    (next_due x : Int) = -x.2 := by
  have hne : x.2 ≠ -(2 ^ 31) := by omega
  unfold next_due int_neg int_to_size_t
  rw [if_neg hne]
  have hm : (-x.2) % (2 ^ 64 : Int) = -x.2 := Int.emod_eq_of_lt (by omega) (by omega)
  rw [hm]
  omega

theorem reinsert_priority_at (apx I : Nat) (h : apx + I < 2 ^ 31) :
    int_neg (to_int ((apx + I) % SIZE_MOD)) = -((apx + I : Nat) : Int) := by
  have := reinsert_priority (apx + I) h
  rwa [Nat.zero_add] at this

theorem update_head_tracker_inv {A : Type} (e : asynchronous_engine A)
    (hact : e.active = true)
    (hb : ∀ x ∈ e.sync_task_queue, -(2 ^ 31) < x.2 ∧ x.2 ≤ 0) :
    head_tracker_inv (asynchronous_engine.update_head_tracker e) ∧
    (∀ t, mutable_queue.top e.sync_task_queue = some t →
      (asynchronous_engine.update_head_tracker e).sync_task_queue_next_update = next_due t) := by
  obtain ⟨_, _, _, _, hq, hnext⟩ := update_head_tracker_fields e
  cases ht : mutable_queue.top e.sync_task_queue with
  | none =>
    refine ⟨Or.inl ⟨?_, ?_⟩, fun t h => by cases h⟩
    · rw [hq]; exact top_eq_none _ ht
    · unfold asynchronous_engine.update_head_tracker
      simp only [ht]
      cases e.active <;> rfl
  | some t =>
    have hn : (asynchronous_engine.update_head_tracker e).sync_task_queue_next_update
        = next_due t := hnext t hact ht
    obtain ⟨hmem, hmax⟩ := top_mem_max _ _ ht
    refine ⟨Or.inr ⟨⟨t, by rw [hq]; exact hmem, hn⟩, ?_⟩, fun t1 h => by cases h; exact hn⟩
    intro y hy
    rw [hq] at hy
    rw [hn]
    have h1 := next_due_spec t (hb t hmem).1 (hb t hmem).2
    have h2 := next_due_spec y (hb y hy).1 (hb y hy).2
    have h3 := hmax y hy
    omega


theorem count_due_erase (cur : Nat) : ∀ (q : mutable_queue) (x : Nat × Int), x ∈ q →
    next_due x ≤ cur →
    q.countP (fun y => next_due y ≤ cur) = (q.erase x).countP (fun y => next_due y ≤ cur) + 1 := by
  intro q
  induction q with
  | nil => intro x hx; cases hx
  | cons a q ih =>
    intro x hx hx0
    rw [List.erase_cons]
    by_cases hax : a = x
    · subst hax
      simp only [beq_self_eq_true, if_true, List.countP_cons, hx0, decide_True]
    · have hb : (a == x) = false := by simpa using hax
      have hm : x ∈ q := by
        rcases List.mem_cons.mp hx with h | h
        · exact absurd h.symm hax
        · exact h
      simp only [hb, Bool.false_eq_true, if_false, List.countP_cons]
      rw [ih x hm hx0]
      omega

theorem count_due_insert_max (cur : Nat) (q : mutable_queue) (item : Nat) (priority : Int)
    (hq : ∀ x ∈ q, -(2 ^ 31) < x.2 ∧ x.2 ≤ 0)
    (hp1 : -(2 ^ 31) < priority) (hp : priority < -(cur : Int)) :
    (mutable_queue.insert_max q item priority).countP (fun y => next_due y ≤ cur) =
      q.countP (fun y => next_due y ≤ cur) := by
  unfold mutable_queue.insert_max
  split_ifs
  · rw [List.countP_map]
    apply List.countP_congr
    intro x hx
    simp only [Function.comp, decide_eq_true_eq]
    have hbx := hq x hx
    have h1 := next_due_spec x hbx.1 hbx.2
    split_ifs
    · rcases le_total x.2 priority with h | h
      · have h2 := next_due_spec (x.1, max x.2 priority)
          (by simp only [max_eq_right h]; exact hp1) (by simp only [max_eq_right h]; omega)
        simp only [max_eq_right h] at h2 ⊢
        constructor
        · intro h3; omega
        · intro h3; omega
      · simp only [max_eq_left h]
    · rfl
  · rw [List.countP_append]
    have h2 := next_due_spec (item, priority) hp1 (by simp only; omega)
    have : ¬ (next_due (item, priority) ≤ cur) := by simp only at h2; omega
    simp [this]

theorem mem_pop (q : mutable_queue) (y : Nat × Int) (hy : y ∈ mutable_queue.pop q) : y ∈ q := by
  unfold mutable_queue.pop at hy
  cases ht : mutable_queue.top q with
  | none => simpa [ht] using hy
  | some x =>
    simp only [ht] at hy
    exact List.mem_of_mem_erase hy

theorem dispatch_due_bounds {A : Type} (e : asynchronous_engine A) (top : Nat × Int)
    (sync : sync_task A)
    (hb : sync_queue_bounds e)
    (hi : ∀ st ∈ e.sync_tasks, e.approximate_last_update_count + st.sync_interval < 2 ^ 31)
    (htop : mutable_queue.top e.sync_task_queue = some top)
    (hsync : e.sync_tasks[top.1]? = some sync) :
    sync_queue_bounds (asynchronous_engine.dispatch_due e top sync) := by
  obtain ⟨hst, _, _, _, hq, _⟩ := dispatch_due_fields e top sync
  have hmem : sync ∈ e.sync_tasks := List.getElem?_mem hsync
  have hI := hi sync hmem
  have htopb := hb top (top_mem_max _ _ htop).1
  intro y hy
  rw [hq] at hy
  rw [hst]
  by_cases hpos : sync.sync_interval > 0
  · rw [if_pos hpos] at hy
    rcases mem_insert_max _ _ _ _ hy with h | ⟨h1, h2⟩
    · exact hb y (mem_pop _ _ h)
    · rw [h1]
      refine ⟨htopb.1, ?_⟩
      rcases h2 with h2 | ⟨x, hx, _, h2⟩
      · rw [h2, reinsert_priority_at _ _ hI]
        omega
      · rw [h2]
        exact (hb x (mem_pop _ _ hx)).2
  · rw [if_neg hpos] at hy
    exact hb y (mem_pop _ _ hy)


theorem dispatch_due_tracker {A : Type} (e : asynchronous_engine A) (top : Nat × Int)
    (sync : sync_task A) (hact : e.active = true)
    (hb : sync_queue_bounds (asynchronous_engine.dispatch_due e top sync)) :
    head_tracker_inv (asynchronous_engine.dispatch_due e top sync) := by
  have hex : ∃ e0 : asynchronous_engine A, e0.active = true ∧
      asynchronous_engine.dispatch_due e top sync
        = asynchronous_engine.update_head_tracker e0 :=
    ⟨{ e with
        sync_task_queue_head := top
        task_exec_queue := e.task_exec_queue ++ [top.1]
        sync_task_queue :=
          if sync.sync_interval > 0 then
            mutable_queue.insert_max (mutable_queue.pop e.sync_task_queue) top.1
              (int_neg (to_int ((e.approximate_last_update_count
                + sync.sync_interval) % SIZE_MOD)))
          else mutable_queue.pop e.sync_task_queue }, hact, rfl⟩
  obtain ⟨e0, hact0, he0⟩ := hex
  rw [he0] at hb ⊢
  have hq := (update_head_tracker_fields e0).2.2.2.2.1
  refine (update_head_tracker_inv e0 hact0 ?_).1
  intro x hx
  rw [← hq] at hx
  exact (hb x hx).2

theorem not_due_of_tracker {A : Type} (e : asynchronous_engine A) (cur : Nat)
    (hinv : head_tracker_inv e) (h : ¬ e.sync_task_queue_next_update ≤ cur) :
    ∀ x ∈ e.sync_task_queue, cur < next_due x := by
  intro x hx
  rcases hinv with ⟨h0, _⟩ | ⟨_, h1⟩
  · rw [h0] at hx; cases hx
  · have := h1 x hx
    omega

theorem evaluate_sync_queue_tracker {A : Type} (cur : Nat) :
    ∀ (fuel : Nat) (e e1 : asynchronous_engine A), e.active = true →
      (∀ st ∈ e.sync_tasks, e.approximate_last_update_count + st.sync_interval < 2 ^ 31) →
      sync_queue_bounds e → head_tracker_inv e →
      asynchronous_engine.evaluate_sync_queue fuel e 0 cur = some e1 →
      head_tracker_inv e1 ∧ sync_queue_bounds e1 ∧
      (∀ x ∈ e1.sync_task_queue, cur < next_due x) ∧
      e1.active = true ∧ e1.sync_tasks = e.sync_tasks ∧
      e1.apx_update_counts = e.apx_update_counts := by
  intro fuel
  induction fuel with
  | zero =>
    intro e e1 hact hi hb hinv hev
    simp only [asynchronous_engine.evaluate_sync_queue, ne_eq, not_true_eq_false,
      if_false] at hev
    by_cases hn : e.sync_task_queue_next_update ≤ cur
    · rw [if_pos hn] at hev; cases hev
    · rw [if_neg hn, Option.some.injEq] at hev
      subst hev
      exact ⟨hinv, hb, not_due_of_tracker e cur hinv hn, hact, rfl, rfl⟩
  | succ fuel ih =>
    intro e e1 hact hi hb hinv hev
    by_cases hn : e.sync_task_queue_next_update ≤ cur
    · cases ht : mutable_queue.top e.sync_task_queue with
      | none =>
        have he : asynchronous_engine.evaluate_sync_queue (fuel + 1) e 0 cur
            = some (asynchronous_engine.update_head_tracker e) := by
          simp only [asynchronous_engine.evaluate_sync_queue, ne_eq, not_true_eq_false,
            if_false, hn, ht]
        rw [he, Option.some.injEq] at hev
        subst hev
        obtain ⟨f1, f2, f3, _, f5, _⟩ := update_head_tracker_fields e
        have hq0 := top_eq_none _ ht
        refine ⟨(update_head_tracker_inv e hact (fun x hx => (hb x hx).2)).1, ?_, ?_,
          by rw [f3]; exact hact, f1, f2⟩
        · intro x hx; rw [f5] at hx; rw [f1]; exact hb x hx
        · intro x hx; rw [f5, hq0] at hx; cases hx
      | some top =>
        by_cases hdue : next_due top ≤ cur
        · cases hs : e.sync_tasks[top.1]? with
          | none =>
            have hdue1 : int_to_size_t (int_neg top.2) ≤ cur := hdue
            simp only [asynchronous_engine.evaluate_sync_queue, ne_eq, not_true_eq_false,
              if_false, hn, ht, hdue1, hs] at hev
            cases hev
          | some sync =>
            rw [evaluate_sync_queue_dispatch e fuel cur top sync hn ht hdue hs] at hev
            obtain ⟨f1, f2, f3, _, _, _⟩ := dispatch_due_fields e top sync
            have hb1 := dispatch_due_bounds e top sync hb hi ht hs
            have hinv1 := dispatch_due_tracker e top sync hact hb1
            obtain ⟨g1, g2, g3, g4, g5, g6⟩ := ih _ e1 (by rw [f3]; exact hact)
              (by rw [f1]; intro st hst
                  have := hi st hst
                  simp only [asynchronous_engine.approximate_last_update_count] at this ⊢
                  rw [f2]; exact this)
              hb1 hinv1 hev
            exact ⟨g1, g2, g3, g4, by rw [g5, f1], by rw [g6, f2]⟩
        · have hdue1 : ¬ int_to_size_t (int_neg top.2) ≤ cur := hdue
          have he : asynchronous_engine.evaluate_sync_queue (fuel + 1) e 0 cur
              = some (asynchronous_engine.update_head_tracker e) := by
            simp only [asynchronous_engine.evaluate_sync_queue, ne_eq, not_true_eq_false,
              if_false, hn, ht, hdue1, not_false_eq_true, if_true]
          rw [he, Option.some.injEq] at hev
          subst hev
          obtain ⟨f1, f2, f3, _, f5, _⟩ := update_head_tracker_fields e
          obtain ⟨u1, u2⟩ := update_head_tracker_inv e hact (fun x hx => (hb x hx).2)
          refine ⟨u1, ?_, ?_, by rw [f3]; exact hact, f1, f2⟩
          · intro x hx; rw [f5] at hx; rw [f1]; exact hb x hx
          · intro x hx
            rw [f5] at hx
            obtain ⟨hmem, hmax⟩ := top_mem_max _ _ ht
            have h1 := next_due_spec top (hb top hmem).2.1 (hb top hmem).2.2
            have h2 := next_due_spec x (hb x hx).2.1 (hb x hx).2.2
            have h3 := hmax x hx
            omega
    · have he : asynchronous_engine.evaluate_sync_queue (fuel + 1) e 0 cur = some e := by
        simp only [asynchronous_engine.evaluate_sync_queue, ne_eq, not_true_eq_false,
          if_false, hn, not_false_eq_true, if_true]
      rw [he, Option.some.injEq] at hev
      subst hev
      exact ⟨hinv, hb, not_due_of_tracker e cur hinv hn, hact, rfl, rfl⟩


theorem evaluate_sync_queue_returns {A : Type} (cur : Nat) :
    ∀ (D : Nat) (e : asynchronous_engine A),
      (∀ st ∈ e.sync_tasks, e.approximate_last_update_count + st.sync_interval < 2 ^ 31) →
      sync_queue_bounds e → cur ≤ e.approximate_last_update_count →
      e.sync_task_queue.countP (fun y => next_due y ≤ cur) = D →
      ∃ e1, asynchronous_engine.evaluate_sync_queue (D + 1) e 0 cur = some e1 := by
  intro D
  induction D with
  | zero =>
    intro e hi hb hcur hD
    by_cases hn : e.sync_task_queue_next_update ≤ cur
    · cases ht : mutable_queue.top e.sync_task_queue with
      | none =>
        exact ⟨asynchronous_engine.update_head_tracker e,
          by simp only [asynchronous_engine.evaluate_sync_queue, ne_eq,
            not_true_eq_false, if_false, hn, ht]⟩
      | some top =>
        by_cases hdue : next_due top ≤ cur
        · have := count_due_erase cur _ top (top_mem_max _ _ ht).1 hdue
          omega
        · have hdue1 : ¬ int_to_size_t (int_neg top.2) ≤ cur := hdue
          exact ⟨asynchronous_engine.update_head_tracker e,
            by simp only [asynchronous_engine.evaluate_sync_queue, ne_eq,
              not_true_eq_false, if_false, hn, ht, hdue1, not_false_eq_true, if_true]⟩
    · exact ⟨e, by simp only [asynchronous_engine.evaluate_sync_queue, ne_eq,
        not_true_eq_false, if_false, hn, not_false_eq_true, if_true]⟩
  | succ D ih =>
    intro e hi hb hcur hD
    by_cases hn : e.sync_task_queue_next_update ≤ cur
    · cases ht : mutable_queue.top e.sync_task_queue with
      | none =>
        exact ⟨asynchronous_engine.update_head_tracker e,
          by simp only [asynchronous_engine.evaluate_sync_queue, ne_eq,
            not_true_eq_false, if_false, hn, ht]⟩
      | some top =>
        by_cases hdue : next_due top ≤ cur
        · have hmem := (top_mem_max _ _ ht).1
          have hlt := (hb top hmem).1
          have hs : e.sync_tasks[top.1]? = some e.sync_tasks[top.1] :=
            List.getElem?_eq_getElem hlt
          generalize e.sync_tasks[top.1] = sync at hs
          rw [evaluate_sync_queue_dispatch e (D + 1) cur top sync hn ht hdue hs]
          obtain ⟨f1, f2, _, _, f5, _⟩ := dispatch_due_fields e top sync
          have hb1 := dispatch_due_bounds e top sync hb hi ht hs
          have hI := hi sync (List.getElem?_mem hs)
          have hpop : mutable_queue.pop e.sync_task_queue = e.sync_task_queue.erase top := by
            unfold mutable_queue.pop; rw [ht]
          have hcnt := count_due_erase cur _ top hmem hdue
          apply ih
          · rw [f1]; intro st hst
            have := hi st hst
            simp only [asynchronous_engine.approximate_last_update_count] at this ⊢
            rw [f2]; exact this
          · exact hb1
          · simp only [asynchronous_engine.approximate_last_update_count] at hcur ⊢
            rw [f2]; exact hcur
          · rw [f5]
            by_cases hpos : sync.sync_interval > 0
            · rw [if_pos hpos, count_due_insert_max cur _ _ _
                (fun x hx => (hb x (mem_pop _ _ hx)).2)
                (by rw [reinsert_priority_at _ _ hI]; omega)
                (by rw [reinsert_priority_at _ _ hI]; omega), hpop]
              omega
            · rw [if_neg hpos, hpop]
              omega
        · have hdue1 : ¬ int_to_size_t (int_neg top.2) ≤ cur := hdue
          exact ⟨asynchronous_engine.update_head_tracker e,
            by simp only [asynchronous_engine.evaluate_sync_queue, ne_eq,
              not_true_eq_false, if_false, hn, ht, hdue1, not_false_eq_true, if_true]⟩
    · exact ⟨e, by simp only [asynchronous_engine.evaluate_sync_queue, ne_eq,
        not_true_eq_false, if_false, hn, not_false_eq_true, if_true]⟩

theorem construct_sync_queue_tracker {A : Type} (e : asynchronous_engine A) :
    head_tracker_inv (asynchronous_engine.construct_sync_queue e) ∧
    sync_queue_bounds (asynchronous_engine.construct_sync_queue e) := by
  have hq : (asynchronous_engine.construct_sync_queue e).sync_task_queue
      = (List.range e.sync_tasks.length).map (fun i => (i, (0 : Int))) := by
    simp only [asynchronous_engine.construct_sync_queue, foldl_push, List.nil_append]
  have hn : (asynchronous_engine.construct_sync_queue e).sync_task_queue_next_update
      = if e.sync_tasks.length > 0 then 0 else SIZE_NEG1 := by
    simp only [asynchronous_engine.construct_sync_queue, foldl_push, List.nil_append,
      List.length_map, List.length_range]
  have hst : (asynchronous_engine.construct_sync_queue e).sync_tasks = e.sync_tasks := rfl
  have hd0 : ∀ i : Nat, next_due (i, (0 : Int)) = 0 := by
    intro i
    have h31 : -(2 ^ 31 : Int) < 0 := by decide
    have := next_due_spec (i, (0 : Int)) h31 (le_refl _)
    simp only [neg_zero] at this
    omega
  constructor
  · by_cases h0 : e.sync_tasks.length > 0
    · right
      rw [hq, hn, if_pos h0]
      refine ⟨⟨(0, 0), ?_, (hd0 0).symm⟩, fun y _ => Nat.zero_le _⟩
      simp only [List.mem_map, List.mem_range]
      exact ⟨0, h0, rfl⟩
    · left
      rw [hq, hn, if_neg h0]
      have : e.sync_tasks.length = 0 := by omega
      rw [this]
      exact ⟨rfl, rfl⟩
  · intro x hx
    rw [hq] at hx
    simp only [List.mem_map, List.mem_range] at hx
    obtain ⟨i, hi, rfl⟩ := hx
    rw [hst]
    have h31 : -(2 ^ 31 : Int) < 0 := by decide
    exact ⟨hi, h31, le_refl _⟩


/-- C27: the head tracker of the sync queue. `construct_sync_queue` leaves
`sync_task_queue_next_update` at the smallest next-due update count among the
entries of the sync queue, or at `size_t(-1)` when the queue is empty. A call of
`evaluate_sync_queue` by worker 0 on an active engine, with the update count the
engine passes (at most `approximate_last_update_count()`), returns after at most
one trip through its loop for each entry of the queue; when it returns the
tracker again holds the smallest next-due update count, or `size_t(-1)`, and no
entry left in the queue is due at the update count given. A call by another
worker changes nothing. Update counts and intervals stay within the range of
`int`, in which the priorities of the queue are kept. -/
theorem sync_head_tracker_names_smallest_due {A : Type} (e : asynchronous_engine A)
    (cur : Nat) (hact : e.active = true)
    (hi : ∀ st ∈ e.sync_tasks, e.approximate_last_update_count + st.sync_interval < 2 ^ 31)
    (hb : sync_queue_bounds e) (hinv : head_tracker_inv e)
    (hcur : cur ≤ e.approximate_last_update_count) :
    (∀ e0 : asynchronous_engine A,
      head_tracker_inv (asynchronous_engine.construct_sync_queue e0) ∧
      sync_queue_bounds (asynchronous_engine.construct_sync_queue e0)) ∧
    (∃ fuel e1, fuel ≤ e.sync_task_queue.length + 1 ∧
      asynchronous_engine.evaluate_sync_queue fuel e 0 cur = some e1) ∧
    (∀ fuel e1, asynchronous_engine.evaluate_sync_queue fuel e 0 cur = some e1 →
      head_tracker_inv e1 ∧ sync_queue_bounds e1 ∧
      (∀ x ∈ e1.sync_task_queue, cur < next_due x) ∧
      e1.active = true ∧ e1.sync_tasks = e.sync_tasks ∧
      e1.apx_update_counts = e.apx_update_counts) ∧
    (∀ fuel cpuid, cpuid ≠ 0 →
      asynchronous_engine.evaluate_sync_queue fuel e cpuid cur = some e) := by
  refine ⟨construct_sync_queue_tracker, ?_, ?_, ?_⟩
  · obtain ⟨e1, he1⟩ := evaluate_sync_queue_returns cur _ e hi hb hcur rfl
    exact ⟨_, e1, Nat.add_le_add_right (List.countP_le_length _) 1, he1⟩
  · intro fuel e1 hev
    exact evaluate_sync_queue_tracker cur fuel e e1 hact hi hb hinv hev
  · intro fuel cpuid hc
    cases fuel <;> simp [asynchronous_engine.evaluate_sync_queue, hc]

/-- An instance of `sync_head_tracker_names_smallest_due`: the engine whose one
sync, of interval 100, was due at update count 100 is evaluated by worker 0 at
update count 128; the sync is dispatched and put back for update count 228, where
the tracker then stands. -/
theorem sync_head_tracker_names_smallest_due_witness :
    ∃ e1, asynchronous_engine.evaluate_sync_queue 2 late_sync_engine 0 128 = some e1 ∧
      head_tracker_inv e1 ∧ e1.sync_task_queue = [(0, -228)] ∧
      e1.sync_task_queue_next_update = 228 ∧
      asynchronous_engine.evaluate_sync_queue 2 late_sync_engine 1 128
        = some late_sync_engine := by
  have hrun : (asynchronous_engine.evaluate_sync_queue 2 late_sync_engine 0 128).map
      (fun e1 => (e1.sync_task_queue, e1.sync_task_queue_next_update))
      = some ([(0, -228)], 228) := by decide
  have hall : late_sync_engine.sync_tasks.all
      (fun st => decide (late_sync_engine.approximate_last_update_count
        + st.sync_interval < 2 ^ 31)) = true := by decide
  have hq : late_sync_engine.sync_task_queue = [(0, -100)] := rfl
  have hthm := sync_head_tracker_names_smallest_due late_sync_engine 128 rfl
    (fun st hst => by simpa using List.all_eq_true.mp hall st hst)
    (fun x hx => by
      rw [hq, List.mem_singleton] at hx
      subst hx
      exact ⟨by decide, by decide, by decide⟩)
    (Or.inr ⟨⟨(0, -100), by rw [hq]; exact List.mem_singleton.mpr rfl, by decide⟩,
      fun y hy => by
        rw [hq, List.mem_singleton] at hy
        subst hy
        decide⟩)
    (by decide)
  cases hev : asynchronous_engine.evaluate_sync_queue 2 late_sync_engine 0 128 with
  | none => rw [hev] at hrun; cases hrun
  | some e1 =>
    rw [hev] at hrun
    simp only [Option.map_some', Option.some.injEq, Prod.mk.injEq] at hrun
    exact ⟨e1, rfl, (hthm.2.2.1 2 e1 hev).1, hrun.1, hrun.2, hthm.2.2.2 2 1 (by decide)⟩

/-! ### Mutual exclusion of scopes -/

theorem conflict_comm (neighbors : Nat → List Nat) (a b : scope) :
    conflict neighbors a b = conflict neighbors b a := by
  unfold conflict
  rw [Bool.eq_iff_iff]
  simp only [List.any_eq_true, decide_eq_true_eq]
  constructor
  · rintro ⟨x, hx, y, hy, h1, h2⟩
    exact ⟨y, hy, x, hx, h1.symm, h2.symm⟩
  · rintro ⟨x, hx, y, hy, h1, h2⟩
    exact ⟨y, hy, x, hx, h1.symm, h2.symm⟩

theorem conflict_same_vertex (neighbors : Nat → List Nat) (a b : scope)
    (hv : a.vertex = b.vertex) (ha : a.consistency ≠ .NULL) (hb : b.consistency ≠ .NULL) :
    conflict neighbors a b = true := by
  have hla : (a.vertex, true) ∈ locked neighbors a := by
    unfold locked
    cases hc : a.consistency <;> simp_all
  have hlb : (b.vertex, true) ∈ locked neighbors b := by
    unfold locked
    cases hc : b.consistency <;> simp_all
  unfold conflict
  simp only [List.any_eq_true, decide_eq_true_eq]
  exact ⟨_, hla, _, hlb, hv, Or.inl rfl⟩

theorem run_scope_events_pairwise (neighbors : Nat → List Nat) :
    ∀ (events : List scope_event) (active : List scope),
      active.Pairwise (fun a b => conflict neighbors a b = false) →
      (run_scope_events neighbors events active).Pairwise
        (fun a b => conflict neighbors a b = false) := by
  intro events
  induction events with
  | nil => intro active h; exact h
  | cons ev rest ih =>
    intro active h
    cases ev with
    | get w v c =>
      simp only [run_scope_events, get_scope]
      by_cases hc : active.any (fun b => conflict neighbors ⟨w, v, c⟩ b) = true
      · simp only [hc, if_true]
        exact ih active h
      · simp only [hc, Bool.false_eq_true, if_false]
        apply ih
        refine List.Pairwise.cons ?_ h
        intro b hb
        simp only [List.any_eq_true, not_exists, not_and, Bool.not_eq_true] at hc
        exact hc b hb
    | release s =>
      simp only [run_scope_events, release_scope]
      exact ih _ (List.Pairwise.sublist (List.erase_sublist _ _) h)

theorem scope_counter_le_one (neighbors : Nat → List Nat) (v : Nat) :
    ∀ (active : List scope), active.Pairwise (fun a b => conflict neighbors a b = false) →
      scope_counter active v ≤ 1 := by
  intro active
  induction active with
  | nil => intro _; simp [scope_counter]
  | cons s m ih =>
    intro h
    obtain ⟨h1, h2⟩ := List.pairwise_cons.mp h
    have hm := ih h2
    unfold scope_counter at hm ⊢
    rw [List.countP_cons]
    by_cases hs : s.vertex = v ∧ s.consistency ≠ .NULL
    · have h0 : m.countP (fun s => s.vertex = v ∧ s.consistency ≠ .NULL) = 0 := by
        rw [List.countP_eq_zero]
        intro b hb hpb
        simp only [decide_eq_true_eq] at hpb
        have := conflict_same_vertex neighbors s b (by rw [hs.1, hpb.1]) hs.2 hpb.2
        rw [h1 b hb] at this
        cases this
      rw [h0]
      simp [hs]
    · simp only [hs, decide_False, Bool.false_eq_true, if_false, Nat.add_zero]
      exact hm

theorem get_scope_granted (neighbors : Nat → List Nat) (active : List scope)
    (w v : Nat) (c : consistency_level)
    (h : ∀ b ∈ active, conflict neighbors ⟨w, v, c⟩ b = false) :
    get_scope neighbors active w v c = some (⟨w, v, c⟩ :: active, ⟨w, v, c⟩) := by
  unfold get_scope
  have : ¬ (active.any (fun b => conflict neighbors ⟨w, v, c⟩ b) = true) := by
    simp only [List.any_eq_true, not_exists, not_and, Bool.not_eq_true]
    exact h
  rw [if_neg this]

theorem scope_run_example :
    run_scope_events chain_neighbors
      [.get 0 0 .EDGE, .get 1 1 .EDGE, .get 1 2 .EDGE, .get 2 3 .VERTEX,
        .release ⟨0, 0, .EDGE⟩, .get 2 0 .FULL, .get 2 0 .VERTEX, .get 3 0 .NULL] []
      = [⟨3, 0, .NULL⟩, ⟨2, 0, .VERTEX⟩, ⟨1, 2, .EDGE⟩] := by decide

/-- C24: mutual exclusion of scopes. In every concurrent execution of
`get_scope` and `release_scope` calls on a new scope manager, no two scopes
active at the same time conflict: the vertex sets they lock do not intersect with
write access on either side. In particular two scopes held under VERTEX, EDGE or
FULL consistency are never held on the same vertex: the counter of the scopes
held on a vertex never exceeds 1. -/
theorem scopes_mutually_exclusive (neighbors : Nat → List Nat) (events : List scope_event) :
    (run_scope_events neighbors events []).Pairwise
      (fun a b => conflict neighbors a b = false ∧ conflict neighbors b a = false) ∧
    ∀ v, scope_counter (run_scope_events neighbors events []) v ≤ 1 := by
  have h := run_scope_events_pairwise neighbors events [] List.Pairwise.nil
  refine ⟨?_, fun v => scope_counter_le_one neighbors v _ h⟩
  refine List.Pairwise.imp ?_ h
  intro a b hab
  exact ⟨hab, by rw [conflict_comm]; exact hab⟩

end graphlab
